import Mathlib

/-!
# librtmfp : datagram codec, address encoding and flow reassembly

Shallow embedding of `sources/RTMFP.cpp` and `sources/RTMFPFlow.cpp`.
Bytes are natural numbers below 256 held in lists, machine integers are
natural numbers reduced modulo `2^w` where the C++ type wraps.
-/

namespace Base

/-- Byte buffer (`Buffer`, `Packet`, raw `UInt8*` ranges): the bytes in order. -/
abbrev Bytes := List Nat

/-- Every element of the buffer is a `UInt8`. -/
def Bytes.valid (b : Bytes) : Prop := ∀ x ∈ b, x < 256

instance (b : Bytes) : Decidable (Bytes.valid b) := by
  unfold Bytes.valid; exact inferInstance

/-- Modelled from the spec: the bodies of `BinaryReader::read16` / `read32` are
not among the sources; the wire is strictly big-endian, so a run of bytes
stands for its big-endian value (network order, `Byte::ORDER_NETWORK`). -/
def beValue : Bytes → Nat
  | [] => 0
  | b :: rest => b * 256 ^ rest.length + beValue rest

/-- Modelled from the spec: `BinaryWriter::write16` (`BinaryWriter` is not among
the sources) emits the two bytes of its argument in network order. -/
def be16 (v : Nat) : Bytes := [v / 256 % 256, v % 256]

/-- Modelled from the spec: `BinaryWriter::write32` (`BinaryWriter` is not among
the sources) emits the four bytes of its argument in network order. -/
def be32 (v : Nat) : Bytes :=
  [v / 16777216 % 256, v / 65536 % 256, v / 256 % 256, v % 256]

/-- In-place write of `src` at offset `off` of a fixed memory range: the
range keeps its size, bytes that would fall behind its end are not written. -/
def overwrite (buf : Bytes) (off : Nat) (src : Bytes) : Bytes :=
  buf.take off ++ src.take (buf.length - off) ++ buf.drop (off + src.length)

/-- `BinaryReader`: a read cursor `pos` over the bytes `data`. -/
structure BinaryReader where
  data : Bytes
  pos : Nat
deriving DecidableEq, Repr

namespace BinaryReader

/-- `available()`: bytes between the cursor and the end. -/
def available (r : BinaryReader) : Nat := r.data.length - r.pos

/-- `current()`: the bytes from the cursor on. -/
def current (r : BinaryReader) : Bytes := r.data.drop r.pos

/-- `reset(position)`: `_current = _data + (position > _size ? _size : position)`. -/
def reset (r : BinaryReader) (position : Nat) : BinaryReader :=
  { r with pos := if position > r.data.length then r.data.length else position }

/-- Modelled from the spec: `next(count)` is declared in `BinaryReader.h`, its
body is not among the sources; the cursor moves forward and stops at the end. -/
def next (r : BinaryReader) (count : Nat) : BinaryReader :=
  { r with pos := if count > r.available then r.data.length else r.pos + count }

/-- Modelled from the spec: `read(size, buffer)` is declared in
`BinaryReader.h`, its body is not among the sources; it yields the next `size`
bytes, zero where the data runs out (as `read8` yields 0 at the end), and the
cursor moves over the bytes that were there. -/
def read (r : BinaryReader) (size : Nat) : Bytes × BinaryReader :=
  ((r.current.take size) ++ List.replicate (size - r.available) 0, r.next size)

/-- `read8()`: `_current==_end ? 0 : *_current++`. -/
def read8 (r : BinaryReader) : Nat × BinaryReader :=
  match r.current with
  | [] => (0, r)
  | b :: _ => (b, { r with pos := r.pos + 1 })

/-- `read16()`: two bytes through `read`, in network order. -/
def read16 (r : BinaryReader) : Nat × BinaryReader :=
  (beValue (r.read 2).1, (r.read 2).2)

/-- `read32()`: four bytes through `read`, in network order. -/
def read32 (r : BinaryReader) : Nat × BinaryReader :=
  (beValue (r.read 4).1, (r.read 4).2)

end BinaryReader

end Base

open Base

namespace RTMFP

/-- `RTMFP::Unpack`: the reader is reset, three 32-bit words are read and
XORed, the reader is left at offset 4. -/
def Unpack (reader : BinaryReader) : Nat × BinaryReader :=
  let r0 := reader.reset 0
  let id := 0
  let w0 := r0.read32
  let id := id ^^^ w0.1
  let w1 := w0.2.read32
  let id := id ^^^ w1.1
  let w2 := w1.2.read32
  let id := id ^^^ w2.1
  (id, w2.2.reset 4)

/-- `RTMFP::Pack`: a reader over `buffer.data()+4` gives the two words that
follow the first one; their XOR with `farId` is written over bytes 0 to 3. -/
def Pack (buffer : Bytes) (farId : Nat) : Bytes :=
  let reader : BinaryReader := ⟨buffer.drop 4, 0⟩
  let a := reader.read32
  let b := a.2.read32
  overwrite buffer 0 (be32 ((a.1 ^^^ b.1 ^^^ farId) % 4294967296))

end RTMFP

namespace Base

namespace Crypto

/-- Sum of the big-endian 16-bit words of a byte run, a trailing single byte
being added as it is. -/
def wordSum : Bytes → Nat
  | [] => 0
  | [b] => b
  | a :: b :: rest => (a * 256 + b) + wordSum rest

/-- Modelled from the spec: `Crypto::ComputeChecksum` (its body is not among the
sources). The checksum is the sum of 16-bit words with carry, one's
complement, truncated to 16 bits, taken over the bytes from the cursor of the
reader to its end; the cursor is put back where it was. -/
def ComputeChecksum (reader : BinaryReader) : Nat :=
  let sum := wordSum reader.current
  let sum := sum / 65536 + sum % 65536
  let sum := sum + sum / 65536
  65535 - sum % 65536

/-- `Crypto::SHA256_SIZE`. -/
def SHA256_SIZE : Nat := 32

end Crypto

/-- The two cipher calls `EVP_CipherInit_ex` / `EVP_CipherUpdate` of the
engine, with AES-128-CBC and the fixed zero IV, made in place on a byte range:
OpenSSL is outside the sources, so each call is a function of the key and of
the bytes of the range that gives the bytes the range holds after the call, as
many as before. Nothing is assumed on how the two calls relate. -/
structure AES128CBC where
  encrypt : Bytes → Bytes → Bytes
  decrypt : Bytes → Bytes → Bytes
  encrypt_length : ∀ key data, (encrypt key data).length = data.length
  decrypt_length : ∀ key data, (decrypt key data).length = data.length

/-- Exception kinds raised by the codec. -/
inductive Ex where
  | Protocol
deriving DecidableEq, Repr

/-- Address family of an `IPAddress`. -/
inductive Family where
  | IPv4
  | IPv6
deriving DecidableEq, Repr

/-- `IPAddress`: family, the bytes of the `in_addr` / `in6_addr` structure and
the IPv6 scope identifier (0 for IPv4). -/
structure IPAddress where
  family : Family
  data : Bytes
  scope : Nat
deriving DecidableEq, Repr

/-- Modelled from the spec: `IPAddress::size()` is declared in `IPAddress.h`,
its body is not among the sources; the address encoding has 4 address bytes
for IPv4 and 16 for IPv6 (`sizeof(in_addr)`, `sizeof(in6_addr)`). -/
def IPAddress.size (a : IPAddress) : Nat :=
  match a.family with
  | Family.IPv4 => 4
  | Family.IPv6 => 16

/-- `SocketAddress` (its header is not among the sources; `RTMFP.cpp` uses its
`host()`, `port()` and `set`): host and port. -/
structure SocketAddress where
  host : IPAddress
  port : Nat
deriving DecidableEq, Repr

/-- Well formed socket address: the address structure has the size of its
family and holds bytes, the port is a `UInt16`, an IPv4 address has scope 0. -/
def SocketAddress.wf (a : SocketAddress) : Prop :=
  a.host.data.length = a.host.size ∧ Bytes.valid a.host.data ∧ a.port < 65536 ∧
    (a.host.family = Family.IPv4 → a.host.scope = 0)

instance (a : SocketAddress) : Decidable (SocketAddress.wf a) := by
  unfold SocketAddress.wf; exact inferInstance

/-- `SocketAddress::set(const in_addr&, UInt16 port)`. -/
def SocketAddress.setIPv4 (addr : Bytes) (port : Nat) : SocketAddress :=
  ⟨⟨Family.IPv4, addr, 0⟩, port⟩

/-- `SocketAddress::set(const in6_addr&, UInt16 port)`: the scope identifier
takes its default value 0. -/
def SocketAddress.setIPv6 (addr : Bytes) (port : Nat) : SocketAddress :=
  ⟨⟨Family.IPv6, addr, 0⟩, port⟩

end Base

namespace RTMFP

/-- `RTMFP::SIZE_PACKET`, the 1192 of the oversize warning. -/
def SIZE_PACKET : Nat := 1192

/-- `RTMFP::MESSAGE_WITH_BEFOREPART`. -/
def MESSAGE_WITH_BEFOREPART : Nat := 0x20
/-- `RTMFP::MESSAGE_WITH_AFTERPART`. -/
def MESSAGE_WITH_AFTERPART : Nat := 0x10
/-- `RTMFP::MESSAGE_ABANDON`. -/
def MESSAGE_ABANDON : Nat := 0x02
/-- `RTMFP::MESSAGE_END`. -/
def MESSAGE_END : Nat := 0x01

/-- `RTMFP::AddressType`, as the integer it is cast from and to. -/
abbrev AddressType := Nat
/-- `ADDRESS_UNSPECIFIED`. -/
def ADDRESS_UNSPECIFIED : AddressType := 0
/-- `ADDRESS_LOCAL`. -/
def ADDRESS_LOCAL : AddressType := 1
/-- `ADDRESS_PUBLIC`. -/
def ADDRESS_PUBLIC : AddressType := 2
/-- `ADDRESS_REDIRECTION`. -/
def ADDRESS_REDIRECTION : AddressType := 3

/-- `ReadAddr<AddrType>`: `size` stands for `sizeof(addr)`. The address is
zeroed when fewer than `size + 2` bytes are available, copied from the cursor
otherwise; the cursor moves over `size` bytes in both cases. -/
def ReadAddr (reader : BinaryReader) (size : Nat) : Bytes × BinaryReader :=
  if reader.available < size + 2 then (List.replicate size 0, reader.next size)
  else (reader.current.take size, reader.next size)

/-- `RTMFP::ReadAddress`. The conversion of a `SocketAddress` to `bool`
(declared outside the sources) is the parameter `toBool`. Returns the address
type, the address read and the reader after the call. -/
def ReadAddress (toBool : SocketAddress → Bool) (reader : BinaryReader) :
    AddressType × SocketAddress × BinaryReader :=
  let t := reader.read8
  if t.1 &&& 0x80 ≠ 0 then
    let addr := ReadAddr t.2 16
    let port := addr.2.read16
    let address := SocketAddress.setIPv6 addr.1 port.1
    (if toBool address then t.1 &&& 0x7F else ADDRESS_UNSPECIFIED, address, port.2)
  else
    let addr := ReadAddr t.2 4
    let port := addr.2.read16
    let address := SocketAddress.setIPv4 addr.1 port.1
    (if toBool address then t.1 &&& 0x7F else ADDRESS_UNSPECIFIED, address, port.2)

/-- `RTMFP::WriteAddress`: the bytes appended to the writer. -/
def WriteAddress (writer : Bytes) (address : SocketAddress) (type : AddressType) : Bytes :=
  let host := address.host
  let writer :=
    if host.family = Family.IPv6 then writer ++ [(type ||| 0x80) % 256]
    else writer ++ [type % 256]
  let size := host.size
  let writer := writer ++ (List.range size).map (fun i => host.data.getD i 0 % 256)
  writer ++ be16 address.port

/-- `RTMFP::Engine`: the 16-byte key of one direction. -/
structure Engine where
  _key : Bytes
deriving DecidableEq, Repr

/-- `RTMFP::Engine::decode`: the in-place `EVP_CipherUpdate` over the whole
buffer, `aes.decrypt` giving the bytes that the call leaves there, then the
CRC check; the result is the return value, the exception set (if any) and the
buffer after the call. -/
def Engine.decode (aes : AES128CBC) (e : Engine) (buffer : Bytes) :
    Bool × Option Ex × Bytes :=
  let buffer := overwrite buffer 0 (aes.decrypt e._key buffer)
  let reader : BinaryReader := ⟨buffer, 0⟩
  let crc := reader.read16
  if Crypto.ComputeChecksum crc.2 ≠ crc.1 then (false, some Ex.Protocol, buffer)
  else (true, none, buffer.drop 2)

/-- Padding length of `Engine::encode`: `(0xFFFFFFFF - size + 5) & 0x0F` in
32-bit unsigned arithmetic. -/
def paddingBytesLength (size : Nat) : Nat :=
  ((4294967295 + 4294967296 - size % 4294967296 + 5) % 4294967296) % 16

/-- Plain request of `Engine::encode` just before encryption: the buffer
padded with `0xFF` and the CRC of bytes `[6..end)` written at bytes `[4..6)`. -/
def Engine.plain (pBuffer : Bytes) : Bytes :=
  let size := pBuffer.length
  let temp := paddingBytesLength size
  let data := pBuffer ++ List.replicate temp 0xFF
  let reader := (⟨data, 0⟩ : BinaryReader).next 6
  overwrite data 4 (be16 (Crypto.ComputeChecksum reader))

/-- `RTMFP::Engine::encode`: padding, CRC, in-place encryption of bytes
`[4..end)`, then the packed far id over bytes `[0..4)`. -/
def Engine.encode (aes : AES128CBC) (e : Engine) (pBuffer : Bytes) (farId : Nat) : Bytes :=
  let data := Engine.plain pBuffer
  let data := data.take 4 ++ overwrite (data.drop 4) 0 (aes.encrypt e._key (data.drop 4))
  let reader := (⟨data, 0⟩ : BinaryReader).reset 4
  let a := reader.read32
  let b := a.2.read32
  overwrite data 0 (be32 ((a.1 ^^^ b.1 ^^^ farId) % 4294967296))

/-- `RTMFP::ComputeAsymetricKeys`, with `Crypto::HMAC::SHA256(key, data)` as
the parameter `H`; the second round reads `SHA256_SIZE` bytes of each key
buffer. Returns `(requestKey, responseKey)`. -/
def ComputeAsymetricKeys (H : Bytes → Bytes → Bytes)
    (sharedSecret initiatorNonce responderNonce : Bytes) : Bytes × Bytes :=
  let requestKey := H responderNonce initiatorNonce
  let responseKey := H initiatorNonce responderNonce
  let requestKey := H sharedSecret (requestKey.take Crypto.SHA256_SIZE)
  let responseKey := H sharedSecret (responseKey.take Crypto.SHA256_SIZE)
  (requestKey, responseKey)

end RTMFP

/-- A length preserving involution on byte strings (order reversal) that
satisfies the laws of `AES128CBC`; it stands in for the cipher calls where a
statement is evaluated on concrete bytes. -/
def reversalCipher : AES128CBC where
  encrypt := fun _ data => data.reverse
  decrypt := fun _ data => data.reverse
  encrypt_length := by intro _ data; simp
  decrypt_length := by intro _ data; simp

/-- What one `EVP_CipherUpdate` of OpenSSL (outside the sources) leaves in the
byte range it works on in place, for a context prepared by `EVP_CipherInit_ex`
alone as in `Engine`, where padding stays enabled: the call handles whole
16-byte blocks, and when it decrypts a whole number of blocks it holds the
last one back for `EVP_CipherFinal_ex`. `Engine` never calls
`EVP_CipherFinal_ex` and does not read the count `temp` of the bytes written,
so the bytes not handled stay as they were. `aes` is the cipher on the blocks
handled, `enc` the direction given to `EVP_CipherInit_ex`. -/
def EVP_CipherUpdate (aes : AES128CBC) (enc : Bool) (key data : Bytes) : Bytes :=
  let whole := data.length / 16 * 16
  let held := if enc = false ∧ data.length % 16 = 0 ∧ 0 < whole then 16 else 0
  (if enc then aes.encrypt key (data.take (whole - held))
    else aes.decrypt key (data.take (whole - held))) ++ data.drop (whole - held)

/-- One entry of the reorder buffer `_fragments` (`RTMFPFragment`): the flags,
the payload and the last-fragment mark of a stage that waits. -/
structure Fragment where
  flags : Nat
  packet : Bytes
  lastFragment : Bool
deriving DecidableEq, Repr

/-- One call of `RTMFPFlow::output`: the value of `_lost` handed over, the
packet and the last-fragment mark. -/
structure Output where
  lost : Nat
  packet : Bytes
  lastFragment : Bool
deriving DecidableEq, Repr

/-- State of a `RTMFPFlow`. `_fragments` is the `std::map` as the list of its
entries in ascending key order, `_pBuffer` the reassembly buffer (`none` when
the pointer is null). `delivered` and `outputs` are histories kept for the
statements: the stages passed to `onFragment` and the calls of `output`, in
call order. -/
structure RTMFPFlow where
  _stage : Nat
  _stageEnd : Nat
  _fragments : List (Nat × Fragment)
  _pBuffer : Option Bytes
  _lost : Nat
  fragmentation : Nat
  delivered : List Nat
  outputs : List Output
deriving DecidableEq, Repr

namespace RTMFPFlow

/-- The constructors: `_lost(0)`, `_stage(0)`, `_stageEnd(0)`, `fragmentation(0)`,
no fragment, no reassembly buffer. -/
def fresh : RTMFPFlow :=
  { _stage := 0, _stageEnd := 0, _fragments := [], _pBuffer := none, _lost := 0,
    fragmentation := 0, delivered := [], outputs := [] }

/-- `UInt64 nextStage = _stage + 1`. -/
def nextStage (s : RTMFPFlow) : Nat := (s._stage + 1) % 18446744073709551616

/-- `RTMFPFlow::output`: the packet goes to the stream (`_pStream->process`),
which is outside the flow; the call is recorded. -/
def output (s : RTMFPFlow) (packet : Bytes) (lastFragment : Bool) : RTMFPFlow :=
  { s with outputs := s.outputs ++ [⟨s._lost, packet, lastFragment⟩] }

/-- `RTMFPFlow::onFragment`. `Packet packet(_pBuffer)` takes the reassembly
buffer over, which leaves `_pBuffer` null; a `Packet` converts to `true` when it
holds at least one byte. -/
def onFragment (s : RTMFPFlow) (stage flags : Nat) (packet : Bytes) (lastFragment : Bool) :
    RTMFPFlow :=
  let s := { s with _stage := stage, delivered := s.delivered ++ [stage] }
  match s._pBuffer with
  | some buf =>
    if flags &&& RTMFP.MESSAGE_WITH_AFTERPART ≠ 0 then
      { s with _pBuffer := some (buf ++ packet) }
    else if buf ++ packet ≠ [] then
      output { s with _pBuffer := none } (buf ++ packet) lastFragment
    else { s with _pBuffer := none }
  | none =>
    if flags &&& RTMFP.MESSAGE_WITH_BEFOREPART ≠ 0 then
      { s with _lost := (s._lost + packet.length) % 4294967296 }
    else if flags &&& RTMFP.MESSAGE_WITH_AFTERPART ≠ 0 then
      { s with _pBuffer := some packet }
    else if packet ≠ [] then output s packet lastFragment
    else s

/-- `_fragments.emplace(stage, fragment)`: ordered insertion that leaves the
map as it is when the key is present; the flag tells whether it inserted. -/
def emplace : List (Nat × Fragment) → Nat → Fragment → List (Nat × Fragment) × Bool
  | [], k, f => ([(k, f)], true)
  | (k0, f0) :: rest, k, f =>
    if k < k0 then ((k, f) :: (k0, f0) :: rest, true)
    else if k = k0 then ((k0, f0) :: rest, false)
    else ((k0, f0) :: (emplace rest k f).1, (emplace rest k f).2)

/-- The delivery loop that closes `input`:
`while (it != end && it->first <= nextStage) { onFragment(nextStage++, ...);
fragmentation -= size; it = erase(it); }`, by recursion on the entries left.
Returns the state after the loop. -/
def drain : List (Nat × Fragment) → RTMFPFlow → Nat → RTMFPFlow
  | [], s, _ => { s with _fragments := [] }
  | (k, f) :: rest, s, nextStage =>
    if k ≤ nextStage then
      let s := onFragment s nextStage f.flags f.packet f.lastFragment
      let s := { s with
        fragmentation := (s.fragmentation + 4294967296 - f.packet.length % 4294967296)
          % 4294967296,
        _fragments := rest }
      drain rest s ((nextStage + 1) % 18446744073709551616)
    else { s with _fragments := (k, f) :: rest }

/-- End of `input`: `if (_fragments.empty() && _stageEnd) output(id, _lost,
Packet::Null(), true)`. -/
def finish (s : RTMFPFlow) : RTMFPFlow :=
  if s._fragments = [] ∧ s._stageEnd ≠ 0 then output s [] true else s

/-- The `MESSAGE_ABANDON` block of `input`, up to `_stage = stage`. -/
def abandon (s : RTMFPFlow) (stage flags : Nat) : RTMFPFlow :=
  let lost := ((stage + 18446744073709551616 - nextStage s) % 18446744073709551616
    * RTMFP.SIZE_PACKET) % 4294967296
  let lost := if flags &&& RTMFP.MESSAGE_END = 0 then
    (lost + RTMFP.SIZE_PACKET / 2) % 4294967296 else lost
  let next := (stage + 1) % 18446744073709551616
  let obsolete := s._fragments.takeWhile (fun e => decide (e.1 < next))
  let sizes := (obsolete.map (fun e => e.2.packet.length)).sum
  let lost := (lost + sizes) % 4294967296
  let fragmentation := (s.fragmentation + 4294967296 - sizes % 4294967296) % 4294967296
  let fragments := s._fragments.dropWhile (fun e => decide (e.1 < next))
  let lost := match s._pBuffer with
    | some buf => (lost + buf.length) % 4294967296
    | none => lost
  { s with
    _fragments := fragments,
    fragmentation := fragmentation,
    _pBuffer := none,
    _lost := if lost ≠ 0 then (s._lost + lost) % 4294967296 else s._lost,
    _stage := stage }

/-- Second part of `RTMFPFlow::input`, from `UInt64 nextStage = _stage + 1` on:
a stage below `nextStage` is dropped, an abandon skips to its stage, a stage
above `nextStage` is buffered, the stage `nextStage` is delivered; the
delivery loop and the end-of-flow test close the two paths that deliver. -/
def dispatch (s : RTMFPFlow) (stage flags : Nat) (packet : Bytes) (lastFragment : Bool) :
    RTMFPFlow :=
  if stage < nextStage s then s
  else if flags &&& RTMFP.MESSAGE_ABANDON ≠ 0 then
    let s := abandon s stage flags
    finish (drain s._fragments s ((stage + 1) % 18446744073709551616))
  else if stage > nextStage s then
    let r := emplace s._fragments stage ⟨flags, packet, lastFragment⟩
    if r.2 then
      { s with _fragments := r.1,
               fragmentation := (s.fragmentation + packet.length) % 4294967296 }
    else s
  else
    let next := nextStage s
    let s := onFragment s next flags packet lastFragment
    finish (drain s._fragments s ((next + 1) % 18446744073709551616))

/-- `RTMFPFlow::input`: the tests on `_stageEnd`, then `dispatch`. -/
def input (s : RTMFPFlow) (stage flags : Nat) (packet : Bytes) (lastFragment : Bool) :
    RTMFPFlow :=
  if s._stageEnd ≠ 0 ∧ s._fragments = [] then { s with _stage := stage }
  else if s._stageEnd ≠ 0 ∧ stage > s._stageEnd then s
  else if s._stageEnd = 0 ∧ flags &&& RTMFP.MESSAGE_END ≠ 0 then
    dispatch { s with _stageEnd := stage } stage flags packet lastFragment
  else dispatch s stage flags packet lastFragment

/-- One call of `input`, as received from the session. -/
structure Call where
  stage : Nat
  flags : Nat
  packet : Bytes
  lastFragment : Bool
deriving DecidableEq, Repr

/-- The flow after a sequence of `input` calls. -/
def run (s : RTMFPFlow) (calls : List Call) : RTMFPFlow :=
  calls.foldl (fun s c => input s c.stage c.flags c.packet c.lastFragment) s

end RTMFPFlow

namespace RTMFPFlow

/-- The entries of the reorder buffer are in strictly ascending key order, as
in the `std::map`. -/
def sortedKeys (l : List (Nat × Fragment)) : Prop :=
  l.Pairwise (fun a b => a.1 < b.1)

/-- The flow is completed: a `_stageEnd` is recorded and nothing is buffered. -/
def completed (s : RTMFPFlow) : Prop := s._stageEnd ≠ 0 ∧ s._fragments = []

/-- Invariant of the reorder buffer: the current stage is a `UInt64`, the keys
ascend, and every buffered stage is a `UInt64` strictly above `nextStage`. -/
def bufferInv (s : RTMFPFlow) : Prop :=
  s._stage < 18446744073709551616 ∧ sortedKeys s._fragments ∧
  ∀ e ∈ s._fragments, nextStage s < e.1 ∧ e.1 < 18446744073709551616

/-- Invariant of the deliveries while no stage reaches `2^64 - 1`: the buffer
invariant without wrap, the stages passed to `onFragment` strictly ascending,
and, unless the flow is completed, none of them above the current stage. -/
def deliveryInv (s : RTMFPFlow) : Prop :=
  s._stage < 18446744073709551615 ∧ sortedKeys s._fragments ∧
  (∀ e ∈ s._fragments, s._stage + 1 < e.1 ∧ e.1 < 18446744073709551615) ∧
  s.delivered.Pairwise (fun a b => a < b) ∧
  (completed s ∨ ∀ d ∈ s.delivered, d ≤ s._stage)

end RTMFPFlow

namespace RTMFPFlow

/-- The call of `output` that hands the payload of stage `k` to the stream
when nothing was lost, `P` giving the fragment carried by each stage. -/
def payloadOutput (P : Nat → Fragment) (k : Nat) : Output :=
  ⟨0, (P k).packet, (P k).lastFragment⟩

/-- The end-of-flow signal: `output(id, _lost, Packet::Null(), true)` with
nothing lost. -/
def endOutput : Output := ⟨0, [], true⟩

/-- The stages 1 to `n` carry whole messages: a non-empty payload, none of the
flags BEFORE-part, AFTER-part and ABANDON, and `MESSAGE_END` on stage `n`
only. -/
def plainStages (P : Nat → Fragment) (n : Nat) : Prop :=
  ∀ k, 1 ≤ k → k ≤ n →
    (P k).packet ≠ [] ∧ (P k).flags &&& RTMFP.MESSAGE_WITH_BEFOREPART = 0 ∧
    (P k).flags &&& RTMFP.MESSAGE_WITH_AFTERPART = 0 ∧
    (P k).flags &&& RTMFP.MESSAGE_ABANDON = 0 ∧
    ((P k).flags &&& RTMFP.MESSAGE_END ≠ 0 → k = n)

/-- State of a flow that has received the stages `seen` out of 1 to `n`, each
once, with the fragments `P`: the stages 1 to `_stage` are delivered in order,
the other stages seen wait in the buffer, nothing is lost, and the end signal
follows the payloads once the flow is completed. -/
def reorderInv (P : Nat → Fragment) (n : Nat) (seen : List Nat) (s : RTMFPFlow) : Prop :=
  s._stage ≤ n ∧
  s.delivered = List.range' 1 s._stage ∧
  s.outputs = (List.range' 1 s._stage).map (payloadOutput P)
    ++ (if s._stageEnd ≠ 0 ∧ s._fragments = [] then [endOutput] else []) ∧
  s._lost = 0 ∧ s._pBuffer = none ∧
  sortedKeys s._fragments ∧
  (∀ e ∈ s._fragments, s._stage + 1 < e.1 ∧ e.1 ≤ n ∧ e.2 = P e.1) ∧
  (List.range' 1 s._stage ++ s._fragments.map Prod.fst).Perm seen ∧
  (s._stageEnd = 0 ∨ s._stageEnd = n) ∧
  (s._stageEnd ≠ 0 ↔ (n ∈ seen ∧ (P n).flags &&& RTMFP.MESSAGE_END ≠ 0))

end RTMFPFlow

namespace RTMFPFlow

/-- Number of leading entries of the reorder buffer whose keys are `n`,
`n + 1`, `n + 2`, ...: the buffered stages contiguous from `n`. -/
def contiguous : List (Nat × Fragment) → Nat → Nat
  | [], _ => 0
  | (k, _) :: rest, n => if k = n then 1 + contiguous rest (n + 1) else 0

/-- Two flows agree on everything but the lost-bytes counter and the value of
that counter handed over with each output. -/
def sameButLost (a b : RTMFPFlow) : Prop :=
  a._stage = b._stage ∧ a._stageEnd = b._stageEnd ∧ a._fragments = b._fragments ∧
  a._pBuffer = b._pBuffer ∧ a.fragmentation = b.fragmentation ∧ a.delivered = b.delivered ∧
  a.outputs.map (fun o => (o.packet, o.lastFragment))
    = b.outputs.map (fun o => (o.packet, o.lastFragment))

end RTMFPFlow

namespace RTMFPFlow

/-- The flow after `onFragment` has taken the stages `m0 + 1` to `m0 + j` in
order, `P` giving the fragment that each stage carries. -/
def deliverTo (P : Nat → Fragment) (s0 : RTMFPFlow) (m0 : Nat) : Nat → RTMFPFlow
  | 0 => s0
  | j + 1 =>
    onFragment (deliverTo P s0 m0 j) (m0 + j + 1) (P (m0 + j + 1)).flags
      (P (m0 + j + 1)).packet (P (m0 + j + 1)).lastFragment

/-- Two flows agree on what `onFragment` reads and writes besides the current
stage: reassembly buffer, lost-bytes counter, stages delivered and outputs. -/
def sameDelivery (a c : RTMFPFlow) : Prop :=
  a._pBuffer = c._pBuffer ∧ a._lost = c._lost ∧ a.delivered = c.delivered ∧
  a.outputs = c.outputs

/-- None of the stages `m0 + 1` to `m0 + n` carries `MESSAGE_ABANDON`, and
`MESSAGE_END` is carried by the last one at most. -/
def feedStages (P : Nat → Fragment) (m0 n : Nat) : Prop :=
  ∀ k, m0 < k → k ≤ m0 + n →
    (P k).flags &&& RTMFP.MESSAGE_ABANDON = 0 ∧
    ((P k).flags &&& RTMFP.MESSAGE_END ≠ 0 → k = m0 + n)

/-- State of a flow that started in `s0` at stage `m0` and has received the
stages `seen` out of `m0 + 1` to `m0 + n`, each once: for some `j` the stages
up to `m0 + j` have been delivered as if they had arrived in order, the other
stages seen wait in the buffer, and the end signal follows once the flow is
completed. -/
def feedInv (P : Nat → Fragment) (m0 n : Nat) (s0 : RTMFPFlow) (seen : List Nat)
    (s : RTMFPFlow) : Prop :=
  ∃ j, j ≤ n ∧ s._stage = m0 + j ∧
    s._pBuffer = (deliverTo P s0 m0 j)._pBuffer ∧
    s._lost = (deliverTo P s0 m0 j)._lost ∧
    s.delivered = (deliverTo P s0 m0 j).delivered ∧
    s.outputs = (deliverTo P s0 m0 j).outputs
      ++ (if s._stageEnd ≠ 0 ∧ s._fragments = [] then [⟨s._lost, [], true⟩] else []) ∧
    sortedKeys s._fragments ∧
    (∀ e ∈ s._fragments, m0 + j + 1 < e.1 ∧ e.1 ≤ m0 + n ∧ e.2 = P e.1) ∧
    (List.range' (m0 + 1) j ++ s._fragments.map Prod.fst).Perm seen ∧
    (s._stageEnd = 0 ∨ s._stageEnd = m0 + n) ∧
    (s._stageEnd ≠ 0 ↔ (m0 + n ∈ seen ∧ (P (m0 + n)).flags &&& RTMFP.MESSAGE_END ≠ 0))

end RTMFPFlow
namespace RTMFPFlow

/-- Concatenation, in stage order, of the payloads of the stages `m0 + 1` to
`m0 + j`. -/
def concatChunks (P : Nat → Fragment) (m0 : Nat) : Nat → Bytes
  | 0 => []
  | j + 1 => concatChunks P m0 j ++ (P (m0 + j + 1)).packet

end RTMFPFlow

namespace RTMFPFlow

/-- The inner loop of `buildAck`,
`while (++it != _fragments.end() && it->first == (++stage)) ++buffered;`,
on the entries that follow the current one: when the entries run out `stage`
is not incremented, otherwise it is incremented before the comparison.
Returns the entries left from the iterator on, `stage` and `buffered`
(a `UInt32`). -/
def buildAckRun : List (Nat × Fragment) → Nat → Nat → List (Nat × Fragment) × Nat × Nat
  | [], stage, buffered => ([], stage, buffered)
  | (k, f) :: rest, stage, buffered =>
    if k = (stage + 1) % 18446744073709551616 then
      buildAckRun rest ((stage + 1) % 18446744073709551616) ((buffered + 1) % 4294967296)
    else ((k, f) :: rest, (stage + 1) % 18446744073709551616, buffered)

/-- The outer loop of `buildAck` over the entries from the iterator on, with
the local `stage`, the vector `losts`, the `UInt16` `size`, and a mark that
records whether one of the unsigned subtractions (`it->first - stage - 2`,
`--stage`) went below zero. `get7BitSize` stands for `Binary::Get7BitSize`,
which is outside the sources. The first argument bounds the number of
iterations; each iteration consumes at least one entry. -/
def buildAckLoop (get7BitSize : Nat → Nat) :
    Nat → List (Nat × Fragment) → Nat → List Nat → Nat → Bool → List Nat × Nat × Bool
  | 0, _, _, losts, size, under => (losts, size, under)
  | _ + 1, [], _, losts, size, under => (losts, size, under)
  | fuel + 1, (k, _) :: rest, stage, losts, size, under =>
    let gap := ((k + 18446744073709551616 - stage) % 18446744073709551616
      + 18446744073709551616 - 2) % 18446744073709551616
    let under := under || decide (k < stage + 2)
    let size := (size + get7BitSize gap) % 65536
    let losts := losts ++ [gap]
    let r := buildAckRun rest k 0
    let size := (size + get7BitSize r.2.2) % 65536
    let losts := losts ++ [r.2.2]
    let under := under || decide (r.2.1 = 0)
    let stage := (r.2.1 + 18446744073709551616 - 1) % 18446744073709551616
    buildAckLoop get7BitSize fuel r.1 stage losts size under

/-- `RTMFPFlow::buildAck`: returns `_stage`, the vector `losts` and `size`
after the call, and whether a subtraction went below zero. The refresh of
`_completeTime` is left out. -/
def buildAck (get7BitSize : Nat → Nat) (s : RTMFPFlow) (losts : List Nat) (size : Nat) :
    Nat × List Nat × Nat × Bool :=
  (s._stage,
    buildAckLoop get7BitSize s._fragments.length s._fragments s._stage losts size false)

/-- Reading of the `(gap, run)` pairs of an acknowledgement from a cursor
stage on: each pair skips `gap + 1` missing stages and then marks `run + 1`
consecutive stages as received. The stages marked, in order. -/
def decodeAck : Nat → List Nat → List Nat
  | cursor, gap :: run :: rest =>
    List.range' (cursor + gap + 2) (run + 1) ++ decodeAck (cursor + gap + 2 + run) rest
  | _, _ => []

/-- Number of maximal runs of consecutive stages among the keys of the
reorder buffer. -/
def runCount : List (Nat × Fragment) → Nat
  | [] => 0
  | [_] => 1
  | a :: b :: rest => (if b.1 = a.1 + 1 then 0 else 1) + runCount (b :: rest)

end RTMFPFlow

namespace GroupStream

/-- Modelled from the spec: the marker of a media fragment that holds a whole
payload (`GroupStream.h` is not among the sources). -/
def GROUP_MEDIA_DATA : Nat := 0x20

/-- Modelled from the spec: the marker of the first fragment of a split
payload. -/
def GROUP_MEDIA_START : Nat := 0x21

/-- Modelled from the spec: the marker of a middle fragment of a split
payload. -/
def GROUP_MEDIA_NEXT : Nat := 0x22

/-- Modelled from the spec: the marker of the last fragment of a split
payload. -/
def GROUP_MEDIA_END : Nat := 0x23

end GroupStream

/-- The arguments of one call of `GroupMedia::addFragment` that make the
fragment stored: marker, id, split counter, media type, time and payload. -/
structure GroupFragment where
  marker : Nat
  id : Nat
  splitedNumber : Nat
  type : Nat
  time : Nat
  payload : Bytes
deriving DecidableEq, Repr

namespace GroupMedia

/-- One turn of the body of the `do ... while` loop of `GroupMedia::onMedia`,
with `M` for `NETGROUP_MAX_PACKET_SIZE`: the marker, the fragment size, the
fragment handed to `addFragment` with `++_fragmentCounter` (a `UInt64`), and
the reader moved on. The result is `none` when `fragmentSize` bytes are not
available at the cursor, where `writer.write` would read past the packet. -/
def onMediaBody (M type time : Nat) (splitCounter marker : Nat) (reader : BinaryReader)
    (_fragmentCounter : Nat) : Option (GroupFragment × Nat × BinaryReader × Nat) :=
  let marker :=
    if reader.data.length > M then
      if splitCounter = 0 then GroupStream.GROUP_MEDIA_END
      else if reader.pos = 0 then GroupStream.GROUP_MEDIA_START
      else GroupStream.GROUP_MEDIA_NEXT
    else marker
  let fragmentSize := if splitCounter > 0 then M else reader.available
  if fragmentSize > reader.available then none
  else
    let _fragmentCounter := (_fragmentCounter + 1) % 18446744073709551616
    some (⟨marker, _fragmentCounter, splitCounter, type, time, reader.current.take fragmentSize⟩,
      marker, reader.next fragmentSize, _fragmentCounter)

/-- The `do ... while (splitCounter-- > 0)` loop of `GroupMedia::onMedia`:
the calls of `addFragment` in call order and `_fragmentCounter` at the end. -/
def onMediaLoop (M type time : Nat) :
    Nat → Nat → BinaryReader → Nat → Option (List GroupFragment × Nat)
  | splitCounter, marker, reader, _fragmentCounter =>
    match onMediaBody M type time splitCounter marker reader _fragmentCounter with
    | none => none
    | some (fragment, marker, reader, _fragmentCounter) =>
      match splitCounter with
      | 0 => some ([fragment], _fragmentCounter)
      | splitCounter + 1 =>
        match onMediaLoop M type time splitCounter marker reader _fragmentCounter with
        | none => none
        | some (fragments, _fragmentCounter) => some (fragment :: fragments, _fragmentCounter)

/-- `GroupMedia::onMedia` for a packet of fewer than `2^32` bytes, with `M` for
`NETGROUP_MAX_PACKET_SIZE`: the calls of `addFragment` in call order and
`_fragmentCounter` after the call. `splitCounter` is a `UInt8`. -/
def onMedia (M : Nat) (_fragmentCounter type time : Nat) (packet : Bytes) :
    Option (List GroupFragment × Nat) :=
  let reader : BinaryReader := ⟨packet, 0⟩
  if reader.data.length = 0 then some ([], _fragmentCounter)
  else
    let splitCounter := (reader.data.length / M
      - (if reader.data.length % M = 0 then 1 else 0)) % 256
    onMediaLoop M type time splitCounter GroupStream.GROUP_MEDIA_DATA reader _fragmentCounter

end GroupMedia

namespace GroupMedia

/-- The push loop of `GroupMedia::addFragment` over `_listPeers`,
`if (it.get() != pPeer && it->sendMedia(...) && (--nbPush == 0)) break;`, with
`nbPush` a `UInt8`. A peer is the address held by its pointer, `pPeer` is
`none` for `NULL`, and `sendMedia` gives the outcome of `PeerMedia::sendMedia`
for the fragment, which is outside the sources. The result lists the peers on
which `sendMedia` was called, in call order. -/
def pushLoop (sendMedia : Nat → Bool) (pPeer : Option Nat) : List Nat → Nat → List Nat
  | [], _ => []
  | it :: rest, nbPush =>
    if some it ≠ pPeer then
      if sendMedia it then
        if (nbPush + 255) % 256 = 0 then [it]
        else it :: pushLoop sendMedia pPeer rest ((nbPush + 255) % 256)
      else it :: pushLoop sendMedia pPeer rest nbPush
    else pushLoop sendMedia pPeer rest nbPush

/-- The push part of `GroupMedia::addFragment`: `UInt8 nbPush = pushLimit + 1`
and the loop over `_listPeers`. The insertion in `_fragments`, the time index
and `onNewFragment` are left out. -/
def addFragment (sendMedia : Nat → Bool) (pPeer : Option Nat) (_listPeers : List Nat)
    (pushLimit : Nat) : List Nat :=
  pushLoop sendMedia pPeer _listPeers ((pushLimit + 1) % 256)

end GroupMedia

namespace GroupStream

/-- Modelled from the spec: the marker of the fragments-map message
(`GroupStream.h` is not among the sources). -/
def GROUP_FRAGMENTS_MAP : Nat := 0x22

end GroupStream

namespace GroupMedia

/-- The test `_fragments.find(id) != _fragments.end()` on the store, held as
the list of its entries in ascending id order. -/
def hasFragment (_fragments : List (Nat × GroupFragment)) (id : Nat) : Bool :=
  _fragments.any (fun e => e.1 == id)

/-- The inner loop of `updateFragmentMap`,
`for (UInt8 fragment = 0; fragment < 8 && (index-fragment) >= firstFragment; fragment++)`,
which adds `1 << fragment` to the `UInt8` `currentByte` for each fragment
found. The first argument bounds the number of turns, 8 being enough. -/
def mapByte (_fragments : List (Nat × GroupFragment)) (index firstFragment : Nat) :
    Nat → Nat → Nat → Nat
  | 0, _, currentByte => currentByte
  | fuel + 1, fragment, currentByte =>
    if fragment < 8 ∧
        (index + 18446744073709551616 - fragment) % 18446744073709551616 ≥ firstFragment then
      mapByte _fragments index firstFragment fuel (fragment + 1)
        (if hasFragment _fragments
            ((index + 18446744073709551616 - fragment) % 18446744073709551616)
          then (currentByte + 2 ^ fragment) % 256 else currentByte)
    else currentByte

/-- The outer loop of the non-publisher branch of `updateFragmentMap`,
`for (...; index >= firstFragment && index >= 8; index -= 8)`: one byte is
written per turn. The first argument bounds the number of turns. -/
def mapLoop (_fragments : List (Nat × GroupFragment)) (firstFragment : Nat) :
    Nat → Nat → Bytes → Bytes
  | 0, _, written => written
  | fuel + 1, index, written =>
    if index ≥ firstFragment ∧ index ≥ 8 then
      mapLoop _fragments firstFragment fuel
        ((index + 18446744073709551616 - 8) % 18446744073709551616)
        (written ++ [mapByte _fragments index firstFragment 8 0 0])
    else written

/-- The first loop of the publisher branch,
`while (nbFragments > 8) { writer.write8(0xFF); nbFragments -= 8; }`: the bytes
written and `nbFragments` at the end. -/
def publisherFull : Nat → Nat → Bytes → Bytes × Nat
  | 0, nbFragments, written => (written, nbFragments)
  | fuel + 1, nbFragments, written =>
    if nbFragments > 8 then publisherFull fuel (nbFragments - 8) (written ++ [0xFF])
    else (written, nbFragments)

/-- The second loop of the publisher branch,
`while (--nbFragments > 0) lastByte = (lastByte << 1) + 1;`, on the `UInt8`
`lastByte`. -/
def publisherLast : Nat → Nat → Nat → Nat
  | 0, _, lastByte => lastByte
  | fuel + 1, nbFragments, lastByte =>
    if (nbFragments + 18446744073709551616 - 1) % 18446744073709551616 > 0 then
      publisherLast fuel ((nbFragments + 18446744073709551616 - 1) % 18446744073709551616)
        ((lastByte * 2 + 1) % 256)
    else lastByte

/-- `GroupMedia::updateFragmentMap`, on the store `_fragments` as
`eraseOldFragments` leaves it (a non-empty store stays non-empty there): the
value returned and `_fragmentsMapBuffer` after the call. `write7Bit` and
`get7BitSize` stand for `BinaryWriter::write7Bit` and `Binary::Get7BitSize`,
`resize` for `Buffer::resize(size, false)`, all outside the sources; the
writer fills the buffer from its start and stops at its end. -/
def updateFragmentMap (write7Bit : Nat → Bytes) (get7BitSize : Nat → Nat)
    (resize : Bytes → Nat → Bytes) (isPublisher : Bool) (_endFragment : Nat)
    (_fragments : List (Nat × GroupFragment)) (_fragmentsMapBuffer : Bytes) : Nat × Bytes :=
  if _fragments = [] ∧ _endFragment = 0 then (0, _fragmentsMapBuffer)
  else
    let firstFragment := match _fragments.head? with
      | none => _endFragment
      | some e => e.1
    let lastFragment := match _fragments.getLast? with
      | none => _endFragment
      | some e => e.1
    let nbFragments :=
      (lastFragment + 18446744073709551616 - firstFragment) % 18446744073709551616
    let buffer := resize _fragmentsMapBuffer
      (((nbFragments / 8 + (if nbFragments % 8 > 0 then 1 else 0)) % 4294967296
        + get7BitSize lastFragment + 1) % 4294967296)
    let written := GroupStream.GROUP_FRAGMENTS_MAP
      :: write7Bit (if _endFragment ≠ 0 then _endFragment else lastFragment)
    if nbFragments = 0 then (lastFragment, overwrite buffer 0 written)
    else if isPublisher then
      let full := publisherFull nbFragments nbFragments written
      (lastFragment, overwrite buffer 0 (full.1 ++ [publisherLast 8 full.2 1]))
    else
      (lastFragment, overwrite buffer 0
        (mapLoop _fragments firstFragment lastFragment
          ((lastFragment + 18446744073709551616 - 1) % 18446744073709551616) written))

end GroupMedia

namespace RTMFP

/-- `RTMFP_TIMESTAMP_SCALE`, the milliseconds of one tick. -/
def RTMFP_TIMESTAMP_SCALE : Int := 4

/-- `RTMFP::Time`: `(timeVal / RTMFP_TIMESTAMP_SCALE) & 0xFFFF` on an `Int64`,
the division truncating toward zero; the result is a `UInt16`. -/
def Time (timeVal : Int) : Nat :=
  (Int.land (timeVal.tdiv RTMFP_TIMESTAMP_SCALE) 0xFFFF).toNat

/-- What `RTMFP::ReadAddresses` leaves: the value returned, the reader, the map
`addresses`, `hostAddress`, the calls of `onNewAddress` in call order, and the
number of calls of `ReadAddress`, kept for the statements. -/
structure AddressesRead where
  result : Bool
  reader : BinaryReader
  addresses : List (SocketAddress × AddressType)
  hostAddress : SocketAddress
  onNewAddress : List (SocketAddress × AddressType)
  records : Nat
deriving DecidableEq, Repr

/-- The `while (reader.available())` loop of `RTMFP::ReadAddresses`, `max`
standing for `RTMFP_MAX_ADDRESSES` (its header is not among the sources). The
map `addresses` is the list of its entries in insertion order, its order being
that of `SocketAddress::operator<`, outside the sources. The first argument
bounds the number of turns; each turn reads at least one byte. -/
def ReadAddressesLoop (toBool : SocketAddress → Bool) (max : Nat) :
    Nat → AddressesRead → AddressesRead
  | 0, r => r
  | fuel + 1, r =>
    if r.reader.available = 0 then r
    else
      let a := ReadAddress toBool r.reader
      let addressType := a.1
      let address := a.2.1
      let r := { r with reader := a.2.2, records := r.records + 1 }
      let r :=
        if addressType &&& 0x0F = ADDRESS_LOCAL ∨ addressType &&& 0x0F = ADDRESS_PUBLIC then
          if r.addresses.length ≥ max then r
          else if r.addresses.all (fun e => decide (e.1 ≠ address)) then
            { r with addresses := r.addresses ++ [(address, addressType)],
                     onNewAddress := r.onNewAddress ++ [(address, addressType)] }
          else r
        else if addressType &&& 0x0F = ADDRESS_REDIRECTION then
          if r.hostAddress ≠ address then
            { r with hostAddress := address,
                     onNewAddress := r.onNewAddress ++ [(address, addressType)] }
          else r
        else if addressType &&& 0x0F = ADDRESS_UNSPECIFIED then
          { r with onNewAddress := r.onNewAddress ++ [(address, addressType)] }
        else r
      ReadAddressesLoop toBool max fuel r

/-- `RTMFP::ReadAddresses`: the loop, then
`return !addresses.empty() || hostAddress`. -/
def ReadAddresses (toBool : SocketAddress → Bool) (max : Nat) (reader : BinaryReader)
    (addresses : List (SocketAddress × AddressType)) (hostAddress : SocketAddress) :
    AddressesRead :=
  let r := ReadAddressesLoop toBool max reader.available
    ⟨false, reader, addresses, hostAddress, [], 0⟩
  { r with result := !r.addresses.isEmpty || toBool r.hostAddress }

end RTMFP

/-- The parameters of the group that `GroupMedia` reads (`RTMFPGroupConfig`,
declared in `librtmfp.h`, which is not among the sources). -/
structure RTMFPGroupConfig where
  isPublisher : Bool
  windowDuration : Nat
  relayMargin : Nat
  fetchPeriod : Nat
deriving DecidableEq, Repr

/-- State of a `GroupMedia`. The maps are the lists of their entries in
ascending key order: `_fragments` by id, `_mapTime2Fragment` and
`_mapPullTime2Fragment` by time (milliseconds, `Int64`), `_mapWaitingFragments`
by id, `_mapPushMasks` by mask with the peer id and the last id of the pusher,
`_mapPeers` by peer id with the `pushInMode` of the peer. A peer id is held as
a number. `_lastFragment` is the time of the last reception.
`onRemovedFragments`, `sendPushMode` and `onStartProcessing` are histories kept
for the statements: the first kept ids notified, the `(peer, mode)` pairs of
the calls of `PeerMedia::sendPushMode`, and the number of calls of
`onStartProcessing`. -/
structure GroupMedia where
  groupParameters : RTMFPGroupConfig
  _fragmentCounter : Nat
  _fragments : List (Nat × GroupFragment)
  _mapTime2Fragment : List (Int × Nat)
  _mapWaitingFragments : List (Nat × Int)
  _currentPullFragment : Nat
  _mapPullTime2Fragment : List (Int × Nat)
  _mapPushMasks : List (Nat × Nat × Nat)
  _mapPeers : List (Nat × Nat)
  _lastFragmentMapId : Nat
  _lastFragment : Int
  _pullPaused : Bool
  _firstPullReceived : Bool
  _currentPushMask : Nat
  _startedPushRequests : Bool
  onRemovedFragments : List Nat
  sendPushMode : List (Nat × Nat)
  onStartProcessing : Nat
deriving DecidableEq, Repr

namespace GroupMedia

/-- The state the constructor leaves. -/
def fresh (parameters : RTMFPGroupConfig) : GroupMedia :=
  ⟨parameters, 0, [], [], [], 0, [], [], [], 0, 0, false, false, 0, false, [], [], 0⟩

/-- `_fragments.emplace_hint(itFragment, fragmentId, ...)`: ordered insertion
that leaves the map as it is when the id is present. -/
def emplace_hint : List (Nat × GroupFragment) → GroupFragment → List (Nat × GroupFragment)
  | [], f => [(f.id, f)]
  | (k0, f0) :: rest, f =>
    if f.id < k0 then (f.id, f) :: (k0, f0) :: rest
    else if f.id = k0 then (k0, f0) :: rest
    else (k0, f0) :: emplace_hint rest f

/-- `_mapTime2Fragment[now] = fragmentId`: the entry of `now` is assigned, and
inserted in time order when there is none. -/
def assign : List (Int × Nat) → Int → Nat → List (Int × Nat)
  | [], now, id => [(now, id)]
  | (t0, id0) :: rest, now, id =>
    if now < t0 then (now, id) :: (t0, id0) :: rest
    else if now = t0 then (t0, id) :: rest
    else (t0, id0) :: assign rest now id

/-- The test `_mapTime2Fragment.empty() || fragmentId >
_mapTime2Fragment.rbegin()->second` of `GroupMedia::addFragment`. -/
def aboveLatest (index : List (Int × Nat)) (fragmentId : Nat) : Bool :=
  match index.getLast? with
  | none => true
  | some e => decide (fragmentId > e.2)

/-- The part of `GroupMedia::addFragment` that changes the state, with `now`
for `Time::Now()`: the fragment is put in `_fragments`, and a data or start
fragment whose id is above the id of the latest entry of `_mapTime2Fragment`
is recorded there. The push loop is `addFragment`. -/
def storeFragment (s : GroupMedia) (now : Int) (f : GroupFragment) : GroupMedia :=
  let s := { s with _fragments := emplace_hint s._fragments f }
  if (f.marker = GroupStream.GROUP_MEDIA_DATA ∨ f.marker = GroupStream.GROUP_MEDIA_START) ∧
      aboveLatest s._mapTime2Fragment f.id = true then
    { s with _mapTime2Fragment := assign s._mapTime2Fragment now f.id }
  else s

/-- `GroupMedia::onMedia` on the state: the fragments that `onMedia` hands to
`addFragment` are stored one after the other and `_fragmentCounter` takes its
final value. `M` stands for `NETGROUP_MAX_PACKET_SIZE`; the clock is read at
most once in the call, for its first fragment. With `M` positive `onMedia`
never reads past the packet, the case left as it is here. -/
def onMediaStore (M : Nat) (s : GroupMedia) (now : Int) (type time : Nat) (packet : Bytes) :
    GroupMedia :=
  match onMedia M s._fragmentCounter type time packet with
  | none => s
  | some (fragments, counter) =>
    { fragments.foldl (fun s f => storeFragment s now f) s with _fragmentCounter := counter }

/-- `UInt8 mask = 1 << (fragmentId % 8)`. -/
def pushMask (fragmentId : Nat) : Nat := (1 <<< (fragmentId % 8)) % 256

/-- `_mapPushMasks.emplace_hint(itPushMask, mask, (peerId, fragmentId))`:
ordered insertion of a mask that is not recorded. -/
def emplaceMask : List (Nat × Nat × Nat) → Nat → Nat → Nat → List (Nat × Nat × Nat)
  | [], mask, peerId, id => [(mask, peerId, id)]
  | (m0, e0) :: rest, mask, peerId, id =>
    if mask < m0 then (mask, peerId, id) :: (m0, e0) :: rest
    else if mask = m0 then (m0, e0) :: rest
    else (m0, e0) :: emplaceMask rest mask peerId id

/-- The assignment `itPushMask->second.first = peerId` on the entry of
`mask`. -/
def setPusher (masks : List (Nat × Nat × Nat)) (mask peerId : Nat) : List (Nat × Nat × Nat) :=
  masks.map (fun e => if e.1 = mask then (e.1, peerId, e.2.2) else e)

/-- The assignment `itPushMask->second.second = fragmentId` on the entry of
`mask`. -/
def setLast (masks : List (Nat × Nat × Nat)) (mask id : Nat) : List (Nat × Nat × Nat) :=
  masks.map (fun e => if e.1 = mask then (e.1, e.2.1, id) else e)

/-- The block `if (itPushMask->second.first != peerId)` of
`GroupMedia::_onFragment`, `pusher` and `last` being the entry of `mask`: a
faster peer replaces the pusher, which is sent its mode less the mask if it is
in `_mapPeers`; a slower peer is sent its own mode less the mask. The mode
handed to `sendPushMode` is a `UInt8`. -/
def electPusher (s : GroupMedia) (mask pusher last peerId pushInMode fragmentId : Nat) :
    GroupMedia :=
  if pusher ≠ peerId then
    if last < fragmentId then
      { s with
        sendPushMode := s.sendPushMode ++
          (match s._mapPeers.lookup pusher with
            | some mode => [(pusher, (mode + 256 - mask) % 256)]
            | none => []),
        _mapPushMasks := setPusher s._mapPushMasks mask peerId }
    else { s with sendPushMode := s.sendPushMode ++ [(peerId, (pushInMode + 256 - mask) % 256)] }
  else s

/-- The push branch of `GroupMedia::_onFragment` (the `else` of the test on
`_mapWaitingFragments`), for a fragment received from the peer `peerId` whose
`pushInMode` is given: the first push of a mask records the peer, a later one
goes through `electPusher` and raises the last id of the mask. -/
def pushIn (s : GroupMedia) (peerId pushInMode fragmentId : Nat) : GroupMedia :=
  let mask := pushMask fragmentId
  if pushInMode &&& mask ≠ 0 then
    match s._mapPushMasks.lookup mask with
    | none => { s with _mapPushMasks := emplaceMask s._mapPushMasks mask peerId fragmentId }
    | some (pusher, last) =>
      let s := electPusher s mask pusher last peerId pushInMode fragmentId
      if last < fragmentId then
        { s with _mapPushMasks := setLast s._mapPushMasks mask fragmentId }
      else s
  else s

/-- The test `ignore` of `GroupMedia::_onFragment`: the fragment is already
in the store, or the time index holds more than two entries that span more
than `windowDuration` and start above the fragment. -/
def ignored (s : GroupMedia) (fragmentId : Nat) : Bool :=
  if hasFragment s._fragments fragmentId then true
  else if s._mapTime2Fragment.length > 2 then
    match s._mapTime2Fragment.head?, s._mapTime2Fragment.getLast? with
    | some itBegin, some itEnd =>
      decide (itEnd.1 - itBegin.1 > (s.groupParameters.windowDuration : Int)
        ∧ itBegin.2 > fragmentId)
    | _, _ => false
  else false

/-- `GroupMedia::_onFragment`, with `now` for the clock, for the fragment `f`
received from the peer `peerId` whose `pushInMode` is given: the reception
time, the awaited pull or the push election, the test `ignore`, the storage
through `addFragment`, and `onStartProcessing` after the first pull. -/
def _onFragment (s : GroupMedia) (now : Int) (peerId pushInMode : Nat) (f : GroupFragment) :
    GroupMedia :=
  let s := { s with _lastFragment := now }
  let waiting := s._mapWaitingFragments.any (fun e => e.1 == f.id)
  let startProcess := waiting && !s._firstPullReceived
  let s :=
    if waiting then
      { s with _mapWaitingFragments := s._mapWaitingFragments.filter (fun e => e.1 != f.id),
               _firstPullReceived := true }
    else pushIn s peerId pushInMode f.id
  let s := if ignored s f.id then s else storeFragment s now f
  if startProcess then { s with onStartProcessing := s.onStartProcessing + 1 } else s

/-- Position of `lower_bound(key)` in a map held in ascending key order: the
number of entries below `key`; the length of the list stands for `end()`. -/
def lower_bound {α β : Type} [LT α] [DecidableRel (fun (a b : α) => a < b)]
    (l : List (α × β)) (key : α) : Nat :=
  (l.takeWhile (fun e => decide (e.1 < key))).length

/-- The iterators `itTime` and `itFragment` of `GroupMedia::eraseOldFragments`
when it reaches its deletions, as positions in `_mapTime2Fragment` and
`_fragments`; `none` when it returns before. `now` stands for `Time::Now()`. -/
def erasePoint (s : GroupMedia) (now : Int) : Option (Nat × Nat) :=
  if s._fragments = [] ∨ s._mapTime2Fragment = [] then none
  else
    let time2Keep : Int :=
      now - ((s.groupParameters.windowDuration + s.groupParameters.relayMargin : Nat) : Int)
    let itTime := lower_bound s._mapTime2Fragment time2Keep
    let itTime :=
      if itTime ≠ s._mapTime2Fragment.length ∧ itTime ≠ 0
          ∧ time2Keep > (s._mapTime2Fragment.getD itTime (0, 0)).1 then itTime - 1
      else itTime
    if itTime = s._mapTime2Fragment.length ∨ itTime = 0 then none
    else
      let itFragment :=
        (s._fragments.map Prod.fst).indexOf (s._mapTime2Fragment.getD itTime (0, 0)).2
      let itFragment :=
        if itFragment ≠ 0 ∧ itFragment ≠ s._fragments.length then itFragment - 1
        else itFragment
      if itFragment = s._fragments.length then none
      else some (itTime, itFragment)

/-- `GroupMedia::eraseOldFragments`, with `now` for `Time::Now()`: the
deletions in `_fragments`, `_mapTime2Fragment`, `_mapWaitingFragments` and
`_mapPullTime2Fragment`, the move of `_currentPullFragment` and the call of
`onRemovedFragments`. -/
def eraseOldFragments (s : GroupMedia) (now : Int) : GroupMedia :=
  match erasePoint s now with
  | none => s
  | some (itTime, itFragment) =>
    let time2Keep : Int :=
      now - ((s.groupParameters.windowDuration + s.groupParameters.relayMargin : Nat) : Int)
    let first := (s._fragments.getD itFragment (0, ⟨0, 0, 0, 0, 0, []⟩)).1
    let itWait := lower_bound s._mapWaitingFragments first
    let waiting :=
      match s._mapWaitingFragments.head? with
      | some e => if e.1 < first then s._mapWaitingFragments.drop itWait
        else s._mapWaitingFragments
      | none => s._mapWaitingFragments
    let firstFragmentMap := lower_bound s._mapPullTime2Fragment time2Keep
    { s with
      _fragments := s._fragments.drop itFragment,
      _mapTime2Fragment := s._mapTime2Fragment.drop itTime,
      _mapWaitingFragments := waiting,
      _currentPullFragment :=
        if s._currentPullFragment < first then first else s._currentPullFragment,
      _mapPullTime2Fragment :=
        if firstFragmentMap ≠ 0 ∧ firstFragmentMap ≠ s._mapPullTime2Fragment.length then
          s._mapPullTime2Fragment.drop firstFragmentMap
        else s._mapPullTime2Fragment,
      onRemovedFragments := s.onRemovedFragments ++ [first] }

/-- `GroupMedia::sendPushRequests`: the rotation of the `UInt8`
`_currentPushMask`, `random` being the value of `Util::Random<UInt8>()`, and
the call of `sendPushMode`. The search of the peer through `_itPushPeer`,
`GetRandomIt` and `getNextPeer` is not modelled: `peer` is the peer it ends
on, `none` when it finds none. -/
def sendPushRequests (s : GroupMedia) (random : Nat) (peer : Option Nat) : GroupMedia :=
  if s._mapPeers = [] then s
  else
    let mask :=
      if s._currentPushMask = 0 then (1 <<< (random % 256 % 8)) % 256
      else if s._currentPushMask = 0x80 then 1
      else (s._currentPushMask <<< 1) % 256
    let s := { s with _currentPushMask := mask }
    match peer with
    | none => s
    | some peerId =>
      match s._mapPeers.lookup peerId with
      | none => s
      | some pushInMode =>
        { s with sendPushMode := s.sendPushMode ++ [(peerId, pushInMode ||| mask)] }

/-- `_mapPullTime2Fragment.emplace(now, counter)`: ordered insertion that
leaves the map as it is when the time is present. -/
def emplaceTime : List (Int × Nat) → Int → Nat → List (Int × Nat)
  | [], now, id => [(now, id)]
  | (t0, id0) :: rest, now, id =>
    if now < t0 then (now, id) :: (t0, id0) :: rest
    else if now = t0 then (t0, id0) :: rest
    else (t0, id0) :: emplaceTime rest now id

/-- The first block of `GroupMedia::_onFragmentsMap`, with `now` for
`Time::Now()`: under the test `_lastFragmentMapId < counter` the id is recorded
in `_mapPullTime2Fragment` and in `_lastFragmentMapId`, and a pause ends. -/
def recordFragmentsMap (s : GroupMedia) (now : Int) (counter : Nat) : GroupMedia :=
  if s._lastFragmentMapId < counter then
    let s := { s with
      _mapPullTime2Fragment := emplaceTime s._mapPullTime2Fragment now counter,
      _lastFragmentMapId := counter }
    if s._pullPaused then { s with _pullPaused := false } else s
  else s

/-- The second block of `GroupMedia::_onFragmentsMap`: the first call of
`sendPushRequests`. -/
def startPushMode (s : GroupMedia) (random : Nat) (peer : Option Nat) : GroupMedia :=
  if s._currentPushMask = 0 ∧ ¬ s.groupParameters.isPublisher ∧ ¬ s._startedPushRequests then
    { sendPushRequests s random peer with _startedPushRequests := true }
  else s

/-- `GroupMedia::_onFragmentsMap`, with `now` for `Time::Now()`; `random` and
`peer` are those of the call of `sendPushRequests` it may make. Returns the
value returned and the state. -/
def _onFragmentsMap (s : GroupMedia) (now : Int) (counter random : Nat) (peer : Option Nat) :
    Bool × GroupMedia :=
  if s.groupParameters.isPublisher then (false, s)
  else (true, startPushMode (recordFragmentsMap s now counter) random peer)

/-- The test that opens `GroupMedia::sendPullRequests`, on which it returns at
once: no peer, no fragments map recorded, the pause, or no reception for more
than `windowDuration + relayMargin`. `now` stands for the clock read by
`_lastFragment.isElapsed`. -/
def pullBlocked (s : GroupMedia) (now : Int) : Bool :=
  s._mapPeers.isEmpty || s._mapPullTime2Fragment.isEmpty || s._pullPaused
    || decide (now - s._lastFragment
        > ((s.groupParameters.windowDuration + s.groupParameters.relayMargin : Nat) : Int))

end GroupMedia
namespace GroupMedia

/-- A sequence of calls of `sendPushRequests`, each with its random value and
the peer its search ends on. -/
def sendPushRequestsRun (s : GroupMedia) (calls : List (Nat × Option Nat)) : GroupMedia :=
  calls.foldl (fun s c => sendPushRequests s c.1 c.2) s

end GroupMedia

namespace GroupMedia

/-- One event in the life of a `GroupMedia`, with the value `now` that the
clock has when it occurs: a payload published through `onMedia`, a fragment
received from a peer through `_onFragment`, a run of `eraseOldFragments`. -/
inductive Event where
  | media (now : Int) (type time : Nat) (packet : Bytes)
  | fragment (now : Int) (peerId pushInMode : Nat) (f : GroupFragment)
  | erase (now : Int)
deriving DecidableEq, Repr

/-- The clock at an event. -/
def Event.now : Event → Int
  | Event.media now _ _ _ => now
  | Event.fragment now _ _ _ => now
  | Event.erase now => now

/-- Whether the event is the reception of a fragment from a peer. -/
def Event.received : Event → Bool
  | Event.fragment _ _ _ _ => true
  | _ => false

/-- The state after one event, `M` standing for `NETGROUP_MAX_PACKET_SIZE`. -/
def step (M : Nat) (s : GroupMedia) : Event → GroupMedia
  | Event.media now type time packet => onMediaStore M s now type time packet
  | Event.fragment now peerId pushInMode f => _onFragment s now peerId pushInMode f
  | Event.erase now => eraseOldFragments s now

/-- The state after a sequence of events. -/
def run (M : Nat) (s : GroupMedia) (events : List Event) : GroupMedia :=
  events.foldl (step M) s

end GroupMedia

namespace Base

/-- The fields of a `Date` that `update(year, month, day)` reads and writes:
`_year` (`Int32`), `_month` and `_day` (`UInt8`, `_day` 0 before the first
`init()`), `_weekDay` and the flag `_changed`. -/
structure Date where
  _year : Int
  _month : Nat
  _day : Nat
  _weekDay : Nat
  _changed : Bool
deriving DecidableEq, Repr

namespace Date

/-- `Date::setYear`, with `init` for `Date::init()` (its body is in the
header, outside the sources). -/
def setYear (init : Date → Date) (d : Date) (year : Int) : Date :=
  let d := if d._day = 0 then init d else d
  if year = d._year then d
  else { d with _changed := true, _year := year }

/-- `Date::setMonth`: the month is brought into `1..12` first. -/
def setMonth (init : Date → Date) (d : Date) (month : Nat) : Date :=
  let month := if month < 1 then 1 else if month > 12 then 12 else month
  let d := if d._day = 0 then init d else d
  if month = d._month then d
  else { d with _changed := true, _month := month }

/-- The value that `Date::setDay` gives `day` between its two tests
`day == _day`: brought into `1..31`, then cut to the length of `_month`, with
`IsLeapYear` for `Date::IsLeapYear` (outside the sources). -/
def clampDay (IsLeapYear : Int → Bool) (d : Date) (day : Nat) : Nat :=
  let day := if day < 1 then 1 else if day > 31 then 31 else day
  if day > 28 then
    if d._month < 8 then
      if d._month = 2 then
        let day := if day ≥ 30 then 29 else day
        if day = 29 ∧ IsLeapYear d._year = false then 28 else day
      else if day = 31 ∧ d._month &&& 0x01 = 0 then 30
      else day
    else if day = 31 then
      if d._month &&& 0x01 ≠ 0 then 30 else day
    else day
  else day

/-- `Date::setDay`: the first test `day == _day` returns before the day is
compared with the length of the month. -/
def setDay (IsLeapYear : Int → Bool) (init : Date → Date) (d : Date) (day : Nat) : Date :=
  let d := if d._day = 0 then init d else d
  if day = d._day then d
  else
    let day := clampDay IsLeapYear d day
    if day = d._day then d
    else { d with _changed := true, _day := day }

/-- `Date::update(Int32 year, UInt8 month, UInt8 day)`: `setYear`, `setMonth`,
then `setDay`. -/
def update (IsLeapYear : Int → Bool) (init : Date → Date) (d : Date) (year : Int)
    (month day : Nat) : Date :=
  let d := setYear init d year
  let d := setMonth init d (month % 256)
  setDay IsLeapYear init d (day % 256)

/-- Number of days of a month of a year in the Gregorian calendar, `IsLeapYear`
telling the leap years. -/
def daysInMonth (IsLeapYear : Int → Bool) (year : Int) (month : Nat) : Nat :=
  if month = 2 then (if IsLeapYear year then 29 else 28)
  else if month = 4 ∨ month = 6 ∨ month = 9 ∨ month = 11 then 30
  else 31

/-- The stored month is in `1..12` and the stored day is a day of that month
in the stored year. -/
def valid (IsLeapYear : Int → Bool) (d : Date) : Prop :=
  1 ≤ d._month ∧ d._month ≤ 12 ∧ 1 ≤ d._day ∧ d._day ≤ daysInMonth IsLeapYear d._year d._month

instance (IsLeapYear : Int → Bool) (d : Date) : Decidable (valid IsLeapYear d) := by
  unfold valid
  infer_instance

/-- Conversion of an integer to `Int64`. -/
def toInt64 (x : Int) : Int :=
  (x + 9223372036854775808) % 18446744073709551616 - 9223372036854775808

/-- `Date::computeWeekDay`: `days += 4` and the adjusted copy `result`, the
remainder `%` of C++ (sign of the dividend), and the conversion to `UInt8`
stored in `_weekDay`. -/
def computeWeekDay (d : Date) (days : Int) : Date :=
  let days := toInt64 (days + 4)
  let result := days
  let result := if days < 0 then toInt64 (result + 1) else result
  let result := result.tmod 7
  let result := if days < 0 then toInt64 (result + 6) else result
  { d with _weekDay := (result % 256).toNat }

end Date

end Base

namespace RTMFP

/-- What `RTMFP::getRandomIt` leaves: the value returned, the iterator
`itResult` as a position in the container, and the positions handed to
`isAllowed` in call order, kept for the statements. -/
structure RandomIt where
  result : Bool
  itResult : Nat
  tested : List Nat
deriving DecidableEq, Repr

/-- The `while (!isAllowed(itResult))` loop of `RTMFP::getRandomIt` on a
container of `size` elements: each turn tests the element at `itResult`, moves
on with a wrap from `end()` to `begin()`, and gives up when back on
`itRandom`. The first argument bounds the number of turns; `none` when it is
used up. -/
def getRandomItLoop (size : Nat) (isAllowed : Nat → Bool) (itRandom : Nat) :
    Nat → Nat → List Nat → Option RandomIt
  | 0, _, _ => none
  | fuel + 1, itResult, tested =>
    if isAllowed itResult then some ⟨true, itResult, tested ++ [itResult]⟩
    else
      let next := if itResult + 1 = size then 0 else itResult + 1
      if next = itRandom then some ⟨false, next, tested ++ [itResult]⟩
      else getRandomItLoop size isAllowed itRandom fuel next (tested ++ [itResult])

/-- `RTMFP::getRandomIt` on a container of `size` elements, `random` being
the value of `Util::Random<UInt32>()` and `isAllowed` the predicate as a
function of the position of the iterator: nothing is done on an empty
container, otherwise the search starts at position `random % size`. One turn
per element is allowed. -/
def getRandomIt (size : Nat) (itResult : Nat) (random : Nat) (isAllowed : Nat → Bool) :
    Option RandomIt :=
  if size = 0 then some ⟨false, itResult, []⟩
  else
    let itRandom := (random % 4294967296) % size
    getRandomItLoop size isAllowed itRandom size itRandom []

end RTMFP

namespace RTMFP

/-- `RTMFP::TimeNow`: `Time(Time::Now())`, with `now` for the clock. -/
def TimeNow (now : Int) : Nat := Time now

/-- `RTMFP::InitBuffer(pBuffer, marker)`: a new buffer of 6 bytes, here zero,
kept for the packed id and the CRC that `Engine::encode` writes, then the
writer appends the marker (`UInt8`) and `TimeNow()` (`UInt16`). -/
def InitBufferMarker (now : Int) (marker : Nat) : Bytes :=
  List.replicate 6 0 ++ [marker % 256] ++ be16 (TimeNow now)

/-- `RTMFP::InitBuffer(pBuffer, initiatorTime, marker)`, with `now` for the
clock over the call: the buffer it leaves and `initiatorTime` after
`exchange(0)`. The times are `Int64` milliseconds. -/
def InitBuffer (now : Int) (initiatorTime : Int) (marker : Nat) : Bytes × Int :=
  let time := initiatorTime
  let initiatorTime := 0
  if time = 0 then (InitBufferMarker now marker, initiatorTime)
  else
    let time := now - time
    if time > 262140 then (InitBufferMarker now marker, initiatorTime)
    else
      (List.replicate 6 0 ++ [(marker + 4) % 256] ++ be16 (TimeNow now) ++ be16 (Time time),
        initiatorTime)

end RTMFP

namespace RTMFPFlow

/-- Sum of the payload sizes of the fragments held in the reorder buffer. -/
def buffered (s : RTMFPFlow) : Nat :=
  (s._fragments.map (fun e => e.2.packet.length)).sum

end RTMFPFlow

namespace RTMFPFlow

/-- The increase of the lost-bytes counter as stated for an abandon at
`stage`: the skipped stages at `SIZE_PACKET` bytes each, cut to 32 bits, half
a packet when `MESSAGE_END` is not set, the payload sizes of the buffered
fragments with a stage up to `stage`, and the size of the pending reassembly
buffer. -/
def statedLost (s : RTMFPFlow) (stage flags : Nat) : Nat :=
  ((stage - nextStage s) * RTMFP.SIZE_PACKET) % 4294967296
  + (if flags &&& RTMFP.MESSAGE_END = 0 then RTMFP.SIZE_PACKET / 2 else 0)
  + ((s._fragments.filter (fun e => decide (e.1 ≤ stage))).map
      (fun e => e.2.packet.length)).sum
  + (match s._pBuffer with
    | some buf => buf.length
    | none => 0)

end RTMFPFlow

namespace GroupMedia

/-- Whether `GroupMedia::eraseOldFragments`, with `now` for `Time::Now()`,
ends in its branch `FATAL_ERROR("Unable to find the reference fragment ...")`:
it has passed the two early returns and `itFragment`, after
`_fragments.find(itTime->second)` and the step back, is `_fragments.end()`. -/
def referenceMissing (s : GroupMedia) (now : Int) : Bool :=
  if s._fragments = [] ∨ s._mapTime2Fragment = [] then false
  else
    let time2Keep : Int :=
      now - ((s.groupParameters.windowDuration + s.groupParameters.relayMargin : Nat) : Int)
    let itTime := lower_bound s._mapTime2Fragment time2Keep
    let itTime :=
      if itTime ≠ s._mapTime2Fragment.length ∧ itTime ≠ 0
          ∧ time2Keep > (s._mapTime2Fragment.getD itTime (0, 0)).1 then itTime - 1
      else itTime
    if itTime = s._mapTime2Fragment.length ∨ itTime = 0 then false
    else
      let itFragment :=
        (s._fragments.map Prod.fst).indexOf (s._mapTime2Fragment.getD itTime (0, 0)).2
      let itFragment :=
        if itFragment ≠ 0 ∧ itFragment ≠ s._fragments.length then itFragment - 1
        else itFragment
      decide (itFragment = s._fragments.length)

end GroupMedia

/-! ## Byte level lemmas -/

namespace Base

theorem beValue_be32 (v : Nat) (hv : v < 4294967296) : beValue (be32 v) = v := by
  simp only [be32, beValue, List.length_cons, List.length_nil]
  omega

theorem beValue_be16 (v : Nat) (hv : v < 65536) : beValue (be16 v) = v := by
  simp only [be16, beValue, List.length_cons, List.length_nil]
  omega

theorem beValue4_lt (a b c d : Nat) (ha : a < 256) (hb : b < 256) (hc : c < 256)
    (hd : d < 256) : beValue [a, b, c, d] < 4294967296 := by
  simp only [beValue, List.length_cons, List.length_nil]
  omega

theorem overwrite_length (buf : Bytes) (off : Nat) (src : Bytes) :
    (overwrite buf off src).length = buf.length := by
  simp only [overwrite, List.length_append, List.length_take, List.length_drop]
  omega

theorem beValue_lt (b : Bytes) (h : Bytes.valid b) : beValue b < 256 ^ b.length := by
  induction b with
  | nil => simp [beValue]
  | cons x rest ih =>
    have hx : x < 256 := h x (by simp)
    have hr := ih (fun y hy => h y (List.mem_cons_of_mem _ hy))
    simp only [beValue, List.length_cons, pow_succ]
    nlinarith [Nat.zero_le (256 ^ rest.length)]

theorem Bytes.valid_take (b : Bytes) (n : Nat) (h : Bytes.valid b) : Bytes.valid (b.take n) :=
  fun x hx => h x (List.mem_of_mem_take hx)

theorem Bytes.valid_drop (b : Bytes) (n : Nat) (h : Bytes.valid b) : Bytes.valid (b.drop n) :=
  fun x hx => h x (List.mem_of_mem_drop hx)

theorem overwrite_zero (buf src : Bytes) (h : src.length ≤ buf.length) :
    overwrite buf 0 src = src ++ buf.drop src.length := by
  simp [overwrite, List.take_of_length_le h]

theorem xor3_cancel (a b s : Nat) : (a ^^^ b ^^^ s) ^^^ a ^^^ b = s := by
  apply Nat.eq_of_testBit_eq
  intro i
  simp only [Nat.testBit_xor]
  cases a.testBit i <;> cases b.testBit i <;> cases s.testBit i <;> rfl

namespace BinaryReader

theorem read_eq (r : BinaryReader) (n : Nat) (h : r.pos + n ≤ r.data.length) :
    r.read n = ((r.data.drop r.pos).take n, ⟨r.data, r.pos + n⟩) := by
  have h1 : n - (r.data.length - r.pos) = 0 := by omega
  have h2 : ¬ n > r.data.length - r.pos := by omega
  simp [read, next, available, current, h1, h2]

theorem read32_eq (r : BinaryReader) (h : r.pos + 4 ≤ r.data.length) :
    r.read32 = (beValue ((r.data.drop r.pos).take 4), ⟨r.data, r.pos + 4⟩) := by
  simp [read32, read_eq r 4 h]

theorem read16_eq (r : BinaryReader) (h : r.pos + 2 ≤ r.data.length) :
    r.read16 = (beValue ((r.data.drop r.pos).take 2), ⟨r.data, r.pos + 2⟩) := by
  simp [read16, read_eq r 2 h]

end BinaryReader

end Base

/-! ## Session id packing -/

namespace RTMFP

theorem Unpack_eq (d : Bytes) (p : Nat) (h : 12 ≤ d.length) :
    Unpack ⟨d, p⟩ = (beValue (d.take 4) ^^^ beValue ((d.drop 4).take 4)
      ^^^ beValue ((d.drop 8).take 4), ⟨d, 4⟩) := by
  have h0 : (BinaryReader.reset ⟨d, p⟩ 0) = ⟨d, 0⟩ := by simp [BinaryReader.reset]
  have h4 : ¬ 4 > d.length := by omega
  simp only [Unpack, h0]
  rw [BinaryReader.read32_eq ⟨d, 0⟩ (by simp; omega)]
  rw [BinaryReader.read32_eq ⟨d, 0 + 4⟩ (by simp; omega)]
  rw [BinaryReader.read32_eq ⟨d, 0 + 4 + 4⟩ (by simp; omega)]
  simp [BinaryReader.reset, h4]

theorem Pack_eq (buffer : Bytes) (farId : Nat) (h : 12 ≤ buffer.length) :
    Pack buffer farId = be32 ((beValue ((buffer.drop 4).take 4)
      ^^^ beValue ((buffer.drop 8).take 4) ^^^ farId) % 4294967296) ++ buffer.drop 4 := by
  simp only [Pack]
  rw [BinaryReader.read32_eq ⟨buffer.drop 4, 0⟩ (by simp; omega)]
  rw [BinaryReader.read32_eq ⟨buffer.drop 4, 0 + 4⟩ (by simp; omega)]
  rw [overwrite_zero _ _ (by simp [be32]; omega)]
  simp [be32]

/-- C1: after `Pack buffer sid` on a buffer of at least 12 bytes, `Unpack`
returns `sid`, which is the XOR of the three big-endian words at offsets 0, 4
and 8 of the packed buffer, and leaves the reader at offset 4; `Pack` keeps the
size of the buffer and every byte from offset 4 on. -/
theorem pack_unpack (buffer : Bytes) (sid : Nat) (hlen : 12 ≤ buffer.length)
    (hbytes : Bytes.valid buffer) (hsid : sid < 4294967296) :
    (Unpack ⟨Pack buffer sid, 0⟩).1 = sid ∧
    (Unpack ⟨Pack buffer sid, 0⟩).1 =
      beValue ((Pack buffer sid).take 4) ^^^ beValue (((Pack buffer sid).drop 4).take 4)
        ^^^ beValue (((Pack buffer sid).drop 8).take 4) ∧
    (Unpack ⟨Pack buffer sid, 0⟩).2.pos = 4 ∧
    (Pack buffer sid).length = buffer.length ∧
    (Pack buffer sid).drop 4 = buffer.drop 4 := by
  have hw1 : beValue ((buffer.drop 4).take 4) < 4294967296 := by
    have := beValue_lt _ (Bytes.valid_take _ 4 (Bytes.valid_drop _ 4 hbytes))
    simpa [show min 4 (buffer.length - 4) = 4 by omega] using this
  have hw2 : beValue ((buffer.drop 8).take 4) < 4294967296 := by
    have := beValue_lt _ (Bytes.valid_take _ 4 (Bytes.valid_drop _ 8 hbytes))
    simpa [show min 4 (buffer.length - 8) = 4 by omega] using this
  have hx : beValue ((buffer.drop 4).take 4) ^^^ beValue ((buffer.drop 8).take 4) ^^^ sid
      < 4294967296 :=
    Nat.xor_lt_two_pow (n := 32) (Nat.xor_lt_two_pow (n := 32) hw1 hw2) hsid
  have hplen : (Pack buffer sid).length = buffer.length := by
    simp [Pack, overwrite_length]
  have hpack := Pack_eq buffer sid hlen
  rw [Nat.mod_eq_of_lt hx] at hpack
  have hdrop : (Pack buffer sid).drop 4 = buffer.drop 4 := by
    rw [hpack]; simp [be32]
  have htake : (Pack buffer sid).take 4 = be32 (beValue ((buffer.drop 4).take 4)
      ^^^ beValue ((buffer.drop 8).take 4) ^^^ sid) := by
    rw [hpack]; simp [be32]
  have hdrop8 : (Pack buffer sid).drop 8 = buffer.drop 8 := by
    have : (Pack buffer sid).drop 8 = ((Pack buffer sid).drop 4).drop 4 := by simp
    rw [this, hdrop]; simp
  have hun := Unpack_eq (Pack buffer sid) 0 (by omega)
  rw [hun]
  refine ⟨?_, rfl, rfl, hplen, hdrop⟩
  simp only [htake, hdrop, hdrop8, beValue_be32 _ hx]
  exact xor3_cancel _ _ _

/-- Witness for `pack_unpack` on a 12 byte buffer and session id `0x01020304`. -/
theorem pack_unpack_witness :
    (Unpack ⟨Pack [0, 0, 0, 0, 9, 8, 7, 6, 5, 4, 3, 2] 16909060, 0⟩).1 = 16909060 :=
  (pack_unpack [0, 0, 0, 0, 9, 8, 7, 6, 5, 4, 3, 2] 16909060 (by decide) (by decide)
    (by decide)).1

end RTMFP

/-! ## Datagram codec -/

namespace Base

theorem overwrite_full (buf src : Bytes) (h : src.length = buf.length) :
    overwrite buf 0 src = src := by
  rw [overwrite_zero buf src (le_of_eq h), h]
  simp

theorem overwrite_mid (buf src : Bytes) (off : Nat) (h : off + src.length ≤ buf.length) :
    overwrite buf off src = buf.take off ++ src ++ buf.drop (off + src.length) := by
  have : src.length ≤ buf.length - off := by omega
  simp [overwrite, List.take_of_length_le this]

theorem Crypto.ComputeChecksum_lt (r : BinaryReader) : Crypto.ComputeChecksum r < 65536 := by
  simp only [Crypto.ComputeChecksum]
  omega

theorem Crypto.ComputeChecksum_congr (r1 r2 : BinaryReader) (h : r1.current = r2.current) :
    Crypto.ComputeChecksum r1 = Crypto.ComputeChecksum r2 := by
  simp only [Crypto.ComputeChecksum, h]

end Base

namespace RTMFP

theorem paddingBytesLength_mod (size : Nat) : (size + paddingBytesLength size) % 16 = 4 := by
  simp only [paddingBytesLength]
  omega

theorem paddingBytesLength_le (size : Nat) : paddingBytesLength size ≤ 15 := by
  simp only [paddingBytesLength]
  omega

theorem Engine.plain_length (p : Bytes) :
    (Engine.plain p).length = p.length + paddingBytesLength p.length := by
  simp [Engine.plain, overwrite_length]

theorem Engine.encode_length (aes : AES128CBC) (e : Engine) (p : Bytes) (farId : Nat) :
    (Engine.encode aes e p farId).length = p.length + paddingBytesLength p.length := by
  have hm := paddingBytesLength_mod p.length
  simp only [Engine.encode, overwrite_length, List.length_append, List.length_take,
    List.length_drop, Engine.plain_length]
  omega

theorem Engine.plain_eq (p : Bytes) (hp : 6 ≤ p.length) :
    Engine.plain p = p.take 4 ++ be16 (Crypto.ComputeChecksum
        ⟨p.drop 6 ++ List.replicate (paddingBytesLength p.length) 0xFF, 0⟩)
      ++ (p.drop 6 ++ List.replicate (paddingBytesLength p.length) 0xFF) := by
  have h6 : ¬ 6 > (p ++ List.replicate (paddingBytesLength p.length) 0xFF).length - 0 := by
    simp; omega
  have hc : Crypto.ComputeChecksum
      ((⟨p ++ List.replicate (paddingBytesLength p.length) 0xFF, 0⟩ : BinaryReader).next 6)
      = Crypto.ComputeChecksum
        ⟨p.drop 6 ++ List.replicate (paddingBytesLength p.length) 0xFF, 0⟩ := by
    apply Crypto.ComputeChecksum_congr
    simp only [BinaryReader.next, BinaryReader.current, BinaryReader.available, h6, if_false]
    simp [List.drop_append_of_le_length hp]
  simp only [Engine.plain, hc]
  rw [overwrite_mid _ _ 4 (by simp [be16]; omega)]
  have h4 : 4 ≤ p.length := by omega
  simp [be16, List.take_append_of_le_length h4, List.drop_append_of_le_length hp]

theorem Engine.encode_drop (aes : AES128CBC) (e : Engine) (p : Bytes) (farId : Nat) :
    (Engine.encode aes e p farId).drop 4
      = aes.encrypt e._key ((Engine.plain p).drop 4) := by
  have hl := Engine.plain_length p
  have hm := paddingBytesLength_mod p.length
  have h1 : overwrite ((Engine.plain p).drop 4) 0 (aes.encrypt e._key ((Engine.plain p).drop 4))
      = aes.encrypt e._key ((Engine.plain p).drop 4) :=
    overwrite_full _ _ (aes.encrypt_length _ _)
  simp only [Engine.encode, h1]
  rw [overwrite_zero _ _ (by
    simp only [be32, List.length_cons, List.length_nil, List.length_append, List.length_take,
      aes.encrypt_length, List.length_drop]
    omega)]
  have h4 : ((Engine.plain p).take 4).length = 4 := by
    simp only [List.length_take]; omega
  simp only [be32, List.length_cons, List.length_nil]
  rw [List.drop_append_eq_append_drop]
  simp [h4]

end RTMFP

namespace RTMFP

theorem Engine.decode_eq (aes : AES128CBC) (e : Engine) (buffer : Bytes)
    (h : 2 ≤ buffer.length) :
    Engine.decode aes e buffer =
      if Crypto.ComputeChecksum ⟨(aes.decrypt e._key buffer).drop 2, 0⟩
          ≠ beValue ((aes.decrypt e._key buffer).take 2) then
        (false, some Ex.Protocol, aes.decrypt e._key buffer)
      else (true, none, (aes.decrypt e._key buffer).drop 2) := by
  have h1 : overwrite buffer 0 (aes.decrypt e._key buffer) = aes.decrypt e._key buffer :=
    overwrite_full _ _ (aes.decrypt_length _ _)
  have h2 : (0 : Nat) + 2 ≤ (aes.decrypt e._key buffer).length := by
    rw [aes.decrypt_length]; omega
  have h3 : Crypto.ComputeChecksum ⟨aes.decrypt e._key buffer, 0 + 2⟩
      = Crypto.ComputeChecksum ⟨(aes.decrypt e._key buffer).drop 2, 0⟩ := by
    apply Crypto.ComputeChecksum_congr
    simp [BinaryReader.current]
  simp only [Engine.decode, h1]
  rw [BinaryReader.read16_eq ⟨aes.decrypt e._key buffer, 0⟩ h2]
  simp only [h3, List.drop_zero]

/-- When the decrypting call gives back what the encrypting call was given,
`decode` applied to bytes `[4..end)` of the datagram of `encode` succeeds and
leaves bytes `[6..end)` of the buffer followed by the `0xFF` padding. -/
theorem Engine.decode_encode_of_inverse (aes : AES128CBC) (k p : Bytes) (farId : Nat)
    (hp : 6 ≤ p.length)
    (hdec : aes.decrypt k (aes.encrypt k ((Engine.plain p).drop 4)) = (Engine.plain p).drop 4) :
    Engine.decode aes ⟨k⟩ ((Engine.encode aes ⟨k⟩ p farId).drop 4)
      = (true, none, p.drop 6 ++ List.replicate (paddingBytesLength p.length) 0xFF) := by
  have hl := Engine.plain_length p
  have hm := paddingBytesLength_mod p.length
  rw [Engine.encode_drop, Engine.decode_eq _ _ _ (by
    rw [aes.encrypt_length]; simp only [List.length_drop, hl]; omega)]
  simp only [hdec]
  have h4 : (p.take 4).length = 4 := by simp only [List.length_take]; omega
  have hd : (Engine.plain p).drop 4 = be16 (Crypto.ComputeChecksum
        ⟨p.drop 6 ++ List.replicate (paddingBytesLength p.length) 0xFF, 0⟩)
      ++ (p.drop 6 ++ List.replicate (paddingBytesLength p.length) 0xFF) := by
    rw [Engine.plain_eq p hp, List.append_assoc, List.drop_append_eq_append_drop]
    simp [h4]
  rw [hd]
  have ht : ∀ (c : Nat) (l : Bytes), (be16 c ++ l).take 2 = be16 c := by
    intro c l; simp [be16]
  have hdr : ∀ (c : Nat) (l : Bytes), (be16 c ++ l).drop 2 = l := by
    intro c l; simp [be16]
  rw [ht, hdr, beValue_be16 _ (Crypto.ComputeChecksum_lt _)]
  simp

/-- The decrypting `EVP_CipherUpdate` on a whole number of blocks leaves the
last block of the range as it was. -/
theorem EVP_CipherUpdate_last_block (aes : AES128CBC) (key data : Bytes)
    (h16 : data.length % 16 = 0) (hne : 16 ≤ data.length) :
    (EVP_CipherUpdate aes false key data).drop (data.length - 16)
      = data.drop (data.length - 16) := by
  have hwhole : data.length / 16 * 16 = data.length := by omega
  simp only [EVP_CipherUpdate, Bool.false_eq_true, if_false, hwhole, h16, true_and]
  rw [if_pos (by omega)]
  apply List.drop_left'
  rw [aes.decrypt_length, List.length_take]
  omega

/-- C3: on a buffer of at least 2 bytes `decode` returns true exactly when the
first two decrypted bytes, read big-endian, equal the checksum of the
remaining decrypted bytes; on success the buffer is the decrypted bytes
without these two and no exception is set, on mismatch the result is false
with a Protocol exception and the decrypted buffer is left whole. -/
theorem Engine.decode_iff_crc (aes : AES128CBC) (e : Engine) (buffer : Bytes)
    (h : 2 ≤ buffer.length) :
    ((Engine.decode aes e buffer).1 = true ↔
      beValue ((aes.decrypt e._key buffer).take 2)
        = Crypto.ComputeChecksum ⟨(aes.decrypt e._key buffer).drop 2, 0⟩) ∧
    ((Engine.decode aes e buffer).1 = true →
      (Engine.decode aes e buffer).2 = (none, (aes.decrypt e._key buffer).drop 2)) ∧
    ((Engine.decode aes e buffer).1 = false →
      (Engine.decode aes e buffer).2 = (some Ex.Protocol, aes.decrypt e._key buffer)) := by
  rw [Engine.decode_eq aes e buffer h]
  by_cases hc : Crypto.ComputeChecksum ⟨(aes.decrypt e._key buffer).drop 2, 0⟩
      = beValue ((aes.decrypt e._key buffer).take 2)
  · simp [hc]
  · have hc2 : ¬ beValue ((aes.decrypt e._key buffer).take 2)
        = Crypto.ComputeChecksum ⟨(aes.decrypt e._key buffer).drop 2, 0⟩ :=
      fun h => hc h.symm
    simp [hc, hc2]

/-- Witness for `Engine.decode_iff_crc`: a buffer whose decrypted form starts
with the checksum `0xFFFC` of the bytes `[0, 3]` that follow. -/
theorem Engine.decode_iff_crc_witness :
    (Engine.decode reversalCipher ⟨[]⟩ [3, 0, 252, 255]).1 = true ∧
    (Engine.decode reversalCipher ⟨[]⟩ [3, 0, 252, 255]).2 = (none, [0, 3]) :=
  ⟨(Engine.decode_iff_crc reversalCipher ⟨[]⟩ [3, 0, 252, 255] (by decide)).1.2 (by decide),
   (Engine.decode_iff_crc reversalCipher ⟨[]⟩ [3, 0, 252, 255] (by decide)).2.1 (by decide)⟩

end RTMFP

namespace Base

theorem overwrite_drop (buf src : Bytes) (off n : Nat) (h : off + src.length ≤ n) :
    (overwrite buf off src).drop n = buf.drop n := by
  by_cases hb : off + src.length ≤ buf.length
  · rw [overwrite_mid buf src off hb, List.drop_append_eq_append_drop]
    have h1 : (buf.take off ++ src).length = off + src.length := by
      simp only [List.length_append, List.length_take]; omega
    have h2 : (buf.take off ++ src).drop n = [] := by
      apply List.drop_eq_nil_of_le; omega
    rw [h1, h2, List.nil_append, List.drop_drop]
    congr 1; omega
  · have h1 : (overwrite buf off src).drop n = [] := by
      apply List.drop_eq_nil_of_le; rw [overwrite_length]; omega
    have h2 : buf.drop n = [] := by
      apply List.drop_eq_nil_of_le; omega
    rw [h1, h2]

end Base

namespace RTMFP

/-- C4, the claim as stated fails: the datagram of a 9-byte buffer has 20
bytes, which is not a multiple of 16. -/
theorem Engine.encode_length_not_multiple :
    ¬ (Engine.encode reversalCipher ⟨List.replicate 16 1⟩ [0, 0, 0, 0, 0, 0, 1, 2, 3] 5).length
      % 16 = 0 := by
  decide

/-- C4 as amended: for every input buffer the bytes `encode` appends before
encryption are all `0xFF` (every byte of the plain request from offset
`max size 6` on), bytes `[4..end)` of the datagram are the encryption of bytes
`[4..end)` of that plain request, and the total length of the datagram is
congruent to 4 modulo 16, the encrypted part being a whole number of 16-byte
blocks. -/
theorem Engine.encode_padding (aes : AES128CBC) (e : Engine) (p : Bytes) (farId : Nat) :
    (Engine.plain p).drop (max p.length 6)
      = List.replicate (p.length + paddingBytesLength p.length - max p.length 6) 0xFF ∧
    (Engine.encode aes e p farId).drop 4 = aes.encrypt e._key ((Engine.plain p).drop 4) ∧
    (Engine.encode aes e p farId).length = p.length + paddingBytesLength p.length ∧
    (Engine.encode aes e p farId).length % 16 = 4 ∧
    ((Engine.encode aes e p farId).drop 4).length % 16 = 0 := by
  have hm := paddingBytesLength_mod p.length
  have hl := Engine.encode_length aes e p farId
  refine ⟨?_, Engine.encode_drop aes e p farId, hl, by rw [hl]; exact hm, ?_⟩
  · simp only [Engine.plain]
    rw [overwrite_drop _ _ 4 _ (by simp [be16])]
    rw [List.drop_append_eq_append_drop]
    have h1 : p.drop (max p.length 6) = [] := by
      apply List.drop_eq_nil_of_le; omega
    rw [h1, List.nil_append, List.drop_replicate]
    congr 1; omega
  · simp only [List.length_drop, hl]; omega

/-- C5, the claim as stated fails: a buffer of 1192 bytes, for which no
warning is raised, is returned as a datagram of 1204 bytes. -/
theorem Engine.encode_exceeds_size_packet :
    (List.replicate 1192 0).length ≤ SIZE_PACKET ∧
    ¬ (Engine.encode reversalCipher ⟨List.replicate 16 1⟩ (List.replicate 1192 0) 0).length
      ≤ 1192 := by
  refine ⟨by simp only [List.length_replicate, SIZE_PACKET]; decide, ?_⟩
  rw [Engine.encode_length]
  simp only [List.length_replicate, paddingBytesLength]
  decide

/-- C5 as amended: the datagram returned for an input buffer of at most 1192
bytes is the input plus at most 15 padding bytes and at most 1204 bytes long;
it is at most 1188 bytes long when the input is. -/
theorem Engine.encode_size_bound (aes : AES128CBC) (e : Engine) (p : Bytes) (farId : Nat)
    (hp : p.length ≤ SIZE_PACKET) :
    p.length ≤ (Engine.encode aes e p farId).length ∧
    (Engine.encode aes e p farId).length ≤ p.length + 15 ∧
    (Engine.encode aes e p farId).length ≤ 1204 ∧
    (p.length ≤ 1188 → (Engine.encode aes e p farId).length ≤ 1188) := by
  have hm := paddingBytesLength_mod p.length
  have hle := paddingBytesLength_le p.length
  rw [Engine.encode_length]
  simp only [SIZE_PACKET] at hp
  refine ⟨by omega, by omega, by omega, ?_⟩
  intro h
  omega

/-- Witness for `Engine.encode_size_bound` on a 9-byte buffer. -/
theorem Engine.encode_size_bound_witness :
    (Engine.encode reversalCipher ⟨List.replicate 16 1⟩ [0, 0, 0, 0, 0, 0, 1, 2, 3] 5).length
      ≤ 1188 :=
  (Engine.encode_size_bound reversalCipher ⟨List.replicate 16 1⟩ [0, 0, 0, 0, 0, 0, 1, 2, 3] 5
    (by decide)).2.2.2 (by decide)

/-- C6: with an HMAC-SHA256 `H` whose digests have `SHA256_SIZE` bytes,
`ComputeAsymetricKeys` yields `requestKey = H(shared, H(Nr, Ni))` and
`responseKey = H(shared, H(Ni, Nr))`, and the call with the two nonces
exchanged yields the same two keys swapped. -/
theorem ComputeAsymetricKeys_spec (H : Bytes → Bytes → Bytes)
    (hH : ∀ key data, (H key data).length = Crypto.SHA256_SIZE)
    (sharedSecret Ni Nr : Bytes) :
    ComputeAsymetricKeys H sharedSecret Ni Nr
      = (H sharedSecret (H Nr Ni), H sharedSecret (H Ni Nr)) ∧
    ComputeAsymetricKeys H sharedSecret Nr Ni
      = ((ComputeAsymetricKeys H sharedSecret Ni Nr).2,
         (ComputeAsymetricKeys H sharedSecret Ni Nr).1) := by
  have ht : ∀ key data, (H key data).take Crypto.SHA256_SIZE = H key data := by
    intro key data
    exact List.take_of_length_le (le_of_eq (hH key data))
  simp [ComputeAsymetricKeys, ht]

/-- Witness for `ComputeAsymetricKeys_spec`: a digest function that keeps 32
bytes of key and data followed by zeros. -/
theorem ComputeAsymetricKeys_spec_witness :
    ComputeAsymetricKeys (fun key data => (key ++ data ++ List.replicate 32 0).take 32)
        [7] [1, 2] [3]
      = ((fun key data => (key ++ data ++ List.replicate 32 0).take 32) [7]
          ((fun key data => (key ++ data ++ List.replicate 32 0).take 32) [3] [1, 2]),
         (fun key data => (key ++ data ++ List.replicate 32 0).take 32) [7]
          ((fun key data => (key ++ data ++ List.replicate 32 0).take 32) [1, 2] [3])) :=
  (ComputeAsymetricKeys_spec (fun key data => (key ++ data ++ List.replicate 32 0).take 32)
    (by intro key data; simp [Crypto.SHA256_SIZE]; omega) [7] [1, 2] [3]).1

end RTMFP

/-! ## Address encoding -/

namespace Base

theorem map_getD_range (l : Bytes) (h : Bytes.valid l) :
    (List.range l.length).map (fun i => l.getD i 0 % 256) = l := by
  apply List.ext_getElem
  · simp
  · intro i h1 h2
    have hi : i < l.length := h2
    have hv : l[i] < 256 := h _ (List.getElem_mem hi)
    simp [List.getD_eq_getElem?_getD, List.getElem?_eq_getElem hi, Nat.mod_eq_of_lt hv]

namespace BinaryReader

theorem current_append (w rest : Bytes) :
    (⟨w ++ rest, w.length⟩ : BinaryReader).current = rest := by
  simp [current]

end BinaryReader

end Base

namespace RTMFP

/-- The flags byte of `WriteAddress`. -/
theorem flags_byte (t : Nat) (ht : t ≤ 3) :
    (t ||| 0x80) % 256 = t + 128 ∧ (t + 128) &&& 0x80 ≠ 0 ∧ (t + 128) &&& 0x7F = t ∧
    t % 256 = t ∧ t &&& 0x80 = 0 ∧ t &&& 0x7F = t := by
  interval_cases t <;> decide

theorem WriteAddress_eq (w : Bytes) (a : SocketAddress) (t : AddressType)
    (ha : a.wf) (ht : t ≤ 3) :
    WriteAddress w a t
      = w ++ ((if a.host.family = Family.IPv6 then t + 128 else t) :: a.host.data
          ++ be16 a.port) := by
  obtain ⟨hlen, hvalid, _, _⟩ := ha
  have hf := flags_byte t ht
  simp only [WriteAddress, ← hlen, map_getD_range _ hvalid]
  by_cases h6 : a.host.family = Family.IPv6
  · simp [h6, hf.1]
  · simp [h6, hf.2.2.2.1]

theorem ReadAddr_read16_eq (w post addr : Bytes) (flag port : Nat)
    (size : Nat) (hsize : addr.length = size) (hport : port < 65536) :
    let r : BinaryReader := ⟨w ++ (flag :: addr ++ be16 port) ++ post, w.length⟩
    (ReadAddr (r.read8).2 size).1 = addr ∧
    ((ReadAddr (r.read8).2 size).2.read16).1 = port ∧
    ((ReadAddr (r.read8).2 size).2.read16).2
      = ⟨w ++ (flag :: addr ++ be16 port) ++ post, w.length + (1 + size + 2)⟩ ∧
    (r.read8).1 = flag := by
  intro r
  have hcur : r.current = flag :: (addr ++ be16 port ++ post) := by
    simp [r, BinaryReader.current]
  have h8 : r.read8 = (flag, ⟨w ++ (flag :: addr ++ be16 port) ++ post, w.length + 1⟩) := by
    simp only [BinaryReader.read8, hcur]
  have hlen : (w ++ (flag :: addr ++ be16 port) ++ post).length
      = w.length + (1 + size + 2) + post.length := by
    simp [be16, hsize]; omega
  have hav : ¬ (⟨w ++ (flag :: addr ++ be16 port) ++ post, w.length + 1⟩ : BinaryReader).available
      < size + 2 := by
    simp only [BinaryReader.available, hlen]; omega
  have hnext : ¬ size > (⟨w ++ (flag :: addr ++ be16 port) ++ post, w.length + 1⟩
      : BinaryReader).available := by
    simp only [BinaryReader.available, hlen]; omega
  have hcur2 : (⟨w ++ (flag :: addr ++ be16 port) ++ post, w.length + 1⟩ : BinaryReader).current
      = addr ++ (be16 port ++ post) := by
    have : w ++ (flag :: addr ++ be16 port) ++ post
        = (w ++ [flag]) ++ (addr ++ (be16 port ++ post)) := by simp
    rw [this]
    have hl : w.length + 1 = (w ++ [flag]).length := by simp
    rw [hl]
    exact BinaryReader.current_append _ _
  have hra : ReadAddr ⟨w ++ (flag :: addr ++ be16 port) ++ post, w.length + 1⟩ size
      = (addr, ⟨w ++ (flag :: addr ++ be16 port) ++ post, w.length + 1 + size⟩) := by
    simp only [ReadAddr, hav, if_false, hcur2, BinaryReader.next, hnext]
    rw [← hsize, List.take_left]
  have h16 : (⟨w ++ (flag :: addr ++ be16 port) ++ post, w.length + 1 + size⟩
      : BinaryReader).read16
      = (port, ⟨w ++ (flag :: addr ++ be16 port) ++ post, w.length + 1 + size + 2⟩) := by
    rw [BinaryReader.read16_eq _ (by simp only [hlen]; omega)]
    have : w ++ (flag :: addr ++ be16 port) ++ post
        = (w ++ [flag] ++ addr) ++ (be16 port ++ post) := by simp
    have hl : w.length + 1 + size = (w ++ [flag] ++ addr).length := by
      simp only [List.length_append, List.length_cons, List.length_nil, hsize]
    simp only
    rw [this, hl, List.drop_left]
    have ht : (be16 port ++ post).take 2 = be16 port := by simp [be16]
    rw [ht, beValue_be16 _ hport]
  rw [h8]
  simp only [hra, h16]
  refine ⟨trivial, trivial, ?_, trivial⟩
  congr 1
  omega

end RTMFP

namespace RTMFP

theorem ReadAddress_layout (toBool : SocketAddress → Bool) (w post addr : Bytes)
    (flag port : Nat) (hport : port < 65536) :
    (flag &&& 0x80 ≠ 0 → addr.length = 16 →
      ReadAddress toBool ⟨w ++ (flag :: addr ++ be16 port) ++ post, w.length⟩
        = (if toBool (SocketAddress.setIPv6 addr port) then flag &&& 0x7F
            else ADDRESS_UNSPECIFIED,
           SocketAddress.setIPv6 addr port,
           ⟨w ++ (flag :: addr ++ be16 port) ++ post, w.length + (1 + 16 + 2)⟩)) ∧
    (flag &&& 0x80 = 0 → addr.length = 4 →
      ReadAddress toBool ⟨w ++ (flag :: addr ++ be16 port) ++ post, w.length⟩
        = (if toBool (SocketAddress.setIPv4 addr port) then flag &&& 0x7F
            else ADDRESS_UNSPECIFIED,
           SocketAddress.setIPv4 addr port,
           ⟨w ++ (flag :: addr ++ be16 port) ++ post, w.length + (1 + 4 + 2)⟩)) := by
  constructor
  · intro hf hl
    obtain ⟨h1, h2, h3, h4⟩ := ReadAddr_read16_eq w post addr flag port 16 hl hport
    simp only [ReadAddress, h4, hf, if_true, h1, h2, h3, ne_eq, not_false_eq_true]
  · intro hf hl
    obtain ⟨h1, h2, h3, h4⟩ := ReadAddr_read16_eq w post addr flag port 4 hl hport
    simp only [ReadAddress, h4, hf, h1, h2, h3, ne_eq, not_true_eq_false, if_false]

/-- C7, the claim as stated fails: the IPv6 address `::1` with scope
identifier 5 and port 80 is non-null, yet what `ReadAddress` rebuilds from the
bytes of `WriteAddress` differs from it, the scope identifier being no part
of the encoding. -/
theorem ReadAddress_loses_scope :
    SocketAddress.wf ⟨⟨Family.IPv6, List.replicate 15 0 ++ [1], 5⟩, 80⟩ ∧
    (fun (a : SocketAddress) => decide (a.host.data ≠ List.replicate a.host.size 0 ∨ a.port ≠ 0))
      ⟨⟨Family.IPv6, List.replicate 15 0 ++ [1], 5⟩, 80⟩ = true ∧
    ADDRESS_LOCAL ≤ 3 ∧
    (ReadAddress (fun a => decide (a.host.data ≠ List.replicate a.host.size 0 ∨ a.port ≠ 0))
      ⟨WriteAddress [] ⟨⟨Family.IPv6, List.replicate 15 0 ++ [1], 5⟩, 80⟩ ADDRESS_LOCAL, 0⟩).2.1
      ≠ ⟨⟨Family.IPv6, List.replicate 15 0 ++ [1], 5⟩, 80⟩ := by
  decide

/-- C7 as amended: for every well formed socket address `a` that converts to
true (non-null) and has IPv6 scope identifier 0, and every address type
`t ≤ 3`: `WriteAddress` appends the flags byte (`t`, plus `0x80` exactly for
IPv6), the 4 or 16 address bytes and the big-endian port, 7 or 19 bytes in
total, and `ReadAddress` at the start of these bytes returns `t`, rebuilds `a`
and stops right behind them. -/
theorem ReadAddress_WriteAddress (toBool : SocketAddress → Bool) (w post : Bytes)
    (a : SocketAddress) (t : AddressType)
    (ha : a.wf) (hscope : a.host.scope = 0) (hnn : toBool a = true) (ht : t ≤ 3) :
    WriteAddress w a t
      = w ++ ((if a.host.family = Family.IPv6 then t + 128 else t) :: a.host.data
          ++ be16 a.port) ∧
    ((if a.host.family = Family.IPv6 then t + 128 else t) &&& 0x80 ≠ 0
      ↔ a.host.family = Family.IPv6) ∧
    (if a.host.family = Family.IPv6 then t + 128 else t) &&& 0x7F = t ∧
    (WriteAddress w a t).length
      = w.length + (if a.host.family = Family.IPv6 then 19 else 7) ∧
    ReadAddress toBool ⟨WriteAddress w a t ++ post, w.length⟩
      = (t, a, ⟨WriteAddress w a t ++ post, (WriteAddress w a t).length⟩) := by
  have hw := WriteAddress_eq w a t ha ht
  have hf := flags_byte t ht
  obtain ⟨hlen, hvalid, hport, _⟩ := ha
  obtain ⟨⟨fam, data, scope⟩, port⟩ := a
  simp only at hscope hlen hport hw hnn ⊢
  subst hscope
  cases fam with
  | IPv4 =>
    have hl : data.length = 4 := by simpa [IPAddress.size] using hlen
    have hr := (ReadAddress_layout toBool w post data t port hport).2 hf.2.2.2.2.1 hl
    have e : SocketAddress.setIPv4 data port = ⟨⟨Family.IPv4, data, 0⟩, port⟩ := rfl
    rw [e, hnn] at hr
    simp only [if_true, hf.2.2.2.2.2] at hr
    have hlw : (w ++ (t :: data ++ be16 port)).length = w.length + 7 := by
      simp [be16, hl]
    simp only [hw, reduceCtorEq, if_false, hf.2.2.2.2.1, hf.2.2.2.2.2, hr, hlw]
    simp
  | IPv6 =>
    have hl : data.length = 16 := by simpa [IPAddress.size] using hlen
    have hr := (ReadAddress_layout toBool w post data (t + 128) port hport).1 hf.2.1 hl
    have e : SocketAddress.setIPv6 data port = ⟨⟨Family.IPv6, data, 0⟩, port⟩ := rfl
    rw [e, hnn] at hr
    simp only [if_true, hf.2.2.1] at hr
    have hlw : (w ++ ((t + 128) :: data ++ be16 port)).length = w.length + 19 := by
      simp [be16, hl]
    simp only [hw, if_true, hf.2.2.1, hr, hlw]
    simp [hf.2.1]

/-- Witness for `ReadAddress_WriteAddress`: the IPv4 address 1.2.3.4:1935
written as a public address. -/
theorem ReadAddress_WriteAddress_witness :
    ReadAddress (fun _ => true)
      ⟨WriteAddress [] ⟨⟨Family.IPv4, [1, 2, 3, 4], 0⟩, 1935⟩ ADDRESS_PUBLIC ++ [9], 0⟩
      = (ADDRESS_PUBLIC, ⟨⟨Family.IPv4, [1, 2, 3, 4], 0⟩, 1935⟩,
         ⟨WriteAddress [] ⟨⟨Family.IPv4, [1, 2, 3, 4], 0⟩, 1935⟩ ADDRESS_PUBLIC ++ [9],
          (WriteAddress [] ⟨⟨Family.IPv4, [1, 2, 3, 4], 0⟩, 1935⟩ ADDRESS_PUBLIC).length⟩) :=
  (ReadAddress_WriteAddress (fun _ => true) [] [9] ⟨⟨Family.IPv4, [1, 2, 3, 4], 0⟩, 1935⟩
    ADDRESS_PUBLIC (by decide) rfl rfl (by decide)).2.2.2.2

end RTMFP

/-! ## Flow reassembly: duplicates -/

namespace RTMFPFlow

/-- C10, the claim as stated fails in two ways. After stages 1 and 2, the
second with `MESSAGE_END`, the flow is completed and the duplicate stage 1 is
accepted anyway: the current stage goes back from 2 to 1. After stages 1 and 2
without end, the duplicate stage 1 carrying `MESSAGE_END` records 1 as
`_stageEnd`. -/
theorem input_duplicate_changes_state :
    (1 < nextStage (run fresh [⟨1, 0, [1], false⟩, ⟨2, 1, [2], true⟩]) ∧
      (input (run fresh [⟨1, 0, [1], false⟩, ⟨2, 1, [2], true⟩]) 1 0 [1] false)._stage = 1 ∧
      (run fresh [⟨1, 0, [1], false⟩, ⟨2, 1, [2], true⟩])._stage = 2) ∧
    (1 < nextStage (run fresh [⟨1, 0, [1], false⟩, ⟨2, 0, [2], false⟩]) ∧
      (input (run fresh [⟨1, 0, [1], false⟩, ⟨2, 0, [2], false⟩]) 1 1 [1] false)._stageEnd = 1 ∧
      (run fresh [⟨1, 0, [1], false⟩, ⟨2, 0, [2], false⟩])._stageEnd = 0) := by
  decide

/-- C10 as amended: for every flow state and every input whose stage is below
`nextStage`, whatever its payload: when a `_stageEnd` is recorded and
fragments are still buffered, or when no `_stageEnd` is recorded and the input
does not carry `MESSAGE_END`, the input is dropped, nothing is delivered and
the whole state is unchanged; when the flow is completed (`_stageEnd` recorded,
nothing buffered) the input is accepted anyway, which sets the current stage
to its stage and changes nothing else. -/
theorem input_duplicate (s : RTMFPFlow) (stage flags : Nat) (packet : Bytes)
    (lastFragment : Bool) (hdup : stage < nextStage s) :
    (s._stageEnd ≠ 0 → s._fragments ≠ [] → input s stage flags packet lastFragment = s) ∧
    (s._stageEnd = 0 → flags &&& RTMFP.MESSAGE_END = 0 →
      input s stage flags packet lastFragment = s) ∧
    (s._stageEnd ≠ 0 → s._fragments = [] →
      input s stage flags packet lastFragment = { s with _stage := stage }) := by
  refine ⟨?_, ?_, ?_⟩
  · intro he hf
    by_cases hgt : stage > s._stageEnd
    · simp [input, he, hf, hgt]
    · simp [input, dispatch, he, hf, hgt, hdup]
  · intro he hf
    simp [input, dispatch, he, hf, hdup]
  · intro he hf
    simp [input, he, hf]

/-- Witness for `input_duplicate`: stage 1 again after stages 1 and 2. -/
theorem input_duplicate_witness :
    input (run fresh [⟨1, 0, [1], false⟩, ⟨2, 0, [2], false⟩]) 1 0 [1] false
      = run fresh [⟨1, 0, [1], false⟩, ⟨2, 0, [2], false⟩] :=
  (input_duplicate (run fresh [⟨1, 0, [1], false⟩, ⟨2, 0, [2], false⟩]) 1 0 [1] false
    (by decide)).2.1 (by decide) (by decide)

end RTMFPFlow

/-! ## Flow reassembly: invariants -/

namespace RTMFPFlow

theorem onFragment_stage (s : RTMFPFlow) (st fl : Nat) (p : Bytes) (l : Bool) :
    (onFragment s st fl p l)._stage = st := by
  simp only [onFragment, output]
  split <;> split_ifs <;> rfl

theorem onFragment_fragments (s : RTMFPFlow) (st fl : Nat) (p : Bytes) (l : Bool) :
    (onFragment s st fl p l)._fragments = s._fragments := by
  simp only [onFragment, output]
  split <;> split_ifs <;> rfl

theorem onFragment_stageEnd (s : RTMFPFlow) (st fl : Nat) (p : Bytes) (l : Bool) :
    (onFragment s st fl p l)._stageEnd = s._stageEnd := by
  simp only [onFragment, output]
  split <;> split_ifs <;> rfl

theorem onFragment_delivered (s : RTMFPFlow) (st fl : Nat) (p : Bytes) (l : Bool) :
    (onFragment s st fl p l).delivered = s.delivered ++ [st] := by
  simp only [onFragment, output]
  split <;> split_ifs <;> rfl

theorem finish_stage (s : RTMFPFlow) : (finish s)._stage = s._stage := by
  simp only [finish, output]; split_ifs <;> rfl

theorem finish_fragments (s : RTMFPFlow) : (finish s)._fragments = s._fragments := by
  simp only [finish, output]; split_ifs <;> rfl

theorem finish_stageEnd (s : RTMFPFlow) : (finish s)._stageEnd = s._stageEnd := by
  simp only [finish, output]; split_ifs <;> rfl

theorem finish_delivered (s : RTMFPFlow) : (finish s).delivered = s.delivered := by
  simp only [finish, output]; split_ifs <;> rfl

theorem emplace_mem (l : List (Nat × Fragment)) (k : Nat) (f : Fragment) (e : Nat × Fragment)
    (h : e ∈ (emplace l k f).1) : e ∈ l ∨ e = (k, f) := by
  induction l with
  | nil => simp [emplace] at h; exact Or.inr h
  | cons x rest ih =>
    obtain ⟨k0, f0⟩ := x
    simp only [emplace] at h
    split_ifs at h with h1 h2
    · simp only [List.mem_cons] at h ⊢
      rcases h with h | h | h
      · exact Or.inr h
      · exact Or.inl (Or.inl h)
      · exact Or.inl (Or.inr h)
    · exact Or.inl h
    · simp only [List.mem_cons] at h ⊢
      rcases h with h | h
      · exact Or.inl (Or.inl h)
      · rcases ih h with h | h
        · exact Or.inl (Or.inr h)
        · exact Or.inr h

theorem emplace_sorted (l : List (Nat × Fragment)) (k : Nat) (f : Fragment)
    (h : sortedKeys l) : sortedKeys (emplace l k f).1 := by
  induction l with
  | nil => simp [emplace, sortedKeys]
  | cons x rest ih =>
    obtain ⟨k0, f0⟩ := x
    have hx := List.pairwise_cons.mp h
    simp only [emplace]
    split_ifs with h1 h2
    · apply List.pairwise_cons.mpr
      refine ⟨?_, h⟩
      intro e he
      simp only [List.mem_cons] at he
      rcases he with he | he
      · rw [he]; exact h1
      · exact lt_trans h1 (hx.1 e he)
    · exact h
    · apply List.pairwise_cons.mpr
      refine ⟨?_, ih hx.2⟩
      intro e he
      rcases emplace_mem rest k f e he with he | he
      · exact hx.1 e he
      · rw [he]; simp only; omega

theorem dropWhile_sorted (l : List (Nat × Fragment)) (x : Nat) (h : sortedKeys l) :
    sortedKeys (l.dropWhile (fun e => decide (e.1 < x))) :=
  List.Pairwise.sublist (List.dropWhile_sublist _) h

theorem dropWhile_mem (l : List (Nat × Fragment)) (x : Nat) (e : Nat × Fragment)
    (h : e ∈ l.dropWhile (fun e => decide (e.1 < x))) : e ∈ l :=
  (List.dropWhile_sublist _).subset h

theorem dropWhile_ge (l : List (Nat × Fragment)) (x : Nat) (h : sortedKeys l) :
    ∀ e ∈ l.dropWhile (fun e => decide (e.1 < x)), x ≤ e.1 := by
  induction l with
  | nil => simp
  | cons a rest ih =>
    have hx := List.pairwise_cons.mp h
    intro e he
    by_cases ha : a.1 < x
    · rw [List.dropWhile_cons_of_pos (by simpa using ha)] at he
      exact ih hx.2 e he
    · rw [List.dropWhile_cons_of_neg (by simpa using ha)] at he
      simp only [List.mem_cons] at he
      rcases he with he | he
      · rw [he]; omega
      · have := hx.1 e he; omega

end RTMFPFlow

namespace RTMFPFlow

theorem bufferInv_congr (s1 s2 : RTMFPFlow) (h1 : s2._stage = s1._stage)
    (h2 : s2._fragments = s1._fragments) (h : bufferInv s1) : bufferInv s2 := by
  simp only [bufferInv, nextStage, h1, h2] at h ⊢
  exact h

theorem drain_bufferInv (frags : List (Nat × Fragment)) :
    ∀ (s : RTMFPFlow) (n : Nat), s._stage < 18446744073709551616 → nextStage s = n →
      sortedKeys frags → (∀ e ∈ frags, n ≤ e.1 ∧ e.1 < 18446744073709551616) →
      bufferInv (drain frags s n) := by
  induction frags with
  | nil =>
    intro s n hs _ _ _
    simp [drain, bufferInv, sortedKeys, hs]
  | cons x rest ih =>
    intro s n hs hn hsorted hkeys
    obtain ⟨k, f⟩ := x
    have hx := List.pairwise_cons.mp hsorted
    have hk := hkeys (k, f) (List.mem_cons_self _ _)
    have hnlt : n < 18446744073709551616 := by
      rw [← hn]; exact Nat.mod_lt _ (by decide)
    simp only [drain]
    split_ifs with hle
    · have hkn : k = n := by simp only at hk hle; omega
      apply ih
      · simp only [onFragment_stage]; exact hnlt
      · simp only [nextStage, onFragment_stage]
      · exact hx.2
      · intro e he
        have h1 := hx.1 e he
        have h2 := hkeys e (List.mem_cons_of_mem _ he)
        simp only at h1
        refine ⟨?_, h2.2⟩
        by_cases hw : n + 1 < 18446744073709551616
        · rw [Nat.mod_eq_of_lt hw]; omega
        · have : n + 1 = 18446744073709551616 := by omega
          rw [this]; simp
    · refine ⟨hs, hsorted, ?_⟩
      intro e he
      have hns : nextStage { s with _fragments := (k, f) :: rest } = n := by
        simpa [nextStage] using hn
      rw [hns]
      simp only [List.mem_cons] at he
      refine ⟨?_, (hkeys e (by simpa using he)).2⟩
      rcases he with he | he
      · rw [he]; simp only at hle ⊢; omega
      · have := hx.1 e he
        simp only at this hle; omega

theorem dispatch_bufferInv (s : RTMFPFlow) (stage flags : Nat) (packet : Bytes)
    (lastFragment : Bool) (h : bufferInv s) (hst : stage < 18446744073709551616) :
    bufferInv (dispatch s stage flags packet lastFragment) := by
  obtain ⟨hs, hsorted, hkeys⟩ := h
  have hnlt : nextStage s < 18446744073709551616 := Nat.mod_lt _ (by decide)
  simp only [dispatch]
  split_ifs with h1 h2 h3 h4
  · exact ⟨hs, hsorted, hkeys⟩
  · apply bufferInv_congr _ _ (finish_stage _) (finish_fragments _)
    apply drain_bufferInv
    · simpa [abandon] using hst
    · simp [nextStage, abandon]
    · simp only [abandon]
      exact dropWhile_sorted _ _ hsorted
    · intro e he
      simp only [abandon] at he
      exact ⟨dropWhile_ge _ _ hsorted e he, (hkeys e (dropWhile_mem _ _ e he)).2⟩
  · refine ⟨hs, emplace_sorted _ _ _ hsorted, ?_⟩
    intro e he
    have hns : nextStage { s with
        _fragments := (emplace s._fragments stage ⟨flags, packet, lastFragment⟩).1,
        fragmentation := (s.fragmentation + packet.length) % 4294967296 } = nextStage s := rfl
    rw [hns]
    rcases emplace_mem _ _ _ e he with he | he
    · exact hkeys e he
    · rw [he]; exact ⟨h3, hst⟩
  · exact ⟨hs, hsorted, hkeys⟩
  · apply bufferInv_congr _ _ (finish_stage _) (finish_fragments _)
    apply drain_bufferInv
    · simp only [onFragment_stage]; exact hnlt
    · simp only [nextStage, onFragment_stage]
    · simp only [onFragment_fragments]; exact hsorted
    · intro e he
      simp only [onFragment_fragments] at he
      have hk := hkeys e he
      refine ⟨?_, hk.2⟩
      by_cases hw : nextStage s + 1 < 18446744073709551616
      · rw [Nat.mod_eq_of_lt hw]; omega
      · have : nextStage s + 1 = 18446744073709551616 := by omega
        rw [this]; simp

theorem input_bufferInv (s : RTMFPFlow) (stage flags : Nat) (packet : Bytes)
    (lastFragment : Bool) (h : bufferInv s) (hst : stage < 18446744073709551616) :
    bufferInv (input s stage flags packet lastFragment) := by
  simp only [input]
  split_ifs with h1 h2 h3
  · obtain ⟨_, hsorted, _⟩ := h
    refine ⟨hst, hsorted, ?_⟩
    intro e he
    simp only [h1.2] at he
    exact absurd he (List.not_mem_nil _)
  · exact h
  · exact dispatch_bufferInv _ _ _ _ _ (bufferInv_congr s _ rfl rfl h) hst
  · exact dispatch_bufferInv _ _ _ _ _ h hst

theorem run_bufferInv (calls : List Call) :
    ∀ (s : RTMFPFlow), bufferInv s → (∀ c ∈ calls, c.stage < 18446744073709551616) →
      bufferInv (run s calls) := by
  induction calls with
  | nil => intro s h _; exact h
  | cons c rest ih =>
    intro s h hc
    simp only [run, List.foldl_cons]
    exact ih _ (input_bufferInv s _ _ _ _ h (hc c (List.mem_cons_self _ _)))
      (fun c2 h2 => hc c2 (List.mem_cons_of_mem _ h2))

end RTMFPFlow

namespace RTMFPFlow

theorem drain_delivery (frags : List (Nat × Fragment)) :
    ∀ (s : RTMFPFlow) (n : Nat), s._stage < 18446744073709551615 → s._stage + 1 = n →
      sortedKeys frags → (∀ e ∈ frags, n ≤ e.1 ∧ e.1 < 18446744073709551615) →
      s.delivered.Pairwise (fun a b => a < b) → (∀ d ∈ s.delivered, d ≤ s._stage) →
      (drain frags s n)._stage < 18446744073709551615 ∧
      sortedKeys (drain frags s n)._fragments ∧
      (∀ e ∈ (drain frags s n)._fragments,
        (drain frags s n)._stage + 1 < e.1 ∧ e.1 < 18446744073709551615) ∧
      (drain frags s n).delivered.Pairwise (fun a b => a < b) ∧
      (∀ d ∈ (drain frags s n).delivered, d ≤ (drain frags s n)._stage) := by
  induction frags with
  | nil =>
    intro s n hs _ _ _ hp hd
    simp only [drain]
    exact ⟨hs, List.Pairwise.nil, fun e he => absurd he (List.not_mem_nil _), hp, hd⟩
  | cons x rest ih =>
    intro s n hs hn hsorted hkeys hp hd
    obtain ⟨k, f⟩ := x
    have hx := List.pairwise_cons.mp hsorted
    have hk := hkeys (k, f) (List.mem_cons_self _ _)
    simp only [drain]
    split_ifs with hle
    · have hkn : k = n := by simp only at hk hle; omega
      have hn1 : n < 18446744073709551615 := by rw [← hkn]; exact hk.2
      have hmod : (n + 1) % 18446744073709551616 = n + 1 := Nat.mod_eq_of_lt (by omega)
      rw [hmod]
      apply ih
      · simp only [onFragment_stage]; exact hn1
      · simp only [onFragment_stage]
      · exact hx.2
      · intro e he
        have h1 := hx.1 e he
        have h2 := hkeys e (List.mem_cons_of_mem _ he)
        simp only at h1
        exact ⟨by omega, h2.2⟩
      · simp only [onFragment_delivered]
        apply List.pairwise_append.mpr
        refine ⟨hp, List.pairwise_singleton _ _, ?_⟩
        intro a ha b hb
        have := hd a ha
        simp only [List.mem_singleton] at hb
        omega
      · simp only [onFragment_delivered, onFragment_stage]
        intro d hdm
        simp only [List.mem_append, List.mem_singleton] at hdm
        rcases hdm with hdm | hdm
        · have := hd d hdm; omega
        · omega
    · refine ⟨hs, hsorted, ?_, hp, hd⟩
      intro e he
      simp only [List.mem_cons] at he
      refine ⟨?_, (hkeys e (by simpa using he)).2⟩
      rcases he with he | he
      · rw [he]; simp only at hle ⊢; omega
      · have := hx.1 e he
        simp only at this hle ⊢; omega

theorem finish_deliveryInv (s : RTMFPFlow)
    (h : s._stage < 18446744073709551615 ∧ sortedKeys s._fragments ∧
      (∀ e ∈ s._fragments, s._stage + 1 < e.1 ∧ e.1 < 18446744073709551615) ∧
      s.delivered.Pairwise (fun a b => a < b) ∧ (∀ d ∈ s.delivered, d ≤ s._stage)) :
    deliveryInv (finish s) := by
  simp only [deliveryInv, finish_stage, finish_fragments, finish_delivered]
  exact ⟨h.1, h.2.1, h.2.2.1, h.2.2.2.1, Or.inr h.2.2.2.2⟩

theorem dispatch_deliveryInv (s : RTMFPFlow) (stage flags : Nat) (packet : Bytes)
    (lastFragment : Bool) (hs : s._stage < 18446744073709551615)
    (hsorted : sortedKeys s._fragments)
    (hkeys : ∀ e ∈ s._fragments, s._stage + 1 < e.1 ∧ e.1 < 18446744073709551615)
    (hp : s.delivered.Pairwise (fun a b => a < b)) (hd : ∀ d ∈ s.delivered, d ≤ s._stage)
    (hst : stage < 18446744073709551615) :
    deliveryInv (dispatch s stage flags packet lastFragment) := by
  have hns : nextStage s = s._stage + 1 := Nat.mod_eq_of_lt (by omega)
  have hmod : (stage + 1) % 18446744073709551616 = stage + 1 := Nat.mod_eq_of_lt (by omega)
  simp only [dispatch]
  split_ifs with h1 h2 h3 h4
  · exact ⟨hs, hsorted, hkeys, hp, Or.inr hd⟩
  · apply finish_deliveryInv
    rw [hmod]
    apply drain_delivery
    · simpa [abandon] using hst
    · simp [abandon]
    · simp only [abandon, hmod]
      exact dropWhile_sorted _ _ hsorted
    · intro e he
      simp only [abandon, hmod] at he
      exact ⟨dropWhile_ge _ _ hsorted e he, (hkeys e (dropWhile_mem _ _ e he)).2⟩
    · simpa [abandon] using hp
    · intro d hdm
      have := hd d (by simpa [abandon] using hdm)
      simp only [abandon]
      omega
  · refine ⟨hs, emplace_sorted _ _ _ hsorted, ?_, hp, Or.inr hd⟩
    intro e he
    rcases emplace_mem _ _ _ e he with he | he
    · exact hkeys e he
    · rw [he]; simp only; exact ⟨by omega, hst⟩
  · exact ⟨hs, hsorted, hkeys, hp, Or.inr hd⟩
  · apply finish_deliveryInv
    have hstage : stage = s._stage + 1 := by omega
    have hmod2 : (nextStage s + 1) % 18446744073709551616 = nextStage s + 1 :=
      Nat.mod_eq_of_lt (by omega)
    rw [hmod2]
    apply drain_delivery
    · simp only [onFragment_stage]; omega
    · simp only [onFragment_stage]
    · simp only [onFragment_fragments]; exact hsorted
    · intro e he
      simp only [onFragment_fragments] at he
      have hk := hkeys e he
      exact ⟨by omega, hk.2⟩
    · simp only [onFragment_delivered]
      apply List.pairwise_append.mpr
      refine ⟨hp, List.pairwise_singleton _ _, ?_⟩
      intro a ha b hb
      have := hd a ha
      simp only [List.mem_singleton] at hb
      omega
    · simp only [onFragment_delivered, onFragment_stage]
      intro d hdm
      simp only [List.mem_append, List.mem_singleton] at hdm
      rcases hdm with hdm | hdm
      · have := hd d hdm; omega
      · omega

theorem input_deliveryInv (s : RTMFPFlow) (stage flags : Nat) (packet : Bytes)
    (lastFragment : Bool) (h : deliveryInv s) (hst : stage < 18446744073709551615) :
    deliveryInv (input s stage flags packet lastFragment) := by
  obtain ⟨hs, hsorted, hkeys, hp, hd⟩ := h
  simp only [input]
  split_ifs with h1 h2 h3
  · refine ⟨hst, hsorted, ?_, hp, Or.inl h1⟩
    intro e he
    simp only [h1.2] at he
    exact absurd he (List.not_mem_nil _)
  · exact ⟨hs, hsorted, hkeys, hp, hd⟩
  · rcases hd with hd | hd
    · exact absurd hd h1
    · exact dispatch_deliveryInv _ _ _ _ _ hs hsorted hkeys hp hd hst
  · rcases hd with hd | hd
    · exact absurd hd h1
    · exact dispatch_deliveryInv _ _ _ _ _ hs hsorted hkeys hp hd hst

theorem run_deliveryInv (calls : List Call) :
    ∀ (s : RTMFPFlow), deliveryInv s → (∀ c ∈ calls, c.stage < 18446744073709551615) →
      deliveryInv (run s calls) := by
  induction calls with
  | nil => intro s h _; exact h
  | cons c rest ih =>
    intro s h hc
    simp only [run, List.foldl_cons]
    exact ih _ (input_deliveryInv s _ _ _ _ h (hc c (List.mem_cons_self _ _)))
      (fun c2 h2 => hc c2 (List.mem_cons_of_mem _ h2))

/-- C9, the claim as stated fails: after stage 1, an abandon at stage
`2^64 - 1` makes `nextStage` wrap to 0, and stage 0 is then handed to
`onFragment` after stage 1. -/
theorem delivered_not_ascending :
    (∀ c ∈ [(⟨1, 0, [1], false⟩ : Call), ⟨18446744073709551615, 2, [], false⟩,
        ⟨0, 0, [7], false⟩], c.stage < 18446744073709551616) ∧
    (run fresh [⟨1, 0, [1], false⟩, ⟨18446744073709551615, 2, [], false⟩,
        ⟨0, 0, [7], false⟩]).delivered = [1, 0] ∧
    ¬ (run fresh [⟨1, 0, [1], false⟩, ⟨18446744073709551615, 2, [], false⟩,
        ⟨0, 0, [7], false⟩]).delivered.Pairwise (fun a b => a < b) := by
  decide

/-- C9 as amended: in every state reached from a fresh flow by any sequence of
`input` calls (any 64-bit stages, flags and payloads) every stage held in the
reorder buffer is strictly greater than `nextStage`; and when no stage of the
sequence is `2^64 - 1`, so that `nextStage` does not wrap, the stages handed
to `onFragment` over the life of the flow are strictly ascending. -/
theorem run_invariant (calls : List Call)
    (hcalls : ∀ c ∈ calls, c.stage < 18446744073709551616) :
    (∀ e ∈ (run fresh calls)._fragments, nextStage (run fresh calls) < e.1) ∧
    ((∀ c ∈ calls, c.stage < 18446744073709551615) →
      (run fresh calls).delivered.Pairwise (fun a b => a < b)) := by
  constructor
  · have h := run_bufferInv calls fresh (by
      refine ⟨by decide, List.Pairwise.nil, ?_⟩
      intro e he
      exact absurd he (List.not_mem_nil _)) hcalls
    intro e he
    exact (h.2.2 e he).1
  · intro hc
    have h := run_deliveryInv calls fresh (by
      refine ⟨by decide, List.Pairwise.nil, ?_, List.Pairwise.nil, Or.inr ?_⟩
      · intro e he
        exact absurd he (List.not_mem_nil _)
      · intro d hd
        exact absurd hd (List.not_mem_nil _)) hc
    exact h.2.2.2.1

/-- Witness for `run_invariant`: stages 1, 4, 3 leave 3 and 4 buffered above
`nextStage` 2 and stage 1 delivered. -/
theorem run_invariant_witness :
    (∀ e ∈ (run fresh [⟨1, 0, [1], false⟩, ⟨4, 0, [4], false⟩, ⟨3, 0, [3], false⟩])._fragments,
      nextStage (run fresh [⟨1, 0, [1], false⟩, ⟨4, 0, [4], false⟩, ⟨3, 0, [3], false⟩])
        < e.1) ∧
    (run fresh [⟨1, 0, [1], false⟩, ⟨4, 0, [4], false⟩, ⟨3, 0, [3], false⟩]).delivered.Pairwise
      (fun a b => a < b) :=
  ⟨(run_invariant [⟨1, 0, [1], false⟩, ⟨4, 0, [4], false⟩, ⟨3, 0, [3], false⟩]
      (by decide)).1,
   (run_invariant [⟨1, 0, [1], false⟩, ⟨4, 0, [4], false⟩, ⟨3, 0, [3], false⟩]
      (by decide)).2 (by decide)⟩

end RTMFPFlow

/-! ## Flow reassembly: reordering -/

namespace RTMFPFlow

theorem onFragment_plain (s : RTMFPFlow) (st fl : Nat) (p : Bytes) (l : Bool)
    (hbuf : s._pBuffer = none) (hb : fl &&& RTMFP.MESSAGE_WITH_BEFOREPART = 0)
    (ha : fl &&& RTMFP.MESSAGE_WITH_AFTERPART = 0) (hp : p ≠ []) :
    onFragment s st fl p l
      = { s with _stage := st, delivered := s.delivered ++ [st],
                 outputs := s.outputs ++ [⟨s._lost, p, l⟩] } := by
  simp [onFragment, output, hbuf, hb, ha, hp]

theorem emplace_inserted (l : List (Nat × Fragment)) (k : Nat) (f : Fragment)
    (h : k ∉ l.map Prod.fst) :
    (emplace l k f).2 = true ∧ ((emplace l k f).1.map Prod.fst).Perm (k :: l.map Prod.fst) ∧
    (emplace l k f).1 ≠ [] := by
  induction l with
  | nil => simp [emplace]
  | cons x rest ih =>
    obtain ⟨k0, f0⟩ := x
    simp only [List.map_cons, List.mem_cons, not_or] at h
    have ih2 := ih h.2
    simp only [emplace]
    split_ifs with h1 h2
    · simp
    · exact absurd h2 h.1
    · refine ⟨ih2.1, ?_, by simp⟩
      simp only [List.map_cons]
      exact (List.Perm.cons k0 ih2.2.1).trans (List.Perm.swap k k0 _)

theorem range_succ (j : Nat) : List.range' 1 (j + 1) = List.range' 1 j ++ [j + 1] := by
  rw [List.range'_1_concat, Nat.add_comm 1 j]

theorem drain_reorder (P : Nat → Fragment) (n : Nat) (hW : n + 1 < 18446744073709551616)
    (hP : plainStages P n) (frags : List (Nat × Fragment)) :
    ∀ (s : RTMFPFlow) (j : Nat), s._stage = j → j ≤ n →
      s.delivered = List.range' 1 j →
      s.outputs = (List.range' 1 j).map (payloadOutput P) →
      s._lost = 0 → s._pBuffer = none → sortedKeys frags →
      (∀ e ∈ frags, j + 1 ≤ e.1 ∧ e.1 ≤ n ∧ e.2 = P e.1) →
      (drain frags s (j + 1))._stage ≤ n ∧
      (drain frags s (j + 1)).delivered = List.range' 1 (drain frags s (j + 1))._stage ∧
      (drain frags s (j + 1)).outputs
        = (List.range' 1 (drain frags s (j + 1))._stage).map (payloadOutput P) ∧
      (drain frags s (j + 1))._lost = 0 ∧ (drain frags s (j + 1))._pBuffer = none ∧
      sortedKeys (drain frags s (j + 1))._fragments ∧
      (∀ e ∈ (drain frags s (j + 1))._fragments,
        (drain frags s (j + 1))._stage + 1 < e.1 ∧ e.1 ≤ n ∧ e.2 = P e.1) ∧
      List.range' 1 (drain frags s (j + 1))._stage
          ++ (drain frags s (j + 1))._fragments.map Prod.fst
        = List.range' 1 j ++ frags.map Prod.fst ∧
      (drain frags s (j + 1))._stageEnd = s._stageEnd := by
  induction frags with
  | nil =>
    intro s j hs hj hd ho hl hb _ _
    simp only [drain, hs, List.map_nil]
    exact ⟨hj, hd, ho, hl, hb, List.Pairwise.nil, fun e he => absurd he (List.not_mem_nil _),
      trivial, trivial⟩
  | cons x rest ih =>
    intro s j hs hj hd ho hl hb hsorted hkeys
    obtain ⟨k, f⟩ := x
    have hx := List.pairwise_cons.mp hsorted
    have hk := hkeys (k, f) (List.mem_cons_self _ _)
    simp only at hk
    simp only [drain]
    split_ifs with hle
    · have hkj : k = j + 1 := by omega
      have hf : f = P (j + 1) := by rw [← hkj]; exact hk.2.2
      have hPj := hP (j + 1) (by omega) (by omega)
      have hmod : (j + 1 + 1) % 18446744073709551616 = j + 1 + 1 :=
        Nat.mod_eq_of_lt (by omega)
      rw [hmod, onFragment_plain s (j + 1) f.flags f.packet f.lastFragment hb
        (by rw [hf]; exact hPj.2.1) (by rw [hf]; exact hPj.2.2.1) (by rw [hf]; exact hPj.1)]
      have ih2 := ih
        { s with _stage := j + 1, delivered := s.delivered ++ [j + 1],
                 outputs := s.outputs ++ [⟨s._lost, f.packet, f.lastFragment⟩],
                 fragmentation := (s.fragmentation + 4294967296
                    - f.packet.length % 4294967296) % 4294967296,
                 _fragments := rest }
        (j + 1) rfl (by omega)
        (by simp only [hd, range_succ])
        (by simp only [ho, hl, range_succ, List.map_append, List.map_cons, List.map_nil,
              payloadOutput, hf])
        hl hb hx.2
        (by
          intro e he
          have h1 := hx.1 e he
          have h2 := hkeys e (List.mem_cons_of_mem _ he)
          simp only at h1
          exact ⟨by omega, h2.2⟩)
      obtain ⟨a1, a2, a3, a4, a5, a6, a7, a8, a9⟩ := ih2
      refine ⟨a1, a2, a3, a4, a5, a6, a7, ?_, a9⟩
      rw [a8, range_succ, hkj]
      simp
    · refine ⟨by rw [hs]; exact hj, by simp only [hs]; exact hd, by simp only [hs]; exact ho,
        hl, hb, hsorted, ?_, by simp only [hs], rfl⟩
      intro e he
      simp only [List.mem_cons] at he
      have h2 := hkeys e (by simpa using he)
      refine ⟨?_, h2.2⟩
      simp only [hs]
      rcases he with he | he
      · rw [he]; simp only; omega
      · have := hx.1 e he
        simp only at this; omega

end RTMFPFlow

namespace RTMFPFlow

theorem finish_reorder (P : Nat → Fragment) (r : RTMFPFlow) (hl : r._lost = 0)
    (ho : r.outputs = (List.range' 1 r._stage).map (payloadOutput P)) :
    (finish r).outputs = (List.range' 1 (finish r)._stage).map (payloadOutput P)
      ++ (if (finish r)._stageEnd ≠ 0 ∧ (finish r)._fragments = [] then [endOutput] else []) ∧
    (finish r)._lost = 0 ∧ (finish r)._pBuffer = r._pBuffer := by
  simp only [finish_stage, finish_stageEnd, finish_fragments]
  simp only [finish, output]
  by_cases h : r._fragments = [] ∧ r._stageEnd ≠ 0
  · have h2 : r._stageEnd ≠ 0 ∧ r._fragments = [] := ⟨h.2, h.1⟩
    simp only [if_pos h, if_pos h2, ho, hl, endOutput]
    exact ⟨trivial, trivial, trivial⟩
  · have h2 : ¬ (r._stageEnd ≠ 0 ∧ r._fragments = []) := fun h3 => h ⟨h3.2, h3.1⟩
    simp only [if_neg h, if_neg h2, ho, hl, List.append_nil]
    exact ⟨trivial, trivial, trivial⟩

theorem dispatch_reorder (P : Nat → Fragment) (n : Nat) (hW : n + 1 < 18446744073709551616)
    (hP : plainStages P n) (s : RTMFPFlow) (seen : List Nat) (c : Call)
    (hstage : s._stage ≤ n) (hdel : s.delivered = List.range' 1 s._stage)
    (hout : s.outputs = (List.range' 1 s._stage).map (payloadOutput P))
    (hlost : s._lost = 0) (hbuf : s._pBuffer = none) (hsorted : sortedKeys s._fragments)
    (hkeys : ∀ e ∈ s._fragments, s._stage + 1 < e.1 ∧ e.1 ≤ n ∧ e.2 = P e.1)
    (hperm : (List.range' 1 s._stage ++ s._fragments.map Prod.fst).Perm seen)
    (hc1 : 1 ≤ c.stage) (hc2 : c.stage ≤ n)
    (hcP : P c.stage = ⟨c.flags, c.packet, c.lastFragment⟩) (hnew : c.stage ∉ seen) :
    (dispatch s c.stage c.flags c.packet c.lastFragment)._stage ≤ n ∧
    (dispatch s c.stage c.flags c.packet c.lastFragment).delivered
      = List.range' 1 (dispatch s c.stage c.flags c.packet c.lastFragment)._stage ∧
    (dispatch s c.stage c.flags c.packet c.lastFragment).outputs
      = (List.range' 1 (dispatch s c.stage c.flags c.packet c.lastFragment)._stage).map
          (payloadOutput P)
        ++ (if (dispatch s c.stage c.flags c.packet c.lastFragment)._stageEnd ≠ 0
              ∧ (dispatch s c.stage c.flags c.packet c.lastFragment)._fragments = []
            then [endOutput] else []) ∧
    (dispatch s c.stage c.flags c.packet c.lastFragment)._lost = 0 ∧
    (dispatch s c.stage c.flags c.packet c.lastFragment)._pBuffer = none ∧
    sortedKeys (dispatch s c.stage c.flags c.packet c.lastFragment)._fragments ∧
    (∀ e ∈ (dispatch s c.stage c.flags c.packet c.lastFragment)._fragments,
      (dispatch s c.stage c.flags c.packet c.lastFragment)._stage + 1 < e.1 ∧ e.1 ≤ n
        ∧ e.2 = P e.1) ∧
    (List.range' 1 (dispatch s c.stage c.flags c.packet c.lastFragment)._stage
        ++ (dispatch s c.stage c.flags c.packet c.lastFragment)._fragments.map Prod.fst).Perm
      (c.stage :: seen) ∧
    (dispatch s c.stage c.flags c.packet c.lastFragment)._stageEnd = s._stageEnd := by
  have hns : nextStage s = s._stage + 1 := Nat.mod_eq_of_lt (by omega)
  have hPc := hP c.stage hc1 hc2
  rw [hcP] at hPc
  simp only at hPc
  have hnotkey : c.stage ∉ s._fragments.map Prod.fst := by
    intro h
    exact hnew (hperm.subset (List.mem_append_right _ h))
  have h1 : ¬ c.stage < nextStage s := by
    intro h1
    apply hnew
    apply hperm.subset
    apply List.mem_append_left
    rw [List.mem_range'_1]
    omega
  have h2 : ¬ c.flags &&& RTMFP.MESSAGE_ABANDON ≠ 0 := fun h => h hPc.2.2.2.1
  by_cases h3 : c.stage > nextStage s
  · have hins := emplace_inserted s._fragments c.stage ⟨c.flags, c.packet, c.lastFragment⟩ hnotkey
    have hd : dispatch s c.stage c.flags c.packet c.lastFragment
        = { s with
            _fragments := (emplace s._fragments c.stage ⟨c.flags, c.packet, c.lastFragment⟩).1,
            fragmentation := (s.fragmentation + c.packet.length) % 4294967296 } := by
      simp only [dispatch, if_neg h1, if_neg h2, if_pos h3, hins.1, if_true]
    rw [hd]
    have hne : ¬ (s._stageEnd ≠ 0 ∧
        (emplace s._fragments c.stage ⟨c.flags, c.packet, c.lastFragment⟩).1 = []) :=
      fun h => hins.2.2 h.2
    simp only [if_neg hne, List.append_nil]
    refine ⟨hstage, hdel, hout, hlost, hbuf, emplace_sorted _ _ _ hsorted, ?_, ?_, trivial⟩
    · intro e he
      rcases emplace_mem _ _ _ e he with he | he
      · exact hkeys e he
      · rw [he]; simp only; exact ⟨by omega, hc2, hcP.symm⟩
    · exact (List.Perm.append_left _ hins.2.1).trans
        (List.perm_middle.trans (List.Perm.cons _ hperm))
  · have hst : c.stage = s._stage + 1 := by omega
    have hmod : (nextStage s + 1) % 18446744073709551616 = c.stage + 1 := by
      rw [hns, ← hst]; exact Nat.mod_eq_of_lt (by omega)
    have hd : dispatch s c.stage c.flags c.packet c.lastFragment
        = finish (drain s._fragments
            { s with _stage := c.stage, delivered := s.delivered ++ [c.stage],
                     outputs := s.outputs ++ [⟨s._lost, c.packet, c.lastFragment⟩] }
            (c.stage + 1)) := by
      simp only [dispatch, if_neg h1, if_neg h2, if_neg h3, hmod, onFragment_fragments]
      rw [hns, ← hst, onFragment_plain s c.stage c.flags c.packet c.lastFragment hbuf
        hPc.2.1 hPc.2.2.1 hPc.1]
    rw [hd]
    have hdr := drain_reorder P n hW hP s._fragments
      { s with _stage := c.stage, delivered := s.delivered ++ [c.stage],
               outputs := s.outputs ++ [⟨s._lost, c.packet, c.lastFragment⟩] }
      c.stage rfl hc2
      (by simp only [hdel, hst, range_succ])
      (by
        have e : payloadOutput P c.stage = ⟨s._lost, c.packet, c.lastFragment⟩ := by
          simp only [payloadOutput, hcP, hlost]
        show s.outputs ++ [_] = _
        rw [← e, hout]
        conv_rhs => rw [hst, range_succ, ← hst]
        simp only [List.map_append, List.map_cons, List.map_nil])
      hlost hbuf hsorted
      (by
        intro e he
        have := hkeys e he
        exact ⟨by omega, this.2⟩)
    obtain ⟨a1, a2, a3, a4, a5, a6, a7, a8, a9⟩ := hdr
    have hf := finish_reorder P _ a4 a3
    simp only [finish_stage, finish_fragments, finish_delivered, finish_stageEnd] at hf ⊢
    refine ⟨a1, a2, hf.1, hf.2.1, by rw [hf.2.2]; exact a5, a6, a7, ?_, a9⟩
    rw [a8, hst, range_succ, List.append_assoc]
    simp only [List.singleton_append]
    rw [← hst]
    exact List.perm_middle.trans (List.Perm.cons _ hperm)

end RTMFPFlow

namespace RTMFPFlow

theorem reorderInv_perm (P : Nat → Fragment) (n : Nat) (seen seen2 : List Nat) (s : RTMFPFlow)
    (hp : seen.Perm seen2) (h : reorderInv P n seen s) : reorderInv P n seen2 s := by
  obtain ⟨a1, a2, a3, a4, a5, a6, a7, a8, a9, a10⟩ := h
  refine ⟨a1, a2, a3, a4, a5, a6, a7, a8.trans hp, a9, ?_⟩
  rw [a10, hp.mem_iff]

theorem input_reorder_step (P : Nat → Fragment) (n : Nat)
    (hW : n + 1 < 18446744073709551616) (hP : plainStages P n) (s : RTMFPFlow)
    (seen : List Nat) (c : Call) (hinv : reorderInv P n seen s)
    (hc1 : 1 ≤ c.stage) (hc2 : c.stage ≤ n)
    (hcP : P c.stage = ⟨c.flags, c.packet, c.lastFragment⟩) (hnew : c.stage ∉ seen) :
    reorderInv P n (c.stage :: seen) (input s c.stage c.flags c.packet c.lastFragment) := by
  obtain ⟨hstage, hdel, hout, hlost, hbuf, hsorted, hkeys, hperm, hse, hiff⟩ := hinv
  have hPc := hP c.stage hc1 hc2
  rw [hcP] at hPc
  simp only at hPc
  have hncomp : ¬ (s._stageEnd ≠ 0 ∧ s._fragments = []) := by
    rintro ⟨he, hf⟩
    have hn := (hiff.mp he).1
    rw [hf, List.map_nil, List.append_nil] at hperm
    have hn2 : n ∈ List.range' 1 s._stage := hperm.symm.subset hn
    rw [List.mem_range'_1] at hn2
    apply hnew
    apply hperm.subset
    rw [List.mem_range'_1]
    omega
  have hngt : ¬ (s._stageEnd ≠ 0 ∧ c.stage > s._stageEnd) := by
    rintro ⟨he, hg⟩
    rcases hse with h | h
    · exact he h
    · omega
  have hout2 : s.outputs = (List.range' 1 s._stage).map (payloadOutput P) := by
    rw [hout, if_neg hncomp, List.append_nil]
  by_cases h3 : s._stageEnd = 0 ∧ c.flags &&& RTMFP.MESSAGE_END ≠ 0
  · have hin : input s c.stage c.flags c.packet c.lastFragment
        = dispatch { s with _stageEnd := c.stage } c.stage c.flags c.packet c.lastFragment := by
      simp only [input, if_neg hncomp, if_neg hngt, if_pos h3]
    have hcn : c.stage = n := hPc.2.2.2.2 h3.2
    rw [hin]
    obtain ⟨a1, a2, a3, a4, a5, a6, a7, a8, a9⟩ :=
      dispatch_reorder P n hW hP { s with _stageEnd := c.stage } seen c hstage hdel hout2
        hlost hbuf hsorted hkeys hperm hc1 hc2 hcP hnew
    refine ⟨a1, a2, a3, a4, a5, a6, a7, a8, Or.inr (by rw [a9]; exact hcn), ?_⟩
    rw [a9]
    simp only
    constructor
    · intro _
      refine ⟨by rw [hcn]; exact List.mem_cons_self _ _, ?_⟩
      rw [← hcn, hcP]
      exact h3.2
    · intro _
      omega
  · have hin : input s c.stage c.flags c.packet c.lastFragment
        = dispatch s c.stage c.flags c.packet c.lastFragment := by
      simp only [input, if_neg hncomp, if_neg hngt, if_neg h3]
    rw [hin]
    obtain ⟨a1, a2, a3, a4, a5, a6, a7, a8, a9⟩ :=
      dispatch_reorder P n hW hP s seen c hstage hdel hout2
        hlost hbuf hsorted hkeys hperm hc1 hc2 hcP hnew
    refine ⟨a1, a2, a3, a4, a5, a6, a7, a8, by rw [a9]; exact hse, ?_⟩
    rw [a9]
    constructor
    · intro he
      have := hiff.mp he
      exact ⟨List.mem_cons_of_mem _ this.1, this.2⟩
    · rintro ⟨hn, hend⟩
      simp only [List.mem_cons] at hn
      rcases hn with hn | hn
      · rw [hn, hcP] at hend
        simp only at hend
        intro h0
        exact h3 ⟨h0, hend⟩
      · exact hiff.mpr ⟨hn, hend⟩

theorem run_reorder (P : Nat → Fragment) (n : Nat)
    (hW : n + 1 < 18446744073709551616) (hP : plainStages P n) (calls : List Call) :
    ∀ (s : RTMFPFlow) (seen : List Nat), reorderInv P n seen s →
      (∀ c ∈ calls, 1 ≤ c.stage ∧ c.stage ≤ n ∧ P c.stage = ⟨c.flags, c.packet, c.lastFragment⟩
        ∧ c.stage ∉ seen) →
      (calls.map Call.stage).Nodup →
      reorderInv P n (calls.map Call.stage ++ seen) (run s calls) := by
  induction calls with
  | nil => intro s seen h _ _; exact h
  | cons c rest ih =>
    intro s seen h hc hnd
    have hc0 := hc c (List.mem_cons_self _ _)
    have hstep := input_reorder_step P n hW hP s seen c h hc0.1 hc0.2.1 hc0.2.2.1 hc0.2.2.2
    simp only [List.map_cons, List.nodup_cons] at hnd
    have hrest := ih _ (c.stage :: seen) hstep
      (by
        intro c2 h2
        have := hc c2 (List.mem_cons_of_mem _ h2)
        refine ⟨this.1, this.2.1, this.2.2.1, ?_⟩
        simp only [List.mem_cons, not_or]
        refine ⟨?_, this.2.2.2⟩
        intro heq
        exact hnd.1 (heq ▸ List.mem_map_of_mem Call.stage h2))
      hnd.2
    simp only [run, List.foldl_cons, List.map_cons]
    exact reorderInv_perm P n _ _ _ List.perm_middle hrest

end RTMFPFlow

namespace RTMFPFlow

/-- C8, the claim as stated fails: stages 1 and 2 arrive in order with
non-empty payloads and none of the flags BEFORE-part, AFTER-part and ABANDON,
but stage 1 carries `MESSAGE_END`; the flow is completed by stage 1 and the
payload of stage 2 is never delivered. -/
theorem input_end_before_last_stage :
    ([(⟨1, 1, [1], false⟩ : Call), ⟨2, 0, [2], false⟩].map Call.stage = List.range' 1 2) ∧
    (∀ c ∈ [(⟨1, 1, [1], false⟩ : Call), ⟨2, 0, [2], false⟩],
      c.packet ≠ [] ∧ c.flags &&& RTMFP.MESSAGE_WITH_BEFOREPART = 0 ∧
      c.flags &&& RTMFP.MESSAGE_WITH_AFTERPART = 0 ∧ c.flags &&& RTMFP.MESSAGE_ABANDON = 0) ∧
    (run fresh [⟨1, 1, [1], false⟩, ⟨2, 0, [2], false⟩]).delivered = [1] ∧
    (run fresh [⟨1, 1, [1], false⟩, ⟨2, 0, [2], false⟩]).outputs
      = [⟨0, [1], false⟩, ⟨0, [], true⟩] := by
  decide

/-- C8 as amended: for every `n ≥ 1` (with `n + 1` a 64-bit value) and every
arrival order of the stages 1 to `n` fed to a fresh flow, each with a
non-empty payload, none of the flags BEFORE-part, AFTER-part and ABANDON, and
`MESSAGE_END` on no stage other than `n`: the stages handed to `onFragment`
are 1, 2, ..., `n`, the calls of `output` are the payloads in ascending stage
order, each once and with nothing lost (followed by the end signal when stage
`n` carries `MESSAGE_END`), the lost-bytes counter stays 0, the reorder buffer
ends empty and `nextStage` ends at `n + 1`. `P k` is the fragment that the
call of stage `k` carries. -/
theorem input_reorder (n : Nat) (calls : List Call) (P : Nat → Fragment)
    (hn : 1 ≤ n) (hW : n + 1 < 18446744073709551616)
    (hperm : (calls.map Call.stage).Perm (List.range' 1 n))
    (hP : ∀ c ∈ calls, P c.stage = ⟨c.flags, c.packet, c.lastFragment⟩)
    (hpay : ∀ c ∈ calls, c.packet ≠ [])
    (hflags : ∀ c ∈ calls, c.flags &&& RTMFP.MESSAGE_WITH_BEFOREPART = 0 ∧
      c.flags &&& RTMFP.MESSAGE_WITH_AFTERPART = 0 ∧ c.flags &&& RTMFP.MESSAGE_ABANDON = 0)
    (hend : ∀ c ∈ calls, c.flags &&& RTMFP.MESSAGE_END ≠ 0 → c.stage = n) :
    (run fresh calls).delivered = List.range' 1 n ∧
    (run fresh calls).outputs = (List.range' 1 n).map (payloadOutput P)
      ++ (if (P n).flags &&& RTMFP.MESSAGE_END ≠ 0 then [endOutput] else []) ∧
    (run fresh calls)._lost = 0 ∧ (run fresh calls)._fragments = [] ∧
    nextStage (run fresh calls) = n + 1 := by
  have hstages : ∀ c ∈ calls, 1 ≤ c.stage ∧ c.stage ≤ n := by
    intro c hc
    have := hperm.subset (List.mem_map_of_mem Call.stage hc)
    rw [List.mem_range'_1] at this
    omega
  have hplain : plainStages P n := by
    intro k hk1 hk2
    have hk : k ∈ calls.map Call.stage := by
      apply hperm.symm.subset
      rw [List.mem_range'_1]; omega
    obtain ⟨c, hc, hck⟩ := List.mem_map.mp hk
    rw [← hck, hP c hc]
    exact ⟨hpay c hc, (hflags c hc).1, (hflags c hc).2.1, (hflags c hc).2.2, hend c hc⟩
  have hfresh : reorderInv P n [] fresh := by
    refine ⟨Nat.zero_le _, rfl, rfl, rfl, rfl, List.Pairwise.nil, ?_, List.Perm.refl _,
      Or.inl rfl, ?_⟩
    · intro e he
      exact absurd he (List.not_mem_nil _)
    · simp [fresh]
  have hnd : (calls.map Call.stage).Nodup :=
    hperm.nodup_iff.mpr (List.nodup_range' 1 n)
  have hrun := run_reorder P n hW hplain calls fresh [] hfresh
    (by
      intro c hc
      exact ⟨(hstages c hc).1, (hstages c hc).2, hP c hc, List.not_mem_nil _⟩)
    hnd
  rw [List.append_nil] at hrun
  obtain ⟨a1, a2, a3, a4, _, _, a7, a8, _, a10⟩ := reorderInv_perm P n _ _ _ hperm hrun
  have hm : (run fresh calls)._stage = n := by
    by_contra hne
    have hlt : (run fresh calls)._stage + 1 ≤ n := by omega
    have hmem : (run fresh calls)._stage + 1 ∈ List.range' 1 n := by
      rw [List.mem_range'_1]; omega
    have hmem2 := a8.symm.subset hmem
    rw [List.mem_append] at hmem2
    rcases hmem2 with h | h
    · rw [List.mem_range'_1] at h; omega
    · obtain ⟨e, he, hek⟩ := List.mem_map.mp h
      have := (a7 e he).1
      omega
  have hfr : (run fresh calls)._fragments = [] := by
    have hlen := a8.length_eq
    rw [hm] at hlen
    simp only [List.length_append, List.length_range', List.length_map] at hlen
    exact List.eq_nil_of_length_eq_zero (by omega)
  have hnmem : n ∈ List.range' 1 n := by
    rw [List.mem_range'_1]; omega
  refine ⟨by rw [a2, hm], ?_, a4, hfr, ?_⟩
  · rw [a3, hm]
    congr 1
    by_cases he : (P n).flags &&& RTMFP.MESSAGE_END ≠ 0
    · have : (run fresh calls)._stageEnd ≠ 0 := a10.mpr ⟨hnmem, he⟩
      rw [if_pos he, if_pos ⟨this, hfr⟩]
    · have : ¬ ((run fresh calls)._stageEnd ≠ 0 ∧ (run fresh calls)._fragments = []) :=
        fun h => he (a10.mp h.1).2
      rw [if_neg he, if_neg this]
  · simp only [nextStage, hm]
    exact Nat.mod_eq_of_lt hW

/-- Witness for `input_reorder`, scenario S2: the stages arrive in the order
1, 3, 2, 4, the last one with `MESSAGE_END`. -/
theorem input_reorder_witness :
    (run fresh [⟨1, 0, [1], false⟩, ⟨3, 0, [3], false⟩, ⟨2, 0, [2], false⟩,
        ⟨4, 1, [4], true⟩]).delivered = List.range' 1 4 ∧
    (run fresh [⟨1, 0, [1], false⟩, ⟨3, 0, [3], false⟩, ⟨2, 0, [2], false⟩,
        ⟨4, 1, [4], true⟩]).outputs
      = (List.range' 1 4).map
          (payloadOutput (fun k => ⟨if k = 4 then 1 else 0, [k], decide (k = 4)⟩))
        ++ (if ((fun k => (⟨if k = 4 then 1 else 0, [k], decide (k = 4)⟩ : Fragment)) 4).flags
              &&& RTMFP.MESSAGE_END ≠ 0 then [endOutput] else []) ∧
    (run fresh [⟨1, 0, [1], false⟩, ⟨3, 0, [3], false⟩, ⟨2, 0, [2], false⟩,
        ⟨4, 1, [4], true⟩])._lost = 0 ∧
    (run fresh [⟨1, 0, [1], false⟩, ⟨3, 0, [3], false⟩, ⟨2, 0, [2], false⟩,
        ⟨4, 1, [4], true⟩])._fragments = [] ∧
    nextStage (run fresh [⟨1, 0, [1], false⟩, ⟨3, 0, [3], false⟩, ⟨2, 0, [2], false⟩,
        ⟨4, 1, [4], true⟩]) = 4 + 1 :=
  input_reorder 4
    [⟨1, 0, [1], false⟩, ⟨3, 0, [3], false⟩, ⟨2, 0, [2], false⟩, ⟨4, 1, [4], true⟩]
    (fun k => ⟨if k = 4 then 1 else 0, [k], decide (k = 4)⟩)
    (by decide) (by decide) (by decide) (by decide) (by decide) (by decide) (by decide)

end RTMFPFlow

namespace RTMFPFlow

/-- C15, the claim as stated fails: after stage 1 with the AFTER-part flag the
byte 9 waits in the reassembly buffer, and the in-order fragment of stage 2
with payload `[7]` and neither flag is delivered as the message `[9, 7]`. -/
theorem onFragment_appends_pending :
    (run fresh [⟨1, 0x10, [9], false⟩])._pBuffer = some [9] ∧
    0 &&& RTMFP.MESSAGE_WITH_BEFOREPART = 0 ∧ 0 &&& RTMFP.MESSAGE_WITH_AFTERPART = 0 ∧
    (onFragment (run fresh [⟨1, 0x10, [9], false⟩]) 2 0 [7] true).outputs
      = [⟨0, [9, 7], true⟩] := by
  decide

/-- C15 as amended: for every flow state and every in-order fragment with a
non-empty payload and neither the BEFORE-part nor the AFTER-part flag,
`onFragment` makes one call of `output`, whose message is the pending
reassembly bytes followed by the chunk, and leaves no reassembly buffer and
the lost-bytes counter as it was; when no reassembly buffer is pending (or it
is empty) the message is exactly that single chunk, byte for byte. -/
theorem onFragment_single_chunk (s : RTMFPFlow) (stage flags : Nat) (packet : Bytes)
    (lastFragment : Bool) (hb : flags &&& RTMFP.MESSAGE_WITH_BEFOREPART = 0)
    (ha : flags &&& RTMFP.MESSAGE_WITH_AFTERPART = 0) (hp : packet ≠ []) :
    (onFragment s stage flags packet lastFragment).outputs
      = s.outputs ++ [⟨s._lost, s._pBuffer.getD [] ++ packet, lastFragment⟩] ∧
    (onFragment s stage flags packet lastFragment)._pBuffer = none ∧
    (onFragment s stage flags packet lastFragment)._lost = s._lost ∧
    (onFragment s stage flags packet lastFragment)._stage = stage ∧
    (s._pBuffer = none ∨ s._pBuffer = some [] →
      (onFragment s stage flags packet lastFragment).outputs
        = s.outputs ++ [⟨s._lost, packet, lastFragment⟩]) := by
  cases hbuf : s._pBuffer with
  | none =>
    simp [onFragment, output, hbuf, hb, ha, hp]
  | some buf =>
    have hne : buf ++ packet ≠ [] := by
      intro h
      exact hp (List.append_eq_nil.mp h).2
    simp only [onFragment, output, hbuf, ha, ne_eq, not_true_eq_false, if_false, hne,
      not_false_eq_true, if_true, Option.getD_some, true_and]
    intro h
    rcases h with h | h
    · exact absurd h (by simp)
    · have : buf = [] := by simpa using h
      rw [this, List.nil_append]

/-- Witness for `onFragment_single_chunk`: a fresh flow and the payload `[7]`. -/
theorem onFragment_single_chunk_witness :
    (onFragment fresh 1 0 [7] true).outputs = fresh.outputs ++ [⟨fresh._lost, [7], true⟩] :=
  (onFragment_single_chunk fresh 1 0 [7] true (by decide) (by decide) (by decide)).2.2.2.2
    (Or.inl rfl)

end RTMFPFlow

/-! ## Flow reassembly: abandon -/

namespace RTMFPFlow

theorem drain_stageEnd (frags : List (Nat × Fragment)) :
    ∀ (s : RTMFPFlow) (n : Nat), (drain frags s n)._stageEnd = s._stageEnd := by
  induction frags with
  | nil => intro s n; rfl
  | cons x rest ih =>
    intro s n
    obtain ⟨k, f⟩ := x
    simp only [drain]
    split_ifs with h
    · rw [ih]; simp only [onFragment_stageEnd]
    · rfl

theorem drain_contiguous (frags : List (Nat × Fragment)) :
    ∀ (s : RTMFPFlow) (n : Nat), sortedKeys frags →
      (∀ e ∈ frags, n ≤ e.1 ∧ e.1 < 18446744073709551616) →
      (drain frags s n)._fragments = frags.drop (contiguous frags n) ∧
      (drain frags s n).delivered = s.delivered ++ List.range' n (contiguous frags n) ∧
      (drain frags s n)._stage
        = (if contiguous frags n = 0 then s._stage else n + contiguous frags n - 1) := by
  induction frags with
  | nil =>
    intro s n _ _
    simp [drain, contiguous]
  | cons x rest ih =>
    intro s n hsorted hkeys
    obtain ⟨k, f⟩ := x
    have hx := List.pairwise_cons.mp hsorted
    have hk := hkeys (k, f) (List.mem_cons_self _ _)
    simp only at hk
    simp only [drain, contiguous]
    by_cases hle : k ≤ n
    · have hkn : k = n := by omega
      rw [if_pos hle, if_pos hkn]
      by_cases hw : n + 1 < 18446744073709551616
      · rw [Nat.mod_eq_of_lt hw]
        obtain ⟨a1, a2, a3⟩ := ih
          { onFragment s n f.flags f.packet f.lastFragment with
            fragmentation := ((onFragment s n f.flags f.packet f.lastFragment).fragmentation
              + 4294967296 - f.packet.length % 4294967296) % 4294967296,
            _fragments := rest }
          (n + 1) hx.2
          (by
            intro e he
            have h1 := hx.1 e he
            have h2 := hkeys e (List.mem_cons_of_mem _ he)
            simp only at h1
            exact ⟨by omega, h2.2⟩)
        refine ⟨?_, ?_, ?_⟩
        · rw [a1, Nat.add_comm 1, List.drop_succ_cons]
        · rw [a2]
          simp only [onFragment_delivered, List.append_assoc, List.singleton_append]
          rw [Nat.add_comm 1 (contiguous rest (n + 1)), List.range'_succ]
        · rw [a3]
          simp only [onFragment_stage]
          split_ifs <;> omega
      · have hrest : rest = [] := by
          cases rest with
          | nil => rfl
          | cons e t =>
            have h1 := hx.1 e (List.mem_cons_self _ _)
            have h2 := hkeys e (List.mem_cons_of_mem _ (List.mem_cons_self _ _))
            simp only at h1
            omega
        subst hrest
        simp [drain, contiguous, onFragment_delivered, onFragment_stage]
    · have hkn : ¬ k = n := by omega
      rw [if_neg hle, if_neg hkn]
      simp

theorem contiguous_le (frags : List (Nat × Fragment)) :
    ∀ n, contiguous frags n ≤ frags.length := by
  induction frags with
  | nil => intro n; simp [contiguous]
  | cons x rest ih =>
    intro n
    obtain ⟨k, f⟩ := x
    simp only [contiguous, List.length_cons]
    split_ifs
    · have := ih (n + 1); omega
    · omega

end RTMFPFlow

namespace RTMFPFlow

theorem onFragment_sameButLost (a b : RTMFPFlow) (st fl : Nat) (p : Bytes) (l : Bool)
    (h : sameButLost a b) : sameButLost (onFragment a st fl p l) (onFragment b st fl p l) := by
  obtain ⟨h1, h2, h3, h4, h5, h6, h7⟩ := h
  unfold sameButLost
  simp only [onFragment, output, h4]
  cases b._pBuffer with
  | none =>
    simp only
    split_ifs <;> simp [h2, h3, h5, h6, h7]
  | some buf =>
    simp only
    split_ifs <;> simp [h2, h3, h5, h6, h7]

theorem drain_sameButLost (frags : List (Nat × Fragment)) :
    ∀ (a b : RTMFPFlow) (n : Nat), sameButLost a b →
      sameButLost (drain frags a n) (drain frags b n) := by
  induction frags with
  | nil =>
    intro a b n h
    obtain ⟨h1, h2, h3, h4, h5, h6, h7⟩ := h
    exact ⟨h1, h2, rfl, h4, h5, h6, h7⟩
  | cons x rest ih =>
    intro a b n h
    obtain ⟨k, f⟩ := x
    simp only [drain]
    split_ifs with hle
    · apply ih
      obtain ⟨h1, h2, h3, h4, h5, h6, h7⟩ :=
        onFragment_sameButLost a b n f.flags f.packet f.lastFragment h
      exact ⟨h1, h2, rfl, h4, by simp only [h5], h6, h7⟩
    · obtain ⟨h1, h2, h3, h4, h5, h6, h7⟩ := h
      exact ⟨h1, h2, rfl, h4, h5, h6, h7⟩

theorem finish_sameButLost (a b : RTMFPFlow) (h : sameButLost a b) :
    sameButLost (finish a) (finish b) := by
  obtain ⟨h1, h2, h3, h4, h5, h6, h7⟩ := h
  unfold sameButLost
  simp only [finish, output, h2, h3]
  split_ifs <;> simp [h1, h2, h3, h4, h5, h6, h7]

theorem abandon_sameButLost (s : RTMFPFlow) (stage flags : Nat) :
    sameButLost (abandon s stage flags) (abandon { s with _pBuffer := none } stage flags) := by
  simp [sameButLost, abandon, nextStage]

theorem dispatch_abandon (s : RTMFPFlow) (stage flags : Nat) (packet : Bytes)
    (lastFragment : Bool) (hab : flags &&& RTMFP.MESSAGE_ABANDON ≠ 0)
    (hge : nextStage s ≤ stage) (hst : stage < 18446744073709551615) :
    dispatch s stage flags packet lastFragment
      = finish (drain (abandon s stage flags)._fragments (abandon s stage flags) (stage + 1)) := by
  have h1 : ¬ stage < nextStage s := by omega
  have hmod : (stage + 1) % 18446744073709551616 = stage + 1 := Nat.mod_eq_of_lt (by omega)
  simp only [dispatch, if_neg h1, if_pos hab, hmod]

theorem dispatch_abandon_spec (s : RTMFPFlow) (stage flags : Nat) (packet : Bytes)
    (lastFragment : Bool) (hsorted : sortedKeys s._fragments)
    (hkeys : ∀ e ∈ s._fragments, e.1 < 18446744073709551616)
    (hab : flags &&& RTMFP.MESSAGE_ABANDON ≠ 0)
    (hge : nextStage s ≤ stage) (hst : stage < 18446744073709551615) :
    nextStage (dispatch s stage flags packet lastFragment)
      = (stage + 1 + contiguous
          (s._fragments.dropWhile (fun e => decide (e.1 < stage + 1))) (stage + 1))
        % 18446744073709551616 ∧
    (dispatch s stage flags packet lastFragment)._fragments
      = (s._fragments.dropWhile (fun e => decide (e.1 < stage + 1))).drop
          (contiguous (s._fragments.dropWhile (fun e => decide (e.1 < stage + 1))) (stage + 1)) ∧
    (∀ e ∈ (dispatch s stage flags packet lastFragment)._fragments, stage < e.1) ∧
    (dispatch s stage flags packet lastFragment).delivered
      = s.delivered ++ List.range' (stage + 1)
          (contiguous (s._fragments.dropWhile (fun e => decide (e.1 < stage + 1))) (stage + 1)) ∧
    (contiguous (s._fragments.dropWhile (fun e => decide (e.1 < stage + 1))) (stage + 1) = 0 →
      (dispatch s stage flags packet lastFragment)._pBuffer = none) ∧
    (dispatch s stage flags packet lastFragment)._stageEnd = s._stageEnd ∧
    sameButLost (dispatch s stage flags packet lastFragment)
      (dispatch { s with _pBuffer := none } stage flags packet lastFragment) ∧
    dispatch s stage flags packet lastFragment = dispatch s stage flags [] false := by
  have hmod : (stage + 1) % 18446744073709551616 = stage + 1 := Nat.mod_eq_of_lt (by omega)
  have hfr : (abandon s stage flags)._fragments
      = s._fragments.dropWhile (fun e => decide (e.1 < stage + 1)) := by
    simp only [abandon, hmod]
  have hd := drain_contiguous (abandon s stage flags)._fragments (abandon s stage flags)
    (stage + 1) (by rw [hfr]; exact dropWhile_sorted _ _ hsorted)
    (by
      intro e he
      rw [hfr] at he
      exact ⟨dropWhile_ge _ _ hsorted e he, hkeys e (dropWhile_mem _ _ e he)⟩)
  rw [hfr] at hd
  obtain ⟨d1, d2, d3⟩ := hd
  have hdis := dispatch_abandon s stage flags packet lastFragment hab hge hst
  have hdis0 := dispatch_abandon s stage flags [] false hab hge hst
  have hdis2 := dispatch_abandon { s with _pBuffer := none } stage flags packet lastFragment hab
    hge hst
  rw [hdis]
  refine ⟨?_, ?_, ?_, ?_, ?_, ?_, ?_, hdis0.symm⟩
  · simp only [nextStage, finish_stage]
    rw [hfr, d3]
    have hA : (abandon s stage flags)._stage = stage := by simp [abandon]
    rw [hA]
    split_ifs with hc
    · rw [hc]
    · congr 1; omega
  · simp only [finish_fragments]
    rw [hfr, d1]
  · simp only [finish_fragments]
    rw [hfr, d1]
    intro e he
    have := dropWhile_ge _ _ hsorted e (List.mem_of_mem_drop he)
    omega
  · simp only [finish_delivered]
    rw [hfr, d2]
    simp [abandon]
  · intro hc
    rw [hfr]
    have hdr : drain (s._fragments.dropWhile (fun e => decide (e.1 < stage + 1)))
        (abandon s stage flags) (stage + 1)
        = { abandon s stage flags with
            _fragments := s._fragments.dropWhile (fun e => decide (e.1 < stage + 1)) } := by
      cases hl : s._fragments.dropWhile (fun e => decide (e.1 < stage + 1)) with
      | nil => simp [drain]
      | cons x rest =>
        obtain ⟨k, f⟩ := x
        rw [hl] at hc
        simp only [contiguous] at hc
        have hk : ¬ k = stage + 1 := by
          intro hk
          rw [if_pos hk] at hc
          omega
        have hkge := dropWhile_ge _ _ hsorted (k, f) (by rw [hl]; exact List.mem_cons_self _ _)
        simp only at hkge
        have : ¬ k ≤ stage + 1 := by omega
        simp only [drain, if_neg this]
    rw [hdr]
    simp only [finish, output]
    split_ifs <;> simp [abandon]
  · simp only [finish_stageEnd, drain_stageEnd]
    simp [abandon]
  · rw [hdis2]
    apply finish_sameButLost
    have hsame := abandon_sameButLost s stage flags
    have hf2 : (abandon { s with _pBuffer := none } stage flags)._fragments
        = (abandon s stage flags)._fragments := hsame.2.2.1.symm
    rw [hf2]
    exact drain_sameButLost _ _ _ _ hsame

end RTMFPFlow

namespace RTMFPFlow

theorem input_open (s : RTMFPFlow) (stage flags : Nat) (packet : Bytes) (lastFragment : Bool)
    (hend : s._stageEnd = 0) :
    input s stage flags packet lastFragment
      = dispatch (if flags &&& RTMFP.MESSAGE_END ≠ 0 then { s with _stageEnd := stage } else s)
          stage flags packet lastFragment := by
  simp only [input, hend, ne_eq, not_true_eq_false, false_and, if_false, true_and]
  split_ifs <;> rfl

/-- C12, the claim as stated fails: with stage 5 buffered, an abandon at stage
`2^64 - 1` makes `nextStage` wrap to 0 and the buffered stage 5, which is
below the abandoned stage, remains. -/
theorem input_abandon_wraps :
    (run fresh [⟨5, 0, [5], false⟩])._stageEnd = 0 ∧
    nextStage (run fresh [⟨5, 0, [5], false⟩]) ≤ 18446744073709551615 ∧
    2 &&& RTMFP.MESSAGE_ABANDON ≠ 0 ∧
    (input (run fresh [⟨5, 0, [5], false⟩]) 18446744073709551615 2 [] false)._fragments.map
      Prod.fst = [5] ∧
    nextStage (input (run fresh [⟨5, 0, [5], false⟩]) 18446744073709551615 2 [] false) = 0 := by
  decide

/-- C12 as amended: for every flow state without a recorded `_stageEnd` and
every input carrying `MESSAGE_ABANDON` with stage `s ≥ nextStage` and
`s < 2^64 - 1`: after `input`, `nextStage` equals (in 64-bit arithmetic) `s + 1`
plus the number of buffered stages that were contiguous from `s + 1`, which
are the stages handed to `onFragment`; the buffer keeps the entries behind
them and none with stage `≤ s`; the pending reassembly buffer has been dropped
(no buffer is left when nothing was contiguous, and the flow is the one the
same input gives without pending buffer, up to the lost-bytes counter); the
result does not depend on the abandoned payload, which is not delivered. -/
theorem input_abandon (s : RTMFPFlow) (stage flags : Nat) (packet : Bytes)
    (lastFragment : Bool) (hsorted : sortedKeys s._fragments)
    (hkeys : ∀ e ∈ s._fragments, e.1 < 18446744073709551616)
    (hend : s._stageEnd = 0) (hab : flags &&& RTMFP.MESSAGE_ABANDON ≠ 0)
    (hge : nextStage s ≤ stage) (hst : stage < 18446744073709551615) :
    nextStage (input s stage flags packet lastFragment)
      = (stage + 1 + contiguous
          (s._fragments.dropWhile (fun e => decide (e.1 < stage + 1))) (stage + 1))
        % 18446744073709551616 ∧
    (input s stage flags packet lastFragment)._fragments
      = (s._fragments.dropWhile (fun e => decide (e.1 < stage + 1))).drop
          (contiguous (s._fragments.dropWhile (fun e => decide (e.1 < stage + 1))) (stage + 1)) ∧
    (∀ e ∈ (input s stage flags packet lastFragment)._fragments, stage < e.1) ∧
    (input s stage flags packet lastFragment).delivered
      = s.delivered ++ List.range' (stage + 1)
          (contiguous (s._fragments.dropWhile (fun e => decide (e.1 < stage + 1))) (stage + 1)) ∧
    (contiguous (s._fragments.dropWhile (fun e => decide (e.1 < stage + 1))) (stage + 1) = 0 →
      (input s stage flags packet lastFragment)._pBuffer = none) ∧
    sameButLost (input s stage flags packet lastFragment)
      (input { s with _pBuffer := none } stage flags packet lastFragment) ∧
    input s stage flags packet lastFragment = input s stage flags [] false := by
  rw [input_open s stage flags packet lastFragment hend,
    input_open s stage flags [] false hend,
    input_open { s with _pBuffer := none } stage flags packet lastFragment hend]
  by_cases he : flags &&& RTMFP.MESSAGE_END ≠ 0
  · simp only [if_pos he]
    obtain ⟨a1, a2, a3, a4, a5, _, a7, a8⟩ :=
      dispatch_abandon_spec { s with _stageEnd := stage } stage flags packet lastFragment
        hsorted hkeys hab hge hst
    exact ⟨a1, a2, a3, a4, a5, a7, a8⟩
  · simp only [if_neg he]
    obtain ⟨a1, a2, a3, a4, a5, _, a7, a8⟩ :=
      dispatch_abandon_spec s stage flags packet lastFragment hsorted hkeys hab hge hst
    exact ⟨a1, a2, a3, a4, a5, a7, a8⟩

/-- Witness for `input_abandon`, scenario S3: after stages 1 and 2, stage 5 with
`MESSAGE_ABANDON` leaves `nextStage` at 6 and an empty buffer. -/
theorem input_abandon_witness :
    nextStage (input (run fresh [⟨1, 0, [1], false⟩, ⟨2, 0, [2], false⟩]) 5 2 [7, 7] false) = 6 ∧
    (input (run fresh [⟨1, 0, [1], false⟩, ⟨2, 0, [2], false⟩]) 5 2 [7, 7] false)._fragments
      = [] :=
  ⟨(input_abandon (run fresh [⟨1, 0, [1], false⟩, ⟨2, 0, [2], false⟩]) 5 2 [7, 7] false
      (by unfold sortedKeys; decide) (by decide) (by decide) (by decide) (by decide)
      (by decide)).1,
   (input_abandon (run fresh [⟨1, 0, [1], false⟩, ⟨2, 0, [2], false⟩]) 5 2 [7, 7] false
      (by unfold sortedKeys; decide) (by decide) (by decide) (by decide) (by decide)
      (by decide)).2.1⟩

end RTMFPFlow

/-! ## Flow reassembly: idempotence -/

namespace RTMFPFlow

theorem emplace_again (l : List (Nat × Fragment)) (k : Nat) (f f2 : Fragment) :
    emplace (emplace l k f).1 k f2 = ((emplace l k f).1, false) := by
  induction l with
  | nil => simp [emplace]
  | cons x rest ih =>
    obtain ⟨k0, f0⟩ := x
    simp only [emplace]
    split_ifs with h1 h2
    · simp [emplace]
    · simp [emplace, h1, h2]
    · simp only [emplace, if_neg h1, if_neg h2, ih]

theorem dispatch_stageEnd (s : RTMFPFlow) (stage flags : Nat) (packet : Bytes)
    (lastFragment : Bool) :
    (dispatch s stage flags packet lastFragment)._stageEnd = s._stageEnd := by
  simp only [dispatch]
  split_ifs
  · rfl
  · simp only [finish_stageEnd, drain_stageEnd]; simp [abandon]
  · rfl
  · rfl
  · simp only [finish_stageEnd, drain_stageEnd, onFragment_stageEnd]

theorem dispatch_stage_ge (s : RTMFPFlow) (stage flags : Nat) (packet : Bytes)
    (lastFragment : Bool) (hs : s._stage < 18446744073709551615)
    (hsorted : sortedKeys s._fragments)
    (hkeys : ∀ e ∈ s._fragments, s._stage + 1 < e.1 ∧ e.1 < 18446744073709551615)
    (hst : stage < 18446744073709551615)
    (h1 : ¬ stage < nextStage s)
    (h2 : flags &&& RTMFP.MESSAGE_ABANDON ≠ 0 ∨ ¬ stage > nextStage s) :
    stage ≤ (dispatch s stage flags packet lastFragment)._stage := by
  have hns : nextStage s = s._stage + 1 := Nat.mod_eq_of_lt (by omega)
  have hmod : (stage + 1) % 18446744073709551616 = stage + 1 := Nat.mod_eq_of_lt (by omega)
  by_cases hab : flags &&& RTMFP.MESSAGE_ABANDON ≠ 0
  · rw [dispatch_abandon s stage flags packet lastFragment hab (by omega) hst]
    simp only [finish_stage]
    have hfr : (abandon s stage flags)._fragments
        = s._fragments.dropWhile (fun e => decide (e.1 < stage + 1)) := by
      simp only [abandon, hmod]
    have hd := drain_contiguous (abandon s stage flags)._fragments (abandon s stage flags)
      (stage + 1) (by rw [hfr]; exact dropWhile_sorted _ _ hsorted)
      (by
        intro e he
        rw [hfr] at he
        have := (hkeys e (dropWhile_mem _ _ e he)).2
        exact ⟨dropWhile_ge _ _ hsorted e he, by omega⟩)
    rw [hd.2.2]
    have hA : (abandon s stage flags)._stage = stage := by simp [abandon]
    rw [hA]
    split_ifs <;> omega
  · have h3 : ¬ stage > nextStage s := by
      rcases h2 with h2 | h2
      · exact absurd h2 hab
      · exact h2
    have hstage : stage = s._stage + 1 := by omega
    have hmod2 : (nextStage s + 1) % 18446744073709551616 = stage + 1 := by
      rw [hns, ← hstage]; exact hmod
    simp only [dispatch, if_neg h1, if_neg hab, if_neg h3, hmod2, finish_stage,
      onFragment_fragments]
    have hd := drain_contiguous s._fragments
      (onFragment s (nextStage s) flags packet lastFragment) (stage + 1) hsorted
      (by
        intro e he
        have := hkeys e he
        exact ⟨by omega, by omega⟩)
    rw [hd.2.2]
    simp only [onFragment_stage]
    split_ifs <;> omega

theorem dispatch_twice (s : RTMFPFlow) (stage flags : Nat) (packet : Bytes)
    (lastFragment : Bool) (hs : s._stage < 18446744073709551615)
    (hsorted : sortedKeys s._fragments)
    (hkeys : ∀ e ∈ s._fragments, s._stage + 1 < e.1 ∧ e.1 < 18446744073709551615)
    (hp : s.delivered.Pairwise (fun a b => a < b)) (hd : ∀ d ∈ s.delivered, d ≤ s._stage)
    (hst : stage < 18446744073709551615) :
    dispatch (dispatch s stage flags packet lastFragment) stage flags packet lastFragment
      = dispatch s stage flags packet lastFragment := by
  have hinv1 := dispatch_deliveryInv s stage flags packet lastFragment hs hsorted hkeys hp hd hst
  by_cases h1 : stage < nextStage s
  · simp only [dispatch, if_pos h1]
  · by_cases h2 : flags &&& RTMFP.MESSAGE_ABANDON ≠ 0 ∨ ¬ stage > nextStage s
    · have hge := dispatch_stage_ge s stage flags packet lastFragment hs hsorted hkeys hst h1 h2
      have hlt : stage < nextStage (dispatch s stage flags packet lastFragment) := by
        have : nextStage (dispatch s stage flags packet lastFragment)
            = (dispatch s stage flags packet lastFragment)._stage + 1 :=
          Nat.mod_eq_of_lt (by have := hinv1.1; omega)
        omega
      generalize dispatch s stage flags packet lastFragment = s1 at hlt ⊢
      simp only [dispatch, if_pos hlt]
    · have hab : ¬ flags &&& RTMFP.MESSAGE_ABANDON ≠ 0 := fun h => h2 (Or.inl h)
      have h3 : stage > nextStage s := by
        by_contra h3
        exact h2 (Or.inr h3)
      have hd1 : dispatch s stage flags packet lastFragment
          = if (emplace s._fragments stage ⟨flags, packet, lastFragment⟩).2 then
              { s with
                _fragments := (emplace s._fragments stage ⟨flags, packet, lastFragment⟩).1,
                fragmentation := (s.fragmentation + packet.length) % 4294967296 }
            else s := by
        simp only [dispatch, if_neg h1, if_neg hab, if_pos h3]
      rw [hd1]
      by_cases he : (emplace s._fragments stage ⟨flags, packet, lastFragment⟩).2 = true
      · rw [if_pos he]
        have hns : nextStage { s with
            _fragments := (emplace s._fragments stage ⟨flags, packet, lastFragment⟩).1,
            fragmentation := (s.fragmentation + packet.length) % 4294967296 }
            = nextStage s := rfl
        simp only [dispatch, hns, if_neg h1, if_neg hab, if_pos h3, emplace_again]
        simp
      · rw [if_neg he]
        simp only [dispatch, if_neg h1, if_neg hab, if_pos h3, if_neg he]

theorem input_twice (s : RTMFPFlow) (stage flags : Nat) (packet : Bytes)
    (lastFragment : Bool) (hinv : deliveryInv s) (hst : stage < 18446744073709551615)
    (hnc : ¬ completed (input s stage flags packet lastFragment)) :
    input (input s stage flags packet lastFragment) stage flags packet lastFragment
      = input s stage flags packet lastFragment := by
  obtain ⟨hs, hsorted, hkeys, hp, hd⟩ := hinv
  by_cases hA : s._stageEnd ≠ 0 ∧ s._fragments = []
  · exfalso
    apply hnc
    simp only [input, if_pos hA, completed]
    exact hA
  · have hd2 : ∀ d ∈ s.delivered, d ≤ s._stage := by
      rcases hd with hd | hd
      · exact absurd hd hA
      · exact hd
    by_cases hB : s._stageEnd ≠ 0 ∧ stage > s._stageEnd
    · have h1 : input s stage flags packet lastFragment = s := by
        simp only [input, if_neg hA, if_pos hB]
      rw [h1, h1]
    · by_cases hC : s._stageEnd = 0 ∧ flags &&& RTMFP.MESSAGE_END ≠ 0
      · have h1 : input s stage flags packet lastFragment
            = dispatch { s with _stageEnd := stage } stage flags packet lastFragment := by
          simp only [input, if_neg hA, if_neg hB, if_pos hC]
        have hse := dispatch_stageEnd { s with _stageEnd := stage } stage flags packet
          lastFragment
        simp only at hse
        have htw := dispatch_twice { s with _stageEnd := stage } stage flags packet lastFragment
          hs hsorted hkeys hp hd2 hst
        rw [h1] at hnc ⊢
        generalize dispatch { s with _stageEnd := stage } stage flags packet lastFragment = s1
          at hnc hse htw ⊢
        have hA1 : ¬ (s1._stageEnd ≠ 0 ∧ s1._fragments = []) := hnc
        have hB1 : ¬ (s1._stageEnd ≠ 0 ∧ stage > s1._stageEnd) := by
          rintro ⟨_, h⟩; omega
        by_cases hC1 : s1._stageEnd = 0 ∧ flags &&& RTMFP.MESSAGE_END ≠ 0
        · have : ({ s1 with _stageEnd := stage } : RTMFPFlow) = s1 := by
            have h0 : stage = s1._stageEnd := hse.symm
            rw [h0]
          simp only [input, if_neg hA1, if_neg hB1, if_pos hC1, this, htw]
        · simp only [input, if_neg hA1, if_neg hB1, if_neg hC1, htw]
      · have h1 : input s stage flags packet lastFragment
            = dispatch s stage flags packet lastFragment := by
          simp only [input, if_neg hA, if_neg hB, if_neg hC]
        have hse := dispatch_stageEnd s stage flags packet lastFragment
        have htw := dispatch_twice s stage flags packet lastFragment
          hs hsorted hkeys hp hd2 hst
        rw [h1] at hnc ⊢
        generalize dispatch s stage flags packet lastFragment = s1 at hnc hse htw ⊢
        have hA1 : ¬ (s1._stageEnd ≠ 0 ∧ s1._fragments = []) := hnc
        have hB1 : ¬ (s1._stageEnd ≠ 0 ∧ stage > s1._stageEnd) := by
          rw [hse]; exact hB
        have hC1 : ¬ (s1._stageEnd = 0 ∧ flags &&& RTMFP.MESSAGE_END ≠ 0) := by
          rw [hse]; exact hC
        simp only [input, if_neg hA1, if_neg hB1, if_neg hC1, htw]

end RTMFPFlow

namespace RTMFPFlow

/-- C11, the claim as stated fails in two ways. With stage 2 buffered and
carrying `MESSAGE_END`, stage 1 completes the flow at current stage 2, and
stage 1 processed again is accepted by the completed flow, which sets the
current stage back to 1. After an abandon at stage `2^64 - 2`, stage
`2^64 - 1` is delivered and `nextStage` wraps to 0, so the same input
processed again is buffered. -/
theorem input_not_idempotent :
    ((input (run fresh [⟨2, 1, [2], true⟩]) 1 0 [1] false)._stage = 2 ∧
      (input (input (run fresh [⟨2, 1, [2], true⟩]) 1 0 [1] false) 1 0 [1] false)._stage = 1) ∧
    ((input (run fresh [⟨18446744073709551614, 2, [], false⟩])
        18446744073709551615 0 [1] false)._fragments = [] ∧
      (input (input (run fresh [⟨18446744073709551614, 2, [], false⟩])
        18446744073709551615 0 [1] false) 18446744073709551615 0 [1] false)._fragments
        = [(18446744073709551615, ⟨0, [1], false⟩)]) := by
  decide

/-- C11 as amended: for every state reached from a fresh flow and every input
`x`, no stage being `2^64 - 1`: when the first processing of `x` does not
leave the flow completed, the state after processing `x` twice in a row
equals the state after processing it once; when it leaves the flow completed
(`_stageEnd` recorded, nothing buffered), the second processing is accepted
anyway, sets the current stage to the stage of `x` and changes nothing else.
In both cases the second processing delivers nothing. -/
theorem input_idempotent (calls : List Call) (x : Call)
    (hcalls : ∀ c ∈ calls, c.stage < 18446744073709551615)
    (hx : x.stage < 18446744073709551615) :
    (¬ completed (input (run fresh calls) x.stage x.flags x.packet x.lastFragment) →
      input (input (run fresh calls) x.stage x.flags x.packet x.lastFragment)
          x.stage x.flags x.packet x.lastFragment
        = input (run fresh calls) x.stage x.flags x.packet x.lastFragment) ∧
    (completed (input (run fresh calls) x.stage x.flags x.packet x.lastFragment) →
      input (input (run fresh calls) x.stage x.flags x.packet x.lastFragment)
          x.stage x.flags x.packet x.lastFragment
        = { input (run fresh calls) x.stage x.flags x.packet x.lastFragment with
            _stage := x.stage }) ∧
    (input (input (run fresh calls) x.stage x.flags x.packet x.lastFragment)
        x.stage x.flags x.packet x.lastFragment).delivered
      = (input (run fresh calls) x.stage x.flags x.packet x.lastFragment).delivered ∧
    (input (input (run fresh calls) x.stage x.flags x.packet x.lastFragment)
        x.stage x.flags x.packet x.lastFragment).outputs
      = (input (run fresh calls) x.stage x.flags x.packet x.lastFragment).outputs := by
  have hinv : deliveryInv (run fresh calls) := run_deliveryInv calls fresh (by
    refine ⟨by decide, List.Pairwise.nil, ?_, List.Pairwise.nil, Or.inr ?_⟩
    · intro e he
      exact absurd he (List.not_mem_nil _)
    · intro d hd
      exact absurd hd (List.not_mem_nil _)) hcalls
  have h1 : ¬ completed (input (run fresh calls) x.stage x.flags x.packet x.lastFragment) →
      input (input (run fresh calls) x.stage x.flags x.packet x.lastFragment)
          x.stage x.flags x.packet x.lastFragment
        = input (run fresh calls) x.stage x.flags x.packet x.lastFragment :=
    input_twice (run fresh calls) x.stage x.flags x.packet x.lastFragment hinv hx
  have h2 : completed (input (run fresh calls) x.stage x.flags x.packet x.lastFragment) →
      input (input (run fresh calls) x.stage x.flags x.packet x.lastFragment)
          x.stage x.flags x.packet x.lastFragment
        = { input (run fresh calls) x.stage x.flags x.packet x.lastFragment with
            _stage := x.stage } := by
    intro hc
    generalize input (run fresh calls) x.stage x.flags x.packet x.lastFragment = s1 at hc ⊢
    have hc2 : s1._stageEnd ≠ 0 ∧ s1._fragments = [] := hc
    simp only [input, if_pos hc2]
  refine ⟨h1, h2, ?_, ?_⟩
  · by_cases hc : completed (input (run fresh calls) x.stage x.flags x.packet x.lastFragment)
    · rw [h2 hc]
    · rw [h1 hc]
  · by_cases hc : completed (input (run fresh calls) x.stage x.flags x.packet x.lastFragment)
    · rw [h2 hc]
    · rw [h1 hc]

/-- Witness for `input_idempotent`: stage 3 arrives twice after stage 1. -/
theorem input_idempotent_witness :
    input (input (run fresh [⟨1, 0, [1], false⟩]) 3 0 [3] false) 3 0 [3] false
      = input (run fresh [⟨1, 0, [1], false⟩]) 3 0 [3] false :=
  (input_idempotent [⟨1, 0, [1], false⟩] ⟨3, 0, [3], false⟩ (by decide) (by decide)).1
    (by unfold completed; decide)

end RTMFPFlow

/-! ## Flow reassembly: any arrival order delivers as the arrival in order -/

namespace RTMFPFlow

theorem onFragment_sameDelivery (a c : RTMFPFlow) (st fl : Nat) (p : Bytes) (l : Bool)
    (h : sameDelivery a c) : sameDelivery (onFragment a st fl p l) (onFragment c st fl p l) := by
  obtain ⟨h1, h2, h3, h4⟩ := h
  unfold sameDelivery
  simp only [onFragment, output, h1]
  cases c._pBuffer with
  | none =>
    simp only
    split_ifs <;> simp [h2, h3, h4]
  | some buf =>
    simp only
    split_ifs <;> simp [h2, h3, h4]

theorem range_base_succ (b j : Nat) :
    List.range' (b + 1) (j + 1) = List.range' (b + 1) j ++ [b + j + 1] := by
  rw [List.range'_1_concat]
  congr 2
  omega

theorem drain_feed (P : Nat → Fragment) (m0 n : Nat) (s0 : RTMFPFlow)
    (hW : m0 + n < 18446744073709551616) (frags : List (Nat × Fragment)) :
    ∀ (s : RTMFPFlow) (j x : Nat), j ≤ n → s._stage = m0 + j →
      sameDelivery s (deliverTo P s0 m0 j) → sortedKeys frags →
      (∀ e ∈ frags, m0 + j + 1 ≤ e.1 ∧ e.1 ≤ m0 + n ∧ e.2 = P e.1) →
      (frags ≠ [] → x = m0 + j + 1) →
      ∃ j2, j ≤ j2 ∧ j2 ≤ n ∧ (drain frags s x)._stage = m0 + j2 ∧
        sameDelivery (drain frags s x) (deliverTo P s0 m0 j2) ∧
        sortedKeys (drain frags s x)._fragments ∧
        (∀ e ∈ (drain frags s x)._fragments, m0 + j2 + 1 < e.1 ∧ e.1 ≤ m0 + n ∧ e.2 = P e.1) ∧
        List.range' (m0 + 1) j2 ++ (drain frags s x)._fragments.map Prod.fst
          = List.range' (m0 + 1) j ++ frags.map Prod.fst ∧
        (drain frags s x)._stageEnd = s._stageEnd := by
  induction frags with
  | nil =>
    intro s j x hj hs hsame _ _ _
    refine ⟨j, le_refl _, hj, hs, hsame, List.Pairwise.nil, ?_, rfl, rfl⟩
    intro e he
    exact absurd he (List.not_mem_nil _)
  | cons y rest ih =>
    intro s j x hj hs hsame hsorted hkeys hx
    obtain ⟨k, f⟩ := y
    have hx2 : x = m0 + j + 1 := hx (by simp)
    have hy := List.pairwise_cons.mp hsorted
    have hk := hkeys (k, f) (List.mem_cons_self _ _)
    simp only at hk
    simp only [drain]
    by_cases hle : k ≤ x
    · have hkx : k = m0 + j + 1 := by omega
      have hf : f = P (m0 + j + 1) := by rw [← hkx]; exact hk.2.2
      rw [if_pos hle]
      have hsame2 : sameDelivery
          { onFragment s x f.flags f.packet f.lastFragment with
            fragmentation := ((onFragment s x f.flags f.packet f.lastFragment).fragmentation
              + 4294967296 - f.packet.length % 4294967296) % 4294967296,
            _fragments := rest }
          (deliverTo P s0 m0 (j + 1)) := by
        have := onFragment_sameDelivery s (deliverTo P s0 m0 j) x f.flags f.packet
          f.lastFragment hsame
        rw [hx2, hf] at this
        rw [hx2, hf]
        exact this
      obtain ⟨j2, b1, b2, b3, b4, b5, b6, b7, b8⟩ := ih
        { onFragment s x f.flags f.packet f.lastFragment with
          fragmentation := ((onFragment s x f.flags f.packet f.lastFragment).fragmentation
            + 4294967296 - f.packet.length % 4294967296) % 4294967296,
          _fragments := rest }
        (j + 1) ((x + 1) % 18446744073709551616) (by omega)
        (by simp only [onFragment_stage]; omega) hsame2 hy.2
        (by
          intro e he
          have h1 := hy.1 e he
          have h2 := hkeys e (List.mem_cons_of_mem _ he)
          simp only at h1
          exact ⟨by omega, h2.2⟩)
        (by
          intro hne
          obtain ⟨e, t, rfl⟩ := List.exists_cons_of_ne_nil hne
          have h1 := hy.1 e (List.mem_cons_self _ _)
          have h2 := hkeys e (List.mem_cons_of_mem _ (List.mem_cons_self _ _))
          simp only at h1
          rw [Nat.mod_eq_of_lt (by omega)]
          omega)
      refine ⟨j2, by omega, b2, b3, b4, b5, b6, ?_, ?_⟩
      · rw [b7, range_base_succ, hkx]
        simp
      · rw [b8]
        simp only [onFragment_stageEnd]
    · rw [if_neg hle]
      refine ⟨j, le_refl _, hj, hs, hsame, hsorted, ?_, rfl, rfl⟩
      intro e he
      simp only [List.mem_cons] at he
      have h2 := hkeys e (by simpa using he)
      refine ⟨?_, h2.2⟩
      rcases he with he | he
      · rw [he]; simp only; omega
      · have := hy.1 e he
        simp only at this; omega

end RTMFPFlow

namespace RTMFPFlow

theorem finish_pBuffer (s : RTMFPFlow) : (finish s)._pBuffer = s._pBuffer := by
  simp only [finish, output]; split_ifs <;> rfl

theorem finish_lost (s : RTMFPFlow) : (finish s)._lost = s._lost := by
  simp only [finish, output]; split_ifs <;> rfl

theorem finish_outputs (s : RTMFPFlow) :
    (finish s).outputs = s.outputs
      ++ (if s._stageEnd ≠ 0 ∧ s._fragments = [] then [⟨s._lost, [], true⟩] else []) := by
  simp only [finish, output]
  by_cases h : s._fragments = [] ∧ s._stageEnd ≠ 0
  · rw [if_pos h, if_pos ⟨h.2, h.1⟩]
  · rw [if_neg h, if_neg (fun h2 => h ⟨h2.2, h2.1⟩), List.append_nil]

theorem dispatch_feed (P : Nat → Fragment) (m0 n : Nat) (s0 : RTMFPFlow)
    (hW : m0 + n < 18446744073709551616) (hF : feedStages P m0 n)
    (s : RTMFPFlow) (seen : List Nat) (c : Call) (j : Nat) (hj : j ≤ n)
    (hs : s._stage = m0 + j) (hsame : sameDelivery s (deliverTo P s0 m0 j))
    (hsorted : sortedKeys s._fragments)
    (hkeys : ∀ e ∈ s._fragments, m0 + j + 1 < e.1 ∧ e.1 ≤ m0 + n ∧ e.2 = P e.1)
    (hperm : (List.range' (m0 + 1) j ++ s._fragments.map Prod.fst).Perm seen)
    (hc1 : m0 < c.stage) (hc2 : c.stage ≤ m0 + n)
    (hcP : P c.stage = ⟨c.flags, c.packet, c.lastFragment⟩) (hnew : c.stage ∉ seen) :
    ∃ j2, j2 ≤ n ∧
      (dispatch s c.stage c.flags c.packet c.lastFragment)._stage = m0 + j2 ∧
      (dispatch s c.stage c.flags c.packet c.lastFragment)._pBuffer
        = (deliverTo P s0 m0 j2)._pBuffer ∧
      (dispatch s c.stage c.flags c.packet c.lastFragment)._lost
        = (deliverTo P s0 m0 j2)._lost ∧
      (dispatch s c.stage c.flags c.packet c.lastFragment).delivered
        = (deliverTo P s0 m0 j2).delivered ∧
      (dispatch s c.stage c.flags c.packet c.lastFragment).outputs
        = (deliverTo P s0 m0 j2).outputs
          ++ (if (dispatch s c.stage c.flags c.packet c.lastFragment)._stageEnd ≠ 0
                ∧ (dispatch s c.stage c.flags c.packet c.lastFragment)._fragments = []
              then [⟨(dispatch s c.stage c.flags c.packet c.lastFragment)._lost, [], true⟩]
              else []) ∧
      sortedKeys (dispatch s c.stage c.flags c.packet c.lastFragment)._fragments ∧
      (∀ e ∈ (dispatch s c.stage c.flags c.packet c.lastFragment)._fragments,
        m0 + j2 + 1 < e.1 ∧ e.1 ≤ m0 + n ∧ e.2 = P e.1) ∧
      (List.range' (m0 + 1) j2
          ++ (dispatch s c.stage c.flags c.packet c.lastFragment)._fragments.map Prod.fst).Perm
        (c.stage :: seen) ∧
      (dispatch s c.stage c.flags c.packet c.lastFragment)._stageEnd = s._stageEnd := by
  have hjn : j < n := by
    by_contra hge
    have hjeq : j = n := by omega
    apply hnew
    apply hperm.subset
    apply List.mem_append_left
    rw [List.mem_range'_1]
    omega
  have hns : nextStage s = m0 + j + 1 := by
    simp only [nextStage, hs]
    exact Nat.mod_eq_of_lt (by omega)
  have hFc := hF c.stage hc1 hc2
  rw [hcP] at hFc
  simp only at hFc
  have hnotkey : c.stage ∉ s._fragments.map Prod.fst := fun h =>
    hnew (hperm.subset (List.mem_append_right _ h))
  have h1 : ¬ c.stage < nextStage s := by
    intro h1
    apply hnew
    apply hperm.subset
    apply List.mem_append_left
    rw [List.mem_range'_1]
    omega
  have h2 : ¬ c.flags &&& RTMFP.MESSAGE_ABANDON ≠ 0 := fun h => h hFc.1
  obtain ⟨e1, e2, e3, e4⟩ := hsame
  by_cases h3 : c.stage > nextStage s
  · have hins := emplace_inserted s._fragments c.stage ⟨c.flags, c.packet, c.lastFragment⟩ hnotkey
    have hd : dispatch s c.stage c.flags c.packet c.lastFragment
        = { s with
            _fragments := (emplace s._fragments c.stage ⟨c.flags, c.packet, c.lastFragment⟩).1,
            fragmentation := (s.fragmentation + c.packet.length) % 4294967296 } := by
      simp only [dispatch, if_neg h1, if_neg h2, if_pos h3, hins.1, if_true]
    rw [hd]
    have hne : ¬ (s._stageEnd ≠ 0 ∧
        (emplace s._fragments c.stage ⟨c.flags, c.packet, c.lastFragment⟩).1 = []) :=
      fun h => hins.2.2 h.2
    simp only [if_neg hne, List.append_nil]
    refine ⟨j, hj, hs, e1, e2, e3, e4, emplace_sorted _ _ _ hsorted, ?_, ?_, trivial⟩
    · intro e he
      rcases emplace_mem _ _ _ e he with he | he
      · exact hkeys e he
      · rw [he]; simp only; exact ⟨by omega, hc2, hcP.symm⟩
    · exact (List.Perm.append_left _ hins.2.1).trans
        (List.perm_middle.trans (List.Perm.cons _ hperm))
  · have hst : c.stage = m0 + j + 1 := by omega
    have hd : dispatch s c.stage c.flags c.packet c.lastFragment
        = finish (drain s._fragments
            (onFragment s (m0 + j + 1) c.flags c.packet c.lastFragment)
            ((m0 + j + 1 + 1) % 18446744073709551616)) := by
      have h1b : ¬ c.stage < m0 + j + 1 := by omega
      have h3b : ¬ c.stage > m0 + j + 1 := by omega
      simp only [dispatch, hns, if_neg h1b, if_neg h2, if_neg h3b, onFragment_fragments]
    rw [hd]
    have hsame2 : sameDelivery (onFragment s (m0 + j + 1) c.flags c.packet c.lastFragment)
        (deliverTo P s0 m0 (j + 1)) := by
      have := onFragment_sameDelivery s (deliverTo P s0 m0 j) (m0 + j + 1) c.flags c.packet
        c.lastFragment ⟨e1, e2, e3, e4⟩
      have hP2 : P (m0 + j + 1) = ⟨c.flags, c.packet, c.lastFragment⟩ := by
        rw [← hst]; exact hcP
      simp only [deliverTo, hP2]
      exact this
    obtain ⟨j2, b1, b2, b3, b4, b5, b6, b7, b8⟩ := drain_feed P m0 n s0 hW s._fragments
      (onFragment s (m0 + j + 1) c.flags c.packet c.lastFragment) (j + 1)
      ((m0 + j + 1 + 1) % 18446744073709551616) (by omega)
      (by simp only [onFragment_stage]; omega) hsame2 hsorted
      (by
        intro e he
        have := hkeys e he
        exact ⟨by omega, this.2⟩)
      (by
        intro hne
        obtain ⟨e, t, het⟩ := List.exists_cons_of_ne_nil hne
        have := hkeys e (by rw [het]; exact List.mem_cons_self _ _)
        rw [Nat.mod_eq_of_lt (by omega)]
        omega)
    obtain ⟨f1, f2, f3, f4⟩ := b4
    refine ⟨j2, b2, ?_, ?_, ?_, ?_, ?_, ?_, ?_, ?_, ?_⟩
    · rw [finish_stage]; exact b3
    · rw [finish_pBuffer]; exact f1
    · rw [finish_lost]; exact f2
    · rw [finish_delivered]; exact f3
    · rw [finish_outputs, finish_stageEnd, finish_fragments, finish_lost, f4]
    · rw [finish_fragments]; exact b5
    · rw [finish_fragments]; exact b6
    · rw [finish_fragments, b7, range_base_succ, ← hst, List.append_assoc]
      simp only [List.singleton_append]
      exact List.perm_middle.trans (List.Perm.cons _ hperm)
    · rw [finish_stageEnd, b8, onFragment_stageEnd]

end RTMFPFlow

namespace RTMFPFlow

theorem feedInv_perm (P : Nat → Fragment) (m0 n : Nat) (s0 : RTMFPFlow)
    (seen seen2 : List Nat) (s : RTMFPFlow) (hp : seen.Perm seen2)
    (h : feedInv P m0 n s0 seen s) : feedInv P m0 n s0 seen2 s := by
  obtain ⟨j, a1, a2, a3, a4, a5, a6, a7, a8, a9, a10, a11⟩ := h
  refine ⟨j, a1, a2, a3, a4, a5, a6, a7, a8, a9.trans hp, a10, ?_⟩
  rw [a11, hp.mem_iff]

theorem input_feed_step (P : Nat → Fragment) (m0 n : Nat) (s0 : RTMFPFlow)
    (hW : m0 + n < 18446744073709551616) (hF : feedStages P m0 n)
    (s : RTMFPFlow) (seen : List Nat) (c : Call) (hinv : feedInv P m0 n s0 seen s)
    (hc1 : m0 < c.stage) (hc2 : c.stage ≤ m0 + n)
    (hcP : P c.stage = ⟨c.flags, c.packet, c.lastFragment⟩) (hnew : c.stage ∉ seen) :
    feedInv P m0 n s0 (c.stage :: seen) (input s c.stage c.flags c.packet c.lastFragment) := by
  obtain ⟨j, hj, hs, e1, e2, e3, hout, hsorted, hkeys, hperm, hse, hiff⟩ := hinv
  have hFc := hF c.stage hc1 hc2
  rw [hcP] at hFc
  simp only at hFc
  have hncomp : ¬ (s._stageEnd ≠ 0 ∧ s._fragments = []) := by
    rintro ⟨he, hf⟩
    have hn := (hiff.mp he).1
    rw [hf, List.map_nil, List.append_nil] at hperm
    have hn2 : m0 + n ∈ List.range' (m0 + 1) j := hperm.symm.subset hn
    rw [List.mem_range'_1] at hn2
    apply hnew
    apply hperm.subset
    rw [List.mem_range'_1]
    omega
  have hngt : ¬ (s._stageEnd ≠ 0 ∧ c.stage > s._stageEnd) := by
    rintro ⟨he, hg⟩
    rcases hse with h | h
    · exact he h
    · omega
  have hout2 : s.outputs = (deliverTo P s0 m0 j).outputs := by
    rw [hout, if_neg hncomp, List.append_nil]
  by_cases h3 : s._stageEnd = 0 ∧ c.flags &&& RTMFP.MESSAGE_END ≠ 0
  · have hin : input s c.stage c.flags c.packet c.lastFragment
        = dispatch { s with _stageEnd := c.stage } c.stage c.flags c.packet c.lastFragment := by
      simp only [input, if_neg hncomp, if_neg hngt, if_pos h3]
    have hcn : c.stage = m0 + n := hFc.2 h3.2
    rw [hin]
    obtain ⟨j2, a1, a2, a3, a4, a5, a6, a7, a8, a9, a10⟩ :=
      dispatch_feed P m0 n s0 hW hF { s with _stageEnd := c.stage } seen c j hj hs
        ⟨e1, e2, e3, hout2⟩ hsorted hkeys hperm hc1 hc2 hcP hnew
    refine ⟨j2, a1, a2, a3, a4, a5, a6, a7, a8, a9, Or.inr (by rw [a10]; exact hcn), ?_⟩
    rw [a10]
    simp only
    constructor
    · intro _
      refine ⟨by rw [hcn]; exact List.mem_cons_self _ _, ?_⟩
      rw [← hcn, hcP]
      exact h3.2
    · intro _
      omega
  · have hin : input s c.stage c.flags c.packet c.lastFragment
        = dispatch s c.stage c.flags c.packet c.lastFragment := by
      simp only [input, if_neg hncomp, if_neg hngt, if_neg h3]
    rw [hin]
    obtain ⟨j2, a1, a2, a3, a4, a5, a6, a7, a8, a9, a10⟩ :=
      dispatch_feed P m0 n s0 hW hF s seen c j hj hs
        ⟨e1, e2, e3, hout2⟩ hsorted hkeys hperm hc1 hc2 hcP hnew
    refine ⟨j2, a1, a2, a3, a4, a5, a6, a7, a8, a9, by rw [a10]; exact hse, ?_⟩
    rw [a10]
    constructor
    · intro he
      have := hiff.mp he
      exact ⟨List.mem_cons_of_mem _ this.1, this.2⟩
    · rintro ⟨hn, hend⟩
      simp only [List.mem_cons] at hn
      rcases hn with hn | hn
      · rw [hn, hcP] at hend
        simp only at hend
        intro h0
        exact h3 ⟨h0, hend⟩
      · exact hiff.mpr ⟨hn, hend⟩

theorem run_feed (P : Nat → Fragment) (m0 n : Nat) (s0 : RTMFPFlow)
    (hW : m0 + n < 18446744073709551616) (hF : feedStages P m0 n) (calls : List Call) :
    ∀ (s : RTMFPFlow) (seen : List Nat), feedInv P m0 n s0 seen s →
      (∀ c ∈ calls, m0 < c.stage ∧ c.stage ≤ m0 + n
        ∧ P c.stage = ⟨c.flags, c.packet, c.lastFragment⟩ ∧ c.stage ∉ seen) →
      (calls.map Call.stage).Nodup →
      feedInv P m0 n s0 (calls.map Call.stage ++ seen) (run s calls) := by
  induction calls with
  | nil => intro s seen h _ _; exact h
  | cons c rest ih =>
    intro s seen h hc hnd
    have hc0 := hc c (List.mem_cons_self _ _)
    have hstep := input_feed_step P m0 n s0 hW hF s seen c h hc0.1 hc0.2.1 hc0.2.2.1 hc0.2.2.2
    simp only [List.map_cons, List.nodup_cons] at hnd
    have hrest := ih _ (c.stage :: seen) hstep
      (by
        intro c2 h2
        have := hc c2 (List.mem_cons_of_mem _ h2)
        refine ⟨this.1, this.2.1, this.2.2.1, ?_⟩
        simp only [List.mem_cons, not_or]
        refine ⟨?_, this.2.2.2⟩
        intro heq
        exact hnd.1 (heq ▸ List.mem_map_of_mem Call.stage h2))
      hnd.2
    simp only [run, List.foldl_cons, List.map_cons]
    exact feedInv_perm P m0 n s0 _ _ _ List.perm_middle hrest

theorem feedInv_start (P : Nat → Fragment) (m0 n : Nat) (s0 : RTMFPFlow)
    (hs : s0._stage = m0) (hend : s0._stageEnd = 0) (hfr : s0._fragments = []) :
    feedInv P m0 n s0 [] s0 := by
  refine ⟨0, Nat.zero_le _, by simpa using hs, rfl, rfl, rfl, ?_, ?_, ?_, ?_, Or.inl hend, ?_⟩
  · simp [deliverTo, hend]
  · rw [hfr]; exact List.Pairwise.nil
  · intro e he
    rw [hfr] at he
    exact absurd he (List.not_mem_nil _)
  · simp [hfr]
  · simp [hend]

/-- What the invariant gives once every stage has arrived. -/
theorem feedInv_all (P : Nat → Fragment) (m0 n : Nat) (s0 : RTMFPFlow) (seen : List Nat)
    (s : RTMFPFlow) (hn : 1 ≤ n) (h : feedInv P m0 n s0 seen s)
    (hseen : seen.Perm (List.range' (m0 + 1) n)) :
    s._stage = m0 + n ∧ s._fragments = [] ∧
    s._pBuffer = (deliverTo P s0 m0 n)._pBuffer ∧ s._lost = (deliverTo P s0 m0 n)._lost ∧
    s.delivered = (deliverTo P s0 m0 n).delivered ∧
    s.outputs = (deliverTo P s0 m0 n).outputs
      ++ (if (P (m0 + n)).flags &&& RTMFP.MESSAGE_END ≠ 0
          then [⟨(deliverTo P s0 m0 n)._lost, [], true⟩] else []) ∧
    s._stageEnd = (if (P (m0 + n)).flags &&& RTMFP.MESSAGE_END ≠ 0 then m0 + n else 0) := by
  obtain ⟨j, hj, hs, e1, e2, e3, hout, hsorted, hkeys, hperm, hse, hiff⟩ := h
  have hp := hperm.trans hseen
  have hjn : j = n := by
    by_contra hne
    have hmem : m0 + j + 1 ∈ List.range' (m0 + 1) n := by
      rw [List.mem_range'_1]; omega
    have hmem2 := hp.symm.subset hmem
    rw [List.mem_append] at hmem2
    rcases hmem2 with h | h
    · rw [List.mem_range'_1] at h; omega
    · obtain ⟨e, he, hek⟩ := List.mem_map.mp h
      have := (hkeys e he).1
      omega
  subst hjn
  have hfr : s._fragments = [] := by
    have hlen := hp.length_eq
    simp only [List.length_append, List.length_range', List.length_map] at hlen
    exact List.eq_nil_of_length_eq_zero (by omega)
  have hnmem : m0 + j ∈ seen := by
    apply hseen.symm.subset
    rw [List.mem_range'_1]; omega
  refine ⟨hs, hfr, e1, e2, e3, ?_, ?_⟩
  · rw [hout]
    congr 1
    by_cases he : (P (m0 + j)).flags &&& RTMFP.MESSAGE_END ≠ 0
    · have : s._stageEnd ≠ 0 := hiff.mpr ⟨hnmem, he⟩
      rw [if_pos he, if_pos ⟨this, hfr⟩, e2]
    · have : ¬ (s._stageEnd ≠ 0 ∧ s._fragments = []) := fun h => he (hiff.mp h.1).2
      rw [if_neg he, if_neg this]
  · by_cases he : (P (m0 + j)).flags &&& RTMFP.MESSAGE_END ≠ 0
    · have h0 : s._stageEnd ≠ 0 := hiff.mpr ⟨hnmem, he⟩
      rw [if_pos he]
      rcases hse with h | h
      · exact absurd h h0
      · exact h
    · rw [if_neg he]
      by_contra h0
      exact he (hiff.mp h0).2

/-- What the invariant gives while a stage is still missing. -/
theorem feedInv_some (P : Nat → Fragment) (m0 n : Nat) (s0 : RTMFPFlow) (seen : List Nat)
    (s : RTMFPFlow) (h : feedInv P m0 n s0 seen s) (hlen : seen.length < n) :
    ∃ j, j < n ∧ s._stage = m0 + j ∧ s.outputs = (deliverTo P s0 m0 j).outputs ∧
      s.delivered = (deliverTo P s0 m0 j).delivered := by
  obtain ⟨j, hj, hs, e1, e2, e3, hout, hsorted, hkeys, hperm, hse, hiff⟩ := h
  have hl := hperm.length_eq
  simp only [List.length_append, List.length_range', List.length_map] at hl
  have hncomp : ¬ (s._stageEnd ≠ 0 ∧ s._fragments = []) := by
    rintro ⟨he, hf⟩
    have hn := (hiff.mp he).1
    rw [hf, List.map_nil, List.append_nil] at hperm
    have hn2 : m0 + n ∈ List.range' (m0 + 1) j := hperm.symm.subset hn
    rw [List.mem_range'_1] at hn2
    omega
  refine ⟨j, by omega, hs, ?_, e3⟩
  rw [hout, if_neg hncomp, List.append_nil]

theorem deliverTo_delivered (P : Nat → Fragment) (s0 : RTMFPFlow) (m0 : Nat) :
    ∀ j, (deliverTo P s0 m0 j).delivered = s0.delivered ++ List.range' (m0 + 1) j := by
  intro j
  induction j with
  | zero => simp [deliverTo]
  | succ j ih =>
    simp only [deliverTo, onFragment_delivered, ih, range_base_succ, List.append_assoc]

theorem onFragment_outputs_mem (s : RTMFPFlow) (st fl : Nat) (p : Bytes) (l : Bool)
    (o : Output) (h : o ∈ (onFragment s st fl p l).outputs) :
    o ∈ s.outputs ∨ o.packet ≠ [] := by
  simp only [onFragment, output] at h
  split at h <;> split_ifs at h with h1 h2
  all_goals first
    | exact Or.inl h
    | (simp only [List.mem_append, List.mem_singleton] at h
       rcases h with h | h
       · exact Or.inl h
       · right; rw [h]; assumption)

theorem deliverTo_outputs_mem (P : Nat → Fragment) (s0 : RTMFPFlow) (m0 : Nat) :
    ∀ j, ∀ o ∈ (deliverTo P s0 m0 j).outputs, o ∈ s0.outputs ∨ o.packet ≠ [] := by
  intro j
  induction j with
  | zero => intro o ho; exact Or.inl ho
  | succ j ih =>
    intro o ho
    rcases onFragment_outputs_mem _ _ _ _ _ o ho with h | h
    · exact ih o h
    · exact Or.inr h

theorem exists_stage_fragment (calls : List Call) (h : (calls.map Call.stage).Nodup) :
    ∃ P : Nat → Fragment, ∀ c ∈ calls, P c.stage = ⟨c.flags, c.packet, c.lastFragment⟩ := by
  induction calls with
  | nil => exact ⟨fun _ => ⟨0, [], false⟩, fun c hc => absurd hc (List.not_mem_nil _)⟩
  | cons c rest ih =>
    simp only [List.map_cons, List.nodup_cons] at h
    obtain ⟨P, hP⟩ := ih h.2
    refine ⟨fun k => if k = c.stage then ⟨c.flags, c.packet, c.lastFragment⟩ else P k, ?_⟩
    intro c2 hc2
    simp only [List.mem_cons] at hc2
    rcases hc2 with hc2 | hc2
    · rw [hc2]; simp
    · have hne : c2.stage ≠ c.stage := by
        intro heq
        exact h.1 (heq ▸ List.mem_map_of_mem Call.stage hc2)
      simp only [if_neg hne]
      exact hP c2 hc2

end RTMFPFlow

/-! ## Flow reassembly: end of flow -/

namespace RTMFPFlow

/-- C13: for every `n ≥ 1` (a 64-bit stage) and every arrival order of the
stages 1 to `n` fed once each to a fresh flow, stage `n` and no other carrying
`MESSAGE_END` and no stage carrying `MESSAGE_ABANDON` (any payloads, any
other flags): `_stageEnd` becomes `n`, all stages are handed to `onFragment`
in order, and the end-of-flow signal, the only call of `output` with an empty
packet, is the last output of the run, with `lastFragment = true`; after
every shorter part of the arrival sequence no output has an empty packet and
not all stages have been delivered, so the signal is emitted exactly once, by
the call that completes the delivery. -/
theorem end_signal_once (n : Nat) (calls : List Call)
    (hn : 1 ≤ n) (hW : n < 18446744073709551616)
    (hperm : (calls.map Call.stage).Perm (List.range' 1 n))
    (hab : ∀ c ∈ calls, c.flags &&& RTMFP.MESSAGE_ABANDON = 0)
    (hend : ∀ c ∈ calls, (c.flags &&& RTMFP.MESSAGE_END ≠ 0 ↔ c.stage = n)) :
    (run fresh calls)._stageEnd = n ∧
    (run fresh calls).delivered = List.range' 1 n ∧
    (∃ pre lost, (run fresh calls).outputs = pre ++ [⟨lost, [], true⟩]
      ∧ ∀ o ∈ pre, o.packet ≠ []) ∧
    (∀ k, k < calls.length →
      (∀ o ∈ (run fresh (calls.take k)).outputs, o.packet ≠ []) ∧
      (run fresh (calls.take k)).delivered ≠ List.range' 1 n) := by
  have hnd : (calls.map Call.stage).Nodup := hperm.nodup_iff.mpr (List.nodup_range' 1 n)
  obtain ⟨P, hP⟩ := exists_stage_fragment calls hnd
  have hstages : ∀ c ∈ calls, 0 < c.stage ∧ c.stage ≤ 0 + n := by
    intro c hc
    have := hperm.subset (List.mem_map_of_mem Call.stage hc)
    rw [List.mem_range'_1] at this
    omega
  have hF : feedStages P 0 n := by
    intro k hk1 hk2
    have hk : k ∈ calls.map Call.stage := by
      apply hperm.symm.subset
      rw [List.mem_range'_1]; omega
    obtain ⟨c, hc, hck⟩ := List.mem_map.mp hk
    rw [← hck, hP c hc]
    refine ⟨hab c hc, ?_⟩
    intro he
    have := (hend c hc).mp he
    omega
  have hW0 : 0 + n < 18446744073709551616 := by omega
  have hstart := feedInv_start P 0 n fresh rfl rfl rfl
  have hPn : (P (0 + n)).flags &&& RTMFP.MESSAGE_END ≠ 0 := by
    have hk : n ∈ calls.map Call.stage := by
      apply hperm.symm.subset
      rw [List.mem_range'_1]; omega
    obtain ⟨c, hc, hck⟩ := List.mem_map.mp hk
    rw [Nat.zero_add, ← hck, hP c hc]
    exact (hend c hc).mpr hck
  have hfresh_out : ∀ j, ∀ o ∈ (deliverTo P fresh 0 j).outputs, o.packet ≠ [] := by
    intro j o ho
    rcases deliverTo_outputs_mem P fresh 0 j o ho with h | h
    · exact absurd h (List.not_mem_nil _)
    · exact h
  have hfresh_del : ∀ j, (deliverTo P fresh 0 j).delivered = List.range' 1 j := by
    intro j
    rw [deliverTo_delivered]
    simp [fresh]
  have hrun := run_feed P 0 n fresh hW0 hF calls fresh [] hstart
    (by
      intro c hc
      exact ⟨(hstages c hc).1, (hstages c hc).2, hP c hc, List.not_mem_nil _⟩)
    hnd
  rw [List.append_nil] at hrun
  obtain ⟨a1, a2, a3, a4, a5, a6, a7⟩ := feedInv_all P 0 n fresh _ _ hn hrun
    (by simpa using hperm)
  refine ⟨?_, ?_, ?_, ?_⟩
  · rw [a7, if_pos hPn]; omega
  · rw [a5, hfresh_del]
  · rw [if_pos hPn] at a6
    exact ⟨_, _, a6, hfresh_out n⟩
  · intro k hk
    have hlen : calls.length = n := by
      have := hperm.length_eq
      simpa using this
    have hsub : (calls.take k).Sublist calls := List.take_sublist k calls
    have hndk : ((calls.take k).map Call.stage).Nodup :=
      List.Nodup.sublist (List.Sublist.map Call.stage hsub) hnd
    have hrunk := run_feed P 0 n fresh hW0 hF (calls.take k) fresh [] hstart
      (by
        intro c hc
        have hc2 := hsub.subset hc
        exact ⟨(hstages c hc2).1, (hstages c hc2).2, hP c hc2, List.not_mem_nil _⟩)
      hndk
    rw [List.append_nil] at hrunk
    obtain ⟨j, hj, _, b3, b4⟩ := feedInv_some P 0 n fresh _ _ hrunk
      (by simp only [List.length_map, List.length_take]; omega)
    refine ⟨?_, ?_⟩
    · rw [b3]; exact hfresh_out j
    · rw [b4, hfresh_del]
      intro heq
      have := congrArg List.length heq
      simp only [List.length_range'] at this
      omega

/-- Witness for `end_signal_once`, scenario S2: stages 1, 3, 2, 4, the last
with `MESSAGE_END`. -/
theorem end_signal_once_witness :
    (run fresh [⟨1, 0, [1], false⟩, ⟨3, 0, [3], false⟩, ⟨2, 0, [2], false⟩,
      ⟨4, 1, [4], true⟩])._stageEnd = 4 :=
  (end_signal_once 4
    [⟨1, 0, [1], false⟩, ⟨3, 0, [3], false⟩, ⟨2, 0, [2], false⟩, ⟨4, 1, [4], true⟩]
    (by decide) (by decide) (by decide) (by decide) (by decide)).1

end RTMFPFlow

/-! ## Flow reassembly: fragmented messages -/

namespace RTMFPFlow

theorem concatChunks_ne_nil (P : Nat → Fragment) (m0 : Nat) (h : (P (m0 + 1)).packet ≠ []) :
    ∀ j, 1 ≤ j → concatChunks P m0 j ≠ [] := by
  intro j hj
  induction j with
  | zero => omega
  | succ j ih =>
    simp only [concatChunks]
    intro hnil
    have h2 := List.append_eq_nil.mp hnil
    by_cases hj0 : j = 0
    · subst hj0
      exact h (by simpa using h2.2)
    · exact ih (by omega) h2.1

theorem chunks_waiting (P : Nat → Fragment) (s0 : RTMFPFlow) (m0 k : Nat)
    (hbuf : s0._pBuffer = none)
    (hfirst : (P (m0 + 1)).flags &&& RTMFP.MESSAGE_WITH_BEFOREPART = 0)
    (hafter : ∀ i, 1 ≤ i → i < k → (P (m0 + i)).flags &&& RTMFP.MESSAGE_WITH_AFTERPART ≠ 0) :
    ∀ j, 1 ≤ j → j < k →
      (deliverTo P s0 m0 j)._pBuffer = some (concatChunks P m0 j) ∧
      (deliverTo P s0 m0 j).outputs = s0.outputs ∧
      (deliverTo P s0 m0 j)._lost = s0._lost := by
  intro j hj
  induction j with
  | zero => omega
  | succ j ih =>
    intro hjk
    by_cases hj0 : j = 0
    · subst hj0
      have ha := hafter 1 (le_refl _) hjk
      simp only [deliverTo, concatChunks, onFragment, output, hbuf, hfirst, ha,
        Nat.add_zero, ne_eq, not_true_eq_false, not_false_eq_true, if_true, if_false,
        List.nil_append]
      exact ⟨trivial, trivial, trivial⟩
    · obtain ⟨b1, b2, b3⟩ := ih (by omega) (by omega)
      have ha := hafter (j + 1) (by omega) hjk
      have ha2 : (P (m0 + j + 1)).flags &&& RTMFP.MESSAGE_WITH_AFTERPART ≠ 0 := ha
      simp only [deliverTo, concatChunks, onFragment, output, b1, ha2, ne_eq,
        not_false_eq_true, if_true]
      exact ⟨trivial, b2, b3⟩

theorem chunks_complete (P : Nat → Fragment) (s0 : RTMFPFlow) (m0 k : Nat) (hk : 2 ≤ k)
    (hbuf : s0._pBuffer = none) (hne : (P (m0 + 1)).packet ≠ [])
    (hfirst : (P (m0 + 1)).flags &&& RTMFP.MESSAGE_WITH_BEFOREPART = 0)
    (hafter : ∀ i, 1 ≤ i → i < k → (P (m0 + i)).flags &&& RTMFP.MESSAGE_WITH_AFTERPART ≠ 0)
    (hlast : (P (m0 + k)).flags &&& RTMFP.MESSAGE_WITH_AFTERPART = 0) :
    (deliverTo P s0 m0 k)._pBuffer = none ∧
    (deliverTo P s0 m0 k).outputs
      = s0.outputs ++ [⟨s0._lost, concatChunks P m0 k, (P (m0 + k)).lastFragment⟩] ∧
    (deliverTo P s0 m0 k)._lost = s0._lost := by
  obtain ⟨j, rfl⟩ : ∃ j, k = j + 1 := ⟨k - 1, by omega⟩
  obtain ⟨b1, b2, b3⟩ := chunks_waiting P s0 m0 (j + 1) hbuf hfirst hafter j (by omega)
    (by omega)
  have hl : (P (m0 + j + 1)).flags &&& RTMFP.MESSAGE_WITH_AFTERPART = 0 := hlast
  have hcat : concatChunks P m0 j ++ (P (m0 + j + 1)).packet ≠ [] := by
    intro h
    exact concatChunks_ne_nil P m0 hne j (by omega) (List.append_eq_nil.mp h).1
  simp only [deliverTo, concatChunks, onFragment, output, b1, hl, ne_eq, not_true_eq_false,
    if_false, hcat, not_false_eq_true, if_true, b2, b3]
  exact ⟨trivial, rfl, trivial⟩

/-- C14, the claim as stated fails in three ways on flows without pending
reassembly buffer. A flow completed by stage 1 with `MESSAGE_END` accepts the
two chunks of stages 2 and 3 without delivering anything. A flow that already
holds a fragment for stage 3 keeps it when the third chunk arrives, and the
message delivered ends with the bytes of that fragment instead of the chunk.
A flow whose recorded end stage 1 is below the chunks, the stage 5 still
waiting, ignores the chunks of stages 2 and 3. -/
theorem chunks_not_reassembled :
    ((run fresh [⟨1, 1, [1], true⟩])._pBuffer = none ∧
      nextStage (run fresh [⟨1, 1, [1], true⟩]) = 2 ∧
      (run (run fresh [⟨1, 1, [1], true⟩])
        [⟨2, 0x10, [5], false⟩, ⟨3, 0x20, [6], true⟩]).outputs
        = (run fresh [⟨1, 1, [1], true⟩]).outputs) ∧
    ((run fresh [⟨3, 0, [9], false⟩])._pBuffer = none ∧
      nextStage (run fresh [⟨3, 0, [9], false⟩]) = 1 ∧
      (run (run fresh [⟨3, 0, [9], false⟩])
        [⟨3, 0x20, [7], true⟩, ⟨1, 0x10, [5], false⟩, ⟨2, 0x30, [6], false⟩]).outputs
        = [⟨0, [5, 6, 9], false⟩]) ∧
    ((run fresh [⟨5, 0, [9], false⟩, ⟨1, 0, [1], false⟩, ⟨1, 1, [1], false⟩])._pBuffer = none ∧
      nextStage (run fresh [⟨5, 0, [9], false⟩, ⟨1, 0, [1], false⟩, ⟨1, 1, [1], false⟩]) = 2 ∧
      (run fresh [⟨5, 0, [9], false⟩, ⟨1, 0, [1], false⟩,
        ⟨1, 1, [1], false⟩])._fragments.map Prod.fst = [5] ∧
      (run fresh [⟨5, 0, [9], false⟩, ⟨1, 0, [1], false⟩, ⟨1, 1, [1], false⟩])._stageEnd = 1 ∧
      (run (run fresh [⟨5, 0, [9], false⟩, ⟨1, 0, [1], false⟩, ⟨1, 1, [1], false⟩])
        [⟨2, 0x10, [5], false⟩, ⟨3, 0x20, [6], true⟩]).outputs
        = (run fresh [⟨5, 0, [9], false⟩, ⟨1, 0, [1], false⟩, ⟨1, 1, [1], false⟩]).outputs) := by
  decide

/-- The reassembly on a flow whose reorder buffer is empty and that has no
`_stageEnd` recorded. -/
theorem chunks_reassembled_plain (s0 : RTMFPFlow) (k : Nat) (calls : List Call)
    (P : Nat → Fragment) (hk : 2 ≤ k) (hW : s0._stage + k < 18446744073709551616)
    (hbuf : s0._pBuffer = none) (hend0 : s0._stageEnd = 0) (hfr : s0._fragments = [])
    (hperm : (calls.map Call.stage).Perm (List.range' (s0._stage + 1) k))
    (hP : ∀ c ∈ calls, P c.stage = ⟨c.flags, c.packet, c.lastFragment⟩)
    (hpay : ∀ c ∈ calls, c.packet ≠ [])
    (hfirst : ∀ c ∈ calls, c.stage = s0._stage + 1 →
      c.flags &&& RTMFP.MESSAGE_WITH_BEFOREPART = 0)
    (hafter : ∀ c ∈ calls,
      (c.flags &&& RTMFP.MESSAGE_WITH_AFTERPART = 0 ↔ c.stage = s0._stage + k))
    (hab : ∀ c ∈ calls, c.flags &&& RTMFP.MESSAGE_ABANDON = 0 ∧
      c.flags &&& RTMFP.MESSAGE_END = 0) :
    (run s0 calls).outputs
      = s0.outputs ++ [⟨s0._lost, concatChunks P s0._stage k,
          (P (s0._stage + k)).lastFragment⟩] ∧
    (run s0 calls)._lost = s0._lost ∧ (run s0 calls)._pBuffer = none ∧
    (run s0 calls)._stage = s0._stage + k ∧ (run s0 calls)._fragments = [] ∧
    (∀ i, i < calls.length → (run s0 (calls.take i)).outputs = s0.outputs) := by
  have hnd : (calls.map Call.stage).Nodup :=
    hperm.nodup_iff.mpr (List.nodup_range' _ k)
  have hstages : ∀ c ∈ calls, s0._stage < c.stage ∧ c.stage ≤ s0._stage + k := by
    intro c hc
    have := hperm.subset (List.mem_map_of_mem Call.stage hc)
    rw [List.mem_range'_1] at this
    omega
  have hcall : ∀ i, 1 ≤ i → i ≤ k → ∃ c ∈ calls, c.stage = s0._stage + i := by
    intro i h1 h2
    have hk : s0._stage + i ∈ calls.map Call.stage := by
      apply hperm.symm.subset
      rw [List.mem_range'_1]; omega
    obtain ⟨c, hc, hck⟩ := List.mem_map.mp hk
    exact ⟨c, hc, hck⟩
  have hF : feedStages P s0._stage k := by
    intro x hx1 hx2
    obtain ⟨c, hc, hck⟩ := hcall (x - s0._stage) (by omega) (by omega)
    have hcx : c.stage = x := by omega
    rw [← hcx, hP c hc]
    refine ⟨(hab c hc).1, ?_⟩
    intro he
    exact absurd (hab c hc).2 he
  have hPfirst : (P (s0._stage + 1)).flags &&& RTMFP.MESSAGE_WITH_BEFOREPART = 0 := by
    obtain ⟨c, hc, hck⟩ := hcall 1 (le_refl _) (by omega)
    rw [← hck, hP c hc]
    exact hfirst c hc hck
  have hPne : (P (s0._stage + 1)).packet ≠ [] := by
    obtain ⟨c, hc, hck⟩ := hcall 1 (le_refl _) (by omega)
    rw [← hck, hP c hc]
    exact hpay c hc
  have hPafter : ∀ i, 1 ≤ i → i < k →
      (P (s0._stage + i)).flags &&& RTMFP.MESSAGE_WITH_AFTERPART ≠ 0 := by
    intro i h1 h2
    obtain ⟨c, hc, hck⟩ := hcall i h1 (by omega)
    rw [← hck, hP c hc]
    intro h0
    have := (hafter c hc).mp h0
    omega
  have hPlast : (P (s0._stage + k)).flags &&& RTMFP.MESSAGE_WITH_AFTERPART = 0 := by
    obtain ⟨c, hc, hck⟩ := hcall k (by omega) (le_refl _)
    rw [← hck, hP c hc]
    exact (hafter c hc).mpr hck
  have hPend : ¬ (P (s0._stage + k)).flags &&& RTMFP.MESSAGE_END ≠ 0 := by
    obtain ⟨c, hc, hck⟩ := hcall k (by omega) (le_refl _)
    rw [← hck, hP c hc]
    intro h
    exact h (hab c hc).2
  have hstart := feedInv_start P s0._stage k s0 rfl hend0 hfr
  have hrun := run_feed P s0._stage k s0 hW hF calls s0 [] hstart
    (by
      intro c hc
      exact ⟨(hstages c hc).1, (hstages c hc).2, hP c hc, List.not_mem_nil _⟩)
    hnd
  rw [List.append_nil] at hrun
  obtain ⟨a1, a2, a3, a4, a5, a6, a7⟩ := feedInv_all P s0._stage k s0 _ _ (by omega) hrun hperm
  obtain ⟨c1, c2, c3⟩ := chunks_complete P s0 s0._stage k hk hbuf hPne hPfirst hPafter hPlast
  refine ⟨?_, by rw [a4, c3], by rw [a3, c1], a1, a2, ?_⟩
  · rw [a6, if_neg hPend, List.append_nil, c2]
  · intro i hi
    have hlen : calls.length = k := by
      have := hperm.length_eq
      simpa using this
    have hsub : (calls.take i).Sublist calls := List.take_sublist i calls
    have hndk : ((calls.take i).map Call.stage).Nodup :=
      List.Nodup.sublist (List.Sublist.map Call.stage hsub) hnd
    have hruni := run_feed P s0._stage k s0 hW hF (calls.take i) s0 [] hstart
      (by
        intro c hc
        have hc2 := hsub.subset hc
        exact ⟨(hstages c hc2).1, (hstages c hc2).2, hP c hc2, List.not_mem_nil _⟩)
      hndk
    rw [List.append_nil] at hruni
    obtain ⟨j, hj, _, b3, _⟩ := feedInv_some P s0._stage k s0 _ _ hruni
      (by simp only [List.length_map, List.length_take]; omega)
    rw [b3]
    by_cases hj0 : j = 0
    · subst hj0; rfl
    · exact (chunks_waiting P s0 s0._stage k hbuf hPfirst hPafter j (by omega) hj).2.1

theorem emplace_append (T E : List (Nat × Fragment)) (k : Nat) (f : Fragment)
    (hE : ∀ e ∈ E, k < e.1) :
    emplace (T ++ E) k f = ((emplace T k f).1 ++ E, (emplace T k f).2) := by
  induction T with
  | nil =>
    cases E with
    | nil => rfl
    | cons e rest =>
      obtain ⟨k0, f0⟩ := e
      have h := hE (k0, f0) (List.mem_cons_self _ _)
      simp only at h
      simp only [List.nil_append, emplace, if_pos h, List.singleton_append]
  | cons x rest ih =>
    obtain ⟨k0, f0⟩ := x
    rw [List.cons_append]
    unfold emplace
    split_ifs with h1 h2
    · rfl
    · rfl
    · rw [ih]
      rfl

theorem finish_eq_self (s : RTMFPFlow) (h : ¬ (s._fragments = [] ∧ s._stageEnd ≠ 0)) :
    finish s = s := by
  simp only [finish, if_neg h]

theorem drain_append (E : List (Nat × Fragment)) (hi : Nat) (hE : ∀ e ∈ E, hi + 1 < e.1)
    (T : List (Nat × Fragment)) :
    ∀ (s t : RTMFPFlow) (x : Nat), sameDelivery s t → s._stage = t._stage → sortedKeys T →
      (∀ e ∈ T, x ≤ e.1 ∧ e.1 ≤ hi) → x ≤ hi + 1 →
      (drain (T ++ E) s x)._fragments = (drain T t x)._fragments ++ E ∧
      (drain (T ++ E) s x)._stage = (drain T t x)._stage ∧
      sameDelivery (drain (T ++ E) s x) (drain T t x) := by
  induction T with
  | nil =>
    intro s t x hsame hst _ _ hx
    cases E with
    | nil => exact ⟨rfl, hst, hsame⟩
    | cons e rest =>
      obtain ⟨k0, f0⟩ := e
      have h := hE (k0, f0) (List.mem_cons_self _ _)
      simp only at h
      simp only [List.nil_append, drain]
      rw [if_neg (by omega)]
      exact ⟨rfl, hst, hsame⟩
  | cons y rest ih =>
    intro s t x hsame hst hsorted hkeys hx
    obtain ⟨k, f⟩ := y
    have hy := List.pairwise_cons.mp hsorted
    have hk := hkeys (k, f) (List.mem_cons_self _ _)
    simp only at hk
    simp only [List.cons_append, drain]
    by_cases hle : k ≤ x
    · rw [if_pos hle, if_pos hle]
      have hmod : (x + 1) % 18446744073709551616 ≤ x + 1 := Nat.mod_le _ _
      have hsame2 := onFragment_sameDelivery s t x f.flags f.packet f.lastFragment hsame
      apply ih
      · exact hsame2
      · simp only [onFragment_stage]
      · exact hy.2
      · intro e he
        have h1 := hy.1 e he
        have h2 := hkeys e (List.mem_cons_of_mem _ he)
        simp only at h1
        exact ⟨by omega, h2.2⟩
      · omega
    · rw [if_neg hle, if_neg hle]
      exact ⟨rfl, hst, hsame⟩

theorem dispatch_framed (E : List (Nat × Fragment)) (hi : Nat) (hE : ∀ e ∈ E, hi + 1 < e.1)
    (s t : RTMFPFlow) (stage flags : Nat) (packet : Bytes) (lastFragment : Bool)
    (hfr : s._fragments = t._fragments ++ E) (hst : s._stage = t._stage)
    (hsame : sameDelivery s t) (hsorted : sortedKeys t._fragments)
    (hkeys : ∀ e ∈ t._fragments, nextStage t < e.1 ∧ e.1 ≤ hi)
    (hstage : stage ≤ hi) (hab : flags &&& RTMFP.MESSAGE_ABANDON = 0)
    (hS : s._stageEnd = 0 ∨ E ≠ []) (hT : t._stageEnd = 0) :
    (dispatch s stage flags packet lastFragment)._fragments
      = (dispatch t stage flags packet lastFragment)._fragments ++ E ∧
    (dispatch s stage flags packet lastFragment)._stage
      = (dispatch t stage flags packet lastFragment)._stage ∧
    sameDelivery (dispatch s stage flags packet lastFragment)
      (dispatch t stage flags packet lastFragment) := by
  have hns : nextStage s = nextStage t := by simp only [nextStage, hst]
  have hab2 : ¬ flags &&& RTMFP.MESSAGE_ABANDON ≠ 0 := fun h => h hab
  simp only [dispatch, hns]
  by_cases h1 : stage < nextStage t
  · rw [if_pos h1, if_pos h1]
    exact ⟨hfr, hst, hsame⟩
  · rw [if_neg h1, if_neg h1, if_neg hab2, if_neg hab2]
    by_cases h3 : stage > nextStage t
    · rw [if_pos h3, if_pos h3]
      have hem := emplace_append t._fragments E stage ⟨flags, packet, lastFragment⟩
        (fun e he => by have := hE e he; omega)
      rw [hfr, hem]
      simp only
      split_ifs
      · exact ⟨rfl, hst, hsame⟩
      · exact ⟨hfr, hst, hsame⟩
    · rw [if_neg h3, if_neg h3]
      have heq : stage = nextStage t := by omega
      have hmod : (nextStage t + 1) % 18446744073709551616 ≤ nextStage t + 1 := Nat.mod_le _ _
      have hsame2 := onFragment_sameDelivery s t (nextStage t) flags packet lastFragment hsame
      obtain ⟨d1, d2, d3⟩ := drain_append E hi hE t._fragments
        (onFragment s (nextStage t) flags packet lastFragment)
        (onFragment t (nextStage t) flags packet lastFragment)
        ((nextStage t + 1) % 18446744073709551616) hsame2
        (by simp only [onFragment_stage]) hsorted
        (fun e he => ⟨by have := (hkeys e he).1; omega, (hkeys e he).2⟩) (by omega)
      simp only [onFragment_fragments, hfr]
      rw [finish_eq_self, finish_eq_self]
      · exact ⟨d1, d2, d3⟩
      · rintro ⟨_, h⟩
        apply h
        rw [drain_stageEnd, onFragment_stageEnd]
        exact hT
      · rintro ⟨hnil, h⟩
        rw [d1] at hnil
        rcases hS with h0 | hne
        · apply h
          rw [drain_stageEnd, onFragment_stageEnd]
          exact h0
        · exact hne (List.append_eq_nil.mp hnil).2

theorem input_framed (E : List (Nat × Fragment)) (hi : Nat) (hE : ∀ e ∈ E, hi + 1 < e.1)
    (s t : RTMFPFlow) (stage flags : Nat) (packet : Bytes) (lastFragment : Bool)
    (hfr : s._fragments = t._fragments ++ E) (hst : s._stage = t._stage)
    (hsame : sameDelivery s t) (hsorted : sortedKeys t._fragments)
    (hkeys : ∀ e ∈ t._fragments, nextStage t < e.1 ∧ e.1 ≤ hi)
    (hstage : stage ≤ hi) (hab : flags &&& RTMFP.MESSAGE_ABANDON = 0)
    (hend : flags &&& RTMFP.MESSAGE_END = 0)
    (hS : s._stageEnd = 0 ∨ (E ≠ [] ∧ hi ≤ s._stageEnd)) (hT : t._stageEnd = 0) :
    (input s stage flags packet lastFragment)._fragments
      = (input t stage flags packet lastFragment)._fragments ++ E ∧
    (input s stage flags packet lastFragment)._stage
      = (input t stage flags packet lastFragment)._stage ∧
    sameDelivery (input s stage flags packet lastFragment)
      (input t stage flags packet lastFragment) ∧
    (input s stage flags packet lastFragment)._stageEnd = s._stageEnd := by
  have ht : input t stage flags packet lastFragment
      = dispatch t stage flags packet lastFragment := by
    rw [input_open _ _ _ _ _ hT, if_neg (fun h => h hend)]
  have hs : input s stage flags packet lastFragment
      = dispatch s stage flags packet lastFragment := by
    simp only [input]
    rw [if_neg, if_neg, if_neg]
    · rintro ⟨_, h⟩; exact h hend
    · rintro ⟨h0, hgt⟩
      rcases hS with h | ⟨_, h⟩
      · exact h0 h
      · omega
    · rintro ⟨h0, hnil⟩
      rcases hS with h | ⟨hne, _⟩
      · exact h0 h
      · rw [hfr] at hnil
        exact hne (List.append_eq_nil.mp hnil).2
  rw [hs, ht]
  obtain ⟨a, b, c⟩ := dispatch_framed E hi hE s t stage flags packet lastFragment hfr hst
    hsame hsorted hkeys hstage hab
    (by rcases hS with h | ⟨h, _⟩; exact Or.inl h; exact Or.inr h) hT
  exact ⟨a, b, c, dispatch_stageEnd _ _ _ _ _⟩

theorem run_framed (P : Nat → Fragment) (m0 n : Nat) (t0 : RTMFPFlow)
    (hW : m0 + n < 18446744073709551616) (hF : feedStages P m0 n)
    (hnoend : ∀ x, m0 < x → x ≤ m0 + n → (P x).flags &&& RTMFP.MESSAGE_END = 0)
    (E : List (Nat × Fragment)) (hE : ∀ e ∈ E, m0 + n + 1 < e.1) (S : Nat)
    (hS : S = 0 ∨ (E ≠ [] ∧ m0 + n ≤ S)) (calls : List Call) :
    ∀ (s t : RTMFPFlow) (seen : List Nat), feedInv P m0 n t0 seen t →
      s._fragments = t._fragments ++ E → s._stage = t._stage → sameDelivery s t →
      s._stageEnd = S →
      (∀ c ∈ calls, m0 < c.stage ∧ c.stage ≤ m0 + n
        ∧ P c.stage = ⟨c.flags, c.packet, c.lastFragment⟩ ∧ c.stage ∉ seen) →
      (calls.map Call.stage).Nodup →
      (run s calls)._fragments = (run t calls)._fragments ++ E ∧
      (run s calls)._stage = (run t calls)._stage ∧
      sameDelivery (run s calls) (run t calls) := by
  induction calls with
  | nil => intro s t seen _ h1 h2 h3 _ _ _; exact ⟨h1, h2, h3⟩
  | cons c rest ih =>
    intro s t seen hinv hfr hst hsame hSs hc hnd
    have hc0 := hc c (List.mem_cons_self _ _)
    have hstep := input_feed_step P m0 n t0 hW hF t seen c hinv hc0.1 hc0.2.1 hc0.2.2.1
      hc0.2.2.2
    obtain ⟨j, hj, hts, _, _, _, _, hsorted, hkeys, _, _, hiff⟩ := hinv
    have hT : t._stageEnd = 0 := by
      by_contra h
      exact (hiff.mp h).2 (hnoend (m0 + n) (by omega) (le_refl _))
    have hFc := hF c.stage hc0.1 hc0.2.1
    have hEc := hnoend c.stage hc0.1 hc0.2.1
    rw [hc0.2.2.1] at hFc hEc
    simp only at hFc hEc
    have hnext : nextStage t ≤ m0 + j + 1 := by
      simp only [nextStage, hts]
      exact Nat.mod_le _ _
    obtain ⟨a, b, d, e⟩ := input_framed E (m0 + n) hE s t c.stage c.flags c.packet
      c.lastFragment hfr hst hsame hsorted
      (fun x hx => ⟨by have := (hkeys x hx).1; omega, (hkeys x hx).2.1⟩)
      hc0.2.1 hFc.1 hEc (by rw [hSs]; exact hS) hT
    simp only [List.map_cons, List.nodup_cons] at hnd
    simp only [run, List.foldl_cons]
    exact ih _ _ (c.stage :: seen) hstep a b d (by rw [e]; exact hSs)
      (by
        intro c2 h2
        have := hc c2 (List.mem_cons_of_mem _ h2)
        refine ⟨this.1, this.2.1, this.2.2.1, ?_⟩
        simp only [List.mem_cons, not_or]
        refine ⟨?_, this.2.2.2⟩
        intro heq
        exact hnd.1 (heq ▸ List.mem_map_of_mem Call.stage h2))
      hnd.2

/-- C14 as amended: for every message split into `k ≥ 2` non-empty chunks
carried on the consecutive stages `nextStage`, ..., `nextStage + k - 1`
(64-bit values), with the AFTER-part flag on every chunk but the last, no
BEFORE-part flag on the first, and neither `MESSAGE_ABANDON` nor
`MESSAGE_END`, fed in any arrival order to a flow with no pending reassembly
buffer, that has not ended before the chunks (no `_stageEnd` recorded, or one
at or above the last chunk with fragments still waiting), and whose reorder
buffer holds no fragment up to the stage right behind the last chunk (the
stages that wait are above `nextStage`, so none is on a chunk stage or right
behind them): exactly one message is delivered, by the call with which the
last missing chunk arrives (after every shorter part of the arrival sequence
the outputs are unchanged); it is the concatenation of the `k` chunks in
stage order, the lost-bytes counter is unchanged and the fragments that
waited still wait. `P` gives the fragment that each stage carries. -/
theorem chunks_reassembled (s0 : RTMFPFlow) (k : Nat) (calls : List Call)
    (P : Nat → Fragment) (hk : 2 ≤ k) (hW : s0._stage + k < 18446744073709551616)
    (hbuf : s0._pBuffer = none)
    (hend0 : s0._stageEnd = 0 ∨ (s0._fragments ≠ [] ∧ s0._stage + k ≤ s0._stageEnd))
    (hfr : ∀ e ∈ s0._fragments, s0._stage + k + 1 < e.1)
    (hperm : (calls.map Call.stage).Perm (List.range' (s0._stage + 1) k))
    (hP : ∀ c ∈ calls, P c.stage = ⟨c.flags, c.packet, c.lastFragment⟩)
    (hpay : ∀ c ∈ calls, c.packet ≠ [])
    (hfirst : ∀ c ∈ calls, c.stage = s0._stage + 1 →
      c.flags &&& RTMFP.MESSAGE_WITH_BEFOREPART = 0)
    (hafter : ∀ c ∈ calls,
      (c.flags &&& RTMFP.MESSAGE_WITH_AFTERPART = 0 ↔ c.stage = s0._stage + k))
    (hab : ∀ c ∈ calls, c.flags &&& RTMFP.MESSAGE_ABANDON = 0 ∧
      c.flags &&& RTMFP.MESSAGE_END = 0) :
    (run s0 calls).outputs
      = s0.outputs ++ [⟨s0._lost, concatChunks P s0._stage k,
          (P (s0._stage + k)).lastFragment⟩] ∧
    (run s0 calls)._lost = s0._lost ∧ (run s0 calls)._pBuffer = none ∧
    (run s0 calls)._stage = s0._stage + k ∧ (run s0 calls)._fragments = s0._fragments ∧
    (∀ i, i < calls.length → (run s0 (calls.take i)).outputs = s0.outputs) := by
  have hnd : (calls.map Call.stage).Nodup :=
    hperm.nodup_iff.mpr (List.nodup_range' _ k)
  have hstages : ∀ c ∈ calls, s0._stage < c.stage ∧ c.stage ≤ s0._stage + k := by
    intro c hc
    have := hperm.subset (List.mem_map_of_mem Call.stage hc)
    rw [List.mem_range'_1] at this
    omega
  have hcall : ∀ x, s0._stage < x → x ≤ s0._stage + k → ∃ c ∈ calls, c.stage = x := by
    intro x h1 h2
    have hx : x ∈ calls.map Call.stage := by
      apply hperm.symm.subset
      rw [List.mem_range'_1]; omega
    obtain ⟨c, hc, hck⟩ := List.mem_map.mp hx
    exact ⟨c, hc, hck⟩
  have hnoend : ∀ x, s0._stage < x → x ≤ s0._stage + k →
      (P x).flags &&& RTMFP.MESSAGE_END = 0 := by
    intro x h1 h2
    obtain ⟨c, hc, hcx⟩ := hcall x h1 h2
    rw [← hcx, hP c hc]
    exact (hab c hc).2
  have hF : feedStages P s0._stage k := by
    intro x hx1 hx2
    obtain ⟨c, hc, hcx⟩ := hcall x hx1 hx2
    rw [← hcx, hP c hc]
    refine ⟨(hab c hc).1, ?_⟩
    intro he
    exact absurd (hab c hc).2 he
  have hstart : feedInv P s0._stage k { s0 with _fragments := [], _stageEnd := 0 } []
      { s0 with _fragments := [], _stageEnd := 0 } :=
    feedInv_start P s0._stage k _ rfl rfl rfl
  have hsim : ∀ cs : List Call, cs.Sublist calls →
      (run s0 cs)._fragments
        = (run { s0 with _fragments := [], _stageEnd := 0 } cs)._fragments ++ s0._fragments ∧
      (run s0 cs)._stage = (run { s0 with _fragments := [], _stageEnd := 0 } cs)._stage ∧
      sameDelivery (run s0 cs) (run { s0 with _fragments := [], _stageEnd := 0 } cs) := by
    intro cs hsub
    exact run_framed P s0._stage k _ hW hF hnoend s0._fragments hfr s0._stageEnd hend0 cs
      s0 { s0 with _fragments := [], _stageEnd := 0 } [] hstart rfl rfl ⟨rfl, rfl, rfl, rfl⟩ rfl
      (by
        intro c hc
        have hc2 := hsub.subset hc
        exact ⟨(hstages c hc2).1, (hstages c hc2).2, hP c hc2, List.not_mem_nil _⟩)
      (List.Nodup.sublist (List.Sublist.map Call.stage hsub) hnd)
  obtain ⟨c1, c2, c3, c4, c5, c6⟩ := chunks_reassembled_plain
    { s0 with _fragments := [], _stageEnd := 0 } k calls P hk hW hbuf rfl rfl hperm hP hpay
    hfirst hafter hab
  obtain ⟨f1, f2, g1, g2, _, g4⟩ := hsim calls (List.Sublist.refl _)
  refine ⟨?_, ?_, ?_, ?_, ?_, ?_⟩
  · rw [g4]; exact c1
  · rw [g2]; exact c2
  · rw [g1]; exact c3
  · rw [f2]; exact c4
  · rw [f1, c5]; rfl
  · intro i hi
    rw [(hsim (calls.take i) (List.take_sublist i calls)).2.2.2.2.2]
    exact c6 i hi

/-- Witness for `chunks_reassembled`: on a flow where the stage 10 waits, the
two chunks of stages 1 and 2 arrive in the order 2, 1; the message 5, 6 is
delivered and the stage 10 still waits. -/
theorem chunks_reassembled_witness :
    (run (run fresh [⟨10, 0, [9], false⟩])
        [⟨2, 0x20, [6], true⟩, ⟨1, 0x10, [5], false⟩]).outputs
      = [⟨0, [5, 6], true⟩] ∧
    (run (run fresh [⟨10, 0, [9], false⟩])
        [⟨2, 0x20, [6], true⟩, ⟨1, 0x10, [5], false⟩]).outputs
      = (run fresh [⟨10, 0, [9], false⟩]).outputs
        ++ [⟨(run fresh [⟨10, 0, [9], false⟩])._lost,
          concatChunks (fun i => if i = 1 then ⟨0x10, [5], false⟩ else ⟨0x20, [6], true⟩)
            (run fresh [⟨10, 0, [9], false⟩])._stage 2,
          ((fun i => if i = 1 then (⟨0x10, [5], false⟩ : Fragment) else ⟨0x20, [6], true⟩)
            ((run fresh [⟨10, 0, [9], false⟩])._stage + 2)).lastFragment⟩] ∧
    (run (run fresh [⟨10, 0, [9], false⟩])
        [⟨2, 0x20, [6], true⟩, ⟨1, 0x10, [5], false⟩])._fragments
      = (run fresh [⟨10, 0, [9], false⟩])._fragments :=
  ⟨by decide,
    (chunks_reassembled (run fresh [⟨10, 0, [9], false⟩]) 2
      [⟨2, 0x20, [6], true⟩, ⟨1, 0x10, [5], false⟩]
      (fun i => if i = 1 then ⟨0x10, [5], false⟩ else ⟨0x20, [6], true⟩)
      (by decide) (by decide) (by decide) (Or.inl (by decide)) (by decide) (by decide)
      (by decide) (by decide) (by decide) (by decide) (by decide)).1,
    (chunks_reassembled (run fresh [⟨10, 0, [9], false⟩]) 2
      [⟨2, 0x20, [6], true⟩, ⟨1, 0x10, [5], false⟩]
      (fun i => if i = 1 then ⟨0x10, [5], false⟩ else ⟨0x20, [6], true⟩)
      (by decide) (by decide) (by decide) (Or.inl (by decide)) (by decide) (by decide)
      (by decide) (by decide) (by decide) (by decide) (by decide)).2.2.2.2.1⟩

end RTMFPFlow

/-! ## Acknowledgement of a flow -/

namespace RTMFPFlow

theorem contiguous_drop_gt (l : List (Nat × Fragment)) :
    ∀ n, sortedKeys l → (∀ e ∈ l, n ≤ e.1) →
      ∀ e ∈ l.drop (contiguous l n), n + contiguous l n < e.1 := by
  induction l with
  | nil => intro n _ _ e he; simp at he
  | cons x t ih =>
    intro n hsorted hge e he
    obtain ⟨k, f⟩ := x
    have hx := List.pairwise_cons.mp hsorted
    have hk := hge (k, f) (List.mem_cons_self _ _)
    simp only at hk
    simp only [contiguous] at he ⊢
    by_cases hkn : k = n
    · rw [if_pos hkn] at he ⊢
      rw [Nat.add_comm 1, List.drop_succ_cons] at he
      have := ih (n + 1) hx.2 (by
        intro e2 he2
        have := hx.1 e2 he2
        simp only at this
        omega) e he
      omega
    · rw [if_neg hkn] at he ⊢
      simp only [List.drop_zero, List.mem_cons] at he
      rcases he with he | he
      · rw [he]; simp only; omega
      · have := hx.1 e he
        simp only at this
        omega

theorem contiguous_take (l : List (Nat × Fragment)) :
    ∀ n, (l.take (contiguous l n)).map Prod.fst = List.range' n (contiguous l n) := by
  induction l with
  | nil => intro n; simp [contiguous]
  | cons x t ih =>
    intro n
    obtain ⟨k, f⟩ := x
    simp only [contiguous]
    by_cases hkn : k = n
    · rw [if_pos hkn, Nat.add_comm 1, List.take_succ_cons, List.map_cons, ih (n + 1),
        List.range'_succ, hkn]
    · rw [if_neg hkn]
      simp

theorem runCount_cons (rest : List (Nat × Fragment)) :
    ∀ (k : Nat) (f : Fragment),
      runCount ((k, f) :: rest) = 1 + runCount (rest.drop (contiguous rest (k + 1))) := by
  induction rest with
  | nil => intro k f; simp [runCount, contiguous]
  | cons x t ih =>
    intro k f
    obtain ⟨k2, f2⟩ := x
    simp only [runCount, contiguous]
    by_cases h : k2 = k + 1
    · rw [if_pos h, if_pos h, ih k2 f2, Nat.add_comm 1 (contiguous t (k + 1 + 1)),
        List.drop_succ_cons, h]
      omega
    · rw [if_neg h, if_neg h]
      simp

theorem buildAckRun_spec (rest : List (Nat × Fragment)) :
    ∀ (stage b : Nat), sortedKeys rest →
      (∀ e ∈ rest, stage < e.1 ∧ e.1 < 18446744073709551616) → b < 4294967296 →
      (buildAckRun rest stage b).1 = rest.drop (contiguous rest (stage + 1)) ∧
      (buildAckRun rest stage b).2.2 = (b + contiguous rest (stage + 1)) % 4294967296 ∧
      (rest.drop (contiguous rest (stage + 1)) ≠ [] →
        (buildAckRun rest stage b).2.1 = stage + contiguous rest (stage + 1) + 1) ∧
      (rest.drop (contiguous rest (stage + 1)) = [] →
        (buildAckRun rest stage b).2.1 = stage + contiguous rest (stage + 1)) := by
  induction rest with
  | nil =>
    intro stage b _ _ hb
    simp [buildAckRun, contiguous, Nat.mod_eq_of_lt hb]
  | cons x t ih =>
    intro stage b hsorted hkeys hb
    obtain ⟨k, f⟩ := x
    have hx := List.pairwise_cons.mp hsorted
    have hk := hkeys (k, f) (List.mem_cons_self _ _)
    simp only at hk
    have hmod : (stage + 1) % 18446744073709551616 = stage + 1 := Nat.mod_eq_of_lt (by omega)
    simp only [buildAckRun, contiguous, hmod]
    by_cases hkn : k = stage + 1
    · rw [if_pos hkn, if_pos hkn, Nat.add_comm 1 (contiguous t (stage + 1 + 1)),
        List.drop_succ_cons]
      obtain ⟨a1, a2, a3, a4⟩ := ih (stage + 1) ((b + 1) % 4294967296) hx.2
        (by
          intro e he
          have h1 := hx.1 e he
          have h2 := hkeys e (List.mem_cons_of_mem _ he)
          simp only at h1
          exact ⟨by omega, h2.2⟩)
        (Nat.mod_lt _ (by decide))
      refine ⟨a1, ?_, ?_, ?_⟩
      · rw [a2]; omega
      · intro hne; rw [a3 hne]; omega
      · intro hnil; rw [a4 hnil]; omega
    · rw [if_neg hkn, if_neg hkn]
      simp [Nat.mod_eq_of_lt hb]

theorem buildAckLoop_spec (g : Nat → Nat) :
    ∀ (fuel : Nat) (frags : List (Nat × Fragment)) (stage : Nat) (losts : List Nat)
      (size : Nat) (under : Bool),
      frags.length ≤ fuel → sortedKeys frags →
      (∀ e ∈ frags, stage + 2 ≤ e.1 ∧ e.1 < 18446744073709551616) →
      frags.length < 4294967296 → size < 65536 →
      ∃ new, buildAckLoop g fuel frags stage losts size under
          = (losts ++ new, (size + (new.map g).sum) % 65536, under) ∧
        new.length = 2 * runCount frags ∧
        decodeAck stage new = frags.map Prod.fst := by
  intro fuel
  induction fuel with
  | zero =>
    intro frags stage losts size under hlen _ _ _ hsize
    have : frags = [] := List.eq_nil_of_length_eq_zero (by omega)
    subst this
    exact ⟨[], by simp [buildAckLoop, Nat.mod_eq_of_lt hsize], by simp [runCount],
      by simp [decodeAck]⟩
  | succ fuel ih =>
    intro frags stage losts size under hlen hsorted hkeys hcount hsize
    cases frags with
    | nil =>
      exact ⟨[], by simp [buildAckLoop, Nat.mod_eq_of_lt hsize], by simp [runCount],
        by simp [decodeAck]⟩
    | cons x rest =>
      obtain ⟨k, f⟩ := x
      have hx := List.pairwise_cons.mp hsorted
      have hk := hkeys (k, f) (List.mem_cons_self _ _)
      simp only at hk
      have hrestkeys : ∀ e ∈ rest, k < e.1 ∧ e.1 < 18446744073709551616 := by
        intro e he
        exact ⟨hx.1 e he, (hkeys e (List.mem_cons_of_mem _ he)).2⟩
      obtain ⟨r1, r2, r3, r4⟩ := buildAckRun_spec rest k 0 hx.2 hrestkeys (by decide)
      have hc := contiguous_le rest (k + 1)
      simp only [List.length_cons] at hlen hcount
      have hgt := contiguous_drop_gt rest (k + 1) hx.2 (by
        intro e he
        have := hx.1 e he
        simp only at this
        omega)
      have hgap : ((k + 18446744073709551616 - stage) % 18446744073709551616
          + 18446744073709551616 - 2) % 18446744073709551616 = k - stage - 2 := by
        omega
      have hrun : (buildAckRun rest k 0).2.2 = contiguous rest (k + 1) := by
        rw [r2]; omega
      have hu1 : decide (k < stage + 2) = false := by
        simp only [decide_eq_false_iff_not]; omega
      have hu2 : decide ((buildAckRun rest k 0).2.1 = 0) = false := by
        simp only [decide_eq_false_iff_not]
        by_cases hnil : rest.drop (contiguous rest (k + 1)) = []
        · rw [r4 hnil]; omega
        · rw [r3 hnil]; omega
      simp only [buildAckLoop, hgap, hrun, hu1, hu2, Bool.or_false, r1]
      obtain ⟨new, e1, e2, e3⟩ := ih (rest.drop (contiguous rest (k + 1)))
        (((buildAckRun rest k 0).2.1 + 18446744073709551616 - 1) % 18446744073709551616)
        (losts ++ [k - stage - 2] ++ [contiguous rest (k + 1)])
        (((size + g (k - stage - 2)) % 65536 + g (contiguous rest (k + 1))) % 65536) under
        (by simp only [List.length_drop]; omega)
        (List.Pairwise.sublist (List.drop_sublist _ _) hx.2)
        (by
          intro e he
          have hne : rest.drop (contiguous rest (k + 1)) ≠ [] := List.ne_nil_of_mem he
          have h1 := hgt e he
          have h2 := (hrestkeys e (List.mem_of_mem_drop he)).2
          rw [r3 hne]
          exact ⟨by omega, h2⟩)
        (by simp only [List.length_drop]; omega)
        (Nat.mod_lt _ (by decide))
      refine ⟨(k - stage - 2) :: contiguous rest (k + 1) :: new, ?_, ?_, ?_⟩
      · rw [e1]
        simp only [List.append_assoc, List.singleton_append, List.map_cons, List.sum_cons,
          Prod.mk.injEq, true_and, and_true]
        refine ⟨by simp, ?_⟩
        clear hgap e1 e3
        omega
      · rw [runCount_cons]
        simp only [List.length_cons, e2]
        omega
      · simp only [decodeAck]
        have hs1 : stage + (k - stage - 2) + 2 = k := by omega
        rw [hs1]
        have hdec : decodeAck (k + contiguous rest (k + 1)) new
            = (rest.drop (contiguous rest (k + 1))).map Prod.fst := by
          by_cases hnil : rest.drop (contiguous rest (k + 1)) = []
          · have hnew : new = [] := by
              apply List.eq_nil_of_length_eq_zero
              rw [e2, hnil]
              simp [runCount]
            rw [hnew, hnil]
            simp [decodeAck]
          · have h1 := hgt _ (List.head_mem hnil)
            have h2 := (hrestkeys _ (List.mem_of_mem_drop (List.head_mem hnil))).2
            have hst : (k + contiguous rest (k + 1) + 1 + 18446744073709551616 - 1)
                % 18446744073709551616 = k + contiguous rest (k + 1) := by
              omega
            rw [← e3, r3 hnil, hst]
        rw [hdec, List.range'_succ, ← contiguous_take rest (k + 1)]
        simp only [List.map_cons, List.cons_append, ← List.map_append,
          List.take_append_drop]

end RTMFPFlow

namespace RTMFPFlow

/-- C16, the claim as stated fails: with stage 5 buffered, an abandon at stage
`2^64 - 1` leaves `_stage` at `2^64 - 1` and stage 5 in the buffer; `buildAck`
then computes `5 - _stage` below zero, and the pair it appends, read from the
cumulative ack on, does not give back stage 5. -/
theorem buildAck_underflows :
    (∀ c ∈ [(⟨5, 0, [5], false⟩ : Call), ⟨18446744073709551615, 2, [], false⟩],
      c.stage < 18446744073709551616) ∧
    (run fresh [⟨5, 0, [5], false⟩, ⟨18446744073709551615, 2, [], false⟩])._fragments.map
      Prod.fst = [5] ∧
    buildAck (fun _ => 1)
      (run fresh [⟨5, 0, [5], false⟩, ⟨18446744073709551615, 2, [], false⟩]) [] 0
      = (18446744073709551615, [4, 0], 2, true) ∧
    decodeAck 18446744073709551615 [4, 0] ≠ [5] := by
  decide

/-- C16 as amended: in every state reached from a fresh flow by `input` calls
with 64-bit stages, in which `_stage` is below `2^64 - 1` (so `nextStage` has
not wrapped) and fewer than `2^32` stages are buffered, `buildAck` returns the
cumulative ack `nextStage - 1` and appends to `losts` a list `new` of even
length, two values `(gap, run)` per maximal run of consecutive buffered stages,
whose decoding from the cumulative ack on gives exactly the buffered stages in
ascending order; no subtraction goes below zero, and the 16-bit `size` grows by
the sum of the 7-bit encoded sizes of the appended values, modulo `2^16`. -/
theorem buildAck_spec (get7BitSize : Nat → Nat) (calls : List Call) (losts : List Nat)
    (size : Nat) (hcalls : ∀ c ∈ calls, c.stage < 18446744073709551616)
    (hstage : (run fresh calls)._stage < 18446744073709551615)
    (hcount : (run fresh calls)._fragments.length < 4294967296) (hsize : size < 65536) :
    ∃ new, buildAck get7BitSize (run fresh calls) losts size
        = ((run fresh calls)._stage, losts ++ new,
            (size + (new.map get7BitSize).sum) % 65536, false) ∧
      (run fresh calls)._stage + 1 = nextStage (run fresh calls) ∧
      new.length = 2 * runCount (run fresh calls)._fragments ∧
      decodeAck (run fresh calls)._stage new = (run fresh calls)._fragments.map Prod.fst := by
  have h := run_bufferInv calls fresh (by
    refine ⟨by decide, List.Pairwise.nil, ?_⟩
    intro e he
    exact absurd he (List.not_mem_nil _)) hcalls
  obtain ⟨_, hsorted, hkeys⟩ := h
  have hns : nextStage (run fresh calls) = (run fresh calls)._stage + 1 := by
    simp only [nextStage]
    exact Nat.mod_eq_of_lt (by omega)
  obtain ⟨new, e1, e2, e3⟩ := buildAckLoop_spec get7BitSize
    (run fresh calls)._fragments.length (run fresh calls)._fragments (run fresh calls)._stage
    losts size false (Nat.le_refl _) hsorted
    (by
      intro e he
      have := hkeys e he
      rw [hns] at this
      exact ⟨by omega, this.2⟩)
    hcount hsize
  exact ⟨new, by simp only [buildAck, e1], hns.symm, e2, e3⟩

/-- Witness for `buildAck_spec`: with the stages 3, 4, 7, 9 and 10 buffered
above `nextStage` 1 the values appended are `1, 1, 1, 0, 0, 1`. -/
theorem buildAck_spec_witness :
    ∃ new, buildAck (fun _ => 1)
        (run fresh [⟨3, 0, [3], false⟩, ⟨4, 0, [4], false⟩, ⟨7, 0, [7], false⟩,
          ⟨9, 0, [9], false⟩, ⟨10, 0, [10], false⟩]) [] 0
        = ((run fresh [⟨3, 0, [3], false⟩, ⟨4, 0, [4], false⟩, ⟨7, 0, [7], false⟩,
            ⟨9, 0, [9], false⟩, ⟨10, 0, [10], false⟩])._stage, [] ++ new,
            (0 + (new.map (fun _ => 1)).sum) % 65536, false) ∧
      (run fresh [⟨3, 0, [3], false⟩, ⟨4, 0, [4], false⟩, ⟨7, 0, [7], false⟩,
        ⟨9, 0, [9], false⟩, ⟨10, 0, [10], false⟩])._stage + 1
        = nextStage (run fresh [⟨3, 0, [3], false⟩, ⟨4, 0, [4], false⟩, ⟨7, 0, [7], false⟩,
          ⟨9, 0, [9], false⟩, ⟨10, 0, [10], false⟩]) ∧
      new.length = 2 * runCount (run fresh [⟨3, 0, [3], false⟩, ⟨4, 0, [4], false⟩,
        ⟨7, 0, [7], false⟩, ⟨9, 0, [9], false⟩, ⟨10, 0, [10], false⟩])._fragments ∧
      decodeAck (run fresh [⟨3, 0, [3], false⟩, ⟨4, 0, [4], false⟩, ⟨7, 0, [7], false⟩,
        ⟨9, 0, [9], false⟩, ⟨10, 0, [10], false⟩])._stage new
        = (run fresh [⟨3, 0, [3], false⟩, ⟨4, 0, [4], false⟩, ⟨7, 0, [7], false⟩,
          ⟨9, 0, [9], false⟩, ⟨10, 0, [10], false⟩])._fragments.map Prod.fst :=
  buildAck_spec (fun _ => 1)
    [⟨3, 0, [3], false⟩, ⟨4, 0, [4], false⟩, ⟨7, 0, [7], false⟩, ⟨9, 0, [9], false⟩,
      ⟨10, 0, [10], false⟩] [] 0 (by decide) (by decide) (by decide) (by decide)

end RTMFPFlow

/-! ## Fragmentation of a media payload -/

namespace GroupMedia

theorem onMediaBody_eq (M type time splitCounter marker : Nat) (reader : BinaryReader)
    (counter : Nat)
    (h : (if splitCounter > 0 then M else reader.available) ≤ reader.available) :
    onMediaBody M type time splitCounter marker reader counter
      = some (⟨if reader.data.length > M then
            if splitCounter = 0 then GroupStream.GROUP_MEDIA_END
            else if reader.pos = 0 then GroupStream.GROUP_MEDIA_START
            else GroupStream.GROUP_MEDIA_NEXT
          else marker,
          (counter + 1) % 18446744073709551616, splitCounter, type, time,
          reader.current.take (if splitCounter > 0 then M else reader.available)⟩,
        if reader.data.length > M then
          if splitCounter = 0 then GroupStream.GROUP_MEDIA_END
          else if reader.pos = 0 then GroupStream.GROUP_MEDIA_START
          else GroupStream.GROUP_MEDIA_NEXT
        else marker,
        reader.next (if splitCounter > 0 then M else reader.available),
        (counter + 1) % 18446744073709551616) := by
  simp only [onMediaBody]
  rw [if_neg (Nat.not_lt.mpr h)]

theorem range_reverse_succ (n : Nat) :
    (List.range (n + 1 + 1)).reverse = (n + 1) :: (List.range (n + 1)).reverse := by
  rw [List.range_succ (n + 1), List.reverse_append]
  rfl

theorem onMediaLoop_spec (M type time : Nat) (hM : 0 < M) :
    ∀ (sc marker : Nat) (reader : BinaryReader) (counter : Nat),
      sc * M < reader.available →
      ∃ frags, onMediaLoop M type time sc marker reader counter
          = some (frags, (counter + (sc + 1)) % 18446744073709551616) ∧
        frags.map GroupFragment.id
          = (List.range (sc + 1)).map (fun i => (counter + 1 + i) % 18446744073709551616) ∧
        (∀ f ∈ frags, f.type = type ∧ f.time = time) ∧
        (frags.map GroupFragment.payload).flatten = reader.current ∧
        frags.map GroupFragment.splitedNumber = (List.range (sc + 1)).reverse ∧
        frags.map GroupFragment.marker = (List.range (sc + 1)).map (fun j =>
          if reader.data.length > M then
            if j = sc then GroupStream.GROUP_MEDIA_END
            else if reader.pos = 0 ∧ j = 0 then GroupStream.GROUP_MEDIA_START
            else GroupStream.GROUP_MEDIA_NEXT
          else marker) := by
  intro sc
  induction sc with
  | zero =>
    intro marker reader counter _
    rw [onMediaLoop, onMediaBody_eq _ _ _ _ _ _ _ (by simp)]
    have hr : List.range (0 + 1) = [0] := rfl
    rw [hr]
    refine ⟨_, rfl, ?_, ?_, ?_, ?_, ?_⟩
    · simp
    · intro f hf
      simp only [List.mem_singleton] at hf
      subst hf
      exact ⟨rfl, rfl⟩
    · simp only [gt_iff_lt, Nat.lt_irrefl, if_false, List.map_cons, List.map_nil,
        List.flatten_cons, List.flatten_nil, List.append_nil]
      apply List.take_of_length_le
      simp [BinaryReader.current, BinaryReader.available]
    · simp
    · simp
  | succ sc ih =>
    intro marker reader counter hav
    have hmul : (sc + 1) * M = sc * M + M := Nat.succ_mul sc M
    have hle : M ≤ reader.available := by omega
    have hpos : 0 < sc + 1 := Nat.succ_pos sc
    rw [onMediaLoop, onMediaBody_eq _ _ _ _ _ _ _ (by rw [if_pos hpos]; exact hle)]
    simp only [gt_iff_lt, hpos, if_true]
    have hnext : reader.next M = ⟨reader.data, reader.pos + M⟩ := by
      simp only [BinaryReader.next]
      rw [if_neg (by omega)]
    have hav2 : sc * M < (reader.next M).available := by
      rw [hnext]
      simp only [BinaryReader.available] at hav ⊢
      omega
    obtain ⟨frags, e1, e2, e3, e4, e5, e6⟩ := ih
      (if M < reader.data.length then
        if sc + 1 = 0 then GroupStream.GROUP_MEDIA_END
        else if reader.pos = 0 then GroupStream.GROUP_MEDIA_START
        else GroupStream.GROUP_MEDIA_NEXT
      else marker) (reader.next M) ((counter + 1) % 18446744073709551616) hav2
    rw [e1]
    refine ⟨⟨if M < reader.data.length then
          if sc + 1 = 0 then GroupStream.GROUP_MEDIA_END
          else if reader.pos = 0 then GroupStream.GROUP_MEDIA_START
          else GroupStream.GROUP_MEDIA_NEXT
        else marker, (counter + 1) % 18446744073709551616, sc + 1, type, time,
        reader.current.take M⟩ :: frags, ?_, ?_, ?_, ?_, ?_, ?_⟩
    · simp only [Option.some.injEq, Prod.mk.injEq, true_and]
      omega
    · rw [List.map_cons, e2, List.range_succ_eq_map (sc + 1), List.map_cons, List.map_map]
      simp only [Nat.add_zero, List.cons.injEq, true_and]
      apply List.map_congr_left
      intro i _
      simp only [Function.comp]
      omega
    · intro f hf
      rcases List.mem_cons.mp hf with hf | hf
      · subst hf
        exact ⟨rfl, rfl⟩
      · exact e3 f hf
    · rw [List.map_cons, List.flatten_cons, e4, hnext]
      simp only [BinaryReader.current]
      rw [← List.drop_drop, List.take_append_drop]
    · rw [List.map_cons, e5, range_reverse_succ]
    · rw [List.map_cons, e6, List.range_succ_eq_map (sc + 1), List.map_cons, List.map_map]
      by_cases hbig : M < reader.data.length
      · have hp : (reader.next M).pos ≠ 0 := by rw [hnext]; simp only; omega
        have hd : (reader.next M).data = reader.data := by rw [hnext]
        simp only [hd, gt_iff_lt, hbig, if_true, Nat.succ_ne_zero, if_false, hp, false_and,
          and_true, List.cons.injEq]
        refine ⟨by simp, ?_⟩
        apply List.map_congr_left
        intro i _
        simp only [Function.comp, Nat.succ_eq_add_one, Nat.add_right_cancel_iff]
        by_cases hi : i = sc
        · simp [hi]
        · simp [hi]
      · have hd : (reader.next M).data = reader.data := by rw [hnext]
        simp only [hd, gt_iff_lt, hbig, if_false, List.cons.injEq, true_and]
        apply List.map_congr_left
        intro i _
        rfl

end GroupMedia

namespace GroupMedia

theorem splitCounter_facts (M n : Nat) (hM : 0 < M) (hn : 0 < n) :
    (n / M - (if n % M = 0 then 1 else 0)) * M < n ∧
    n / M - (if n % M = 0 then 1 else 0) + 1 = (n + M - 1) / M ∧
    (n ≤ M ↔ n / M - (if n % M = 0 then 1 else 0) = 0) := by
  have h := Nat.div_add_mod n M
  have hr := Nat.mod_lt n hM
  generalize n / M = q at *
  generalize n % M = r at *
  subst h
  by_cases hr0 : r = 0
  · subst hr0
    rw [if_pos rfl]
    cases q with
    | zero => simp at hn
    | succ p =>
      have e : M * (p + 1) = p * M + M := by ring
      have e2 : (p + 1 + 1) * M = p * M + M + M := by ring
      have e3 : (p + 1) * M = p * M + M := by ring
      refine ⟨?_, ?_, ?_⟩
      · simp only [Nat.add_sub_cancel, Nat.add_zero]; omega
      · simp only [Nat.add_sub_cancel, Nat.add_zero]
        symm
        apply Nat.div_eq_of_lt_le
        · omega
        · show M * (p + 1) + M - 1 < (p + 1 + 1) * M
          omega
      · simp only [Nat.add_sub_cancel, Nat.add_zero]
        constructor
        · intro hle
          have : p * M = 0 := by omega
          rcases Nat.mul_eq_zero.mp this with h0 | h0
          · exact h0
          · omega
        · intro hp
          subst hp
          omega
  · rw [if_neg hr0]
    have e2 : (q + 1 + 1) * M = M * q + M + M := by ring
    have e3 : (q + 1) * M = M * q + M := by ring
    have e4 : q * M = M * q := Nat.mul_comm _ _
    refine ⟨?_, ?_, ?_⟩
    · simp only [Nat.sub_zero]; omega
    · simp only [Nat.sub_zero]
      symm
      apply Nat.div_eq_of_lt_le
      · omega
      · show M * q + r + M - 1 < (q + 1 + 1) * M
        omega
    · simp only [Nat.sub_zero]
      constructor
      · intro hle
        cases q with
        | zero => rfl
        | succ p =>
          have : M * (p + 1) = M * p + M := by ring
          omega
      · intro hq
        subst hq
        simp only [Nat.mul_zero, Nat.zero_add]
        omega

theorem onMedia_eq (M c type time : Nat) (packet : Bytes) (hne : packet ≠ []) :
    onMedia M c type time packet
      = onMediaLoop M type time
          ((packet.length / M - (if packet.length % M = 0 then 1 else 0)) % 256)
          GroupStream.GROUP_MEDIA_DATA ⟨packet, 0⟩ c := by
  simp only [onMedia]
  rw [if_neg (by simpa using hne)]

/-- C17: with `M = NETGROUP_MAX_PACKET_SIZE` positive, an empty payload makes
`onMedia` create no fragment and leave the counter as it is; a non-empty
payload given when the 64-bit fragment counter is `c` makes it create `m`
fragments, `m` at least 1, with the ids `c+1, ..., c+m` as 64-bit values (so
exactly `c+1, ..., c+m` while `c + m` is below `2^64`) in creation order, the
counter ends at `c + m`, every fragment carries the given type and time, and
the payloads of the fragments put end to end in that order are the payload
given. -/
theorem onMedia_ids (M c type time : Nat) (packet : Bytes) (hM : 0 < M) :
    onMedia M c type time [] = some ([], c) ∧
    (packet ≠ [] →
      ∃ frags, onMedia M c type time packet
          = some (frags, (c + frags.length) % 18446744073709551616) ∧
        frags ≠ [] ∧
        frags.map GroupFragment.id
          = (List.range frags.length).map (fun i => (c + 1 + i) % 18446744073709551616) ∧
        (c + frags.length < 18446744073709551616 →
          frags.map GroupFragment.id = List.range' (c + 1) frags.length) ∧
        (∀ f ∈ frags, f.type = type ∧ f.time = time) ∧
        (frags.map GroupFragment.payload).flatten = packet) := by
  refine ⟨rfl, ?_⟩
  intro hne
  have hn : 0 < packet.length := List.length_pos.mpr hne
  obtain ⟨f1, _, _⟩ := splitCounter_facts M packet.length hM hn
  have hav : ((packet.length / M - (if packet.length % M = 0 then 1 else 0)) % 256) * M
      < (⟨packet, 0⟩ : BinaryReader).available := by
    simp only [BinaryReader.available, Nat.sub_zero]
    exact Nat.lt_of_le_of_lt (Nat.mul_le_mul_right _ (Nat.mod_le _ _)) f1
  obtain ⟨frags, e1, e2, e3, e4, e5, _⟩ := onMediaLoop_spec M type time hM _
    GroupStream.GROUP_MEDIA_DATA ⟨packet, 0⟩ c hav
  have hlen : frags.length
      = (packet.length / M - (if packet.length % M = 0 then 1 else 0)) % 256 + 1 := by
    have := congrArg List.length e5
    simpa using this
  refine ⟨frags, ?_, ?_, ?_, ?_, e3, ?_⟩
  · rw [onMedia_eq _ _ _ _ _ hne, e1, hlen]
  · intro h
    rw [h] at hlen
    simp at hlen
  · rw [e2, hlen]
  · intro hw
    rw [e2, ← hlen, List.range'_eq_map_range]
    apply List.map_congr_left
    intro i hi
    have := List.mem_range.mp hi
    exact Nat.mod_eq_of_lt (by omega)
  · rw [e4]
    simp [BinaryReader.current]

/-- Witness for `onMedia_ids`: eight bytes with `M = 3` and the counter at 7
give the fragments 8, 9 and 10. -/
theorem onMedia_ids_witness :
    onMedia 3 7 9 100 [] = some ([], 7) ∧
    (([1, 2, 3, 4, 5, 6, 7, 8] : Bytes) ≠ [] →
      ∃ frags, onMedia 3 7 9 100 [1, 2, 3, 4, 5, 6, 7, 8]
          = some (frags, (7 + frags.length) % 18446744073709551616) ∧
        frags ≠ [] ∧
        frags.map GroupFragment.id
          = (List.range frags.length).map (fun i => (7 + 1 + i) % 18446744073709551616) ∧
        (7 + frags.length < 18446744073709551616 →
          frags.map GroupFragment.id = List.range' (7 + 1) frags.length) ∧
        (∀ f ∈ frags, f.type = 9 ∧ f.time = 100) ∧
        (frags.map GroupFragment.payload).flatten = [1, 2, 3, 4, 5, 6, 7, 8]) :=
  onMedia_ids 3 7 9 100 [1, 2, 3, 4, 5, 6, 7, 8] (by decide)

/-- C18: for a non-empty payload of `n` bytes with `M = NETGROUP_MAX_PACKET_SIZE`
positive and `ceil(n / M)` at most 256, `onMedia` creates exactly `ceil(n / M)`
fragments whose split counters count down by one to 0 on the last; if `n` is at
most `M` the single fragment has the marker data, otherwise the first has the
marker start, the last the marker end and every fragment in between the marker
next; so a fragment has the marker data exactly when the payload fits one
packet. -/
theorem onMedia_markers (M c type time : Nat) (packet : Bytes) (hM : 0 < M)
    (hne : packet ≠ []) (hcount : (packet.length + M - 1) / M ≤ 256) :
    ∃ frags counter, onMedia M c type time packet = some (frags, counter) ∧
      frags.length = (packet.length + M - 1) / M ∧
      frags.map GroupFragment.splitedNumber = (List.range frags.length).reverse ∧
      (packet.length ≤ M → frags.map GroupFragment.marker = [GroupStream.GROUP_MEDIA_DATA]) ∧
      (packet.length > M → frags.map GroupFragment.marker
        = GroupStream.GROUP_MEDIA_START
          :: (List.replicate (frags.length - 2) GroupStream.GROUP_MEDIA_NEXT
            ++ [GroupStream.GROUP_MEDIA_END])) ∧
      (∀ f ∈ frags, f.marker = GroupStream.GROUP_MEDIA_DATA ↔ packet.length ≤ M) := by
  have hn : 0 < packet.length := List.length_pos.mpr hne
  obtain ⟨f1, f2, f3⟩ := splitCounter_facts M packet.length hM hn
  have hmod : (packet.length / M - (if packet.length % M = 0 then 1 else 0)) % 256
      = packet.length / M - (if packet.length % M = 0 then 1 else 0) :=
    Nat.mod_eq_of_lt (by omega)
  have hav : (packet.length / M - (if packet.length % M = 0 then 1 else 0)) * M
      < (⟨packet, 0⟩ : BinaryReader).available := by
    simp only [BinaryReader.available, Nat.sub_zero]
    exact f1
  obtain ⟨frags, e1, _, _, _, e5, e6⟩ := onMediaLoop_spec M type time hM _
    GroupStream.GROUP_MEDIA_DATA ⟨packet, 0⟩ c hav
  have hlen : frags.length
      = packet.length / M - (if packet.length % M = 0 then 1 else 0) + 1 := by
    have := congrArg List.length e5
    simpa using this
  have hrun := onMedia_eq M c type time packet hne
  rw [hmod, e1] at hrun
  generalize packet.length / M - (if packet.length % M = 0 then 1 else 0) = t at *
  have hsmall : packet.length ≤ M → frags.map GroupFragment.marker
      = [GroupStream.GROUP_MEDIA_DATA] := by
    intro hle
    have ht : t = 0 := f3.mp hle
    subst ht
    rw [e6]
    have hr : List.range (0 + 1) = [0] := rfl
    rw [hr]
    simp only [gt_iff_lt, List.map_cons, List.map_nil]
    rw [if_neg (by omega)]
  have hbig : packet.length > M → frags.map GroupFragment.marker
      = GroupStream.GROUP_MEDIA_START
        :: (List.replicate (frags.length - 2) GroupStream.GROUP_MEDIA_NEXT
          ++ [GroupStream.GROUP_MEDIA_END]) := by
    intro hgt
    have ht : t ≠ 0 := fun h0 => absurd (f3.mpr h0) (by omega)
    obtain ⟨p, hp⟩ := Nat.exists_eq_succ_of_ne_zero ht
    subst hp
    rw [e6, hlen, List.range_succ_eq_map (p + 1), List.map_cons, List.map_map,
      List.range_succ, List.map_append]
    simp only [gt_iff_lt, hgt, if_true, Nat.succ_eq_add_one, List.map_cons, List.map_nil,
      Function.comp, Nat.add_right_cancel_iff, and_true, if_true, List.cons.injEq]
    refine ⟨by simp, ?_⟩
    congr 1
    · rw [List.eq_replicate_iff]
      refine ⟨by simp, ?_⟩
      intro b hb
      obtain ⟨i, hi, rfl⟩ := List.mem_map.mp hb
      have := List.mem_range.mp hi
      show (if i.succ = p + 1 then GroupStream.GROUP_MEDIA_END
        else if True ∧ i.succ = 0 then GroupStream.GROUP_MEDIA_START
        else GroupStream.GROUP_MEDIA_NEXT) = GroupStream.GROUP_MEDIA_NEXT
      have h1 : ¬ i.succ = p + 1 := by omega
      have h2 : ¬ (True ∧ i.succ = 0) := by simp
      rw [if_neg h1, if_neg h2]
  refine ⟨frags, _, hrun, ?_, ?_, hsmall, hbig, ?_⟩
  · rw [hlen, f2]
  · rw [e5, hlen]
  · intro f hf
    have hm : f.marker ∈ frags.map GroupFragment.marker := List.mem_map_of_mem _ hf
    constructor
    · intro hd
      by_contra hgt
      rw [hbig (by omega), hd] at hm
      simp only [List.mem_cons, List.mem_append, List.mem_replicate, List.mem_singleton,
        List.not_mem_nil, or_false] at hm
      have d1 : GroupStream.GROUP_MEDIA_DATA ≠ GroupStream.GROUP_MEDIA_START := by decide
      have d2 : GroupStream.GROUP_MEDIA_DATA ≠ GroupStream.GROUP_MEDIA_NEXT := by decide
      have d3 : GroupStream.GROUP_MEDIA_DATA ≠ GroupStream.GROUP_MEDIA_END := by decide
      rcases hm with hm | hm | hm
      · exact d1 hm
      · exact d2 hm.2
      · exact d3 hm
    · intro hle
      rw [hsmall hle] at hm
      simpa using hm

/-- Witness for `onMedia_markers`: eight bytes with `M = 3` give three
fragments with the markers start, next, end and the split counters 2, 1, 0. -/
theorem onMedia_markers_witness :
    ∃ frags counter, onMedia 3 7 9 100 [1, 2, 3, 4, 5, 6, 7, 8] = some (frags, counter) ∧
      frags.length = (([1, 2, 3, 4, 5, 6, 7, 8] : Bytes).length + 3 - 1) / 3 ∧
      frags.map GroupFragment.splitedNumber = (List.range frags.length).reverse ∧
      (([1, 2, 3, 4, 5, 6, 7, 8] : Bytes).length ≤ 3 →
        frags.map GroupFragment.marker = [GroupStream.GROUP_MEDIA_DATA]) ∧
      (([1, 2, 3, 4, 5, 6, 7, 8] : Bytes).length > 3 → frags.map GroupFragment.marker
        = GroupStream.GROUP_MEDIA_START
          :: (List.replicate (frags.length - 2) GroupStream.GROUP_MEDIA_NEXT
            ++ [GroupStream.GROUP_MEDIA_END])) ∧
      (∀ f ∈ frags, f.marker = GroupStream.GROUP_MEDIA_DATA
        ↔ ([1, 2, 3, 4, 5, 6, 7, 8] : Bytes).length ≤ 3) :=
  onMedia_markers 3 7 9 100 [1, 2, 3, 4, 5, 6, 7, 8] (by decide) (by decide) (by decide)

end GroupMedia

/-! ## Push of a new fragment -/

namespace GroupMedia

theorem pushLoop_spec (sendMedia : Nat → Bool) (pPeer : Option Nat) (peers : List Nat) :
    ∀ k, 1 ≤ k → k ≤ 256 →
      (∀ p ∈ pushLoop sendMedia pPeer peers (k % 256), some p ≠ pPeer) ∧
      pushLoop sendMedia pPeer peers (k % 256)
        <+: peers.filter (fun p => decide (some p ≠ pPeer)) ∧
      ((pushLoop sendMedia pPeer peers (k % 256)).filter sendMedia).length ≤ k ∧
      (((pushLoop sendMedia pPeer peers (k % 256)).filter sendMedia).length = k →
        ∃ init p, pushLoop sendMedia pPeer peers (k % 256) = init ++ [p]
          ∧ sendMedia p = true) ∧
      (((pushLoop sendMedia pPeer peers (k % 256)).filter sendMedia).length < k →
        pushLoop sendMedia pPeer peers (k % 256)
          = peers.filter (fun p => decide (some p ≠ pPeer))) := by
  induction peers with
  | nil =>
    intro k hk _
    refine ⟨by simp [pushLoop], by simp [pushLoop], by simp [pushLoop], ?_, by simp [pushLoop]⟩
    intro h
    simp only [pushLoop, List.filter_nil, List.length_nil] at h
    omega
  | cons it rest ih =>
    intro k hk hk2
    simp only [pushLoop]
    by_cases hsrc : some it ≠ pPeer
    · rw [if_pos hsrc]
      have hfil : (it :: rest).filter (fun p => decide (some p ≠ pPeer))
          = it :: rest.filter (fun p => decide (some p ≠ pPeer)) := by
        rw [List.filter_cons, if_pos (by simpa using hsrc)]
      rw [hfil]
      by_cases hacc : sendMedia it = true
      · rw [if_pos hacc]
        by_cases hk1 : k = 1
        · subst hk1
          rw [if_pos (by decide)]
          refine ⟨?_, ?_, ?_, ?_, ?_⟩
          · intro p hp
            simp only [List.mem_singleton] at hp
            subst hp
            exact hsrc
          · exact ⟨rest.filter (fun p => decide (some p ≠ pPeer)), rfl⟩
          · simp [List.filter_cons, hacc]
          · intro _
            exact ⟨[], it, rfl, hacc⟩
          · intro h
            simp [List.filter_cons, hacc] at h
        · have hnz : ¬ (k % 256 + 255) % 256 = 0 := by omega
          have hpred : (k % 256 + 255) % 256 = (k - 1) % 256 := by omega
          rw [if_neg hnz, hpred]
          obtain ⟨a, b, c, d, e⟩ := ih (k - 1) (by omega) (by omega)
          refine ⟨?_, ?_, ?_, ?_, ?_⟩
          · intro p hp
            rcases List.mem_cons.mp hp with hp | hp
            · subst hp; exact hsrc
            · exact a p hp
          · exact List.prefix_cons_inj it |>.mpr b
          · rw [List.filter_cons, if_pos hacc, List.length_cons]
            omega
          · intro h
            rw [List.filter_cons, if_pos hacc, List.length_cons] at h
            obtain ⟨init, p, e1, e2⟩ := d (by omega)
            exact ⟨it :: init, p, by rw [e1]; rfl, e2⟩
          · intro h
            rw [List.filter_cons, if_pos hacc, List.length_cons] at h
            rw [e (by omega)]
      · rw [if_neg hacc]
        obtain ⟨a, b, c, d, e⟩ := ih k hk hk2
        refine ⟨?_, ?_, ?_, ?_, ?_⟩
        · intro p hp
          rcases List.mem_cons.mp hp with hp | hp
          · subst hp; exact hsrc
          · exact a p hp
        · exact List.prefix_cons_inj it |>.mpr b
        · rw [List.filter_cons, if_neg hacc]
          exact c
        · intro h
          rw [List.filter_cons, if_neg hacc] at h
          obtain ⟨init, p, e1, e2⟩ := d h
          exact ⟨it :: init, p, by rw [e1]; rfl, e2⟩
        · intro h
          rw [List.filter_cons, if_neg hacc] at h
          rw [e h]
    · rw [if_neg hsrc]
      have hfil : (it :: rest).filter (fun p => decide (some p ≠ pPeer))
          = rest.filter (fun p => decide (some p ≠ pPeer)) := by
        rw [List.filter_cons, if_neg (by simpa using hsrc)]
      rw [hfil]
      exact ih k hk hk2

/-- C19: for every list of peers, every `pushLimit` from 0 to 255 and every
outcome of `sendMedia`, `addFragment` never calls `sendMedia` on the peer the
fragment came from, calls it on the other peers in list order without skipping
any, and stops right after the `(pushLimit + 1)`-th peer that accepted: the
peers called are a prefix of the other peers, at most `pushLimit + 1` of them
accepted, when `pushLimit + 1` accepted the last peer called is one that
accepted, and when fewer accepted every other peer was called. -/
theorem addFragment_push_limit (sendMedia : Nat → Bool) (pPeer : Option Nat)
    (peers : List Nat) (pushLimit : Nat) (hlimit : pushLimit ≤ 255) :
    (∀ p ∈ addFragment sendMedia pPeer peers pushLimit, some p ≠ pPeer) ∧
    addFragment sendMedia pPeer peers pushLimit
      <+: peers.filter (fun p => decide (some p ≠ pPeer)) ∧
    ((addFragment sendMedia pPeer peers pushLimit).filter sendMedia).length ≤ pushLimit + 1 ∧
    (((addFragment sendMedia pPeer peers pushLimit).filter sendMedia).length = pushLimit + 1 →
      ∃ init p, addFragment sendMedia pPeer peers pushLimit = init ++ [p]
        ∧ sendMedia p = true) ∧
    (((addFragment sendMedia pPeer peers pushLimit).filter sendMedia).length < pushLimit + 1 →
      addFragment sendMedia pPeer peers pushLimit
        = peers.filter (fun p => decide (some p ≠ pPeer))) :=
  pushLoop_spec sendMedia pPeer peers (pushLimit + 1) (by omega) (by omega)

/-- Witness for `addFragment_push_limit`: with `pushLimit` 1, the peers 1 to 6,
the fragment received from peer 2 and the odd peers accepting, `sendMedia` is
called on the peers 1 and 3 only. -/
theorem addFragment_push_limit_witness :
    (∀ p ∈ addFragment (fun p => decide (p % 2 = 1)) (some 2) [1, 2, 3, 4, 5, 6] 1,
      some p ≠ some 2) ∧
    addFragment (fun p => decide (p % 2 = 1)) (some 2) [1, 2, 3, 4, 5, 6] 1
      <+: [1, 2, 3, 4, 5, 6].filter (fun p => decide (some p ≠ some 2)) ∧
    ((addFragment (fun p => decide (p % 2 = 1)) (some 2) [1, 2, 3, 4, 5, 6] 1).filter
      (fun p => decide (p % 2 = 1))).length ≤ 1 + 1 ∧
    (((addFragment (fun p => decide (p % 2 = 1)) (some 2) [1, 2, 3, 4, 5, 6] 1).filter
      (fun p => decide (p % 2 = 1))).length = 1 + 1 →
      ∃ init p, addFragment (fun p => decide (p % 2 = 1)) (some 2) [1, 2, 3, 4, 5, 6] 1
          = init ++ [p] ∧ (fun p => decide (p % 2 = 1)) p = true) ∧
    (((addFragment (fun p => decide (p % 2 = 1)) (some 2) [1, 2, 3, 4, 5, 6] 1).filter
      (fun p => decide (p % 2 = 1))).length < 1 + 1 →
      addFragment (fun p => decide (p % 2 = 1)) (some 2) [1, 2, 3, 4, 5, 6] 1
        = [1, 2, 3, 4, 5, 6].filter (fun p => decide (some p ≠ some 2))) :=
  addFragment_push_limit (fun p => decide (p % 2 = 1)) (some 2) [1, 2, 3, 4, 5, 6] 1
    (by decide)

end GroupMedia

/-! ## Fragments map -/

namespace GroupMedia

theorem mapByte_spec (frags : List (Nat × GroupFragment)) (index first : Nat)
    (h8 : 8 ≤ index) (hw : index < 18446744073709551616) :
    ∀ (fuel fragment cur : Nat), fragment + fuel = 8 → cur < 2 ^ fragment →
      ∀ f, f < 8 → (mapByte frags index first fuel fragment cur).testBit f
        = (if f < fragment then cur.testBit f
          else (decide (first + f ≤ index) && hasFragment frags (index - f))) := by
  intro fuel
  induction fuel with
  | zero =>
    intro fragment cur hsum _ f hf
    simp only [mapByte]
    rw [if_pos (by omega)]
  | succ fuel ih =>
    intro fragment cur hsum hcur f hf
    have hsub : (index + 18446744073709551616 - fragment) % 18446744073709551616
        = index - fragment := by omega
    have hpow : 2 ^ (fragment + 1) = 2 ^ fragment + 2 ^ fragment := by
      rw [Nat.pow_succ]; omega
    have hpow8 : 2 ^ (fragment + 1) ≤ 256 :=
      Nat.pow_le_pow_right (by decide) (by omega : fragment + 1 ≤ 8)
    simp only [mapByte, hsub]
    by_cases hc : fragment < 8 ∧ index - fragment ≥ first
    · rw [if_pos hc]
      by_cases hp : hasFragment frags (index - fragment) = true
      · rw [if_pos hp]
        have hmod : (cur + 2 ^ fragment) % 256 = 2 ^ fragment + cur := by
          rw [Nat.mod_eq_of_lt (by omega)]
          omega
        rw [hmod, ih (fragment + 1) (2 ^ fragment + cur) (by omega) (by omega) f hf]
        by_cases h1 : f < fragment
        · rw [if_pos h1, if_pos (by omega), Nat.testBit_two_pow_add_gt h1]
        · by_cases h2 : f = fragment
          · subst h2
            rw [if_pos (by omega), if_neg h1, Nat.testBit_two_pow_add_eq,
              Nat.testBit_lt_two_pow hcur, hp]
            simp only [Bool.not_false, Bool.and_true, true_eq_decide_iff]
            omega
          · rw [if_neg (by omega), if_neg h1]
      · rw [if_neg hp, ih (fragment + 1) cur (by omega) (by omega) f hf]
        by_cases h1 : f < fragment
        · rw [if_pos h1, if_pos (by omega)]
        · by_cases h2 : f = fragment
          · subst h2
            rw [if_pos (by omega), if_neg h1, Nat.testBit_lt_two_pow hcur]
            simp only [Bool.not_eq_true] at hp
            rw [hp]
            simp
          · rw [if_neg (by omega), if_neg h1]
    · rw [if_neg hc]
      by_cases h1 : f < fragment
      · rw [if_pos h1]
      · rw [if_neg h1]
        have hlt : cur < 2 ^ f :=
          Nat.lt_of_lt_of_le hcur (Nat.pow_le_pow_right (by decide) (by omega))
        rw [Nat.testBit_lt_two_pow hlt]
        have : ¬ first + f ≤ index := by omega
        simp [this]

theorem mapLoop_spec (frags : List (Nat × GroupFragment)) (first : Nat) :
    ∀ (fuel index : Nat) (written : Bytes), index < fuel → index < 18446744073709551616 →
      index % 8 < first →
      ∃ bitmap, mapLoop frags first fuel index written = written ++ bitmap ∧
        bitmap.length = (index + 1 - first + 7) / 8 ∧
        ∀ i, i < index + 1 - first →
          (bitmap.getD (i / 8) 0).testBit (i % 8) = hasFragment frags (index - i) := by
  intro fuel
  induction fuel with
  | zero => intro index _ h; omega
  | succ fuel ih =>
    intro index written hfuel hw h8
    simp only [mapLoop]
    by_cases hc : index ≥ first ∧ index ≥ 8
    · rw [if_pos hc]
      have hsub : (index + 18446744073709551616 - 8) % 18446744073709551616 = index - 8 := by
        omega
      rw [hsub]
      obtain ⟨bs, e1, e2, e3⟩ := ih (index - 8)
        (written ++ [mapByte frags index first 8 0 0]) (by omega) (by omega) (by omega)
      refine ⟨mapByte frags index first 8 0 0 :: bs, ?_, ?_, ?_⟩
      · rw [e1]
        simp
      · rw [List.length_cons, e2]
        omega
      · intro i hi
        by_cases hi8 : i < 8
        · have h0 : i / 8 = 0 := by omega
          have h1 : i % 8 = i := by omega
          rw [h0, h1]
          simp only [List.getD_cons_zero]
          rw [mapByte_spec frags index first hc.2 hw 8 0 0 rfl (by decide) i hi8]
          have : first + i ≤ index := by omega
          simp [this]
        · have h0 : i / 8 = (i - 8) / 8 + 1 := by omega
          have h1 : i % 8 = (i - 8) % 8 := by omega
          have h2 : index - 8 - (i - 8) = index - i := by omega
          rw [h0, h1, List.getD_cons_succ, e3 (i - 8) (by omega), h2]
    · rw [if_neg hc]
      refine ⟨[], by simp, ?_, ?_⟩
      · simp only [List.length_nil]
        omega
      · intro i hi
        omega

theorem hasFragment_iff (frags : List (Nat × GroupFragment)) (id : Nat) :
    hasFragment frags id = true ↔ id ∈ frags.map Prod.fst := by
  simp only [hasFragment, List.any_eq_true, beq_iff_eq, List.mem_map]

theorem sortedKeys_head_le_last (frags : List (Nat × GroupFragment)) (a b : Nat × GroupFragment)
    (hsorted : frags.Pairwise (fun x y => x.1 < y.1)) (ha : frags.head? = some a)
    (hb : frags.getLast? = some b) : a.1 ≤ b.1 := by
  cases frags with
  | nil => simp at ha
  | cons x rest =>
    simp only [List.head?_cons, Option.some.injEq] at ha
    subst ha
    have hmem : b ∈ x :: rest := List.mem_of_getLast?_eq_some hb
    rcases List.mem_cons.mp hmem with h | h
    · rw [h]
    · exact Nat.le_of_lt ((List.pairwise_cons.mp hsorted).1 b h)

end GroupMedia

namespace GroupMedia

/-- C20, the claim as stated fails. With the fragments 1 and 5 in the store the
scan starts at index 4, below 8, so the loop writes no bitmap byte: the byte of
the message is what the buffer held (0 or 255 here), and with 0 the bit 3 is
clear although fragment 1 is in the store. With the fragments 9 and 10 in the
store of a closed media whose `_endFragment` is 11, the varint written is 11,
not the largest id 10. -/
theorem updateFragmentMap_skips_low_ids :
    updateFragmentMap (fun v => [v]) (fun _ => 1) (fun _ n => List.replicate n 0) false 0
        [(1, ⟨0x20, 1, 0, 9, 0, []⟩), (5, ⟨0x20, 5, 0, 9, 0, []⟩)] []
      = (5, [0x22, 5, 0]) ∧
    updateFragmentMap (fun v => [v]) (fun _ => 1) (fun _ n => List.replicate n 255) false 0
        [(1, ⟨0x20, 1, 0, 9, 0, []⟩), (5, ⟨0x20, 5, 0, 9, 0, []⟩)] []
      = (5, [0x22, 5, 255]) ∧
    hasFragment [(1, ⟨0x20, 1, 0, 9, 0, []⟩), (5, ⟨0x20, 5, 0, 9, 0, []⟩)] (5 - 1 - 3) = true ∧
    Nat.testBit 0 3 = false ∧
    updateFragmentMap (fun v => [v]) (fun _ => 1) (fun _ n => List.replicate n 0) false 11
        [(9, ⟨0x20, 9, 0, 9, 0, []⟩), (10, ⟨0x20, 10, 0, 9, 0, []⟩)] []
      = (10, [0x22, 11, 1]) := by
  decide

/-- C20 as amended: for a non-publisher `GroupMedia` whose store, as left by
`eraseOldFragments`, is non-empty with smallest id `first` and largest id
`last` such that `(last - 1) mod 8` is below `first` when the store holds more
than one id (no index that the loop scans, `last - 1`, `last - 9`, ..., is
both at least `first` and below 8), when the varint written is as long as
`Get7BitSize(last)` and the size of the message fits 32 bits,
`updateFragmentMap` returns `last`
and builds the message made of the map marker, then the 7-bit varint of
`_endFragment` if the media is closed (`_endFragment` not 0) and of `last`
otherwise, then `ceil((last - first) / 8)` bitmap bytes in which, for every
`i` below `last - first`, bit `i mod 8` of byte `i div 8` is 1 exactly when
the fragment `last - 1 - i` is in the store. -/
theorem updateFragmentMap_bitmap (write7Bit : Nat → Bytes) (get7BitSize : Nat → Nat)
    (resize : Bytes → Nat → Bytes) (_endFragment : Nat)
    (_fragments : List (Nat × GroupFragment)) (_fragmentsMapBuffer : Bytes) (first last : Nat)
    (hsorted : _fragments.Pairwise (fun x y => x.1 < y.1))
    (hfirst : _fragments.head?.map Prod.fst = some first)
    (hlast : _fragments.getLast?.map Prod.fst = some last)
    (h8 : first < last → (last - 1) % 8 < first) (hw : last < 18446744073709551616)
    (hresize : ∀ b n, (resize b n).length = n)
    (hvar : (write7Bit (if _endFragment ≠ 0 then _endFragment else last)).length
      = get7BitSize last)
    (hfit : (last - first + 7) / 8 + get7BitSize last + 1 < 4294967296) :
    ∃ bitmap, updateFragmentMap write7Bit get7BitSize resize false _endFragment _fragments
          _fragmentsMapBuffer
        = (last, GroupStream.GROUP_FRAGMENTS_MAP
            :: write7Bit (if _endFragment ≠ 0 then _endFragment else last) ++ bitmap) ∧
      bitmap.length = (last - first + 7) / 8 ∧
      ∀ i, i < last - first →
        ((bitmap.getD (i / 8) 0).testBit (i % 8) = true
          ↔ last - 1 - i ∈ _fragments.map Prod.fst) := by
  obtain ⟨a, ha, ha1⟩ := Option.map_eq_some'.mp hfirst
  obtain ⟨b, hb, hb1⟩ := Option.map_eq_some'.mp hlast
  have hle : first ≤ last := by
    rw [← ha1, ← hb1]
    exact sortedKeys_head_le_last _fragments a b hsorted ha hb
  have hne : ¬ (_fragments = [] ∧ _endFragment = 0) := by
    intro h
    rw [h.1] at ha
    simp at ha
  have hnb : (last + 18446744073709551616 - first) % 18446744073709551616 = last - first := by
    omega
  have hsize : (((last - first) / 8 + (if (last - first) % 8 > 0 then 1 else 0)) % 4294967296
      + get7BitSize last + 1) % 4294967296 = (last - first + 7) / 8 + get7BitSize last + 1 := by
    split_ifs <;> omega
  simp only [updateFragmentMap, if_neg hne, ha, hb, ha1, hb1, hnb, hsize, Bool.false_eq_true,
    if_false]
  by_cases h0 : last - first = 0
  · rw [if_pos h0]
    refine ⟨[], ?_, ?_, ?_⟩
    · rw [List.append_nil, overwrite_full]
      rw [hresize, List.length_cons, hvar]
      omega
    · simp only [List.length_nil]
      omega
    · intro i hi
      omega
  · rw [if_neg h0]
    have hidx : (last + 18446744073709551616 - 1) % 18446744073709551616 = last - 1 := by
      omega
    rw [hidx]
    obtain ⟨bitmap, e1, e2, e3⟩ := mapLoop_spec _fragments first last (last - 1)
      (GroupStream.GROUP_FRAGMENTS_MAP
        :: write7Bit (if _endFragment ≠ 0 then _endFragment else last))
      (by omega) (by omega) (h8 (by omega))
    have hl : last - 1 + 1 - first = last - first := by omega
    rw [hl] at e2 e3
    refine ⟨bitmap, ?_, e2, ?_⟩
    · rw [e1, overwrite_full]
      rw [hresize, List.cons_append, List.length_cons, List.length_append, hvar, e2]
      omega
    · intro i hi
      rw [e3 i hi, hasFragment_iff]

/-- Witness for `updateFragmentMap_bitmap`: the store holds the fragments 5,
6, 8, 12 and 13, whose smallest id is below 8; the scan takes the index 12
only and the bitmap byte is 0x99. -/
theorem updateFragmentMap_bitmap_witness :
    ((5 : Nat) < 13 → (13 - 1) % 8 < 5) ∧
    ∃ bitmap, updateFragmentMap (fun v => [v]) (fun _ => 1) (fun _ n => List.replicate n 0)
          false 0
          [(5, ⟨0x20, 5, 0, 9, 0, []⟩), (6, ⟨0x20, 6, 0, 9, 0, []⟩),
            (8, ⟨0x20, 8, 0, 9, 0, []⟩), (12, ⟨0x20, 12, 0, 9, 0, []⟩),
            (13, ⟨0x20, 13, 0, 9, 0, []⟩)] []
        = (13, GroupStream.GROUP_FRAGMENTS_MAP
            :: (fun v => [v]) (if (0 : Nat) ≠ 0 then 0 else 13) ++ bitmap) ∧
      bitmap.length = (13 - 5 + 7) / 8 ∧
      ∀ i, i < 13 - 5 →
        ((bitmap.getD (i / 8) 0).testBit (i % 8) = true
          ↔ 13 - 1 - i ∈ ([(5, ⟨0x20, 5, 0, 9, 0, []⟩), (6, ⟨0x20, 6, 0, 9, 0, []⟩),
            (8, ⟨0x20, 8, 0, 9, 0, []⟩), (12, ⟨0x20, 12, 0, 9, 0, []⟩),
            (13, ⟨0x20, 13, 0, 9, 0, []⟩)] : List (Nat × GroupFragment)).map Prod.fst) :=
  ⟨by decide,
    updateFragmentMap_bitmap (fun v => [v]) (fun _ => 1) (fun _ n => List.replicate n 0) 0
      [(5, ⟨0x20, 5, 0, 9, 0, []⟩), (6, ⟨0x20, 6, 0, 9, 0, []⟩),
        (8, ⟨0x20, 8, 0, 9, 0, []⟩), (12, ⟨0x20, 12, 0, 9, 0, []⟩),
        (13, ⟨0x20, 13, 0, 9, 0, []⟩)] [] 5 13 (by decide) (by decide) (by decide)
      (by decide) (by decide) (by intro b n; simp) (by decide) (by decide)⟩

end GroupMedia

/-! ## Timestamps and address lists -/

namespace RTMFP

theorem Time_ofNat (n : Nat) : Time (n : Int) = n / 4 % 65536 := by
  have h1 : (n : Int).tdiv RTMFP_TIMESTAMP_SCALE = ((n / 4 : Nat) : Int) := by
    simp only [RTMFP_TIMESTAMP_SCALE]
    rfl
  have h2 : Int.land ((n / 4 : Nat) : Int) 0xFFFF = ((n / 4 &&& 65535 : Nat) : Int) := rfl
  have h3 : n / 4 &&& 65535 = n / 4 % 65536 := Nat.and_pow_two_sub_one_eq_mod (n / 4) 16
  simp only [Time, h1, h2, h3, Int.toNat_ofNat]

/-- C25: for every non-negative millisecond time `t`, `RTMFP::Time(t)` is
`floor(t / 4) mod 65536`, so it is at most 65535 and
`Time(t + 4 * 65536) = Time(t)`. -/
theorem Time_ticks (t : Int) (ht : 0 ≤ t) :
    Time t = t.toNat / 4 % 65536 ∧ Time (t + 4 * 65536) = Time t ∧ Time t ≤ 65535 := by
  obtain ⟨n, rfl⟩ := Int.eq_ofNat_of_zero_le ht
  have hsum : (n : Int) + 4 * 65536 = ((n + 262144 : Nat) : Int) := by
    push_cast
    ring
  rw [hsum, Time_ofNat, Time_ofNat, Int.toNat_ofNat]
  refine ⟨rfl, ?_, ?_⟩ <;> omega

/-- Witness for `Time_ticks`: 262153 ms are 65538 ticks, which is 2 on 16
bits. -/
theorem Time_ticks_witness :
    Time 262153 = (262153 : Int).toNat / 4 % 65536 ∧ Time (262153 + 4 * 65536) = Time 262153
      ∧ Time 262153 ≤ 65535 :=
  Time_ticks 262153 (by decide)

/-- C26, evaluation of the code. A reader that holds one record of type
`ADDRESS_UNSPECIFIED` for the address 1.2.3.4:80, with `addresses` empty and
`hostAddress` unset: one record is read and handed to `onNewAddress`, and the
value returned is false. A reader with nothing to read and `addresses` already
holding an entry: no record is read and the value returned is true. -/
theorem ReadAddresses_result_not_records :
    ((ReadAddresses (fun a => decide (a.host.data ≠ List.replicate a.host.size 0 ∨ a.port ≠ 0))
        8 ⟨[0, 1, 2, 3, 4, 0, 80], 0⟩ [] (SocketAddress.setIPv4 [0, 0, 0, 0] 0)).records = 1 ∧
      (ReadAddresses (fun a => decide (a.host.data ≠ List.replicate a.host.size 0 ∨ a.port ≠ 0))
        8 ⟨[0, 1, 2, 3, 4, 0, 80], 0⟩ [] (SocketAddress.setIPv4 [0, 0, 0, 0] 0)).onNewAddress
        = [(SocketAddress.setIPv4 [1, 2, 3, 4] 80, ADDRESS_UNSPECIFIED)] ∧
      (ReadAddresses (fun a => decide (a.host.data ≠ List.replicate a.host.size 0 ∨ a.port ≠ 0))
        8 ⟨[0, 1, 2, 3, 4, 0, 80], 0⟩ [] (SocketAddress.setIPv4 [0, 0, 0, 0] 0)).result
        = false) ∧
    ((ReadAddresses (fun a => decide (a.host.data ≠ List.replicate a.host.size 0 ∨ a.port ≠ 0))
        8 ⟨[], 0⟩ [(SocketAddress.setIPv4 [1, 2, 3, 4] 80, ADDRESS_LOCAL)]
        (SocketAddress.setIPv4 [0, 0, 0, 0] 0)).records = 0 ∧
      (ReadAddresses (fun a => decide (a.host.data ≠ List.replicate a.host.size 0 ∨ a.port ≠ 0))
        8 ⟨[], 0⟩ [(SocketAddress.setIPv4 [1, 2, 3, 4] 80, ADDRESS_LOCAL)]
        (SocketAddress.setIPv4 [0, 0, 0, 0] 0)).result = true) := by
  decide

end RTMFP

/-! ## Push mask rotation and fragments maps received -/

namespace GroupMedia

/-- C27, evaluation of the code. With the fragments 1 to 10 all in the store,
the publisher branch writes the bitmap bytes 255 and 1, nine bits for the nine
fragments below the last. The per-bit loop writes the byte 255 for the
fragments 9 to 2 and stops, its index 1 being below 8: the second bitmap byte
is what the buffer held, 0 or 255 here, and the fragment 1 is not marked by
the code. -/
theorem updateFragmentMap_paths_differ :
    updateFragmentMap (fun v => [v]) (fun _ => 1) (fun _ n => List.replicate n 0) true 0
        ((List.range' 1 10).map (fun i => (i, ⟨0x20, i, 0, 9, 0, []⟩))) []
      = (10, [0x22, 10, 255, 1]) ∧
    updateFragmentMap (fun v => [v]) (fun _ => 1) (fun _ n => List.replicate n 0) false 0
        ((List.range' 1 10).map (fun i => (i, ⟨0x20, i, 0, 9, 0, []⟩))) []
      = (10, [0x22, 10, 255, 0]) ∧
    updateFragmentMap (fun v => [v]) (fun _ => 1) (fun _ n => List.replicate n 255) false 0
        ((List.range' 1 10).map (fun i => (i, ⟨0x20, i, 0, 9, 0, []⟩))) []
      = (10, [0x22, 10, 255, 255]) := by
  decide

theorem sendPushRequests_mask (s : GroupMedia) (random : Nat) (peer : Option Nat)
    (hpeers : s._mapPeers ≠ []) :
    (sendPushRequests s random peer)._currentPushMask
      = (if s._currentPushMask = 0 then (1 <<< (random % 256 % 8)) % 256
        else if s._currentPushMask = 0x80 then 1
        else (s._currentPushMask <<< 1) % 256) ∧
    (sendPushRequests s random peer)._mapPeers = s._mapPeers := by
  simp only [sendPushRequests, if_neg hpeers]
  cases peer with
  | none => exact ⟨rfl, rfl⟩
  | some p =>
    simp only []
    cases s._mapPeers.lookup p <;> exact ⟨rfl, rfl⟩

theorem one_bit_first (r : Nat) : (1 <<< (r % 256 % 8)) % 256 = 2 ^ (r % 8) := by
  have h : r % 256 % 8 = r % 8 := by omega
  rw [h]
  have h8 : r % 8 < 8 := Nat.mod_lt _ (by decide)
  interval_cases (r % 8) <;> rfl

theorem one_bit_next (e : Nat) (he : e < 8) :
    (if 2 ^ e = 0 then (1 <<< 0) % 256 else if 2 ^ e = 0x80 then 1 else (2 ^ e <<< 1) % 256)
      = 2 ^ ((e + 1) % 8) := by
  interval_cases e <;> rfl

theorem sendPushRequestsRun_mask (calls : List (Nat × Option Nat)) :
    ∀ (s : GroupMedia) (e : Nat), s._mapPeers ≠ [] → s._currentPushMask = 2 ^ e → e < 8 →
      (sendPushRequestsRun s calls)._currentPushMask = 2 ^ ((e + calls.length) % 8) := by
  induction calls with
  | nil =>
    intro s e _ hm he
    simp only [sendPushRequestsRun, List.foldl_nil, List.length_nil, Nat.add_zero,
      Nat.mod_eq_of_lt he, hm]
  | cons c rest ih =>
    intro s e hp hm he
    obtain ⟨h1, h2⟩ := sendPushRequests_mask s c.1 c.2 hp
    have hne : (2 : Nat) ^ e ≠ 0 := Nat.pos_iff_ne_zero.mp (Nat.two_pow_pos e)
    have hstep : (sendPushRequests s c.1 c.2)._currentPushMask = 2 ^ ((e + 1) % 8) := by
      rw [h1, hm, if_neg hne]
      have := one_bit_next e he
      rw [if_neg hne] at this
      exact this
    have := ih (sendPushRequests s c.1 c.2) ((e + 1) % 8) (by rw [h2]; exact hp) hstep
      (Nat.mod_lt _ (by decide))
    simp only [sendPushRequestsRun, List.foldl_cons] at this ⊢
    rw [this, List.length_cons]
    congr 1
    omega

theorem sendPushRequestsRun_first (s : GroupMedia) (c : Nat × Option Nat)
    (rest : List (Nat × Option Nat)) (hpeers : s._mapPeers ≠ [])
    (hmask : s._currentPushMask = 0) :
    (sendPushRequestsRun s (c :: rest))._currentPushMask
      = 2 ^ ((c.1 % 8 + rest.length) % 8) := by
  obtain ⟨h1, h2⟩ := sendPushRequests_mask s c.1 c.2 hpeers
  have hstep : (sendPushRequests s c.1 c.2)._currentPushMask = 2 ^ (c.1 % 8) := by
    rw [h1, if_pos hmask, one_bit_first]
  have := sendPushRequestsRun_mask rest (sendPushRequests s c.1 c.2) (c.1 % 8)
    (by rw [h2]; exact hpeers) hstep (Nat.mod_lt _ (by decide))
  simpa only [sendPushRequestsRun, List.foldl_cons] using this

theorem rotation_perm (e : Nat) (he : e < 8) :
    ((List.range 8).map (fun i => 2 ^ ((e + i) % 8))).Perm [1, 2, 4, 8, 16, 32, 64, 128] := by
  interval_cases e <;> decide

/-- C24: with at least one peer present, from the mask 0 that the constructor
leaves, the current push mask after the `n`-th call of `sendPushRequests` is
`1 << ((r + n - 1) mod 8)`, `r` being the random value of the first call modulo
8: one bit is set after every call, the first call picks `1 << r`, each later
call shifts the mask left by one bit with `0x80` going to `0x01`, and over any
8 consecutive calls each of the 8 one-bit masks is the current mask once. -/
theorem sendPushRequests_rotation (s : GroupMedia) (calls : List (Nat × Option Nat))
    (hpeers : s._mapPeers ≠ []) (hmask : s._currentPushMask = 0) :
    (∀ n, 1 ≤ n → n ≤ calls.length →
      (sendPushRequestsRun s (calls.take n))._currentPushMask
        = 2 ^ (((calls.head?.getD (0, none)).1 % 8 + (n - 1)) % 8)) ∧
    (∀ k, 1 ≤ k → k + 7 ≤ calls.length →
      ((List.range 8).map
        (fun i => (sendPushRequestsRun s (calls.take (k + i)))._currentPushMask)).Perm
        [1, 2, 4, 8, 16, 32, 64, 128]) := by
  have hrun : ∀ n, 1 ≤ n → n ≤ calls.length →
      (sendPushRequestsRun s (calls.take n))._currentPushMask
        = 2 ^ (((calls.head?.getD (0, none)).1 % 8 + (n - 1)) % 8) := by
    intro n h1 hn
    cases calls with
    | nil => simp only [List.length_nil] at hn; omega
    | cons c rest =>
      obtain ⟨m, rfl⟩ : ∃ m, n = m + 1 := ⟨n - 1, by omega⟩
      simp only [List.length_cons] at hn
      rw [List.take_succ_cons, sendPushRequestsRun_first s c _ hpeers hmask,
        List.length_take, Nat.min_eq_left (by omega)]
      simp
  refine ⟨hrun, ?_⟩
  intro k hk hlen
  have hmap : (List.range 8).map
      (fun i => (sendPushRequestsRun s (calls.take (k + i)))._currentPushMask)
      = (List.range 8).map (fun i =>
          2 ^ ((((calls.head?.getD (0, none)).1 % 8 + (k - 1)) % 8 + i) % 8)) := by
    apply List.map_congr_left
    intro i hi
    have hi8 := List.mem_range.mp hi
    rw [hrun (k + i) (by omega) (by omega)]
    congr 1
    omega
  rw [hmap]
  exact rotation_perm _ (Nat.mod_lt _ (by decide))

/-- Witness for `sendPushRequests_rotation`: nine calls with one peer, the
first random value being 13, give the masks 32, 64, 128, 1, 2, 4, 8, 16,
32. -/
theorem sendPushRequests_rotation_witness :
    (∀ n, 1 ≤ n → n ≤ (List.replicate 9 ((13 : Nat), (none : Option Nat))).length →
      (sendPushRequestsRun { fresh ⟨false, 8000, 2000, 2500⟩ with _mapPeers := [(1, 0)] }
        ((List.replicate 9 (13, none)).take n))._currentPushMask
        = 2 ^ ((((List.replicate 9 ((13 : Nat), (none : Option Nat))).head?.getD (0, none)).1 % 8
          + (n - 1)) % 8)) ∧
    (∀ k, 1 ≤ k → k + 7 ≤ (List.replicate 9 ((13 : Nat), (none : Option Nat))).length →
      ((List.range 8).map
        (fun i => (sendPushRequestsRun
          { fresh ⟨false, 8000, 2000, 2500⟩ with _mapPeers := [(1, 0)] }
          ((List.replicate 9 (13, none)).take (k + i)))._currentPushMask)).Perm
        [1, 2, 4, 8, 16, 32, 64, 128]) :=
  sendPushRequests_rotation { fresh ⟨false, 8000, 2000, 2500⟩ with _mapPeers := [(1, 0)] }
    (List.replicate 9 (13, none)) (by decide) rfl

end GroupMedia

namespace GroupMedia

theorem emplaceTime_ne_nil (l : List (Int × Nat)) (now : Int) (id : Nat) :
    emplaceTime l now id ≠ [] := by
  cases l with
  | nil => simp [emplaceTime]
  | cons x rest =>
    obtain ⟨t0, id0⟩ := x
    simp only [emplaceTime]
    split_ifs <;> simp

theorem sendPushRequests_pull (s : GroupMedia) (random : Nat) (peer : Option Nat) :
    (sendPushRequests s random peer)._pullPaused = s._pullPaused ∧
    (sendPushRequests s random peer)._mapPullTime2Fragment = s._mapPullTime2Fragment ∧
    (sendPushRequests s random peer)._mapPeers = s._mapPeers ∧
    (sendPushRequests s random peer)._lastFragment = s._lastFragment ∧
    (sendPushRequests s random peer).groupParameters = s.groupParameters ∧
    (sendPushRequests s random peer)._lastFragmentMapId = s._lastFragmentMapId := by
  simp only [sendPushRequests]
  by_cases hp : s._mapPeers = []
  · rw [if_pos hp]
    exact ⟨rfl, rfl, rfl, rfl, rfl, rfl⟩
  · rw [if_neg hp]
    cases peer with
    | none => exact ⟨rfl, rfl, rfl, rfl, rfl, rfl⟩
    | some p =>
      simp only []
      cases s._mapPeers.lookup p <;> exact ⟨rfl, rfl, rfl, rfl, rfl, rfl⟩

theorem startPushMode_pull (s : GroupMedia) (random : Nat) (peer : Option Nat) :
    (startPushMode s random peer)._pullPaused = s._pullPaused ∧
    (startPushMode s random peer)._mapPullTime2Fragment = s._mapPullTime2Fragment ∧
    (startPushMode s random peer)._mapPeers = s._mapPeers ∧
    (startPushMode s random peer)._lastFragment = s._lastFragment ∧
    (startPushMode s random peer).groupParameters = s.groupParameters ∧
    (startPushMode s random peer)._lastFragmentMapId = s._lastFragmentMapId := by
  obtain ⟨p1, p2, p3, p4, p5, p6⟩ := sendPushRequests_pull s random peer
  simp only [startPushMode]
  split_ifs
  · exact ⟨p1, p2, p3, p4, p5, p6⟩
  · exact ⟨rfl, rfl, rfl, rfl, rfl, rfl⟩

theorem recordFragmentsMap_new (s : GroupMedia) (now : Int) (counter : Nat)
    (hlt : s._lastFragmentMapId < counter) :
    (recordFragmentsMap s now counter)._pullPaused = false ∧
    (recordFragmentsMap s now counter)._lastFragmentMapId = counter ∧
    (recordFragmentsMap s now counter)._mapPullTime2Fragment ≠ [] ∧
    (recordFragmentsMap s now counter)._mapPeers = s._mapPeers ∧
    (recordFragmentsMap s now counter)._lastFragment = s._lastFragment ∧
    (recordFragmentsMap s now counter).groupParameters = s.groupParameters := by
  have hne := emplaceTime_ne_nil s._mapPullTime2Fragment now counter
  by_cases hp : s._pullPaused = true
  · simp [recordFragmentsMap, hlt, hp, hne]
  · simp [recordFragmentsMap, hlt, hp, hne]

/-- C30, the claim as stated fails: a paused non-publisher whose last recorded
map id is 10 stays paused when a neighbor sends a fragments map that announces
10 again, or 5, and `sendPullRequests` then still returns on its first
test. -/
theorem onFragmentsMap_stays_paused :
    (_onFragmentsMap { fresh ⟨false, 8000, 2000, 2500⟩ with
        _mapPeers := [(1, 0)], _mapPullTime2Fragment := [(0, 10)], _lastFragmentMapId := 10,
        _pullPaused := true } 3000 10 0 none).2._pullPaused = true ∧
    (_onFragmentsMap { fresh ⟨false, 8000, 2000, 2500⟩ with
        _mapPeers := [(1, 0)], _mapPullTime2Fragment := [(0, 10)], _lastFragmentMapId := 10,
        _pullPaused := true } 3000 5 0 none).2._pullPaused = true ∧
    pullBlocked (_onFragmentsMap { fresh ⟨false, 8000, 2000, 2500⟩ with
        _mapPeers := [(1, 0)], _mapPullTime2Fragment := [(0, 10)], _lastFragmentMapId := 10,
        _pullPaused := true } 3000 10 0 none).2 3000 = true := by
  decide

/-- C30 as amended: for a non-publisher `GroupMedia`, a fragments map whose
last fragment id is above the last id recorded from a map (`_lastFragmentMapId`)
is accepted, recorded, and leaves `_pullPaused` false, so the next
`sendPullRequests` passes its first test unless there is no peer or nothing was
received for more than `windowDuration + relayMargin`; a map that announces an
id not above the last recorded one is accepted too and leaves `_pullPaused` as
it was. -/
theorem onFragmentsMap_resumes (s : GroupMedia) (now later : Int) (counter random : Nat)
    (peer : Option Nat) (hpub : s.groupParameters.isPublisher = false) :
    (_onFragmentsMap s now counter random peer).1 = true ∧
    (s._lastFragmentMapId < counter →
      (_onFragmentsMap s now counter random peer).2._pullPaused = false ∧
      (_onFragmentsMap s now counter random peer).2._lastFragmentMapId = counter ∧
      (_onFragmentsMap s now counter random peer).2._mapPullTime2Fragment ≠ [] ∧
      pullBlocked (_onFragmentsMap s now counter random peer).2 later
        = (s._mapPeers.isEmpty || decide (later - s._lastFragment
            > ((s.groupParameters.windowDuration + s.groupParameters.relayMargin : Nat) : Int)))) ∧
    (¬ s._lastFragmentMapId < counter →
      (_onFragmentsMap s now counter random peer).2._pullPaused = s._pullPaused) := by
  obtain ⟨q1, q2, q3, q4, q5, q6⟩ :=
    startPushMode_pull (recordFragmentsMap s now counter) random peer
  simp only [_onFragmentsMap, hpub, Bool.false_eq_true, if_false, true_and]
  refine ⟨?_, ?_⟩
  · intro hlt
    obtain ⟨r1, r2, r3, r4, r5, r6⟩ := recordFragmentsMap_new s now counter hlt
    refine ⟨by rw [q1, r1], by rw [q6, r2], by rw [q2]; exact r3, ?_⟩
    simp only [pullBlocked, q1, q2, q3, q4, q5, r1, r4, r5, r6]
    cases hl : (recordFragmentsMap s now counter)._mapPullTime2Fragment with
    | nil => exact absurd hl r3
    | cons x rest => simp
  · intro hge
    rw [q1]
    simp only [recordFragmentsMap, if_neg hge]

/-- Witness for `onFragmentsMap_resumes`: the paused non-publisher whose last
recorded map id is 10 receives a map that announces 11. -/
theorem onFragmentsMap_resumes_witness :
    (_onFragmentsMap { fresh ⟨false, 8000, 2000, 2500⟩ with
        _mapPeers := [(1, 0)], _mapPullTime2Fragment := [(0, 10)], _lastFragmentMapId := 10,
        _pullPaused := true } 3000 11 0 none).2._pullPaused = false :=
  ((onFragmentsMap_resumes { fresh ⟨false, 8000, 2000, 2500⟩ with
      _mapPeers := [(1, 0)], _mapPullTime2Fragment := [(0, 10)], _lastFragmentMapId := 10,
      _pullPaused := true } 3000 3000 11 0 none rfl).2.1 (by decide)).1

end GroupMedia

/-! ## Election of the pusher of a mask -/

namespace GroupMedia

end GroupMedia

namespace GroupMedia

end GroupMedia

/-! ## Window trimming -/

namespace GroupMedia

theorem lower_bound_le {α β : Type} [LT α] [DecidableRel (fun (a b : α) => a < b)]
    (l : List (α × β)) (key : α) : lower_bound l key ≤ l.length := by
  simp only [lower_bound]
  exact (List.takeWhile_sublist _).length_le

theorem take_lower_bound_lt {α β : Type} [LT α] [DecidableRel (fun (a b : α) => a < b)]
    (l : List (α × β)) (key : α) : ∀ e ∈ l.take (lower_bound l key), e.1 < key := by
  induction l with
  | nil => intro e he; simp at he
  | cons x rest ih =>
    intro e he
    simp only [lower_bound] at he ih
    by_cases hx : x.1 < key
    · rw [List.takeWhile_cons_of_pos (by simpa using hx), List.length_cons,
        List.take_succ_cons] at he
      rcases List.mem_cons.mp he with h | h
      · rw [h]; exact hx
      · exact ih e h
    · rw [List.takeWhile_cons_of_neg (by simpa using hx)] at he
      simp at he

theorem drop_lower_bound_ge {α β : Type} [LinearOrder α]
    [DecidableRel (fun (a b : α) => a < b)] (l : List (α × β)) (key : α)
    (hsorted : l.Pairwise (fun a b => a.1 < b.1)) :
    ∀ e ∈ l.drop (lower_bound l key), key ≤ e.1 := by
  induction l with
  | nil => intro e he; simp at he
  | cons x rest ih =>
    intro e he
    have hx := List.pairwise_cons.mp hsorted
    simp only [lower_bound] at he ih
    by_cases hlt : x.1 < key
    · rw [List.takeWhile_cons_of_pos (by simpa using hlt), List.length_cons,
        List.drop_succ_cons] at he
      exact ih hx.2 e he
    · rw [List.takeWhile_cons_of_neg (by simpa using hlt)] at he
      simp only [List.length_nil, List.drop_zero] at he
      rcases List.mem_cons.mp he with h | h
      · rw [h]; exact not_lt.mp hlt
      · exact le_trans (not_lt.mp hlt) (le_of_lt (hx.1 e h))

theorem getD_lower_bound_ge {α β : Type} [LT α] [DecidableRel (fun (a b : α) => a < b)]
    (l : List (α × β)) (key : α) (d : α × β) (h : lower_bound l key < l.length) :
    ¬ (l.getD (lower_bound l key) d).1 < key := by
  induction l with
  | nil => simp at h
  | cons x rest ih =>
    simp only [lower_bound] at h ih ⊢
    by_cases hlt : x.1 < key
    · rw [List.takeWhile_cons_of_pos (by simpa using hlt), List.length_cons] at h ⊢
      rw [List.getD_cons_succ]
      exact ih (by simpa using h)
    · rw [List.takeWhile_cons_of_neg (by simpa using hlt)]
      simpa using hlt

theorem drop_getD_le {β : Type} (l : List (Nat × β)) (j : Nat) (d : Nat × β)
    (hsorted : l.Pairwise (fun a b => a.1 < b.1)) (hj : j < l.length) :
    (l.drop j).head? = some (l.getD j d) ∧ ∀ e ∈ l.drop j, (l.getD j d).1 ≤ e.1 := by
  have hd : l.drop j = l.getD j d :: l.drop (j + 1) := by
    rw [List.getD_eq_getElem _ _ hj]
    exact List.drop_eq_getElem_cons hj
  have hs : (l.drop j).Pairwise (fun a b => a.1 < b.1) :=
    List.Pairwise.sublist (List.drop_sublist _ _) hsorted
  rw [hd] at hs ⊢
  refine ⟨rfl, ?_⟩
  intro e he
  rcases List.mem_cons.mp he with h | h
  · rw [h]
  · exact Nat.le_of_lt ((List.pairwise_cons.mp hs).1 e h)

theorem erasePoint_some (s : GroupMedia) (now : Int) (k j : Nat)
    (h : erasePoint s now = some (k, j)) :
    k = lower_bound s._mapTime2Fragment
      (now - ((s.groupParameters.windowDuration + s.groupParameters.relayMargin : Nat) : Int)) ∧
    0 < k ∧ k < s._mapTime2Fragment.length ∧
    (s._fragments.map Prod.fst).indexOf (s._mapTime2Fragment.getD k (0, 0)).2
      < s._fragments.length ∧
    j = (s._fragments.map Prod.fst).indexOf (s._mapTime2Fragment.getD k (0, 0)).2 - 1 := by
  simp only [erasePoint] at h
  split_ifs at h with h1 h2 h3 h4 h5 h6 h7 h8
  · exfalso
    have hlt : lower_bound s._mapTime2Fragment
        (now - ((s.groupParameters.windowDuration + s.groupParameters.relayMargin : Nat) : Int))
        < s._mapTime2Fragment.length :=
      Nat.lt_of_le_of_ne (lower_bound_le _ _) h2.1
    exact getD_lower_bound_ge _ _ (0, 0) hlt h2.2.2
  · exfalso
    have hlt : lower_bound s._mapTime2Fragment
        (now - ((s.groupParameters.windowDuration + s.groupParameters.relayMargin : Nat) : Int))
        < s._mapTime2Fragment.length :=
      Nat.lt_of_le_of_ne (lower_bound_le _ _) h2.1
    exact getD_lower_bound_ge _ _ (0, 0) hlt h2.2.2
  · simp only [Option.some.injEq, Prod.mk.injEq] at h
    obtain ⟨hk, hj⟩ := h
    subst hk
    have hle := lower_bound_le s._mapTime2Fragment
      (now - ((s.groupParameters.windowDuration + s.groupParameters.relayMargin : Nat) : Int))
    have hi := List.indexOf_le_length
      (a := (s._mapTime2Fragment.getD (lower_bound s._mapTime2Fragment
        (now - ((s.groupParameters.windowDuration + s.groupParameters.relayMargin : Nat) : Int)))
        (0, 0)).2) (l := s._fragments.map Prod.fst)
    simp only [List.length_map] at hi
    refine ⟨rfl, by omega, by omega, by omega, by omega⟩
  · simp only [Option.some.injEq, Prod.mk.injEq] at h
    obtain ⟨hk, hj⟩ := h
    subst hk
    have hle := lower_bound_le s._mapTime2Fragment
      (now - ((s.groupParameters.windowDuration + s.groupParameters.relayMargin : Nat) : Int))
    have hi := List.indexOf_le_length
      (a := (s._mapTime2Fragment.getD (lower_bound s._mapTime2Fragment
        (now - ((s.groupParameters.windowDuration + s.groupParameters.relayMargin : Nat) : Int)))
        (0, 0)).2) (l := s._fragments.map Prod.fst)
    simp only [List.length_map] at hi
    refine ⟨rfl, by omega, by omega, by omega, by omega⟩

end GroupMedia

namespace GroupMedia

theorem eraseOldFragments_cut (s : GroupMedia) (now : Int) (k j : Nat)
    (h : erasePoint s now = some (k, j)) :
    (eraseOldFragments s now)._fragments = s._fragments.drop j ∧
    (eraseOldFragments s now)._mapTime2Fragment = s._mapTime2Fragment.drop k ∧
    (eraseOldFragments s now)._mapWaitingFragments
      = (match s._mapWaitingFragments.head? with
        | some e =>
          if e.1 < (s._fragments.getD j (0, ⟨0, 0, 0, 0, 0, []⟩)).1 then
            s._mapWaitingFragments.drop (lower_bound s._mapWaitingFragments
              (s._fragments.getD j (0, ⟨0, 0, 0, 0, 0, []⟩)).1)
          else s._mapWaitingFragments
        | none => s._mapWaitingFragments) ∧
    (eraseOldFragments s now)._currentPullFragment
      = (if s._currentPullFragment < (s._fragments.getD j (0, ⟨0, 0, 0, 0, 0, []⟩)).1 then
          (s._fragments.getD j (0, ⟨0, 0, 0, 0, 0, []⟩)).1
        else s._currentPullFragment) ∧
    (eraseOldFragments s now).onRemovedFragments
      = s.onRemovedFragments ++ [(s._fragments.getD j (0, ⟨0, 0, 0, 0, 0, []⟩)).1] := by
  unfold eraseOldFragments
  rw [h]
  exact ⟨rfl, rfl, rfl, rfl, rfl⟩

theorem eraseOldFragments_none (s : GroupMedia) (now : Int) (h : erasePoint s now = none) :
    eraseOldFragments s now = s := by
  unfold eraseOldFragments
  rw [h]

/-- C28: when `eraseOldFragments` performs a cut (it reaches its deletions),
the smallest fragment id left in the store being `first`: afterwards every id
of `_mapWaitingFragments` is at least `first`, the pull cursor
`_currentPullFragment` is at least `first` and unchanged if it already was,
and `onRemovedFragments` has been called once more, with `first`. When it
returns before its deletions the state is unchanged and nothing is
notified. -/
theorem eraseOldFragments_cursor (s : GroupMedia) (now : Int)
    (hfragments : s._fragments.Pairwise (fun a b => a.1 < b.1))
    (hwaiting : s._mapWaitingFragments.Pairwise (fun a b => a.1 < b.1)) :
    (erasePoint s now ≠ none →
      ∃ first, (eraseOldFragments s now)._fragments.head?.map Prod.fst = some first ∧
        (∀ e ∈ (eraseOldFragments s now)._fragments, first ≤ e.1) ∧
        (∀ w ∈ (eraseOldFragments s now)._mapWaitingFragments, first ≤ w.1) ∧
        first ≤ (eraseOldFragments s now)._currentPullFragment ∧
        (first ≤ s._currentPullFragment →
          (eraseOldFragments s now)._currentPullFragment = s._currentPullFragment) ∧
        (eraseOldFragments s now).onRemovedFragments = s.onRemovedFragments ++ [first]) ∧
    (erasePoint s now = none → eraseOldFragments s now = s) := by
  refine ⟨?_, eraseOldFragments_none s now⟩
  intro hcut
  obtain ⟨⟨k, j⟩, hp⟩ := Option.ne_none_iff_exists'.mp hcut
  obtain ⟨_, _, _, hj0, hj⟩ := erasePoint_some s now k j hp
  have hjlt : j < s._fragments.length := by omega
  obtain ⟨e1, e2, e3, e4, e5⟩ := eraseOldFragments_cut s now k j hp
  obtain ⟨d1, d2⟩ := drop_getD_le s._fragments j (0, ⟨0, 0, 0, 0, 0, []⟩) hfragments hjlt
  refine ⟨(s._fragments.getD j (0, ⟨0, 0, 0, 0, 0, []⟩)).1, ?_, ?_, ?_, ?_, ?_, e5⟩
  · rw [e1, d1]
    rfl
  · rw [e1]
    exact d2
  · rw [e3]
    cases hw : s._mapWaitingFragments with
    | nil =>
      intro w hmem
      simp at hmem
    | cons x rest =>
      simp only [List.head?_cons]
      rw [← hw]
      by_cases hx : x.1 < (s._fragments.getD j (0, ⟨0, 0, 0, 0, 0, []⟩)).1
      · rw [if_pos hx]
        exact drop_lower_bound_ge _ _ hwaiting
      · rw [if_neg hx]
        intro w hmem
        rw [hw] at hmem hwaiting
        rcases List.mem_cons.mp hmem with hm | hm
        · rw [hm]; omega
        · have := (List.pairwise_cons.mp hwaiting).1 w hm
          omega
  · rw [e4]
    split_ifs <;> omega
  · intro hle
    rw [e4, if_neg (by omega)]

/-- Witness for `eraseOldFragments_cursor`: with the fragments 1, 2 and 3
recorded at the times 0, 100 and 200 and a limit at 150, the fragment 1 is
erased, the waiting pulls 1 and 5 become 5, and the cursor moves from 0
to 2. -/
theorem eraseOldFragments_cursor_witness :
    ∃ first, (eraseOldFragments { fresh ⟨false, 8000, 2000, 2500⟩ with
          _fragments := [(1, ⟨0x20, 1, 0, 9, 0, []⟩), (2, ⟨0x20, 2, 0, 9, 0, []⟩),
            (3, ⟨0x20, 3, 0, 9, 0, []⟩)],
          _mapTime2Fragment := [(0, 1), (100, 2), (200, 3)],
          _mapWaitingFragments := [(1, 0), (5, 0)] } 10150)._fragments.head?.map Prod.fst
        = some first ∧
      (∀ e ∈ (eraseOldFragments { fresh ⟨false, 8000, 2000, 2500⟩ with
          _fragments := [(1, ⟨0x20, 1, 0, 9, 0, []⟩), (2, ⟨0x20, 2, 0, 9, 0, []⟩),
            (3, ⟨0x20, 3, 0, 9, 0, []⟩)],
          _mapTime2Fragment := [(0, 1), (100, 2), (200, 3)],
          _mapWaitingFragments := [(1, 0), (5, 0)] } 10150)._fragments, first ≤ e.1) ∧
      (∀ w ∈ (eraseOldFragments { fresh ⟨false, 8000, 2000, 2500⟩ with
          _fragments := [(1, ⟨0x20, 1, 0, 9, 0, []⟩), (2, ⟨0x20, 2, 0, 9, 0, []⟩),
            (3, ⟨0x20, 3, 0, 9, 0, []⟩)],
          _mapTime2Fragment := [(0, 1), (100, 2), (200, 3)],
          _mapWaitingFragments := [(1, 0), (5, 0)] } 10150)._mapWaitingFragments,
        first ≤ w.1) ∧
      first ≤ (eraseOldFragments { fresh ⟨false, 8000, 2000, 2500⟩ with
          _fragments := [(1, ⟨0x20, 1, 0, 9, 0, []⟩), (2, ⟨0x20, 2, 0, 9, 0, []⟩),
            (3, ⟨0x20, 3, 0, 9, 0, []⟩)],
          _mapTime2Fragment := [(0, 1), (100, 2), (200, 3)],
          _mapWaitingFragments := [(1, 0), (5, 0)] } 10150)._currentPullFragment ∧
      (first ≤ (0 : Nat) →
        (eraseOldFragments { fresh ⟨false, 8000, 2000, 2500⟩ with
          _fragments := [(1, ⟨0x20, 1, 0, 9, 0, []⟩), (2, ⟨0x20, 2, 0, 9, 0, []⟩),
            (3, ⟨0x20, 3, 0, 9, 0, []⟩)],
          _mapTime2Fragment := [(0, 1), (100, 2), (200, 3)],
          _mapWaitingFragments := [(1, 0), (5, 0)] } 10150)._currentPullFragment = 0) ∧
      (eraseOldFragments { fresh ⟨false, 8000, 2000, 2500⟩ with
          _fragments := [(1, ⟨0x20, 1, 0, 9, 0, []⟩), (2, ⟨0x20, 2, 0, 9, 0, []⟩),
            (3, ⟨0x20, 3, 0, 9, 0, []⟩)],
          _mapTime2Fragment := [(0, 1), (100, 2), (200, 3)],
          _mapWaitingFragments := [(1, 0), (5, 0)] } 10150).onRemovedFragments
        = [] ++ [first] :=
  (eraseOldFragments_cursor { fresh ⟨false, 8000, 2000, 2500⟩ with
      _fragments := [(1, ⟨0x20, 1, 0, 9, 0, []⟩), (2, ⟨0x20, 2, 0, 9, 0, []⟩),
        (3, ⟨0x20, 3, 0, 9, 0, []⟩)],
      _mapTime2Fragment := [(0, 1), (100, 2), (200, 3)],
      _mapWaitingFragments := [(1, 0), (5, 0)] } 10150 (by decide) (by decide)).1 (by decide)

end GroupMedia

namespace GroupMedia

theorem getD_indexOf {β : Type} (l : List (Nat × β)) (a : Nat) (d : Nat × β) :
    (l.map Prod.fst).indexOf a < l.length →
      (l.getD ((l.map Prod.fst).indexOf a) d).1 = a := by
  induction l with
  | nil => intro h; simp at h
  | cons x rest ih =>
    intro h
    rw [List.map_cons, List.indexOf_cons] at h ⊢
    by_cases hx : x.1 = a
    · simp only [hx, beq_self_eq_true, cond_true, List.getD_cons_zero]
    · have hb : (x.1 == a) = false := by simpa using hx
      simp only [hb, cond_false, List.length_cons, Nat.add_lt_add_iff_right] at h
      simp only [hb, cond_false, List.getD_cons_succ]
      exact ih h

/-- C21, the claim as stated fails. With the fragments 1, 2 and 3 recorded at
the times 0, 100 and 200, `windowDuration + relayMargin` being 10000: at time
10150 the limit is 150 and the fragment 2, recorded at 100, stays in the store
as the fragment kept before the first entry within the limit; at time 20000
every entry is older than the limit and nothing is erased. -/
theorem eraseOldFragments_keeps_old :
    ((100 : Int) < 10150 - ((8000 + 2000 : Nat) : Int) ∧
      hasFragment (eraseOldFragments { fresh ⟨false, 8000, 2000, 2500⟩ with
        _fragments := [(1, ⟨0x20, 1, 0, 9, 0, []⟩), (2, ⟨0x20, 2, 0, 9, 0, []⟩),
          (3, ⟨0x20, 3, 0, 9, 0, []⟩)],
        _mapTime2Fragment := [(0, 1), (100, 2), (200, 3)] } 10150)._fragments 2 = true) ∧
    ((∀ e ∈ [((0 : Int), 1), (100, 2), (200, 3)], e.1 < 20000 - ((8000 + 2000 : Nat) : Int)) ∧
      eraseOldFragments { fresh ⟨false, 8000, 2000, 2500⟩ with
        _fragments := [(1, ⟨0x20, 1, 0, 9, 0, []⟩), (2, ⟨0x20, 2, 0, 9, 0, []⟩),
          (3, ⟨0x20, 3, 0, 9, 0, []⟩)],
        _mapTime2Fragment := [(0, 1), (100, 2), (200, 3)] } 20000
      = { fresh ⟨false, 8000, 2000, 2500⟩ with
        _fragments := [(1, ⟨0x20, 1, 0, 9, 0, []⟩), (2, ⟨0x20, 2, 0, 9, 0, []⟩),
          (3, ⟨0x20, 3, 0, 9, 0, []⟩)],
        _mapTime2Fragment := [(0, 1), (100, 2), (200, 3)] }) := by
  decide

/-- C21 as amended: the time index ascending in time and in id, when
`eraseOldFragments` run at the time `now` performs a cut (the index holds an
entry older than `windowDuration + relayMargin` before `now` and one that is
not, whose fragment is in the store), no entry of the time index older than
that limit remains, and a fragment that was recorded in the time index before
the limit remains in the store only as its smallest id, the fragment kept
just before the first entry within the limit. When there is no cut the state
is unchanged. -/
theorem eraseOldFragments_window (s : GroupMedia) (now : Int)
    (hfragments : s._fragments.Pairwise (fun a b => a.1 < b.1))
    (hindex : s._mapTime2Fragment.Pairwise (fun a b => a.1 < b.1 ∧ a.2 < b.2)) :
    (erasePoint s now ≠ none →
      (∀ e ∈ (eraseOldFragments s now)._mapTime2Fragment,
        now - ((s.groupParameters.windowDuration + s.groupParameters.relayMargin : Nat) : Int)
          ≤ e.1) ∧
      (∀ e ∈ s._mapTime2Fragment,
        e.1 < now
          - ((s.groupParameters.windowDuration + s.groupParameters.relayMargin : Nat) : Int) →
        hasFragment (eraseOldFragments s now)._fragments e.2 = true →
        (eraseOldFragments s now)._fragments.head?.map Prod.fst = some e.2)) ∧
    (erasePoint s now = none → eraseOldFragments s now = s) := by
  refine ⟨?_, eraseOldFragments_none s now⟩
  intro hcut
  obtain ⟨⟨k, j⟩, hp⟩ := Option.ne_none_iff_exists'.mp hcut
  obtain ⟨hk, hk0, hklt, hj0, hj⟩ := erasePoint_some s now k j hp
  have hjlt : j < s._fragments.length := by omega
  obtain ⟨e1, e2, _, _, _⟩ := eraseOldFragments_cut s now k j hp
  have htimes : s._mapTime2Fragment.Pairwise (fun a b => a.1 < b.1) :=
    hindex.imp (fun h => h.1)
  have hdrop : ∀ e ∈ s._mapTime2Fragment.drop k,
      now - ((s.groupParameters.windowDuration + s.groupParameters.relayMargin : Nat) : Int)
        ≤ e.1 := by
    rw [hk]
    exact drop_lower_bound_ge _ _ htimes
  refine ⟨by rw [e2]; exact hdrop, ?_⟩
  intro e he hold hhas
  rw [e1] at hhas ⊢
  -- the entry is among the first `k`
  have hsplit : e ∈ s._mapTime2Fragment.take k ∨ e ∈ s._mapTime2Fragment.drop k := by
    rw [← List.mem_append, List.take_append_drop]
    exact he
  have htake : e ∈ s._mapTime2Fragment.take k := by
    rcases hsplit with h | h
    · exact h
    · exact absurd (hdrop e h) (not_le.mpr hold)
  -- the reference entry follows it
  have href : s._mapTime2Fragment.getD k (0, 0) ∈ s._mapTime2Fragment.drop k := by
    rw [List.getD_eq_getElem _ _ hklt, List.drop_eq_getElem_cons hklt]
    exact List.mem_cons_self _ _
  have hpair := hindex
  rw [← List.take_append_drop k s._mapTime2Fragment, List.pairwise_append] at hpair
  have hlt : e.2 < (s._mapTime2Fragment.getD k (0, 0)).2 := (hpair.2.2 e htake _ href).2
  have hrefid := getD_indexOf s._fragments (s._mapTime2Fragment.getD k (0, 0)).2
    (0, ⟨0, 0, 0, 0, 0, []⟩) hj0
  obtain ⟨x, hx, hxe⟩ := List.mem_map.mp ((hasFragment_iff _ _).mp hhas)
  obtain ⟨d1, d2⟩ := drop_getD_le s._fragments j (0, ⟨0, 0, 0, 0, 0, []⟩) hfragments hjlt
  rw [d1]
  simp only [Option.map_some', Option.some.injEq]
  rw [List.drop_eq_getElem_cons hjlt] at hx
  rcases List.mem_cons.mp hx with h | h
  · rw [List.getD_eq_getElem _ _ hjlt, ← h, hxe]
  · exfalso
    by_cases hz : (s._fragments.map Prod.fst).indexOf (s._mapTime2Fragment.getD k (0, 0)).2 = 0
    · have hj0' : j = 0 := by omega
      have h0 := d2 x (by rw [List.drop_eq_getElem_cons hjlt]; exact List.mem_cons_of_mem _ h)
      rw [hz] at hrefid
      rw [hj0'] at h0
      omega
    · have hj1 : j + 1
          = (s._fragments.map Prod.fst).indexOf (s._mapTime2Fragment.getD k (0, 0)).2 := by
        omega
      obtain ⟨_, d4⟩ := drop_getD_le s._fragments (j + 1) (0, ⟨0, 0, 0, 0, 0, []⟩) hfragments
        (by omega)
      have h0 := d4 x h
      rw [hj1, hrefid] at h0
      omega

/-- Witness for `eraseOldFragments_window`: the fragments 1, 2 and 3 recorded
at the times 0, 100 and 200, trimmed at the time 10150. -/
theorem eraseOldFragments_window_witness :
    erasePoint { fresh ⟨false, 8000, 2000, 2500⟩ with
        _fragments := [(1, ⟨0x20, 1, 0, 9, 0, []⟩), (2, ⟨0x20, 2, 0, 9, 0, []⟩),
          (3, ⟨0x20, 3, 0, 9, 0, []⟩)],
        _mapTime2Fragment := [(0, 1), (100, 2), (200, 3)] } 10150 ≠ none ∧
    ∀ e ∈ (eraseOldFragments { fresh ⟨false, 8000, 2000, 2500⟩ with
        _fragments := [(1, ⟨0x20, 1, 0, 9, 0, []⟩), (2, ⟨0x20, 2, 0, 9, 0, []⟩),
          (3, ⟨0x20, 3, 0, 9, 0, []⟩)],
        _mapTime2Fragment := [(0, 1), (100, 2), (200, 3)] } 10150)._mapTime2Fragment,
      (10150 : Int) - ((8000 + 2000 : Nat) : Int) ≤ e.1 :=
  ⟨by decide,
    ((eraseOldFragments_window { fresh ⟨false, 8000, 2000, 2500⟩ with
        _fragments := [(1, ⟨0x20, 1, 0, 9, 0, []⟩), (2, ⟨0x20, 2, 0, 9, 0, []⟩),
          (3, ⟨0x20, 3, 0, 9, 0, []⟩)],
        _mapTime2Fragment := [(0, 1), (100, 2), (200, 3)] } 10150 (by decide) (by decide)).1
      (by decide)).1⟩

end GroupMedia

/-! ## Time index -/

namespace GroupMedia

theorem assign_mem (l : List (Int × Nat)) (now : Int) (id : Nat) :
    ∀ e ∈ assign l now id, e ∈ l ∨ e = (now, id) := by
  induction l with
  | nil =>
    intro e he
    simp only [assign, List.mem_singleton] at he
    exact Or.inr he
  | cons x rest ih =>
    obtain ⟨t0, id0⟩ := x
    intro e he
    simp only [assign] at he
    split_ifs at he with h1 h2
    · rcases List.mem_cons.mp he with h | h
      · exact Or.inr h
      · exact Or.inl h
    · rcases List.mem_cons.mp he with h | h
      · exact Or.inr (by rw [h, h2])
      · exact Or.inl (List.mem_cons_of_mem _ h)
    · rcases List.mem_cons.mp he with h | h
      · exact Or.inl (h ▸ List.mem_cons_self _ _)
      · rcases ih e h with h | h
        · exact Or.inl (List.mem_cons_of_mem _ h)
        · exact Or.inr h

theorem aboveLatest_cons (x y : Int × Nat) (rest : List (Int × Nat)) (id : Nat) :
    aboveLatest (x :: y :: rest) id = aboveLatest (y :: rest) id := by
  simp only [aboveLatest, List.getLast?_cons_cons]

theorem aboveLatest_all (l : List (Int × Nat)) (id : Nat)
    (hinv : l.Pairwise (fun a b => a.1 < b.1 ∧ a.2 < b.2)) (h : aboveLatest l id = true) :
    ∀ e ∈ l, e.2 < id := by
  induction l with
  | nil => intro e he; simp at he
  | cons x rest ih =>
    have hx := List.pairwise_cons.mp hinv
    cases rest with
    | nil =>
      intro e he
      simp only [List.mem_singleton] at he
      subst he
      simpa [aboveLatest] using h
    | cons y rest2 =>
      rw [aboveLatest_cons] at h
      have hrest := ih hx.2 h
      intro e he
      rcases List.mem_cons.mp he with h1 | h1
      · rw [h1]
        have h2 := (hx.1 y (List.mem_cons_self _ _)).2
        have h3 := hrest y (List.mem_cons_self _ _)
        omega
      · exact hrest e h1

theorem assign_inv (l : List (Int × Nat)) (now : Int) (id : Nat) :
    l.Pairwise (fun a b => a.1 < b.1 ∧ a.2 < b.2) → (∀ e ∈ l, e.1 ≤ now) →
      aboveLatest l id = true →
      (assign l now id).Pairwise (fun a b => a.1 < b.1 ∧ a.2 < b.2) := by
  induction l with
  | nil => intro _ _ _; simp [assign]
  | cons x rest ih =>
    obtain ⟨t0, id0⟩ := x
    intro hinv htimes habove
    have hx := List.pairwise_cons.mp hinv
    have ht0 : t0 ≤ now := htimes (t0, id0) (List.mem_cons_self _ _)
    have hall := aboveLatest_all _ id hinv habove
    simp only [assign]
    split_ifs with h1 h2
    · omega
    · cases rest with
      | nil => simp
      | cons y rest2 =>
        exfalso
        have h3 := (hx.1 y (List.mem_cons_self _ _)).1
        have h4 := htimes y (List.mem_cons_of_mem _ (List.mem_cons_self _ _))
        simp only at h3
        omega
    · have hrest : aboveLatest rest id = true := by
        cases rest with
        | nil => rfl
        | cons y rest2 => rw [← aboveLatest_cons (t0, id0)]; exact habove
      refine List.pairwise_cons.mpr ⟨?_, ih hx.2
        (fun e he => htimes e (List.mem_cons_of_mem _ he)) hrest⟩
      intro b hb
      rcases assign_mem rest now id b hb with h | h
      · exact hx.1 b h
      · rw [h]
        have := hall (t0, id0) (List.mem_cons_self _ _)
        simp only at this ⊢
        exact ⟨by omega, this⟩

theorem storeFragment_index (s : GroupMedia) (now : Int) (f : GroupFragment) :
    (storeFragment s now f)._mapTime2Fragment = s._mapTime2Fragment ∨
    ((f.marker = GroupStream.GROUP_MEDIA_DATA ∨ f.marker = GroupStream.GROUP_MEDIA_START) ∧
      aboveLatest s._mapTime2Fragment f.id = true ∧
      (storeFragment s now f)._mapTime2Fragment = assign s._mapTime2Fragment now f.id) := by
  simp only [storeFragment]
  split_ifs with h
  · exact Or.inr ⟨h.1, h.2, rfl⟩
  · exact Or.inl rfl

theorem storeFragment_inv (s : GroupMedia) (now : Int) (f : GroupFragment)
    (hinv : s._mapTime2Fragment.Pairwise (fun a b => a.1 < b.1 ∧ a.2 < b.2))
    (htimes : ∀ e ∈ s._mapTime2Fragment, e.1 ≤ now) :
    (storeFragment s now f)._mapTime2Fragment.Pairwise (fun a b => a.1 < b.1 ∧ a.2 < b.2) ∧
    ∀ e ∈ (storeFragment s now f)._mapTime2Fragment, e.1 ≤ now := by
  rcases storeFragment_index s now f with h | ⟨_, h2, h3⟩
  · rw [h]
    exact ⟨hinv, htimes⟩
  · rw [h3]
    refine ⟨assign_inv _ _ _ hinv htimes h2, ?_⟩
    intro e he
    rcases assign_mem _ _ _ e he with h | h
    · exact htimes e h
    · rw [h]

theorem foldl_storeFragment_inv (fragments : List GroupFragment) (now : Int) :
    ∀ (s : GroupMedia),
      s._mapTime2Fragment.Pairwise (fun a b => a.1 < b.1 ∧ a.2 < b.2) →
      (∀ e ∈ s._mapTime2Fragment, e.1 ≤ now) →
      (fragments.foldl (fun s f => storeFragment s now f) s)._mapTime2Fragment.Pairwise
          (fun a b => a.1 < b.1 ∧ a.2 < b.2) ∧
        ∀ e ∈ (fragments.foldl (fun s f => storeFragment s now f) s)._mapTime2Fragment,
          e.1 ≤ now := by
  induction fragments with
  | nil => intro s h1 h2; exact ⟨h1, h2⟩
  | cons f rest ih =>
    intro s h1 h2
    obtain ⟨a, b⟩ := storeFragment_inv s now f h1 h2
    exact ih _ a b

theorem onMediaStore_index (M : Nat) (s : GroupMedia) (now : Int) (type time : Nat)
    (packet : Bytes)
    (hinv : s._mapTime2Fragment.Pairwise (fun a b => a.1 < b.1 ∧ a.2 < b.2))
    (htimes : ∀ e ∈ s._mapTime2Fragment, e.1 ≤ now) :
    (onMediaStore M s now type time packet)._mapTime2Fragment.Pairwise
        (fun a b => a.1 < b.1 ∧ a.2 < b.2) ∧
      ∀ e ∈ (onMediaStore M s now type time packet)._mapTime2Fragment, e.1 ≤ now := by
  unfold onMediaStore
  cases onMedia M s._fragmentCounter type time packet with
  | none => exact ⟨hinv, htimes⟩
  | some r => exact foldl_storeFragment_inv r.1 now s hinv htimes

theorem electPusher_index (s : GroupMedia)
    (mask pusher last peerId pushInMode fragmentId : Nat) :
    (electPusher s mask pusher last peerId pushInMode fragmentId)._mapTime2Fragment
      = s._mapTime2Fragment ∧
    (electPusher s mask pusher last peerId pushInMode fragmentId)._fragments = s._fragments := by
  unfold electPusher
  split_ifs <;> exact ⟨rfl, rfl⟩

theorem pushIn_index (s : GroupMedia) (peerId pushInMode fragmentId : Nat) :
    (pushIn s peerId pushInMode fragmentId)._mapTime2Fragment = s._mapTime2Fragment ∧
    (pushIn s peerId pushInMode fragmentId)._fragments = s._fragments := by
  simp only [pushIn]
  by_cases h : pushInMode &&& pushMask fragmentId ≠ 0
  · rw [if_pos h]
    cases hl : s._mapPushMasks.lookup (pushMask fragmentId) with
    | none => exact ⟨rfl, rfl⟩
    | some x =>
      obtain ⟨pusher, last⟩ := x
      simp only []
      have he := electPusher_index s (pushMask fragmentId) pusher last peerId pushInMode
        fragmentId
      by_cases hlt : last < fragmentId
      · rw [if_pos hlt]
        exact he
      · rw [if_neg hlt]
        exact he
  · rw [if_neg h]
    exact ⟨rfl, rfl⟩

theorem onFragment_index (s : GroupMedia) (now : Int) (peerId pushInMode : Nat)
    (f : GroupFragment) :
    (_onFragment s now peerId pushInMode f)._mapTime2Fragment = s._mapTime2Fragment ∨
    ∃ t, (_onFragment s now peerId pushInMode f)._mapTime2Fragment
        = (storeFragment t now f)._mapTime2Fragment ∧
      t._mapTime2Fragment = s._mapTime2Fragment := by
  cases hw : s._mapWaitingFragments.any (fun e => e.1 == f.id) with
  | false =>
    have hp := (pushIn_index { s with _lastFragment := now } peerId pushInMode f.id).1
    simp only [_onFragment, hw, Bool.false_and, Bool.false_eq_true, if_false]
    split_ifs
    · exact Or.inl hp
    · exact Or.inr ⟨_, rfl, hp⟩
  | true =>
    simp only [_onFragment, hw, Bool.true_and, if_true]
    split_ifs
    all_goals first
      | exact Or.inl rfl
      | exact Or.inr ⟨_, rfl, rfl⟩

end GroupMedia

namespace GroupMedia

theorem eraseOldFragments_index (s : GroupMedia) (now : Int) :
    ∃ k, (eraseOldFragments s now)._mapTime2Fragment = s._mapTime2Fragment.drop k := by
  cases hp : erasePoint s now with
  | none => exact ⟨0, by rw [eraseOldFragments_none s now hp]; rfl⟩
  | some x =>
    obtain ⟨k, j⟩ := x
    exact ⟨k, (eraseOldFragments_cut s now k j hp).2.1⟩

theorem step_index (M : Nat) (s : GroupMedia) (ev : Event)
    (hinv : s._mapTime2Fragment.Pairwise (fun a b => a.1 < b.1 ∧ a.2 < b.2))
    (htimes : ∀ e ∈ s._mapTime2Fragment, e.1 ≤ ev.now) :
    (step M s ev)._mapTime2Fragment.Pairwise (fun a b => a.1 < b.1 ∧ a.2 < b.2) ∧
    ∀ e ∈ (step M s ev)._mapTime2Fragment, e.1 ≤ ev.now := by
  cases ev with
  | media now type time packet => exact onMediaStore_index M s now type time packet hinv htimes
  | fragment now peerId pushInMode f =>
    simp only [step]
    rcases onFragment_index s now peerId pushInMode f with h | ⟨t, h1, h2⟩
    · rw [h]
      exact ⟨hinv, htimes⟩
    · rw [h1]
      exact storeFragment_inv t now f (by rw [h2]; exact hinv) (by rw [h2]; exact htimes)
  | erase now =>
    simp only [step]
    obtain ⟨k, hk⟩ := eraseOldFragments_index s now
    rw [hk]
    exact ⟨List.Pairwise.sublist (List.drop_sublist _ _) hinv,
      fun e he => htimes e (List.mem_of_mem_drop he)⟩

theorem run_index (M : Nat) (events : List Event) :
    ∀ (s : GroupMedia), s._mapTime2Fragment.Pairwise (fun a b => a.1 < b.1 ∧ a.2 < b.2) →
      (∀ e ∈ s._mapTime2Fragment, ∀ ev ∈ events, e.1 ≤ ev.now) →
      (events.map Event.now).Pairwise (fun a b => a ≤ b) →
      (run M s events)._mapTime2Fragment.Pairwise (fun a b => a.1 < b.1 ∧ a.2 < b.2) := by
  induction events with
  | nil => intro s h _ _; exact h
  | cons ev rest ih =>
    intro s hinv htimes hclock
    simp only [List.map_cons, List.pairwise_cons] at hclock
    obtain ⟨a, b⟩ := step_index M s ev hinv
      (fun e he => htimes e he ev (List.mem_cons_self _ _))
    simp only [run, List.foldl_cons]
    refine ih _ a ?_ hclock.2
    intro e he ev2 hev2
    exact le_trans (b e he) (hclock.1 ev2.now (List.mem_map_of_mem _ hev2))

theorem monotone_of_pairwise (l : List (Int × Nat))
    (h : l.Pairwise (fun a b => a.1 < b.1 ∧ a.2 < b.2)) :
    ∀ a ∈ l, ∀ b ∈ l, a.1 < b.1 → a.2 < b.2 := by
  induction l with
  | nil => intro a ha; simp at ha
  | cons x rest ih =>
    have hx := List.pairwise_cons.mp h
    intro a ha b hb hlt
    rcases List.mem_cons.mp ha with h1 | h1 <;> rcases List.mem_cons.mp hb with h2 | h2
    · rw [h1, h2] at hlt
      exact absurd hlt (lt_irrefl _)
    · rw [h1]
      exact (hx.1 b h2).2
    · rw [h2] at hlt
      exact absurd (lt_trans hlt (hx.1 a h1).1) (lt_irrefl _)
    · exact ih hx.2 a h1 b h2 hlt

/-- C23: the clock never going backwards along the events (payloads published,
fragments received, trimmings) that a `GroupMedia` goes through from its
construction, the time index is monotone in every state reached: of two
entries the one with the smaller time has the smaller id. `addFragment`
changes the index only for a data or start fragment whose id is above the id
of the latest entry, by the entry `now -> id`; `eraseOldFragments` removes only
a prefix of the index. -/
theorem timeIndex_monotone (M : Nat) (parameters : RTMFPGroupConfig) (events : List Event)
    (hclock : (events.map Event.now).Pairwise (fun a b => a ≤ b)) :
    (∀ a ∈ (run M (fresh parameters) events)._mapTime2Fragment,
      ∀ b ∈ (run M (fresh parameters) events)._mapTime2Fragment, a.1 < b.1 → a.2 < b.2) ∧
    (∀ (s : GroupMedia) (now : Int) (f : GroupFragment),
      (storeFragment s now f)._mapTime2Fragment ≠ s._mapTime2Fragment →
        (f.marker = GroupStream.GROUP_MEDIA_DATA ∨ f.marker = GroupStream.GROUP_MEDIA_START) ∧
        (∀ e, s._mapTime2Fragment.getLast? = some e → e.2 < f.id) ∧
        (storeFragment s now f)._mapTime2Fragment = assign s._mapTime2Fragment now f.id) ∧
    (∀ (s : GroupMedia) (now : Int),
      ∃ k, (eraseOldFragments s now)._mapTime2Fragment = s._mapTime2Fragment.drop k) := by
  refine ⟨?_, ?_, eraseOldFragments_index⟩
  · exact monotone_of_pairwise _ (run_index M events (fresh parameters) List.Pairwise.nil
      (fun e he => absurd he (List.not_mem_nil _)) hclock)
  · intro s now f hne
    rcases storeFragment_index s now f with h | ⟨h1, h2, h3⟩
    · exact absurd h hne
    · refine ⟨h1, ?_, h3⟩
      intro e he
      simp only [aboveLatest, he, decide_eq_true_eq] at h2
      exact h2

/-- Witness for `timeIndex_monotone`: two payloads published at the times 0
and 50, a fragment received at 60 and a trimming at 10040 leave the entries
`50 -> 4` and `60 -> 9`. -/
theorem timeIndex_monotone_witness :
    (([Event.media 0 9 0 [1, 2, 3, 4, 5, 6, 7], Event.media 50 9 0 [1, 2],
        Event.fragment 60 1 255 ⟨0x20, 9, 0, 9, 0, [1]⟩,
        Event.erase 10040] : List Event).map Event.now).Pairwise (fun a b => a ≤ b) ∧
    ∀ a ∈ (run 3 (fresh ⟨true, 8000, 2000, 2500⟩)
        [Event.media 0 9 0 [1, 2, 3, 4, 5, 6, 7], Event.media 50 9 0 [1, 2],
          Event.fragment 60 1 255 ⟨0x20, 9, 0, 9, 0, [1]⟩,
          Event.erase 10040])._mapTime2Fragment,
      ∀ b ∈ (run 3 (fresh ⟨true, 8000, 2000, 2500⟩)
        [Event.media 0 9 0 [1, 2, 3, 4, 5, 6, 7], Event.media 50 9 0 [1, 2],
          Event.fragment 60 1 255 ⟨0x20, 9, 0, 9, 0, [1]⟩,
          Event.erase 10040])._mapTime2Fragment, a.1 < b.1 → a.2 < b.2 :=
  ⟨by decide,
    (timeIndex_monotone 3 ⟨true, 8000, 2000, 2500⟩
      [Event.media 0 9 0 [1, 2, 3, 4, 5, 6, 7], Event.media 50 9 0 [1, 2],
        Event.fragment 60 1 255 ⟨0x20, 9, 0, 9, 0, [1]⟩, Event.erase 10040] (by decide)).1⟩

end GroupMedia

/-! ## Ids of the store -/

namespace GroupMedia

theorem emplace_hint_append (l : List (Nat × GroupFragment)) (f : GroupFragment)
    (h : ∀ e ∈ l, e.1 < f.id) : emplace_hint l f = l ++ [(f.id, f)] := by
  induction l with
  | nil => rfl
  | cons x rest ih =>
    obtain ⟨k0, f0⟩ := x
    have hk := h (k0, f0) (List.mem_cons_self _ _)
    simp only at hk
    simp only [emplace_hint]
    rw [if_neg (by omega), if_neg (by omega), ih (fun e he => h e (List.mem_cons_of_mem _ he))]
    rfl

theorem storeFragment_fragments (s : GroupMedia) (now : Int) (f : GroupFragment) :
    (storeFragment s now f)._fragments = emplace_hint s._fragments f := by
  simp only [storeFragment]
  split_ifs <;> rfl

theorem foldl_storeFragment_fragments (fragments : List GroupFragment) (now : Int) :
    ∀ (a : Nat) (s : GroupMedia),
      fragments.map GroupFragment.id = List.range' a fragments.length →
      (∀ e ∈ s._fragments, e.1 < a) →
      (fragments.foldl (fun s f => storeFragment s now f) s)._fragments.map Prod.fst
        = s._fragments.map Prod.fst ++ List.range' a fragments.length := by
  induction fragments with
  | nil => intro a s _ _; simp
  | cons f rest ih =>
    intro a s hids hlt
    simp only [List.map_cons, List.length_cons, List.range'_succ, List.cons.injEq] at hids
    obtain ⟨hf, hrest⟩ := hids
    have hstore : (storeFragment s now f)._fragments = s._fragments ++ [(a, f)] := by
      rw [storeFragment_fragments, emplace_hint_append _ _ (by rw [hf]; exact hlt), hf]
    simp only [List.foldl_cons, List.length_cons, List.range'_succ]
    rw [ih (a + 1) (storeFragment s now f) hrest (by
      intro e he
      rw [hstore] at he
      rcases List.mem_append.mp he with h | h
      · exact Nat.lt_succ_of_lt (hlt e h)
      · simp only [List.mem_singleton] at h
        rw [h]
        exact Nat.lt_succ_self a), hstore]
    simp

theorem onMedia_fragments (M c type time : Nat) (packet : Bytes) (hM : 0 < M)
    (hne : packet ≠ []) :
    ∃ fragments, onMedia M c type time packet
        = some (fragments, (c + fragments.length) % 18446744073709551616) ∧
      fragments.length ≤ 256 ∧
      fragments.map GroupFragment.id
        = (List.range fragments.length).map (fun i => (c + 1 + i) % 18446744073709551616) := by
  have hn : 0 < packet.length := List.length_pos.mpr hne
  obtain ⟨f1, _, _⟩ := splitCounter_facts M packet.length hM hn
  have hav : ((packet.length / M - (if packet.length % M = 0 then 1 else 0)) % 256) * M
      < (⟨packet, 0⟩ : BinaryReader).available := by
    simp only [BinaryReader.available, Nat.sub_zero]
    exact Nat.lt_of_le_of_lt (Nat.mul_le_mul_right _ (Nat.mod_le _ _)) f1
  obtain ⟨fragments, e1, e2, _, _, e5, _⟩ := onMediaLoop_spec M type time hM _
    GroupStream.GROUP_MEDIA_DATA ⟨packet, 0⟩ c hav
  have hlen : fragments.length
      = (packet.length / M - (if packet.length % M = 0 then 1 else 0)) % 256 + 1 := by
    have := congrArg List.length e5
    simpa using this
  refine ⟨fragments, ?_, ?_, ?_⟩
  · rw [onMedia_eq _ _ _ _ _ hne, e1, hlen]
  · rw [hlen]
    omega
  · rw [e2, hlen]

theorem range'_drop (a n j : Nat) (hj : j ≤ n) :
    (List.range' a n).drop j = List.range' (a + j) (n - j) := by
  have h : List.range' a n = List.range' a j ++ List.range' (a + j) (n - j) := by
    rw [List.range'_append_1]
    congr 1
    omega
  rw [h, List.drop_left' (by simp)]

theorem onMediaStore_contiguous (M : Nat) (s : GroupMedia) (now : Int) (type time : Nat)
    (packet : Bytes) (hM : 0 < M)
    (hcount : s._fragmentCounter + 256 < 18446744073709551616)
    (hinv : ∃ n, n ≤ s._fragmentCounter ∧
      s._fragments.map Prod.fst = List.range' (s._fragmentCounter + 1 - n) n) :
    (∃ n, n ≤ (onMediaStore M s now type time packet)._fragmentCounter ∧
      (onMediaStore M s now type time packet)._fragments.map Prod.fst
        = List.range' ((onMediaStore M s now type time packet)._fragmentCounter + 1 - n) n) ∧
    (onMediaStore M s now type time packet)._fragmentCounter ≤ s._fragmentCounter + 256 := by
  by_cases hne : packet = []
  · subst hne
    have h0 : onMedia M s._fragmentCounter type time [] = some ([], s._fragmentCounter) := rfl
    simp only [onMediaStore, h0, List.foldl_nil]
    exact ⟨hinv, by omega⟩
  · obtain ⟨fragments, e1, e2, e3⟩ := onMedia_fragments M s._fragmentCounter type time packet
      hM hne
    obtain ⟨n, hn, hids⟩ := hinv
    have hmod : (s._fragmentCounter + fragments.length) % 18446744073709551616
        = s._fragmentCounter + fragments.length := Nat.mod_eq_of_lt (by omega)
    have hrange : fragments.map GroupFragment.id
        = List.range' (s._fragmentCounter + 1) fragments.length := by
      rw [e3, List.range'_eq_map_range]
      apply List.map_congr_left
      intro i hi
      have := List.mem_range.mp hi
      exact Nat.mod_eq_of_lt (by omega)
    have hlt : ∀ e ∈ s._fragments, e.1 < s._fragmentCounter + 1 := by
      intro e he
      have hm : e.1 ∈ s._fragments.map Prod.fst := List.mem_map_of_mem _ he
      rw [hids] at hm
      have := List.mem_range'_1.mp hm
      omega
    have hfold := foldl_storeFragment_fragments fragments now (s._fragmentCounter + 1) s
      hrange hlt
    simp only [onMediaStore, e1, hmod]
    refine ⟨⟨n + fragments.length, by omega, ?_⟩, by omega⟩
    rw [hfold, hids]
    have h1 : s._fragmentCounter + fragments.length + 1 - (n + fragments.length)
        = s._fragmentCounter + 1 - n := by omega
    have h2 : s._fragmentCounter + 1 - n + n = s._fragmentCounter + 1 := by omega
    rw [h1, Nat.add_comm n fragments.length, ← List.range'_append_1, h2]

theorem eraseOldFragments_contiguous (s : GroupMedia) (now : Int)
    (hinv : ∃ n, n ≤ s._fragmentCounter ∧
      s._fragments.map Prod.fst = List.range' (s._fragmentCounter + 1 - n) n) :
    (∃ n, n ≤ (eraseOldFragments s now)._fragmentCounter ∧
      (eraseOldFragments s now)._fragments.map Prod.fst
        = List.range' ((eraseOldFragments s now)._fragmentCounter + 1 - n) n) ∧
    (eraseOldFragments s now)._fragmentCounter = s._fragmentCounter := by
  cases hp : erasePoint s now with
  | none =>
    rw [eraseOldFragments_none s now hp]
    exact ⟨hinv, rfl⟩
  | some x =>
    obtain ⟨k, j⟩ := x
    obtain ⟨_, _, _, hj0, hj⟩ := erasePoint_some s now k j hp
    obtain ⟨e1, _⟩ := eraseOldFragments_cut s now k j hp
    have hc : (eraseOldFragments s now)._fragmentCounter = s._fragmentCounter := by
      unfold eraseOldFragments
      rw [hp]
    obtain ⟨n, hn, hids⟩ := hinv
    have hlen : s._fragments.length = n := by
      have := congrArg List.length hids
      simpa using this
    refine ⟨⟨n - j, by omega, ?_⟩, hc⟩
    rw [hc, e1, List.map_drop, hids, range'_drop _ _ _ (by omega)]
    congr 1
    omega

theorem run_contiguous (M : Nat) (hM : 0 < M) (events : List Event) :
    ∀ (s : GroupMedia), (∀ ev ∈ events, ev.received = false) →
      s._fragmentCounter + events.length * 256 < 18446744073709551616 →
      (∃ n, n ≤ s._fragmentCounter ∧
        s._fragments.map Prod.fst = List.range' (s._fragmentCounter + 1 - n) n) →
      ∃ n, n ≤ (run M s events)._fragmentCounter ∧
        (run M s events)._fragments.map Prod.fst
          = List.range' ((run M s events)._fragmentCounter + 1 - n) n := by
  induction events with
  | nil => intro s _ _ h; exact h
  | cons ev rest ih =>
    intro s hev hcount hinv
    simp only [List.length_cons] at hcount
    simp only [run, List.foldl_cons]
    have hrest : ∀ ev2 ∈ rest, ev2.received = false :=
      fun ev2 h => hev ev2 (List.mem_cons_of_mem _ h)
    cases ev with
    | media now type time packet =>
      obtain ⟨a, b⟩ := onMediaStore_contiguous M s now type time packet hM (by omega) hinv
      exact ih _ hrest (by simp only [step]; omega) a
    | fragment now peerId pushInMode f =>
      have := hev _ (List.mem_cons_self _ _)
      simp [Event.received] at this
    | erase now =>
      obtain ⟨a, b⟩ := eraseOldFragments_contiguous s now hinv
      exact ih _ hrest (by simp only [step]; omega) a

/-- C22, the claim as stated fails: a `GroupMedia` that receives the fragments
5 and 7 from a peer holds both and not the fragment 6. -/
theorem store_has_gap :
    hasFragment (run 3 (fresh ⟨false, 8000, 2000, 2500⟩)
      [Event.fragment 0 1 255 ⟨0x20, 5, 0, 9, 0, [1]⟩,
        Event.fragment 100 1 255 ⟨0x20, 7, 0, 9, 0, [1]⟩])._fragments 5 = true ∧
    hasFragment (run 3 (fresh ⟨false, 8000, 2000, 2500⟩)
      [Event.fragment 0 1 255 ⟨0x20, 5, 0, 9, 0, [1]⟩,
        Event.fragment 100 1 255 ⟨0x20, 7, 0, 9, 0, [1]⟩])._fragments 7 = true ∧
    hasFragment (run 3 (fresh ⟨false, 8000, 2000, 2500⟩)
      [Event.fragment 0 1 255 ⟨0x20, 5, 0, 9, 0, [1]⟩,
        Event.fragment 100 1 255 ⟨0x20, 7, 0, 9, 0, [1]⟩])._fragments 6 = false := by
  decide

/-- C22 as amended: in every state that a `GroupMedia` reaches from its
construction through `onMedia` and trimming (`eraseOldFragments`) alone, fewer
than `2^56` times so that the 64-bit fragment counter does not wrap, the ids
in the store form a contiguous range without gap that ends at the fragment
counter: they are the `n` ids `counter - n + 1, ..., counter` for some `n`.
`M` is `NETGROUP_MAX_PACKET_SIZE`, positive. -/
theorem store_contiguous (M : Nat) (parameters : RTMFPGroupConfig) (events : List Event)
    (hM : 0 < M) (hevents : ∀ ev ∈ events, ev.received = false)
    (hcount : events.length * 256 < 18446744073709551616) :
    ∃ n, n ≤ (run M (fresh parameters) events)._fragmentCounter ∧
      (run M (fresh parameters) events)._fragments.map Prod.fst
        = List.range' ((run M (fresh parameters) events)._fragmentCounter + 1 - n) n :=
  run_contiguous M hM events (fresh parameters) hevents
    (by simp only [fresh]; omega) ⟨0, Nat.zero_le _, rfl⟩

/-- Witness for `store_contiguous`: two payloads published at the times 0 and
50 and a trimming at 10040 leave the fragments 3 and 4. -/
theorem store_contiguous_witness :
    ∃ n, n ≤ (run 3 (fresh ⟨true, 8000, 2000, 2500⟩)
        [Event.media 0 9 0 [1, 2, 3, 4, 5, 6, 7], Event.media 50 9 0 [1, 2],
          Event.erase 10040])._fragmentCounter ∧
      (run 3 (fresh ⟨true, 8000, 2000, 2500⟩)
        [Event.media 0 9 0 [1, 2, 3, 4, 5, 6, 7], Event.media 50 9 0 [1, 2],
          Event.erase 10040])._fragments.map Prod.fst
        = List.range' ((run 3 (fresh ⟨true, 8000, 2000, 2500⟩)
          [Event.media 0 9 0 [1, 2, 3, 4, 5, 6, 7], Event.media 50 9 0 [1, 2],
            Event.erase 10040])._fragmentCounter + 1 - n) n :=
  store_contiguous 3 ⟨true, 8000, 2000, 2500⟩
    [Event.media 0 9 0 [1, 2, 3, 4, 5, 6, 7], Event.media 50 9 0 [1, 2], Event.erase 10040]
    (by decide) (by decide) (by decide)

end GroupMedia

/-! ## Calendar fields of a date -/

namespace Base

namespace Date

theorem clampDay_valid (IsLeapYear : Int → Bool) (d : Date) (day : Nat)
    (hm1 : 1 ≤ d._month) (hm2 : d._month ≤ 12) :
    1 ≤ clampDay IsLeapYear d day ∧
      clampDay IsLeapYear d day ≤ daysInMonth IsLeapYear d._year d._month := by
  cases hleap : IsLeapYear d._year <;>
    simp only [clampDay, daysInMonth, hleap, Nat.and_one_is_mod, and_true, and_false,
      if_false, Bool.false_eq_true, Bool.true_eq_false] <;>
    split_ifs <;> omega

theorem setMonth_month (init : Date → Date) (d : Date) (month : Nat) :
    1 ≤ (setMonth init d month)._month ∧ (setMonth init d month)._month ≤ 12 := by
  simp only [setMonth]
  split_ifs <;> simp_all <;> omega

theorem setYear_day (init : Date → Date) (d : Date) (year : Int) (hinit : d._day ≠ 0) :
    (setYear init d year)._day = d._day := by
  simp only [setYear, if_neg hinit]
  split_ifs <;> rfl

theorem setMonth_day (init : Date → Date) (d : Date) (month : Nat) (hinit : d._day ≠ 0) :
    (setMonth init d month)._day = d._day := by
  simp only [setMonth, if_neg hinit]
  split_ifs <;> rfl

theorem setDay_valid (IsLeapYear : Int → Bool) (init : Date → Date) (d : Date) (day : Nat)
    (hinit : d._day ≠ 0) (hm1 : 1 ≤ d._month) (hm2 : d._month ≤ 12) (hday : day ≠ d._day) :
    valid IsLeapYear (setDay IsLeapYear init d day) := by
  obtain ⟨c1, c2⟩ := clampDay_valid IsLeapYear d day hm1 hm2
  simp only [setDay, if_neg hinit, if_neg hday]
  split_ifs with h
  · exact ⟨hm1, hm2, by rw [← h]; exact c1, by rw [← h]; exact c2⟩
  · exact ⟨hm1, hm2, c1, c2⟩

/-- When the day asked differs from the day stored, `update` on an
initialised date leaves a month in `1..12` and a day of that month. -/
theorem update_valid_of_new_day (IsLeapYear : Int → Bool) (init : Date → Date) (d : Date)
    (year : Int) (month day : Nat) (hinit : d._day ≠ 0) (hday : day % 256 ≠ d._day) :
    valid IsLeapYear (update IsLeapYear init d year month day) := by
  have h1 := setYear_day init d year hinit
  have h2 := setMonth_day init (setYear init d year) (month % 256) (by rw [h1]; exact hinit)
  obtain ⟨m1, m2⟩ := setMonth_month init (setYear init d year) (month % 256)
  exact setDay_valid IsLeapYear init _ _ (by rw [h2, h1]; exact hinit) m1 m2
    (by rw [h2, h1]; exact hday)

/-- C38, evaluation of the code, with the Gregorian rule for `IsLeapYear`. The
initialised date 2000-01-31 is a valid date; `update(2000, 2, 31)` moves the
month to February and `setDay(31)` returns at its first test, the day asked
being the day stored: the date holds the day 31 in February. In the same way
`update(2001, 2, 29)` on 2000-02-29 leaves the 29th of February of 2001, which
is not a leap year. -/
theorem update_keeps_day_of_longer_month :
    valid (fun y => decide (y % 4 = 0 ∧ (y % 100 ≠ 0 ∨ y % 400 = 0))) ⟨2000, 1, 31, 1, false⟩ ∧
    update (fun y => decide (y % 4 = 0 ∧ (y % 100 ≠ 0 ∨ y % 400 = 0))) id
        ⟨2000, 1, 31, 1, false⟩ 2000 2 31 = ⟨2000, 2, 31, 1, true⟩ ∧
    ¬ valid (fun y => decide (y % 4 = 0 ∧ (y % 100 ≠ 0 ∨ y % 400 = 0)))
        (update (fun y => decide (y % 4 = 0 ∧ (y % 100 ≠ 0 ∨ y % 400 = 0))) id
          ⟨2000, 1, 31, 1, false⟩ 2000 2 31) ∧
    valid (fun y => decide (y % 4 = 0 ∧ (y % 100 ≠ 0 ∨ y % 400 = 0))) ⟨2000, 2, 29, 2, false⟩ ∧
    update (fun y => decide (y % 4 = 0 ∧ (y % 100 ≠ 0 ∨ y % 400 = 0))) id
        ⟨2000, 2, 29, 2, false⟩ 2001 2 29 = ⟨2001, 2, 29, 2, true⟩ ∧
    ¬ valid (fun y => decide (y % 4 = 0 ∧ (y % 100 ≠ 0 ∨ y % 400 = 0)))
        (update (fun y => decide (y % 4 = 0 ∧ (y % 100 ≠ 0 ∨ y % 400 = 0))) id
          ⟨2000, 2, 29, 2, false⟩ 2001 2 29) := by
  decide

theorem tmod_seven (x : Int) :
    (0 ≤ x → x.tmod 7 = x % 7) ∧ (x < 0 → x.tmod 7 = -((-x) % 7)) := by
  constructor
  · intro h
    exact Int.tmod_eq_emod h (by decide)
  · intro h
    have h1 : x.tdiv 7 = -((-x) / 7) := by
      have h2 : x = -(-x) := by omega
      rw [h2, Int.neg_tdiv, Int.tdiv_eq_ediv (by omega) (by decide)]
      simp
    rw [Int.tmod_def, h1]
    omega

/-- C39: for every count of days `d` from `-2^63` to `2^63 - 5`, so that
`d + 4` is an `Int64`, `computeWeekDay(d)` stores `(d + 4) mod 7` with the
non-negative modulus, a value from 0 to 6; the day 0, 1970-01-01, gets 4,
Thursday, and the day before it gets 3. -/
theorem computeWeekDay_spec (date : Date) (d : Int)
    (hlow : -9223372036854775808 ≤ d) (hhigh : d ≤ 9223372036854775807 - 4) :
    ((computeWeekDay date d)._weekDay : Int) = (d + 4) % 7 ∧
    (computeWeekDay date d)._weekDay ≤ 6 ∧
    (computeWeekDay date 0)._weekDay = 4 ∧
    (computeWeekDay date (-1))._weekDay = 3 ∧
    (computeWeekDay date d)._year = date._year ∧
    (computeWeekDay date d)._month = date._month ∧
    (computeWeekDay date d)._day = date._day := by
  have h0 : (computeWeekDay date 0)._weekDay = 4 := rfl
  have h1 : (computeWeekDay date (-1))._weekDay = 3 := rfl
  have hd : toInt64 (d + 4) = d + 4 := by
    simp only [toInt64]; omega
  have key : ((computeWeekDay date d)._weekDay : Int) = (d + 4) % 7 := by
    simp only [computeWeekDay, hd]
    by_cases hneg : d + 4 < 0
    · have e1 : toInt64 (d + 4 + 1) = d + 5 := by simp only [toInt64]; omega
      have e2 := (tmod_seven (d + 5)).1
      have e3 := (tmod_seven (d + 5)).2
      simp only [if_pos hneg, e1]
      by_cases h5 : d + 5 < 0
      · rw [e3 h5]
        have e4 : toInt64 (-(-(d + 5) % 7) + 6) = -(-(d + 5) % 7) + 6 := by
          simp only [toInt64]; omega
        rw [e4]
        omega
      · rw [e2 (by omega)]
        have e4 : toInt64 ((d + 5) % 7 + 6) = (d + 5) % 7 + 6 := by
          simp only [toInt64]; omega
        rw [e4]
        omega
    · simp only [if_neg hneg]
      rw [(tmod_seven (d + 4)).1 (by omega)]
      omega
  refine ⟨key, ?_, h0, h1, rfl, rfl, rfl⟩
  omega

/-- Witness for `computeWeekDay_spec`: the day -10, 1969-12-22, a Monday. -/
theorem computeWeekDay_spec_witness :
    (((computeWeekDay ⟨1970, 1, 1, 7, false⟩ (-10))._weekDay : Int) = (-10 + 4) % 7) ∧
    (computeWeekDay ⟨1970, 1, 1, 7, false⟩ (-10))._weekDay = 1 :=
  ⟨(computeWeekDay_spec ⟨1970, 1, 1, 7, false⟩ (-10) (by decide) (by decide)).1, by decide⟩

end Date

end Base

/-! ## Random search of an element -/

namespace RTMFP

theorem mod_of_lt_two_mul (a n : Nat) (h : a < 2 * n) :
    a % n = if a < n then a else a - n := by
  split_ifs with h1
  · exact Nat.mod_eq_of_lt h1
  · rw [Nat.mod_eq_sub_mod (by omega), Nat.mod_eq_of_lt (by omega)]

theorem getRandomItLoop_spec (size : Nat) (isAllowed : Nat → Bool) (itRandom : Nat)
    (hr : itRandom < size) :
    ∀ (fuel k : Nat) (tested : List Nat), fuel + k = size → 0 < fuel →
      tested = (List.range k).map (fun i => (itRandom + i) % size) →
      (∀ i < k, isAllowed ((itRandom + i) % size) = false) →
      ∃ r, getRandomItLoop size isAllowed itRandom fuel ((itRandom + k) % size) tested = some r ∧
        (∃ n, n ≤ size ∧ r.tested = (List.range n).map (fun i => (itRandom + i) % size)) ∧
        (r.result = true → r.itResult < size ∧ isAllowed r.itResult = true) ∧
        (r.result = false → ∀ i < size, isAllowed ((itRandom + i) % size) = false) := by
  intro fuel
  induction fuel with
  | zero => intro k tested _ h; omega
  | succ fuel ih =>
    intro k tested hk _ htested hnot
    have hlt : (itRandom + k) % size < size := Nat.mod_lt _ (by omega)
    have hsnoc : tested ++ [(itRandom + k) % size]
        = (List.range (k + 1)).map (fun i => (itRandom + i) % size) := by
      rw [List.range_succ, List.map_append, htested]
      rfl
    rw [getRandomItLoop]
    by_cases ha : isAllowed ((itRandom + k) % size) = true
    · rw [if_pos ha]
      exact ⟨_, rfl, ⟨k + 1, by omega, hsnoc⟩, fun _ => ⟨hlt, ha⟩,
        fun h => absurd h (by simp)⟩
    · rw [if_neg ha]
      have hfalse : isAllowed ((itRandom + k) % size) = false := by simpa using ha
      have hnot2 : ∀ i < k + 1, isAllowed ((itRandom + i) % size) = false := by
        intro i hi
        rcases Nat.lt_succ_iff_lt_or_eq.mp hi with h | h
        · exact hnot i h
        · rw [h]; exact hfalse
      have e1 := mod_of_lt_two_mul (itRandom + k) size (by omega)
      have e2 := mod_of_lt_two_mul (itRandom + (k + 1)) size (by omega)
      have hnext : (if (itRandom + k) % size + 1 = size then 0 else (itRandom + k) % size + 1)
          = (itRandom + (k + 1)) % size := by
        rw [e1, e2]
        split_ifs <;> omega
      simp only [hnext]
      by_cases hback : (itRandom + (k + 1)) % size = itRandom
      · rw [if_pos hback]
        refine ⟨_, rfl, ⟨k + 1, by omega, hsnoc⟩, fun h => absurd h (by simp), ?_⟩
        intro _ i hi
        have hsize : k + 1 = size := by
          rw [e2] at hback
          split_ifs at hback <;> omega
        exact hnot2 i (by omega)
      · rw [if_neg hback]
        have hfuel : 0 < fuel := by
          by_contra h0
          have hsize : k + 1 = size := by omega
          apply hback
          rw [hsize, Nat.add_mod_right]
          exact Nat.mod_eq_of_lt hr
        exact ih (k + 1) _ (by omega) hfuel hsnoc hnot2

theorem range_map_add_mod_nodup (size itRandom n : Nat) (hn : n ≤ size) :
    ((List.range n).map (fun i => (itRandom + i) % size)).Nodup := by
  apply List.Nodup.map_on _ (List.nodup_range n)
  intro i hi j hj hij
  rw [List.mem_range] at hi hj
  by_contra hne
  have key : ∀ a b : Nat, a < b → b < size → (itRandom + a) % size ≠ (itRandom + b) % size := by
    intro a b hab hb heq
    have h1 : (itRandom + b) % size = ((itRandom + a) % size + (b - a) % size) % size := by
      rw [← Nat.add_mod]
      congr 1
      omega
    rw [← heq, Nat.mod_eq_of_lt (show b - a < size by omega)] at h1
    have hlt : (itRandom + a) % size < size := Nat.mod_lt _ (by omega)
    have e := mod_of_lt_two_mul ((itRandom + a) % size + (b - a)) size (by omega)
    rw [e] at h1
    split_ifs at h1 <;> omega
  rcases Nat.lt_or_gt_of_ne hne with h | h
  · exact key i j h (by omega) hij
  · exact key j i h (by omega) hij.symm

/-- C37: on a container of `size` elements, for every start value `random`
and every predicate `isAllowed` on the positions, `getRandomIt` returns within
the `size` turns allowed; the positions it tests are distinct positions of the
container (each element at most once), consecutive from `random % size` with
a wrap; it returns true exactly when some element satisfies `isAllowed`, and
then `itResult` is the position of an element that satisfies `isAllowed`; on
an empty container it returns false, tests nothing and leaves `itResult`. -/
theorem getRandomIt_spec (size itResult random : Nat) (isAllowed : Nat → Bool) :
    ∃ r, getRandomIt size itResult random isAllowed = some r ∧
      r.tested.Nodup ∧ (∀ i ∈ r.tested, i < size) ∧ r.tested.length ≤ size ∧
      (r.result = true ↔ ∃ i, i < size ∧ isAllowed i = true) ∧
      (r.result = true → r.itResult < size ∧ isAllowed r.itResult = true) ∧
      (size = 0 → r = ⟨false, itResult, []⟩) := by
  by_cases h0 : size = 0
  · refine ⟨⟨false, itResult, []⟩, by simp [getRandomIt, h0], List.nodup_nil, by simp, by simp,
      ?_, by simp, fun _ => rfl⟩
    simp only [h0]
    constructor
    · intro h; exact absurd h (by simp)
    · rintro ⟨i, hi, _⟩; omega
  · have hr : random % 4294967296 % size < size := Nat.mod_lt _ (by omega)
    obtain ⟨r, e, ⟨n, hn, htested⟩, htrue, hfalse⟩ :=
      getRandomItLoop_spec size isAllowed (random % 4294967296 % size) hr size 0 []
        (by omega) (by omega) rfl (fun i hi => absurd hi (by omega))
    rw [Nat.add_zero, Nat.mod_eq_of_lt hr] at e
    refine ⟨r, by simp only [getRandomIt, if_neg h0]; exact e, ?_, ?_, ?_, ?_, htrue,
      fun h => absurd h h0⟩
    · rw [htested]
      exact range_map_add_mod_nodup size _ n hn
    · rw [htested]
      intro i hi
      obtain ⟨j, _, hj⟩ := List.mem_map.mp hi
      rw [← hj]
      exact Nat.mod_lt _ (by omega)
    · rw [htested]
      simpa using hn
    · constructor
      · intro h
        exact ⟨r.itResult, (htrue h).1, (htrue h).2⟩
      · rintro ⟨i, hi, hall⟩
        by_contra hres
        have hres2 : r.result = false := by simpa using hres
        have hno := hfalse hres2
        have hcover : ∃ j, j < size ∧ (random % 4294967296 % size + j) % size = i := by
          by_cases hge : random % 4294967296 % size ≤ i
          · exact ⟨i - random % 4294967296 % size, by omega, by
              rw [Nat.add_sub_cancel' hge]; exact Nat.mod_eq_of_lt hi⟩
          · refine ⟨size + i - random % 4294967296 % size, by omega, ?_⟩
            have e3 : random % 4294967296 % size + (size + i - random % 4294967296 % size)
                = i + size := by omega
            rw [e3, Nat.add_mod_right]
            exact Nat.mod_eq_of_lt hi
        obtain ⟨j, hj, hji⟩ := hcover
        have := hno j hj
        rw [hji, hall] at this
        exact absurd this (by simp)

end RTMFP

/-! ## Header of a new packet -/

namespace RTMFP

theorem Time_lt (t : Int) : Time t < 65536 := by
  simp only [Time]
  cases t.tdiv RTMFP_TIMESTAMP_SCALE with
  | ofNat a =>
    have h : Int.land (Int.ofNat a) 0xFFFF = ((a &&& 65535 : Nat) : Int) := rfl
    rw [h, Int.toNat_ofNat]
    exact Nat.lt_succ_of_le Nat.and_le_right
  | negSucc m =>
    have h : Int.land (Int.negSucc m) 0xFFFF = ((Nat.ldiff 65535 m : Nat) : Int) := rfl
    rw [h, Int.toNat_ofNat]
    apply Nat.lt_pow_two_of_testBit _ (n := 16)
    intro i hi
    rw [Nat.testBit_ldiff]
    have h2 : Nat.testBit 65535 i = false :=
      Nat.testBit_lt_two_pow (Nat.lt_of_lt_of_le (by decide : 65535 < 2 ^ 16)
        (Nat.pow_le_pow_right (by decide) hi))
    rw [h2]
    rfl

/-- C31: `InitBuffer(pBuffer, initiatorTime, marker)` called at the time
`now`, not before `initiatorTime`, with a marker of 8 bits: `initiatorTime` is
0 afterwards and the buffer starts with 6 bytes kept aside. When
`initiatorTime` was not 0 and `now - initiatorTime` is at most 262140 ms the
header that follows is `marker + 4`, the 16-bit `timeNow` and the 16-bit echo
`(now - initiatorTime) / 4`, which is below `2^16`, 11 bytes in all;
otherwise it is `marker` and the 16-bit `timeNow`, 9 bytes in all. For the
markers 0x09, 0x0B and 0x89 `marker + 4` is the marker with the bit 0x04
set. -/
theorem InitBuffer_spec (now initiatorTime : Int) (marker : Nat) (hmarker : marker < 256)
    (hnow : initiatorTime ≤ now) :
    (InitBuffer now initiatorTime marker).2 = 0 ∧
    ((InitBuffer now initiatorTime marker).1.take 6).length = 6 ∧
    (initiatorTime ≠ 0 ∧ now - initiatorTime ≤ 262140 →
      (InitBuffer now initiatorTime marker).1.drop 6
        = [(marker + 4) % 256] ++ be16 (TimeNow now)
          ++ be16 ((now - initiatorTime) / 4).toNat ∧
      ((now - initiatorTime) / 4).toNat < 65536 ∧
      (InitBuffer now initiatorTime marker).1.length = 11) ∧
    (¬ (initiatorTime ≠ 0 ∧ now - initiatorTime ≤ 262140) →
      (InitBuffer now initiatorTime marker).1.drop 6 = [marker] ++ be16 (TimeNow now) ∧
      (InitBuffer now initiatorTime marker).1.length = 9) ∧
    TimeNow now < 65536 ∧
    (∀ m ∈ [0x09, 0x0B, 0x89], (m + 4) % 256 = m ||| 0x04) := by
  have hm : marker % 256 = marker := Nat.mod_eq_of_lt hmarker
  refine ⟨?_, ?_, ?_, ?_, Time_lt now, by decide⟩
  · simp only [InitBuffer]
    split_ifs <;> rfl
  · simp only [InitBuffer, InitBufferMarker]
    split_ifs <;> simp [be16]
  · rintro ⟨h0, hle⟩
    have hgt : ¬ now - initiatorTime > 262140 := by omega
    obtain ⟨n, hn⟩ := Int.eq_ofNat_of_zero_le (show 0 ≤ now - initiatorTime by omega)
    have hecho : Time (now - initiatorTime) = ((now - initiatorTime) / 4).toNat := by
      rw [hn, Time_ofNat]
      have h4 : ((n : Int) / 4).toNat = n / 4 := by omega
      rw [h4]
      exact Nat.mod_eq_of_lt (by omega)
    simp only [InitBuffer, if_neg h0, if_neg hgt, hecho]
    refine ⟨by simp, by omega, by simp [be16]⟩
  · intro h
    have hb : (InitBuffer now initiatorTime marker).1 = InitBufferMarker now marker := by
      simp only [InitBuffer]
      split_ifs with h1 h2
      · rfl
      · rfl
      · exact absurd ⟨h1, by omega⟩ h
    rw [hb]
    simp [InitBufferMarker, be16, hm]

/-- Witness for `InitBuffer_spec`: the marker 0x89 at the time 5000 with
`initiatorTime` 1000 gives the header 8D, `timeNow` 1250 and the echo 1000. -/
theorem InitBuffer_spec_witness :
    (1000 : Int) ≤ 5000 ∧ (InitBuffer 5000 1000 0x89).2 = 0 ∧
    (InitBuffer 5000 1000 0x89).1 = [0, 0, 0, 0, 0, 0, 0x8D, 4, 226, 3, 232] :=
  ⟨by decide, (InitBuffer_spec 5000 1000 0x89 (by decide) (by decide)).1, by decide⟩

end RTMFP

/-! ## Size of the fragments of a payload -/

namespace GroupMedia

theorem onMediaLoop_sizes (M type time : Nat) :
    ∀ (sc marker : Nat) (reader : BinaryReader) (counter : Nat),
      sc * M < reader.available →
      ∃ frags c, onMediaLoop M type time sc marker reader counter = some (frags, c) ∧
        frags.map (fun f => f.payload.length)
          = List.replicate sc M ++ [reader.available - sc * M] := by
  intro sc
  induction sc with
  | zero =>
    intro marker reader counter _
    rw [onMediaLoop, onMediaBody_eq _ _ _ _ _ _ _ (by simp)]
    refine ⟨_, _, rfl, ?_⟩
    simp [BinaryReader.current, BinaryReader.available]
  | succ sc ih =>
    intro marker reader counter hav
    have hmul : (sc + 1) * M = sc * M + M := Nat.succ_mul sc M
    have hle : M ≤ reader.available := by omega
    have hpos : 0 < sc + 1 := Nat.succ_pos sc
    rw [onMediaLoop, onMediaBody_eq _ _ _ _ _ _ _ (by rw [if_pos hpos]; exact hle)]
    simp only [gt_iff_lt, hpos, if_true]
    have hnext : reader.next M = ⟨reader.data, reader.pos + M⟩ := by
      simp only [BinaryReader.next]
      rw [if_neg (by omega)]
    have hav2 : sc * M < (reader.next M).available := by
      rw [hnext]
      simp only [BinaryReader.available] at hav ⊢
      omega
    obtain ⟨frags, c, e1, e2⟩ := ih
      (if M < reader.data.length then
        if sc + 1 = 0 then GroupStream.GROUP_MEDIA_END
        else if reader.pos = 0 then GroupStream.GROUP_MEDIA_START
        else GroupStream.GROUP_MEDIA_NEXT
      else marker) (reader.next M) ((counter + 1) % 18446744073709551616) hav2
    rw [e1]
    refine ⟨_, _, rfl, ?_⟩
    rw [List.map_cons, e2, List.replicate_succ, List.cons_append]
    have h1 : (reader.current.take M).length = M := by
      simp only [List.length_take, BinaryReader.current, List.length_drop]
      simp only [BinaryReader.available] at hle
      omega
    have h2 : (reader.next M).available - sc * M = reader.available - (sc + 1) * M := by
      rw [hnext]
      simp only [BinaryReader.available]
      omega
    simp only [h1, h2]

/-- The sizes of the fragments that `onMedia` creates for a payload of `n`
bytes: `sc` fragments of `M` bytes and a last one that holds all the rest,
`sc` being the 8-bit split counter. -/
theorem onMedia_sizes (M c type time : Nat) (packet : Bytes) (hM : 0 < M) (hne : packet ≠ []) :
    ∃ frags counter, onMedia M c type time packet = some (frags, counter) ∧
      frags.map (fun f => f.payload.length)
        = List.replicate ((packet.length / M - (if packet.length % M = 0 then 1 else 0)) % 256) M
          ++ [packet.length
            - (packet.length / M - (if packet.length % M = 0 then 1 else 0)) % 256 * M] := by
  have hn : 0 < packet.length := List.length_pos.mpr hne
  obtain ⟨f1, _, _⟩ := splitCounter_facts M packet.length hM hn
  have hav : ((packet.length / M - (if packet.length % M = 0 then 1 else 0)) % 256) * M
      < (⟨packet, 0⟩ : BinaryReader).available := by
    simp only [BinaryReader.available, Nat.sub_zero]
    exact Nat.lt_of_le_of_lt (Nat.mul_le_mul_right _ (Nat.mod_le _ _)) f1
  obtain ⟨frags, counter, e1, e2⟩ := onMediaLoop_sizes M type time _
    GroupStream.GROUP_MEDIA_DATA ⟨packet, 0⟩ c hav
  refine ⟨frags, counter, by rw [onMedia_eq _ _ _ _ _ hne, e1], ?_⟩
  rw [e2]
  simp [BinaryReader.available]

/-- While a payload makes at most 256 fragments (`ceil(n / M) <= 256`, the
range of the 8-bit split counter), every fragment that `onMedia` creates
holds at most `M` bytes. -/
theorem onMedia_payload_le (M c type time : Nat) (packet : Bytes) (hM : 0 < M)
    (hne : packet ≠ []) (hcount : (packet.length + M - 1) / M ≤ 256) :
    ∃ frags counter, onMedia M c type time packet = some (frags, counter) ∧
      ∀ f ∈ frags, f.payload.length ≤ M := by
  have hn : 0 < packet.length := List.length_pos.mpr hne
  obtain ⟨f1, f2, _⟩ := splitCounter_facts M packet.length hM hn
  have hmod : (packet.length / M - (if packet.length % M = 0 then 1 else 0)) % 256
      = packet.length / M - (if packet.length % M = 0 then 1 else 0) :=
    Nat.mod_eq_of_lt (by omega)
  obtain ⟨frags, counter, e1, e2⟩ := onMedia_sizes M c type time packet hM hne
  rw [hmod] at e2
  refine ⟨frags, counter, e1, ?_⟩
  intro f hf
  have hmem : f.payload.length ∈ frags.map (fun f => f.payload.length) :=
    List.mem_map.mpr ⟨f, hf, rfl⟩
  rw [e2, List.mem_append, List.mem_singleton] at hmem
  rcases hmem with h | h
  · exact le_of_eq (List.eq_of_mem_replicate h)
  · rw [h]
    have hlast : packet.length
        ≤ (packet.length / M - (if packet.length % M = 0 then 1 else 0)) * M + M := by
      have hdm := Nat.div_add_mod packet.length M
      have hr := Nat.mod_lt packet.length hM
      by_cases h0 : packet.length % M = 0
      · rw [if_pos h0]
        have hq : 0 < packet.length / M := by
          rcases Nat.eq_zero_or_pos (packet.length / M) with hz | hz
          · rw [hz, h0] at hdm; omega
          · exact hz
        have e : (packet.length / M - 1) * M + M = M * (packet.length / M) := by
          rw [Nat.sub_mul, Nat.one_mul, Nat.mul_comm]
          have : M ≤ M * (packet.length / M) := Nat.le_mul_of_pos_right M hq
          omega
        omega
      · rw [if_neg h0, Nat.sub_zero, Nat.mul_comm]
        omega
    omega

/-- A payload of `256 * M + 1` bytes: the 8-bit split counter is 0 and the
single fragment created holds the whole payload. -/
theorem onMedia_truncated (M c type time : Nat) (packet : Bytes) (hM : 0 < M)
    (hlen : packet.length = 256 * M + 1) :
    onMedia M c type time packet
      = some ([⟨GroupStream.GROUP_MEDIA_END, (c + 1) % 18446744073709551616, 0, type, time,
          packet⟩], (c + 1) % 18446744073709551616) := by
  have hne : packet ≠ [] := by
    intro h
    rw [h] at hlen
    simp at hlen
  have hsc : (packet.length / M - (if packet.length % M = 0 then 1 else 0)) % 256 = 0 := by
    have hlen2 : packet.length = M * 256 + 1 := by omega
    rw [hlen2, Nat.mul_add_div hM, Nat.mul_add_mod]
    rcases Nat.lt_or_ge M 2 with h | h
    · have h1 : M = 1 := by omega
      subst h1
      rfl
    · rw [Nat.div_eq_of_lt h, Nat.mod_eq_of_lt h]
      rfl
  have hbig : packet.length > M := by omega
  rw [onMedia_eq _ _ _ _ _ hne, hsc, onMediaLoop, onMediaBody_eq _ _ _ _ _ _ _ (by simp)]
  have htake : (⟨packet, 0⟩ : BinaryReader).current.take
      (if 0 > 0 then M else (⟨packet, 0⟩ : BinaryReader).available) = packet := by
    simp [BinaryReader.current, BinaryReader.available]
  rw [htake]
  simp only [hbig, if_true]

/-- C34, evaluation of the code, with 4 for `NETGROUP_MAX_PACKET_SIZE`. A
payload of `256 * 4 + 1 = 1025` bytes: `size / M` is 256, which the `UInt8`
`splitCounter` holds as 0, so `onMedia` creates one fragment, with the marker
end and the id 1, whose payload is the whole payload, 1025 bytes. -/
theorem onMedia_fragment_above_max :
    onMedia 4 0 9 0 (List.replicate 1025 7)
      = some ([⟨GroupStream.GROUP_MEDIA_END, 1, 0, 9, 0, List.replicate 1025 7⟩], 1) ∧
    (List.replicate 1025 7 : Bytes).length = 1025 ∧
    ¬ (∀ f ∈ [(⟨GroupStream.GROUP_MEDIA_END, 1, 0, 9, 0, List.replicate 1025 7⟩ : GroupFragment)],
      f.payload.length ≤ 4) := by
  have hlen : (List.replicate 1025 7 : Bytes).length = 1025 := List.length_replicate _ _
  refine ⟨onMedia_truncated 4 0 9 0 _ (by decide) hlen, hlen, ?_⟩
  intro h
  have h2 : (List.replicate 1025 7 : Bytes).length ≤ 4 := h _ (List.mem_singleton.mpr rfl)
  rw [hlen] at h2
  omega

end GroupMedia

/-! ## Padding and checksum of an encoded packet -/

namespace RTMFP

theorem paddingBytesLength_eq (size : Nat) :
    ((paddingBytesLength size : Nat) : Int) = (4 - (size : Int)) % 16 := by
  simp only [paddingBytesLength]
  omega

/-- C33: `Engine::encode` pads a buffer of `size` bytes with `p` bytes where
`p` is at most 15 and `p = (4 - size) mod 16`; the datagram has `size + p`
bytes and its bytes `[4..end)`, the encryption of the bytes `[4..end)` of the
padded plain request, are a whole number of 16-byte blocks; for a buffer that
holds its 6 reserved bytes, the plain request keeps the bytes `[0..4)` and
`[6..end)` of the padded buffer and its bytes `[4..6)` are the checksum, in
network order, of the bytes `[6..end)` of the padded buffer. -/
theorem Engine.encode_blocks (aes : AES128CBC) (e : Engine) (p : Bytes) (farId : Nat) :
    paddingBytesLength p.length ≤ 15 ∧
    ((paddingBytesLength p.length : Nat) : Int) = (4 - (p.length : Int)) % 16 ∧
    (Engine.encode aes e p farId).length = p.length + paddingBytesLength p.length ∧
    ((Engine.encode aes e p farId).drop 4).length % 16 = 0 ∧
    (Engine.encode aes e p farId).drop 4 = aes.encrypt e._key ((Engine.plain p).drop 4) ∧
    (6 ≤ p.length →
      (Engine.plain p).take 4 = p.take 4 ∧
      ((Engine.plain p).drop 4).take 2
        = be16 (Crypto.ComputeChecksum
            ⟨(p ++ List.replicate (paddingBytesLength p.length) 0xFF).drop 6, 0⟩) ∧
      (Engine.plain p).drop 6
        = (p ++ List.replicate (paddingBytesLength p.length) 0xFF).drop 6) := by
  have hm := paddingBytesLength_mod p.length
  have hl := Engine.encode_length aes e p farId
  refine ⟨paddingBytesLength_le _, paddingBytesLength_eq _, hl, ?_,
    Engine.encode_drop aes e p farId, ?_⟩
  · rw [List.length_drop, hl]
    omega
  · intro hp
    have hdrop : (p ++ List.replicate (paddingBytesLength p.length) 0xFF).drop 6
        = p.drop 6 ++ List.replicate (paddingBytesLength p.length) 0xFF := by
      rw [List.drop_append_of_le_length hp]
    have h4 : (p.take 4).length = 4 := by
      rw [List.length_take]; omega
    rw [hdrop, Engine.plain_eq p hp]
    refine ⟨?_, ?_, ?_⟩
    · rw [List.append_assoc, List.take_left' h4]
    · rw [List.append_assoc, List.drop_left' h4, List.take_left' (by simp [be16])]
    · have h6 : (p.take 4 ++ be16 (Crypto.ComputeChecksum
          ⟨p.drop 6 ++ List.replicate (paddingBytesLength p.length) 0xFF, 0⟩)).length = 6 := by
        simp [be16, h4]
      rw [List.drop_left' h6]

/-- Witness for `Engine.encode_blocks`: a buffer of 9 bytes gets 11 bytes of
padding; the checksum of the bytes 1, 2, 3 and eleven bytes 255 is 0xFAFE. -/
theorem Engine.encode_blocks_witness :
    paddingBytesLength 9 = 11 ∧
    ((Engine.plain [0, 0, 0, 0, 0, 0, 1, 2, 3]).drop 4).take 2
      = be16 (Crypto.ComputeChecksum
          ⟨([0, 0, 0, 0, 0, 0, 1, 2, 3] ++ List.replicate (paddingBytesLength 9) 0xFF).drop 6, 0⟩) ∧
    ((Engine.plain [0, 0, 0, 0, 0, 0, 1, 2, 3]).drop 4).take 2 = [0xFA, 0xFE] :=
  ⟨by decide,
    ((Engine.encode_blocks reversalCipher ⟨List.replicate 16 1⟩ [0, 0, 0, 0, 0, 0, 1, 2, 3] 5).2.2.2.2.2
      (by decide)).2.1,
    by decide⟩

end RTMFP

/-! ## The counter of buffered bytes -/

namespace RTMFPFlow

theorem onFragment_fragmentation (s : RTMFPFlow) (st fl : Nat) (p : Bytes) (l : Bool) :
    (onFragment s st fl p l).fragmentation = s.fragmentation := by
  simp only [onFragment, output]
  split <;> split_ifs <;> rfl

theorem finish_fragmentation (s : RTMFPFlow) : (finish s).fragmentation = s.fragmentation := by
  simp only [finish, output]
  split_ifs <;> rfl

theorem drain_fragmentation (frags : List (Nat × Fragment)) :
    ∀ (s : RTMFPFlow) (n : Nat),
      s.fragmentation = (frags.map (fun e => e.2.packet.length)).sum % 4294967296 →
      (drain frags s n).fragmentation = buffered (drain frags s n) % 4294967296 := by
  induction frags with
  | nil =>
    intro s n h
    simp only [drain, buffered]
    exact h
  | cons x rest ih =>
    intro s n h
    obtain ⟨k, f⟩ := x
    simp only [drain]
    split_ifs with hk
    · apply ih
      simp only [onFragment_fragmentation]
      rw [h]
      simp only [List.map_cons, List.sum_cons]
      omega
    · simp only [buffered]
      exact h

theorem emplace_sum (l : List (Nat × Fragment)) (k : Nat) (f : Fragment) :
    ((emplace l k f).1.map (fun e => e.2.packet.length)).sum
      = (l.map (fun e => e.2.packet.length)).sum
        + (if (emplace l k f).2 then f.packet.length else 0) := by
  induction l with
  | nil => simp [emplace]
  | cons x rest ih =>
    obtain ⟨k0, f0⟩ := x
    simp only [emplace]
    split_ifs with h1 h2 h3 h4
    all_goals simp only [List.map_cons, List.sum_cons] at ih ⊢
    all_goals simp_all
    all_goals omega

theorem takeWhile_dropWhile_sum (l : List (Nat × Fragment)) (p : Nat × Fragment → Bool) :
    (l.map (fun e => e.2.packet.length)).sum
      = ((l.takeWhile p).map (fun e => e.2.packet.length)).sum
        + ((l.dropWhile p).map (fun e => e.2.packet.length)).sum := by
  conv_lhs => rw [← List.takeWhile_append_dropWhile p l]
  rw [List.map_append, List.sum_append]

theorem abandon_fragmentation (s : RTMFPFlow) (stage flags : Nat)
    (h : s.fragmentation = buffered s % 4294967296) :
    (abandon s stage flags).fragmentation
      = ((abandon s stage flags)._fragments.map (fun e => e.2.packet.length)).sum
        % 4294967296 := by
  have hsum := takeWhile_dropWhile_sum s._fragments
    (fun e => decide (e.1 < (stage + 1) % 18446744073709551616))
  simp only [buffered] at h
  simp only [abandon, h]
  omega

theorem dispatch_fragmentation (s : RTMFPFlow) (stage flags : Nat) (packet : Bytes)
    (lastFragment : Bool) (h : s.fragmentation = buffered s % 4294967296) :
    (dispatch s stage flags packet lastFragment).fragmentation
      = buffered (dispatch s stage flags packet lastFragment) % 4294967296 := by
  simp only [dispatch]
  split_ifs with h1 h2 h3 h4
  · exact h
  · have e : buffered (finish (drain (abandon s stage flags)._fragments (abandon s stage flags)
        ((stage + 1) % 18446744073709551616)))
        = buffered (drain (abandon s stage flags)._fragments (abandon s stage flags)
          ((stage + 1) % 18446744073709551616)) := by
      simp only [buffered, finish_fragments]
    rw [finish_fragmentation, e]
    exact drain_fragmentation _ _ _ (abandon_fragmentation s stage flags h)
  · have hs := emplace_sum s._fragments stage ⟨flags, packet, lastFragment⟩
    rw [h4] at hs
    simp only [buffered] at h ⊢
    simp only [hs, h, if_true]
    omega
  · exact h
  · have e : buffered (finish (drain (onFragment s (nextStage s) flags packet lastFragment)._fragments
        (onFragment s (nextStage s) flags packet lastFragment)
        ((nextStage s + 1) % 18446744073709551616)))
        = buffered (drain (onFragment s (nextStage s) flags packet lastFragment)._fragments
          (onFragment s (nextStage s) flags packet lastFragment)
          ((nextStage s + 1) % 18446744073709551616)) := by
      simp only [buffered, finish_fragments]
    rw [finish_fragmentation, e]
    apply drain_fragmentation
    rw [onFragment_fragmentation, onFragment_fragments, h]
    rfl

theorem input_fragmentation (s : RTMFPFlow) (stage flags : Nat) (packet : Bytes)
    (lastFragment : Bool) (h : s.fragmentation = buffered s % 4294967296) :
    (input s stage flags packet lastFragment).fragmentation
      = buffered (input s stage flags packet lastFragment) % 4294967296 := by
  simp only [input]
  split_ifs
  · exact h
  · exact h
  · exact dispatch_fragmentation _ _ _ _ _ h
  · exact dispatch_fragmentation _ _ _ _ _ h

theorem run_fragmentation_inv (calls : List Call) :
    ∀ (s : RTMFPFlow), s.fragmentation = buffered s % 4294967296 →
      (run s calls).fragmentation = buffered (run s calls) % 4294967296 := by
  induction calls with
  | nil => intro s h; exact h
  | cons c rest ih =>
    intro s h
    simp only [run, List.foldl_cons]
    exact ih _ (input_fragmentation s _ _ _ _ h)

/-- C35: in every state reached from a fresh flow by a sequence of `input`
calls, the 32-bit counter `fragmentation` is the sum of the payload sizes of
the fragments held in the reorder buffer, as a 32-bit value: it is that sum
itself while the sum is below `2^32`, and it is 0 when the buffer is
empty. -/
theorem fragmentation_is_buffered (calls : List Call) :
    (run fresh calls).fragmentation = buffered (run fresh calls) % 4294967296 ∧
    (buffered (run fresh calls) < 4294967296 →
      (run fresh calls).fragmentation = buffered (run fresh calls)) ∧
    ((run fresh calls)._fragments = [] → (run fresh calls).fragmentation = 0) := by
  have h := run_fragmentation_inv calls fresh rfl
  refine ⟨h, ?_, ?_⟩
  · intro hlt
    rw [h, Nat.mod_eq_of_lt hlt]
  · intro hnil
    rw [h]
    simp only [buffered, hnil]
    rfl

/-- Witness for `fragmentation_is_buffered`: the stages 3 and 5 wait with 2
and 3 bytes, then the stage 1 is delivered: the counter is 5. -/
theorem fragmentation_is_buffered_witness :
    buffered (run fresh [⟨3, 0, [1, 2], false⟩, ⟨5, 0, [3, 4, 5], false⟩, ⟨1, 0, [9], false⟩])
      < 4294967296 ∧
    (run fresh [⟨3, 0, [1, 2], false⟩, ⟨5, 0, [3, 4, 5], false⟩,
      ⟨1, 0, [9], false⟩]).fragmentation
      = buffered (run fresh [⟨3, 0, [1, 2], false⟩, ⟨5, 0, [3, 4, 5], false⟩,
        ⟨1, 0, [9], false⟩]) ∧
    (run fresh [⟨3, 0, [1, 2], false⟩, ⟨5, 0, [3, 4, 5], false⟩,
      ⟨1, 0, [9], false⟩]).fragmentation = 5 :=
  ⟨by decide,
    (fragmentation_is_buffered [⟨3, 0, [1, 2], false⟩, ⟨5, 0, [3, 4, 5], false⟩,
      ⟨1, 0, [9], false⟩]).2.1 (by decide),
    by decide⟩

end RTMFPFlow

/-! ## Bytes charged by an abandon -/

namespace RTMFPFlow

theorem takeWhile_eq_filter (l : List (Nat × Fragment)) (x : Nat) (h : sortedKeys l) :
    l.takeWhile (fun e => decide (e.1 < x)) = l.filter (fun e => decide (e.1 < x)) := by
  induction l with
  | nil => rfl
  | cons a rest ih =>
    have ha := List.pairwise_cons.mp h
    by_cases hlt : a.1 < x
    · rw [List.takeWhile_cons_of_pos (by simpa using hlt),
        List.filter_cons_of_pos (by simpa using hlt), ih ha.2]
    · rw [List.takeWhile_cons_of_neg (by simpa using hlt),
        List.filter_cons_of_neg (by simpa using hlt)]
      symm
      rw [List.filter_eq_nil_iff]
      intro e he
      have := ha.1 e he
      simp only [decide_eq_true_eq]
      omega

theorem onFragment_lost (s : RTMFPFlow) (st fl : Nat) (p : Bytes) (l : Bool)
    (h : fl &&& RTMFP.MESSAGE_WITH_BEFOREPART = 0) :
    (onFragment s st fl p l)._lost = s._lost := by
  simp only [onFragment, output, h]
  split <;> split_ifs with h1 <;> first | rfl | exact absurd rfl h1

theorem drain_lost (frags : List (Nat × Fragment)) :
    ∀ (s : RTMFPFlow) (n : Nat),
      (∀ e ∈ frags, e.2.flags &&& RTMFP.MESSAGE_WITH_BEFOREPART = 0) →
      (drain frags s n)._lost = s._lost := by
  induction frags with
  | nil => intro s n _; rfl
  | cons x rest ih =>
    intro s n h
    obtain ⟨k, f⟩ := x
    simp only [drain]
    split_ifs with hk
    · rw [ih _ _ (fun e he => h e (List.mem_cons_of_mem _ he))]
      exact onFragment_lost s n f.flags f.packet f.lastFragment
        (h (k, f) (List.mem_cons_self _ _))
    · rfl

theorem abandon_lost (s : RTMFPFlow) (stage flags : Nat) (hsorted : sortedKeys s._fragments)
    (hlost : s._lost < 4294967296) (hge : nextStage s ≤ stage)
    (hst : stage < 18446744073709551615) :
    (abandon s stage flags)._lost = (s._lost + statedLost s stage flags) % 4294967296 := by
  have hmod : (stage + 1) % 18446744073709551616 = stage + 1 := Nat.mod_eq_of_lt (by omega)
  have hsub : (stage + 18446744073709551616 - nextStage s) % 18446744073709551616
      = stage - nextStage s := by omega
  have hfilter : s._fragments.takeWhile (fun e => decide (e.1 < stage + 1))
      = s._fragments.filter (fun e => decide (e.1 ≤ stage)) := by
    rw [takeWhile_eq_filter _ _ hsorted]
    apply List.filter_congr
    intro e _
    simp only [decide_eq_decide]
    omega
  simp only [abandon, statedLost, hmod, hsub, hfilter, RTMFP.SIZE_PACKET]
  cases s._pBuffer with
  | none =>
    simp only []
    split_ifs <;> omega
  | some buf =>
    simp only []
    split_ifs <;> omega

/-- C32, the claim as stated fails: on a flow that has ended (an
`ABANDON|END` at the stage 1 with nothing buffered, which itself adds 0), an
abandon at the stage 5 is at or above the next stage 2 and leaves the
lost-bytes counter as it is, where `(5 - 2) * 1192 + 596 = 4172` bytes are
stated. -/
theorem input_abandon_after_end :
    (run fresh [⟨1, 3, [], false⟩])._lost = 0 ∧
    nextStage (run fresh [⟨1, 3, [], false⟩]) ≤ 5 ∧
    2 &&& RTMFP.MESSAGE_ABANDON ≠ 0 ∧
    statedLost (run fresh [⟨1, 3, [], false⟩]) 5 2 = 4172 ∧
    (input (run fresh [⟨1, 3, [], false⟩]) 5 2 [] false)._lost = 0 ∧
    ¬ (input (run fresh [⟨1, 3, [], false⟩]) 5 2 [] false)._lost
      = ((run fresh [⟨1, 3, [], false⟩])._lost
        + statedLost (run fresh [⟨1, 3, [], false⟩]) 5 2) % 4294967296 := by
  decide

/-- C32 as amended: for a flow whose buffer is in ascending order and whose
lost-bytes counter is a 32-bit value, that has no end stage yet or has one at
or above the stage with fragments still buffered, and an input that carries
`MESSAGE_ABANDON` with a stage `s` from `nextStage` to `2^64 - 2`: the abandon
block adds to the counter, in 32-bit arithmetic, the skipped stages at
`SIZE_PACKET` each cut to 32 bits, `SIZE_PACKET / 2` when `MESSAGE_END` is not
set, the payload sizes of the buffered fragments with a stage up to `s` and
the size of the pending reassembly buffer; this is the increase over the whole
call when no buffered fragment above `s` carries `MESSAGE_WITH_BEFOREPART`; an
`ABANDON|END` on the next stage with nothing buffered and no pending buffer
leaves the counter as it is. -/
theorem input_abandon_lost (s : RTMFPFlow) (stage flags : Nat) (packet : Bytes)
    (lastFragment : Bool) (hsorted : sortedKeys s._fragments)
    (hlost : s._lost < 4294967296)
    (hopen : s._stageEnd = 0 ∨ (s._fragments ≠ [] ∧ stage ≤ s._stageEnd))
    (hab : flags &&& RTMFP.MESSAGE_ABANDON ≠ 0)
    (hge : nextStage s ≤ stage) (hst : stage < 18446744073709551615) :
    (∃ t, input s stage flags packet lastFragment
        = finish (drain (abandon t stage flags)._fragments (abandon t stage flags) (stage + 1)) ∧
      (abandon t stage flags)._lost = (s._lost + statedLost s stage flags) % 4294967296) ∧
    ((∀ e ∈ s._fragments, stage < e.1 → e.2.flags &&& RTMFP.MESSAGE_WITH_BEFOREPART = 0) →
      (input s stage flags packet lastFragment)._lost
        = (s._lost + statedLost s stage flags) % 4294967296) ∧
    (stage = nextStage s → flags &&& RTMFP.MESSAGE_END ≠ 0 → s._fragments = [] →
      s._pBuffer = none → (input s stage flags packet lastFragment)._lost = s._lost) := by
  have key : ∃ t, input s stage flags packet lastFragment = dispatch t stage flags packet lastFragment
      ∧ t._fragments = s._fragments ∧ t._lost = s._lost ∧ t._pBuffer = s._pBuffer
      ∧ t._stage = s._stage := by
    by_cases h0 : s._stageEnd = 0
    · rw [input_open _ _ _ _ _ h0]
      split_ifs
      · exact ⟨_, rfl, rfl, rfl, rfl, rfl⟩
      · exact ⟨_, rfl, rfl, rfl, rfl, rfl⟩
    · rcases hopen with h | ⟨hne, hle⟩
      · exact absurd h h0
      · refine ⟨s, ?_, rfl, rfl, rfl, rfl⟩
        simp only [input]
        rw [if_neg (fun h => hne h.2), if_neg (fun h => absurd h.2 (by omega)),
          if_neg (fun h => h0 h.1)]
  obtain ⟨t, ht, hf, hl, hb, hs⟩ := key
  have hnext : nextStage t = nextStage s := by simp only [nextStage, hs]
  have hstated : statedLost t stage flags = statedLost s stage flags := by
    simp only [statedLost, hnext, hf, hb]
  have hdis := dispatch_abandon t stage flags packet lastFragment hab (by rw [hnext]; exact hge)
    hst
  have hab2 := abandon_lost t stage flags (by rw [hf]; exact hsorted) (by rw [hl]; exact hlost)
    (by rw [hnext]; exact hge) hst
  rw [hstated, hl] at hab2
  have hwhole : (∀ e ∈ s._fragments, stage < e.1 →
      e.2.flags &&& RTMFP.MESSAGE_WITH_BEFOREPART = 0) →
      (input s stage flags packet lastFragment)._lost
        = (s._lost + statedLost s stage flags) % 4294967296 := by
    intro hplain
    have hfr : (abandon t stage flags)._fragments
        = s._fragments.dropWhile (fun e => decide (e.1 < (stage + 1) % 18446744073709551616)) := by
      rw [← hf]
      rfl
    rw [ht, hdis, finish_lost, drain_lost _ _ _ ?_, hab2]
    intro e he
    rw [hfr] at he
    have h1 := dropWhile_ge _ _ hsorted e he
    have hmod : (stage + 1) % 18446744073709551616 = stage + 1 := Nat.mod_eq_of_lt (by omega)
    rw [hmod] at h1
    exact hplain e (dropWhile_mem _ _ e he) (by omega)
  refine ⟨⟨t, by rw [ht, hdis], hab2⟩, hwhole, ?_⟩
  intro hstage hend hnil hbuf
  rw [hwhole (by rw [hnil]; intro e he; exact absurd he (List.not_mem_nil _))]
  have hzero : statedLost s stage flags = 0 := by
    simp only [statedLost, hnil, hbuf, hstage, if_neg hend]
    simp
  rw [hzero, Nat.add_zero, Nat.mod_eq_of_lt hlost]

/-- Witness for `input_abandon_lost`: with the stages 3 and 6 buffered (2 and
3 bytes), an abandon at the stage 4 charges `3 * 1192 + 596 + 2 = 4174`
bytes. -/
theorem input_abandon_lost_witness :
    sortedKeys (run fresh [⟨3, 0, [1, 2], false⟩, ⟨6, 0, [3, 4, 5], false⟩])._fragments ∧
    statedLost (run fresh [⟨3, 0, [1, 2], false⟩, ⟨6, 0, [3, 4, 5], false⟩]) 4 2 = 4174 ∧
    (input (run fresh [⟨3, 0, [1, 2], false⟩, ⟨6, 0, [3, 4, 5], false⟩]) 4 2 [] false)._lost
      = ((run fresh [⟨3, 0, [1, 2], false⟩, ⟨6, 0, [3, 4, 5], false⟩])._lost
        + statedLost (run fresh [⟨3, 0, [1, 2], false⟩, ⟨6, 0, [3, 4, 5], false⟩]) 4 2)
        % 4294967296 :=
  ⟨by unfold sortedKeys; decide, by decide,
    (input_abandon_lost (run fresh [⟨3, 0, [1, 2], false⟩, ⟨6, 0, [3, 4, 5], false⟩]) 4 2 []
      false (by unfold sortedKeys; decide) (by decide) (Or.inl (by decide)) (by decide) (by decide)
      (by decide)).2.1 (by decide)⟩

end RTMFPFlow

/-! ## The time index refers to stored fragments -/

namespace GroupMedia

theorem emplace_hint_sorted (l : List (Nat × GroupFragment)) (f : GroupFragment)
    (h : l.Pairwise (fun a b => a.1 < b.1)) :
    (emplace_hint l f).Pairwise (fun a b => a.1 < b.1) ∧
    (∀ e ∈ emplace_hint l f, e ∈ l ∨ e.1 = f.id) := by
  induction l with
  | nil =>
    simp only [emplace_hint]
    refine ⟨List.pairwise_singleton _ _, ?_⟩
    intro e he
    rw [List.mem_singleton] at he
    exact Or.inr (by rw [he])
  | cons x rest ih =>
    obtain ⟨k0, f0⟩ := x
    have hx := List.pairwise_cons.mp h
    obtain ⟨ih1, ih2⟩ := ih hx.2
    simp only [emplace_hint]
    split_ifs with h1 h2
    · refine ⟨List.pairwise_cons.mpr ⟨?_, h⟩, ?_⟩
      · intro e he
        rcases List.mem_cons.mp he with h3 | h3
        · rw [h3]; exact h1
        · exact Nat.lt_trans h1 (hx.1 e h3)
      · intro e he
        rcases List.mem_cons.mp he with h3 | h3
        · exact Or.inr (by rw [h3])
        · exact Or.inl h3
    · exact ⟨h, fun e he => Or.inl he⟩
    · refine ⟨List.pairwise_cons.mpr ⟨?_, ih1⟩, ?_⟩
      · intro e he
        rcases ih2 e he with h3 | h3
        · exact hx.1 e h3
        · rw [h3]
          show k0 < f.id
          omega
      · intro e he
        rcases List.mem_cons.mp he with h3 | h3
        · exact Or.inl (by rw [h3]; exact List.mem_cons_self _ _)
        · rcases ih2 e h3 with h4 | h4
          · exact Or.inl (List.mem_cons_of_mem _ h4)
          · exact Or.inr h4

theorem emplace_hint_keys (l : List (Nat × GroupFragment)) (f : GroupFragment) :
    f.id ∈ (emplace_hint l f).map Prod.fst ∧
    ∀ k ∈ l.map Prod.fst, k ∈ (emplace_hint l f).map Prod.fst := by
  induction l with
  | nil => simp [emplace_hint]
  | cons x rest ih =>
    obtain ⟨k0, f0⟩ := x
    simp only [emplace_hint]
    split_ifs with h1 h2
    · exact ⟨List.mem_cons_self _ _, fun k hk => List.mem_cons_of_mem _ hk⟩
    · refine ⟨by simp [h2], fun k hk => hk⟩
    · refine ⟨?_, ?_⟩
      · rw [List.map_cons]
        exact List.mem_cons_of_mem _ ih.1
      · intro k hk
        rw [List.map_cons] at hk ⊢
        rcases List.mem_cons.mp hk with h3 | h3
        · rw [h3]; exact List.mem_cons_self _ _
        · exact List.mem_cons_of_mem _ (ih.2 k h3)

theorem storeFragment_store (s : GroupMedia) (now : Int) (f : GroupFragment)
    (hsorted : s._fragments.Pairwise (fun a b => a.1 < b.1))
    (href : ∀ e ∈ s._mapTime2Fragment, e.2 ∈ s._fragments.map Prod.fst) :
    (storeFragment s now f)._fragments.Pairwise (fun a b => a.1 < b.1) ∧
    ∀ e ∈ (storeFragment s now f)._mapTime2Fragment,
      e.2 ∈ (storeFragment s now f)._fragments.map Prod.fst := by
  rw [storeFragment_fragments]
  refine ⟨(emplace_hint_sorted _ f hsorted).1, ?_⟩
  intro e he
  rcases storeFragment_index s now f with h | ⟨_, _, h⟩
  · rw [h] at he
    exact (emplace_hint_keys _ f).2 _ (href e he)
  · rw [h] at he
    rcases assign_mem _ _ _ e he with h2 | h2
    · exact (emplace_hint_keys _ f).2 _ (href e h2)
    · rw [h2]
      exact (emplace_hint_keys _ f).1

theorem foldl_storeFragment_store (fragments : List GroupFragment) (now : Int) :
    ∀ (s : GroupMedia), s._fragments.Pairwise (fun a b => a.1 < b.1) →
      (∀ e ∈ s._mapTime2Fragment, e.2 ∈ s._fragments.map Prod.fst) →
      (fragments.foldl (fun s f => storeFragment s now f) s)._fragments.Pairwise
          (fun a b => a.1 < b.1) ∧
        ∀ e ∈ (fragments.foldl (fun s f => storeFragment s now f) s)._mapTime2Fragment,
          e.2 ∈ (fragments.foldl (fun s f => storeFragment s now f) s)._fragments.map
            Prod.fst := by
  induction fragments with
  | nil => intro s h1 h2; exact ⟨h1, h2⟩
  | cons f rest ih =>
    intro s h1 h2
    obtain ⟨a, b⟩ := storeFragment_store s now f h1 h2
    exact ih _ a b

theorem onMediaStore_store (M : Nat) (s : GroupMedia) (now : Int) (type time : Nat)
    (packet : Bytes) (hsorted : s._fragments.Pairwise (fun a b => a.1 < b.1))
    (href : ∀ e ∈ s._mapTime2Fragment, e.2 ∈ s._fragments.map Prod.fst) :
    (onMediaStore M s now type time packet)._fragments.Pairwise (fun a b => a.1 < b.1) ∧
    ∀ e ∈ (onMediaStore M s now type time packet)._mapTime2Fragment,
      e.2 ∈ (onMediaStore M s now type time packet)._fragments.map Prod.fst := by
  unfold onMediaStore
  cases onMedia M s._fragmentCounter type time packet with
  | none => exact ⟨hsorted, href⟩
  | some r => exact foldl_storeFragment_store r.1 now s hsorted href

theorem onFragment_store_eq (s : GroupMedia) (now : Int) (peerId pushInMode : Nat)
    (f : GroupFragment) :
    ∃ t, (((_onFragment s now peerId pushInMode f)._fragments = t._fragments ∧
          (_onFragment s now peerId pushInMode f)._mapTime2Fragment = t._mapTime2Fragment) ∨
        ((_onFragment s now peerId pushInMode f)._fragments
            = (storeFragment t now f)._fragments ∧
          (_onFragment s now peerId pushInMode f)._mapTime2Fragment
            = (storeFragment t now f)._mapTime2Fragment)) ∧
      t._fragments = s._fragments ∧ t._mapTime2Fragment = s._mapTime2Fragment := by
  cases hw : s._mapWaitingFragments.any (fun e => e.1 == f.id) with
  | false =>
    have hp := pushIn_index { s with _lastFragment := now } peerId pushInMode f.id
    simp only [_onFragment, hw, Bool.false_and, Bool.false_eq_true, if_false]
    split_ifs
    · exact ⟨_, Or.inl ⟨rfl, rfl⟩, hp.2, hp.1⟩
    · exact ⟨_, Or.inr ⟨rfl, rfl⟩, hp.2, hp.1⟩
  | true =>
    simp only [_onFragment, hw, Bool.true_and, if_true]
    split_ifs
    all_goals first
      | exact ⟨_, Or.inl ⟨rfl, rfl⟩, rfl, rfl⟩
      | exact ⟨_, Or.inr ⟨rfl, rfl⟩, rfl, rfl⟩

theorem onFragment_store (s : GroupMedia) (now : Int) (peerId pushInMode : Nat)
    (f : GroupFragment) (hsorted : s._fragments.Pairwise (fun a b => a.1 < b.1))
    (href : ∀ e ∈ s._mapTime2Fragment, e.2 ∈ s._fragments.map Prod.fst) :
    (_onFragment s now peerId pushInMode f)._fragments.Pairwise (fun a b => a.1 < b.1) ∧
    ∀ e ∈ (_onFragment s now peerId pushInMode f)._mapTime2Fragment,
      e.2 ∈ (_onFragment s now peerId pushInMode f)._fragments.map Prod.fst := by
  obtain ⟨t, h | h, h1, h2⟩ := onFragment_store_eq s now peerId pushInMode f
  · rw [h.1, h.2, h1, h2]
    exact ⟨hsorted, href⟩
  · rw [h.1, h.2]
    exact storeFragment_store t now f (by rw [h1]; exact hsorted) (by rw [h1, h2]; exact href)

theorem mem_drop_of_key_ge {β : Type} (l : List (Nat × β)) (p j x : Nat) (d : Nat × β)
    (hsorted : l.Pairwise (fun a b => a.1 < b.1)) (hp : p < l.length) (hj : j ≤ p)
    (hx : x ∈ l.map Prod.fst) (hge : (l.getD p d).1 ≤ x) :
    x ∈ (l.drop j).map Prod.fst := by
  obtain ⟨e, he, hex⟩ := List.mem_map.mp hx
  have hsplit : l = l.take j ++ l.drop j := (List.take_append_drop j l).symm
  have hpair := hsorted
  rw [hsplit, List.pairwise_append] at hpair
  have hpmem : l.getD p d ∈ l.drop j := by
    rw [List.getD_eq_getElem _ _ hp, List.mem_drop_iff_getElem]
    exact ⟨p - j, by omega, by congr 1; omega⟩
  rw [hsplit, List.mem_append] at he
  rcases he with h | h
  · have := hpair.2.2 e h _ hpmem
    omega
  · exact List.mem_map.mpr ⟨e, h, hex⟩

theorem eraseOldFragments_store (s : GroupMedia) (now : Int)
    (hsorted : s._fragments.Pairwise (fun a b => a.1 < b.1))
    (hindex : s._mapTime2Fragment.Pairwise (fun a b => a.1 < b.1 ∧ a.2 < b.2))
    (href : ∀ e ∈ s._mapTime2Fragment, e.2 ∈ s._fragments.map Prod.fst) :
    (eraseOldFragments s now)._fragments.Pairwise (fun a b => a.1 < b.1) ∧
    ∀ e ∈ (eraseOldFragments s now)._mapTime2Fragment,
      e.2 ∈ (eraseOldFragments s now)._fragments.map Prod.fst := by
  cases hp : erasePoint s now with
  | none =>
    rw [eraseOldFragments_none s now hp]
    exact ⟨hsorted, href⟩
  | some x =>
    obtain ⟨k, j⟩ := x
    obtain ⟨_, hk0, hklt, hj0, hj⟩ := erasePoint_some s now k j hp
    obtain ⟨e1, e2, _⟩ := eraseOldFragments_cut s now k j hp
    rw [e1, e2]
    refine ⟨List.Pairwise.sublist (List.drop_sublist _ _) hsorted, ?_⟩
    intro e he
    have hids : s._mapTime2Fragment.Pairwise (fun a b => a.2 < b.2) :=
      List.Pairwise.imp (fun h => h.2) hindex
    have hge : (s._mapTime2Fragment.getD k (0, 0)).2 ≤ e.2 := by
      have hd : s._mapTime2Fragment.drop k
          = s._mapTime2Fragment.getD k (0, 0) :: s._mapTime2Fragment.drop (k + 1) := by
        rw [List.getD_eq_getElem _ _ hklt]
        exact List.drop_eq_getElem_cons hklt
      have hs : (s._mapTime2Fragment.drop k).Pairwise (fun a b => a.2 < b.2) :=
        List.Pairwise.sublist (List.drop_sublist _ _) hids
      rw [hd] at hs he
      rcases List.mem_cons.mp he with h | h
      · rw [h]
      · exact Nat.le_of_lt ((List.pairwise_cons.mp hs).1 e h)
    have hkey := getD_indexOf s._fragments (s._mapTime2Fragment.getD k (0, 0)).2
      (0, ⟨0, 0, 0, 0, 0, []⟩) hj0
    exact mem_drop_of_key_ge s._fragments _ j e.2 (0, ⟨0, 0, 0, 0, 0, []⟩) hsorted hj0
      (by omega) (href e (List.mem_of_mem_drop he)) (by rw [hkey]; exact hge)

theorem step_store (M : Nat) (s : GroupMedia) (ev : Event)
    (hsorted : s._fragments.Pairwise (fun a b => a.1 < b.1))
    (hindex : s._mapTime2Fragment.Pairwise (fun a b => a.1 < b.1 ∧ a.2 < b.2))
    (href : ∀ e ∈ s._mapTime2Fragment, e.2 ∈ s._fragments.map Prod.fst) :
    (step M s ev)._fragments.Pairwise (fun a b => a.1 < b.1) ∧
    ∀ e ∈ (step M s ev)._mapTime2Fragment, e.2 ∈ (step M s ev)._fragments.map Prod.fst := by
  cases ev with
  | media now type time packet => exact onMediaStore_store M s now type time packet hsorted href
  | fragment now peerId pushInMode f => exact onFragment_store s now peerId pushInMode f hsorted href
  | erase now => exact eraseOldFragments_store s now hsorted hindex href

theorem run_store (M : Nat) (events : List Event) :
    ∀ (s : GroupMedia), s._fragments.Pairwise (fun a b => a.1 < b.1) →
      s._mapTime2Fragment.Pairwise (fun a b => a.1 < b.1 ∧ a.2 < b.2) →
      (∀ e ∈ s._mapTime2Fragment, e.2 ∈ s._fragments.map Prod.fst) →
      (∀ e ∈ s._mapTime2Fragment, ∀ ev ∈ events, e.1 ≤ ev.now) →
      (events.map Event.now).Pairwise (fun a b => a ≤ b) →
      (run M s events)._fragments.Pairwise (fun a b => a.1 < b.1) ∧
      ∀ e ∈ (run M s events)._mapTime2Fragment,
        e.2 ∈ (run M s events)._fragments.map Prod.fst := by
  induction events with
  | nil => intro s h1 _ h3 _ _; exact ⟨h1, h3⟩
  | cons ev rest ih =>
    intro s hsorted hindex href htimes hclock
    simp only [List.map_cons, List.pairwise_cons] at hclock
    obtain ⟨a, b⟩ := step_index M s ev hindex
      (fun e he => htimes e he ev (List.mem_cons_self _ _))
    obtain ⟨c, d⟩ := step_store M s ev hsorted hindex href
    simp only [run, List.foldl_cons]
    refine ih _ c a d ?_ hclock.2
    intro e he ev2 hev2
    exact le_trans (b e he) (hclock.1 ev2.now (List.mem_map.mpr ⟨ev2, hev2, rfl⟩))

theorem referenceMissing_false (s : GroupMedia) (now : Int)
    (href : ∀ e ∈ s._mapTime2Fragment, e.2 ∈ s._fragments.map Prod.fst) :
    referenceMissing s now = false := by
  simp only [referenceMissing]
  by_cases h1 : s._fragments = [] ∨ s._mapTime2Fragment = []
  · rw [if_pos h1]
  · rw [if_neg h1]
    have hlb := lower_bound_le s._mapTime2Fragment
      (now - ((s.groupParameters.windowDuration + s.groupParameters.relayMargin : Nat) : Int))
    generalize hk : (if lower_bound s._mapTime2Fragment
        (now - ((s.groupParameters.windowDuration + s.groupParameters.relayMargin : Nat) : Int))
          ≠ s._mapTime2Fragment.length ∧ lower_bound s._mapTime2Fragment
        (now - ((s.groupParameters.windowDuration + s.groupParameters.relayMargin : Nat) : Int))
          ≠ 0 ∧
        now - ((s.groupParameters.windowDuration + s.groupParameters.relayMargin : Nat) : Int)
          > (s._mapTime2Fragment.getD (lower_bound s._mapTime2Fragment
            (now - ((s.groupParameters.windowDuration + s.groupParameters.relayMargin : Nat)
              : Int))) (0, 0)).1
        then lower_bound s._mapTime2Fragment
          (now - ((s.groupParameters.windowDuration + s.groupParameters.relayMargin : Nat)
            : Int)) - 1
        else lower_bound s._mapTime2Fragment
          (now - ((s.groupParameters.windowDuration + s.groupParameters.relayMargin : Nat)
            : Int))) = k
    have hkle : k ≤ s._mapTime2Fragment.length := by
      rw [← hk]
      split_ifs <;> omega
    by_cases h2 : k = s._mapTime2Fragment.length ∨ k = 0
    · rw [if_pos h2]
    · rw [if_neg h2]
      have hklt : k < s._mapTime2Fragment.length := by omega
      have hmem : s._mapTime2Fragment.getD k (0, 0) ∈ s._mapTime2Fragment := by
        rw [List.getD_eq_getElem _ _ hklt]
        exact List.getElem_mem _
      have hidx := List.indexOf_lt_length.mpr (href _ hmem)
      rw [List.length_map] at hidx
      have hne : s._fragments.length ≠ 0 := by
        intro h0
        exact h1 (Or.inl (List.length_eq_zero.mp h0))
      simp only [decide_eq_false_iff_not]
      split_ifs <;> omega

/-- C36: from the state the constructor leaves, through payloads published,
fragments received and trimmings whose clock values never decrease, every
fragment id of the time index is in the fragment store; hence at any time
`eraseOldFragments` does not reach its fatal-error branch, and it leaves the
store non-empty when it was, and the time index non-empty when it was. -/
theorem timeIndex_in_store (M : Nat) (parameters : RTMFPGroupConfig) (events : List Event)
    (hclock : (events.map Event.now).Pairwise (fun a b => a ≤ b)) :
    (∀ e ∈ (run M (fresh parameters) events)._mapTime2Fragment,
      hasFragment (run M (fresh parameters) events)._fragments e.2 = true) ∧
    (∀ now, referenceMissing (run M (fresh parameters) events) now = false) ∧
    (∀ now, (run M (fresh parameters) events)._fragments ≠ [] →
      (eraseOldFragments (run M (fresh parameters) events) now)._fragments ≠ []) ∧
    (∀ now, (run M (fresh parameters) events)._mapTime2Fragment ≠ [] →
      (eraseOldFragments (run M (fresh parameters) events) now)._mapTime2Fragment ≠ []) := by
  obtain ⟨_, href⟩ := run_store M events (fresh parameters) List.Pairwise.nil List.Pairwise.nil
    (fun e he => absurd he (List.not_mem_nil _))
    (fun e he => absurd he (List.not_mem_nil _)) hclock
  have hcut : ∀ (s : GroupMedia) (now : Int),
      (s._fragments ≠ [] → (eraseOldFragments s now)._fragments ≠ []) ∧
      (s._mapTime2Fragment ≠ [] → (eraseOldFragments s now)._mapTime2Fragment ≠ []) := by
    intro s now
    cases hp : erasePoint s now with
    | none =>
      rw [eraseOldFragments_none s now hp]
      exact ⟨fun h => h, fun h => h⟩
    | some x =>
      obtain ⟨k, j⟩ := x
      obtain ⟨_, hk0, hklt, hj0, hj⟩ := erasePoint_some s now k j hp
      obtain ⟨e1, e2, _⟩ := eraseOldFragments_cut s now k j hp
      rw [e1, e2]
      refine ⟨fun _ h => ?_, fun _ h => ?_⟩
      · have := congrArg List.length h
        rw [List.length_drop, List.length_nil] at this
        omega
      · have := congrArg List.length h
        rw [List.length_drop, List.length_nil] at this
        omega
  refine ⟨?_, fun now => referenceMissing_false _ now href, fun now => (hcut _ now).1,
    fun now => (hcut _ now).2⟩
  intro e he
  exact (hasFragment_iff _ _).mpr (href e he)

/-- Witness for `timeIndex_in_store`: two payloads published at the times 0
and 50, a fragment received at 60 and a trimming at 10040. -/
theorem timeIndex_in_store_witness :
    ([Event.media 0 9 0 [1, 2, 3, 4, 5, 6, 7], Event.media 50 9 0 [1, 2],
        Event.fragment 60 1 0 ⟨0x20, 9, 0, 9, 0, [5]⟩, Event.erase 10040].map
      Event.now).Pairwise (fun a b => a ≤ b) ∧
    (∀ e ∈ (run 3 (fresh ⟨true, 8000, 2000, 2500⟩)
        [Event.media 0 9 0 [1, 2, 3, 4, 5, 6, 7], Event.media 50 9 0 [1, 2],
          Event.fragment 60 1 0 ⟨0x20, 9, 0, 9, 0, [5]⟩,
          Event.erase 10040])._mapTime2Fragment,
      hasFragment (run 3 (fresh ⟨true, 8000, 2000, 2500⟩)
        [Event.media 0 9 0 [1, 2, 3, 4, 5, 6, 7], Event.media 50 9 0 [1, 2],
          Event.fragment 60 1 0 ⟨0x20, 9, 0, 9, 0, [5]⟩,
          Event.erase 10040])._fragments e.2 = true) ∧
    (run 3 (fresh ⟨true, 8000, 2000, 2500⟩)
        [Event.media 0 9 0 [1, 2, 3, 4, 5, 6, 7], Event.media 50 9 0 [1, 2],
          Event.fragment 60 1 0 ⟨0x20, 9, 0, 9, 0, [5]⟩,
          Event.erase 10040])._mapTime2Fragment = [(50, 4), (60, 9)] :=
  ⟨by decide,
    (timeIndex_in_store 3 ⟨true, 8000, 2000, 2500⟩
      [Event.media 0 9 0 [1, 2, 3, 4, 5, 6, 7], Event.media 50 9 0 [1, 2],
        Event.fragment 60 1 0 ⟨0x20, 9, 0, 9, 0, [5]⟩, Event.erase 10040] (by decide)).1,
    by decide⟩

end GroupMedia
